import Mathlib

/-!
# Load balancer worker (`jk_lb_worker.c`): embedding and verified properties

The C code of `jk/native/common/jk_lb_worker.c` is embedded function by function; the
definitions keep the names of the C functions and fields.

Conventions of the embedding.

* A C string is the list of its characters before the terminator.  Where the
  code writes a terminator into a buffer and keeps a pointer into that buffer
  (`get_cookie`), the buffer is modelled as memory: a list that may hold `NUL`,
  read through `cstr_at`.  `jk_pool_strdup` and `jk_pool_realloc` give copies.
* `int` and `time_t` values are integers (`Int`), and flags that the code only tests
  for zero are `Bool`.  The selection is embedded twice: with the arithmetic of the
  integers (`scan_body` to `get_suitable_worker`), and under `Machine` with the
  arithmetic of a 32-bit `int`, every value stored in an `int` being wrapped by
  `to_int`.  `gsw_ok` says that in a call no such value leaves the range of `int`
  (signed overflow is undefined in C); both embeddings then agree (`machine_gsw_eq`).
  The statements that need the range are made about the `Machine` functions and carry
  the range as a hypothesis.
* A search that starts past the terminator of a string is undefined in C.  The
  functions `Machine.get_path_param` and `Machine.get_cookie` give `c_result.undefined`
  in that case; in `get_path_param` and `get_cookie` such a search finds nothing, and
  the two agree wherever the C functions stay inside their strings.
* A pointer to a worker record is the index of the record in `lb_workers`.
* `time(0)` is a clock: reading number `k` of a run is `clock k`, and every
  call of `time(0)` consumes one reading (`tick`).  A fixed clock value `now` is the
  clock `fun _ => now`.
* The behaviour of a member worker (`get_endpoint`, `service`) is an oracle of
  type `backend`; what the configuration holds is given by `lb_props` and
  `worker_props`.
* Loops are recursive functions over the indices or passes left; `service`, whose
  loop has no bound in the code, takes the number of passes allowed (`fuel`).
* Where the order of lock operations and assignments matters, a run is given its
  list of actions in program order (`lb_action`): the calls of
  `get_suitable_worker`, `JK_ENTER_CS`, `JK_LEAVE_CS`, and the assignments to error
  fields.  The functions under `Traced` make each such assignment through a setter that
  lists it; they give the results of the functions they repeat and the lists
  `gsw_actions` to `service_actions` (`traced_service_eq`), and an error field of which
  no assignment is listed keeps its value (`service_field_kept`).  Threads are not
  modelled.

The file has three parts: the embedding of the code, the notions used to state the
properties (with the concrete inputs of the examples), and the theorems.
-/

namespace JkLb

/-! ## C strings -/

/-- The terminator character. -/
def NUL : Char := Char.ofNat 0

/-- Character stored at offset `i` of a buffer; the offset just past the list is the
terminator. -/
def char_at (m : List Char) (i : Nat) : Char := m.getD i NUL

/-- The C string that starts at offset `i` of a buffer. -/
def cstr_at (m : List Char) (i : Nat) : List Char :=
  (m.drop i).takeWhile (fun c => c != NUL)

/-- C `strchr` on a string: offset of the first occurrence of `c`. -/
def strchr : List Char → Char → Option Nat
  | [], _ => none
  | x :: t, c => if x = c then some 0 else (strchr t c).map (fun k => k + 1)

/-- C `strstr` on strings: offset of the first occurrence of `needle`. -/
def strstr : List Char → List Char → Option Nat
  | [], needle => if needle = [] then some 0 else none
  | x :: t, needle =>
    if needle.isPrefixOf (x :: t) then some 0
    else (strstr t needle).map (fun k => k + 1)

/-- C `strstr(m + i, needle)` on a buffer, as an offset into the buffer.  Reading past
the end of the buffer is undefined in C; here the search then finds nothing, and
`Machine.strstr_at` keeps that case apart. -/
def strstr_at (m : List Char) (i : Nat) (needle : List Char) : Option Nat :=
  if i ≤ m.length then (strstr (cstr_at m i) needle).map (fun k => k + i) else none

/-- Effect of `if ((id_end = strchr(m, c)) != NULL) *id_end = 0` on a buffer. -/
def cut_at (m : List Char) (c : Char) : List Char :=
  match strchr (cstr_at m 0) c with
  | some k => m.set k NUL
  | none => m

/-- C `isspace` in the C locale. -/
def isspace (c : Char) : Bool :=
  c = ' ' || c = '\t' || c = '\n' || c = Char.ofNat 11 || c = Char.ofNat 12 || c = '\r'

/-- The test `0 == strcasecmp(a, b)`. -/
def strcasecmp_eq (a b : List Char) : Bool :=
  decide (a.map Char.toLower = b.map Char.toLower)

/-! ## Data model -/

/-- The record `struct worker_record`; `w` identifies the member worker. -/
structure worker_record where
  name : List Char
  domain : List Char
  lb_factor : Int
  lb_value : Int
  is_local_worker : Bool
  is_local_domain : Bool
  in_error_state : Bool
  in_recovering : Bool
  error_time : Int
  w : Nat
deriving DecidableEq, Repr

/-- The record `struct lb_worker` (pool, name, lock and method table left out). -/
structure lb_worker where
  lb_workers : List worker_record
  num_of_workers : Nat
  num_of_local_workers : Nat
  in_local_worker_mode : Bool
  local_worker_only : Bool
  sticky_session : Bool
  recover_wait_time : Int
deriving DecidableEq, Repr

/-- The fields of `jk_ws_service_t` that the balancer reads. -/
structure jk_ws_service where
  req_uri : List Char
  headers : List (List Char × List Char)
deriving DecidableEq, Repr

/-- String constants of headers that are not part of the sources:
`JK_PATH_SESSION_IDENTIFIER`, `JK_SESSION_IDENTIFIER`, `JK_LB_DEF_DOMAIN_NAME`. -/
structure jk_consts where
  JK_PATH_SESSION_IDENTIFIER : List Char
  JK_SESSION_IDENTIFIER : List Char
  JK_LB_DEF_DOMAIN_NAME : List Char
deriving DecidableEq, Repr

/-! ## Session id extraction -/

/-- The loop of `get_path_param`; `id_start` is an offset into `uri`. -/
def get_path_param_loop (uri name : List Char) : Nat → Option Nat → Option (List Char)
  | 0, _ => none
  | _ + 1, none => none
  | fuel + 1, some id_start =>
    if char_at uri (id_start + name.length) = '=' then
      let id_start1 := id_start + (1 + name.length)
      if (cstr_at uri id_start1).length ≠ 0 then
        some (cstr_at (cut_at (cut_at (cstr_at uri id_start1) '?') ';') 0)
      else get_path_param_loop uri name fuel (strstr_at uri (id_start1 + 1) name)
    else get_path_param_loop uri name fuel (strstr_at uri (id_start + 1) name)

/-- The function `get_path_param`. -/
def get_path_param (s : jk_ws_service) (name : List Char) : Option (List Char) :=
  get_path_param_loop s.req_uri name (s.req_uri.length + 2) (strstr_at s.req_uri 0 name)

/-- The skip `while (*id_start && isspace(*id_start)) ++id_start`. -/
def skip_space (m : List Char) : Nat → Nat → Nat
  | 0, i => i
  | fuel + 1, i =>
    if char_at m i ≠ NUL ∧ isspace (char_at m i) = true then skip_space m fuel (i + 1) else i

/-- The inner loop of `get_cookie` over one header value.  The search runs in buffer
`m`, which is the header value itself while `orig` holds and the duplicated value
after a match; `id_start` is an offset into `m`. -/
def get_cookie_loop (name : List Char) :
    Nat → List Char → Bool → Option Nat → Option (List Char) → Option (List Char)
  | 0, _, _, _, result => result
  | _ + 1, _, _, none, result => result
  | fuel + 1, m, orig, some id_start, result =>
    if (orig && id_start = 0) ||
        (id_start ≠ 0 &&
          (char_at m (id_start - 1) = ';' || char_at m (id_start - 1) = ',' ||
            isspace (char_at m (id_start - 1)))) then
      let id_start1 := skip_space m m.length (id_start + name.length)
      if char_at m id_start1 = '=' ∧ char_at m (id_start1 + 1) ≠ NUL then
        let dup := cut_at (cut_at (cstr_at m (id_start1 + 1)) ';') ','
        let result1 :=
          match result with
          | none => some (cstr_at dup 0)
          | some r => some (r ++ [';'] ++ cstr_at dup 0)
        get_cookie_loop name fuel dup false (strstr_at dup 1 name) result1
      else get_cookie_loop name fuel m orig (strstr_at m (id_start1 + 1) name) result
    else get_cookie_loop name fuel m orig (strstr_at m (id_start + 1) name) result

/-- The outer loop of `get_cookie` over the headers. -/
def get_cookie_headers (name : List Char) :
    List (List Char × List Char) → Option (List Char) → Option (List Char)
  | [], result => result
  | (hn, hv) :: rest, result =>
    if strcasecmp_eq hn "cookie".toList then
      get_cookie_headers name rest
        (get_cookie_loop name (hv.length + 2) hv true (strstr_at hv 0 name) result)
    else get_cookie_headers name rest result

/-- The function `get_cookie`. -/
def get_cookie (s : jk_ws_service) (name : List Char) : Option (List Char) :=
  get_cookie_headers name s.headers none

/-- The function `get_sessionid`: parameter first, then cookie. -/
def get_sessionid (k : jk_consts) (s : jk_ws_service) : Option (List Char) :=
  match get_path_param s k.JK_PATH_SESSION_IDENTIFIER with
  | some val => some val
  | none => get_cookie s k.JK_SESSION_IDENTIFIER

/-! ## Selection -/

/-- The function `is_worker_candidate`. -/
def is_worker_candidate (wr : worker_record) (search_id : Nat) (search_string : List Char) :
    Bool :=
  match search_id with
  | 1 => decide (search_string = wr.name)
  | 2 => decide (search_string = wr.domain)
  | 3 => wr.is_local_worker
  | 4 => wr.is_local_domain
  | 5 => true
  | _ => false

/-- Modelled from the spec: the macro `JK_ENTER_CS` of `jk_mt.h` is not part of the
sources; the selection runs "under the exclusive registry lock", so taking the lock
succeeds. -/
def JK_ENTER_CS : Bool := true

/-- Local variables of `get_suitable_worker` together with the records, the out
parameter `domain_id` and the number of clock readings consumed. -/
structure scan_state where
  lb_workers : List worker_record
  rc : Option Nat
  lb_max : Int
  total_factor : Int
  domain_id : Int
  tick : Nat
deriving DecidableEq, Repr

/-- One pass through the body of the `for` loop of `get_suitable_worker` at index `i`.
The second component tells whether the body left the loop by `break`.  An index
outside the array (undefined in C) is passed over.  The arithmetic is that of the
integers; `Machine.scan_body` has the arithmetic of `int`. -/
def scan_body (recover_wait_time : Int) (search_id : Nat) (search_string : List Char)
    (use_lb_factor : Bool) (clock : Nat → Int) (i : Nat) (st : scan_state) :
    scan_state × Bool :=
  match st.lb_workers[i]? with
  | none => (st, false)
  | some wr =>
    if is_worker_candidate wr search_id search_string then
      let st1 := if search_id = 1 then { st with domain_id := (i : Int) } else st
      if !wr.in_error_state || !wr.in_recovering then
        if wr.in_error_state ∧ clock st1.tick - wr.error_time ≤ recover_wait_time then
          ({ st1 with tick := st1.tick + 1 }, false)
        else
          let st2 := if wr.in_error_state then { st1 with tick := st1.tick + 1 } else st1
          if use_lb_factor then
            let v := wr.lb_value + wr.lb_factor
            let st3 := { st2 with
              lb_workers := st2.lb_workers.set i { wr with lb_value := v }
              total_factor := st2.total_factor + wr.lb_factor }
            if v > st3.lb_max ∨ st3.rc = none then
              ({ st3 with lb_max := v, rc := some i }, false)
            else (st3, false)
          else ({ st2 with rc := some i }, true)
      else (st1, false)
    else (st, false)

/-- The loop `for (i = start; i < stop; i++)`, with `n` indices left to visit. -/
def scan_loop (recover_wait_time : Int) (search_id : Nat) (search_string : List Char)
    (use_lb_factor : Bool) (clock : Nat → Int) : Nat → Nat → scan_state → scan_state
  | 0, _, st => st
  | n + 1, i, st =>
    match scan_body recover_wait_time search_id search_string use_lb_factor clock i st with
    | (st1, true) => st1
    | (st1, false) =>
      scan_loop recover_wait_time search_id search_string use_lb_factor clock n (i + 1) st1

/-- The part of `get_suitable_worker` after the loop: `if (rc) ...`.  The arithmetic is
that of the integers; `Machine.scan_finish` has the arithmetic of `int`. -/
def scan_finish (clock : Nat → Int) (st : scan_state) : scan_state :=
  match st.rc with
  | none => st
  | some j =>
    match st.lb_workers[j]? with
    | none => st
    | some wr =>
      if wr.in_error_state then
        { st with
          lb_workers := st.lb_workers.set j
            { wr with in_recovering := true, error_time := clock st.tick,
                      lb_value := wr.lb_value - st.total_factor }
          tick := st.tick + 1 }
      else
        { st with
          lb_workers := st.lb_workers.set j
            { wr with lb_value := wr.lb_value - st.total_factor } }

/-- What a call of `get_suitable_worker` leaves: the balancer, the returned record
(its index), the out parameter `domain_id`, and the clock readings consumed so far. -/
structure gsw_result where
  p : lb_worker
  rc : Option Nat
  domain_id : Int
  tick : Nat
deriving DecidableEq, Repr

/-- The function `get_suitable_worker`. -/
def get_suitable_worker (p : lb_worker) (search_id : Nat) (search_string : List Char)
    (start stop : Nat) (use_lb_factor : Bool) (clock : Nat → Int) (tick : Nat) :
    gsw_result :=
  if JK_ENTER_CS = false then { p := p, rc := none, domain_id := -1, tick := tick }
  else
    let st := scan_finish clock
      (scan_loop p.recover_wait_time search_id search_string use_lb_factor clock
        (stop - start) start
        { lb_workers := p.lb_workers, rc := none, lb_max := 0, total_factor := 0,
          domain_id := -1, tick := tick })
    { p := { p with lb_workers := st.lb_workers }, rc := st.rc, domain_id := st.domain_id,
      tick := st.tick }

/-- The `;`-separated parts that the `while (sessionid)` loop of
`get_most_suitable_worker` visits, in order. -/
def session_parts : List Char → List (List Char)
  | [] => [[]]
  | c :: t =>
    if c = ';' then [] :: session_parts t
    else
      match session_parts t with
      | [] => [[c]]
      | h :: r => (c :: h) :: r

/-- What a call of `get_most_suitable_worker` leaves. -/
structure route_result where
  p : lb_worker
  rc : Option Nat
  tick : Nat
deriving DecidableEq, Repr

/-- The part of `get_most_suitable_worker` after the session loop. -/
def route_no_session (p : lb_worker) (clock : Nat → Int) (tick : Nat) : route_result :=
  if p.num_of_local_workers ≠ 0 then
    let r3 := get_suitable_worker p 3 "any".toList 0 p.num_of_local_workers true clock tick
    if r3.rc ≠ none then { p := r3.p, rc := r3.rc, tick := r3.tick }
    else if r3.p.local_worker_only then { p := r3.p, rc := none, tick := r3.tick }
    else
      let r4 := get_suitable_worker r3.p 4 "any".toList r3.p.num_of_local_workers
        r3.p.num_of_workers true clock r3.tick
      if r4.rc ≠ none then { p := r4.p, rc := r4.rc, tick := r4.tick }
      else
        let r5 := get_suitable_worker r4.p 5 "any".toList r4.p.num_of_local_workers
          r4.p.num_of_workers true clock r4.tick
        { p := r5.p, rc := r5.rc, tick := r5.tick }
  else
    let r5 := get_suitable_worker p 5 "any".toList p.num_of_local_workers p.num_of_workers
      true clock tick
    { p := r5.p, rc := r5.rc, tick := r5.tick }

/-- The loop `while (sessionid)` of `get_most_suitable_worker` over the parts of the
session id, followed by the rest of the function. -/
def route_session (k : jk_consts) (clock : Nat → Int) :
    List (List Char) → lb_worker → Nat → route_result
  | [], p, tick => route_no_session p clock tick
  | part :: rest, p, tick =>
    match strchr part '.' with
    | none => route_session k clock rest p tick
    | some dot =>
      let session_route := part.drop (dot + 1)
      let r1 := get_suitable_worker p 1 session_route 0 p.num_of_workers false clock tick
      if r1.rc ≠ none then { p := r1.p, rc := r1.rc, tick := r1.tick }
      else
        let session_domain :=
          if 0 ≤ r1.domain_id ∧ r1.domain_id < (r1.p.num_of_workers : Int) then
            match r1.p.lb_workers[r1.domain_id.toNat]? with
            | some wr => wr.domain
            | none => k.JK_LB_DEF_DOMAIN_NAME
          else k.JK_LB_DEF_DOMAIN_NAME
        let r2 := get_suitable_worker r1.p 2 session_domain 0 r1.p.num_of_workers true
          clock r1.tick
        if r2.rc ≠ none then { p := r2.p, rc := r2.rc, tick := r2.tick }
        else route_session k clock rest r2.p r2.tick

/-- The function `get_most_suitable_worker` (its unused argument `attempt` left out). -/
def get_most_suitable_worker (k : jk_consts) (p : lb_worker) (s : jk_ws_service)
    (clock : Nat → Int) (tick : Nat) : route_result :=
  let sessionid := if p.sticky_session then get_sessionid k s else none
  match sessionid with
  | none => route_no_session p clock tick
  | some sid => route_session k clock (session_parts sid) p tick

/-! ## Dispatch -/

/-- What the member worker does in one attempt: whether `get_endpoint` gave an
endpoint (`rc && end`), the return value of `end->service`, and the value that call
leaves in `is_recoverable`. -/
structure attempt_outcome where
  endpoint_ok : Bool
  src : Bool
  is_recoverable : Bool
deriving DecidableEq, Repr

/-- Behaviour of the member workers: the outcome of attempt number `attempt` when it
is made on the record of index `i`. -/
abbrev backend := Nat → Nat → attempt_outcome

/-- State of the `while (1)` loop of `service`: the balancer, the counter `attempt`,
the clock readings consumed, `s->jvm_route`, and the history of the calls made on
member workers (`tried`: `get_endpoint`, `forwarded`: `end->service`). -/
structure service_state where
  p : lb_worker
  attempt : Nat
  tick : Nat
  jvm_route : Option (List Char)
  tried : List Nat
  forwarded : List Nat
deriving DecidableEq, Repr

/-- One pass through the body of the `while (1)` loop of `service`.  The second
component is the value returned when the body returns, and `none` when the loop goes
on.  A returned index always holds a record; the branch for an index without record
only makes the function total. -/
def service_body (k : jk_consts) (s : jk_ws_service) (be : backend) (clock : Nat → Int)
    (st : service_state) : service_state × Option Bool :=
  let r := get_most_suitable_worker k st.p s clock st.tick
  match r.rc with
  | some i =>
    match r.p.lb_workers[i]? with
    | none => ({ st with p := r.p, attempt := st.attempt + 1, tick := r.tick }, some false)
    | some wr =>
      let o := be st.attempt i
      let is_recoverable := o.endpoint_ok && o.is_recoverable
      let st1 : service_state :=
        { p := r.p, attempt := st.attempt + 1, tick := r.tick, jvm_route := some wr.name,
          tried := st.tried ++ [i],
          forwarded := if o.endpoint_ok then st.forwarded ++ [i] else st.forwarded }
      if o.endpoint_ok ∧ o.src then
        let wr1 : worker_record :=
          { wr with in_error_state := false, in_recovering := false, error_time := 0 }
        ({ st1 with p := { r.p with lb_workers := r.p.lb_workers.set i wr1 } }, some true)
      else
        let wr1 : worker_record :=
          { wr with in_error_state := true, in_recovering := false, error_time := clock r.tick }
        let st2 : service_state :=
          { st1 with
            p := { r.p with lb_workers := r.p.lb_workers.set i wr1 }
            tick := r.tick + 1 }
        if is_recoverable = false then (st2, some false) else (st2, none)
  | none => ({ st with p := r.p, attempt := st.attempt + 1, tick := r.tick }, some false)

/-- The loop `while (1)` of `service`, cut after `fuel` passes. -/
def service_loop (k : jk_consts) (s : jk_ws_service) (be : backend) (clock : Nat → Int) :
    Nat → service_state → Option (service_state × Bool)
  | 0, _ => none
  | fuel + 1, st =>
    match service_body k s be clock st with
    | (st1, some rc) => some (st1, rc)
    | (st1, none) => service_loop k s be clock fuel st1

/-- What `service` leaves: its return value, the content of `*is_recoverable_error`,
and the final loop state. -/
structure service_result where
  rc : Bool
  is_recoverable_error : Bool
  st : service_state
deriving DecidableEq, Repr

/-- The function `service` of the balancer.  `valid_args` is the test
`e && e->endpoint_private && s && is_recoverable_error`; `is_recoverable_error` is what
the caller's flag holds on entry.  The result is `none` when `fuel` passes of the loop
do not reach a `return`. -/
def service (k : jk_consts) (valid_args : Bool) (p : lb_worker) (s : jk_ws_service)
    (be : backend) (clock : Nat → Int) (tick : Nat) (is_recoverable_error : Bool)
    (fuel : Nat) : Option service_result :=
  let st0 : service_state :=
    { p := p, attempt := 0, tick := tick, jvm_route := none, tried := [], forwarded := [] }
  if valid_args then
    match service_loop k s be clock fuel st0 with
    | some (st, rc) => some { rc := rc, is_recoverable_error := false, st := st }
    | none => none
  else some { rc := false, is_recoverable_error := is_recoverable_error, st := st0 }

/-! ## Construction -/

/-- The value of `WAIT_BEFORE_RECOVER`. -/
def WAIT_BEFORE_RECOVER : Int := 60 * 1

/-- What the configuration and `wc_create_worker` give for one name of the worker
list: `jk_get_lb_factor`, `jk_get_worker_domain` (possibly `NULL`),
`jk_get_is_local_worker`, and the created member worker (`none` when creation
fails). -/
structure worker_props where
  name : List Char
  lb_factor : Int
  domain : Option (List Char)
  is_local_worker : Bool
  created : Option Nat
deriving DecidableEq, Repr

/-- What the configuration gives for the balancer: `jk_get_local_worker_only_flag`,
`jk_get_is_sticky_session`, `jk_get_lb_worker_list` (`none` when it fails), and
whether `jk_pool_alloc` gives memory. -/
structure lb_props where
  local_worker_only : Bool
  sticky_session : Bool
  worker_list : Option (List worker_props)
  alloc_ok : Bool
deriving DecidableEq, Repr

/-- The function `lb_worker_factory`: the zeroed balancer with the default recovery
wait. -/
def lb_worker_factory : lb_worker :=
  { lb_workers := [], num_of_workers := 0, num_of_local_workers := 0,
    in_local_worker_mode := false, local_worker_only := false, sticky_session := false,
    recover_wait_time := WAIT_BEFORE_RECOVER }

/-- The function `init`; `recover_time` is what `jk_get_worker_int_prop` finds for
`recover_time`, `cs_ok` the outcome of `JK_INIT_CS`. -/
def init (p : lb_worker) (recover_time : Option Int) (cs_ok : Bool) : lb_worker × Bool :=
  let p1 :=
    match recover_time with
    | some i => { p with recover_wait_time := i }
    | none => p
  let p2 :=
    if p1.recover_wait_time < WAIT_BEFORE_RECOVER then
      { p1 with recover_wait_time := WAIT_BEFORE_RECOVER }
    else p1
  (p2, cs_ok)

/-- Local variables of the first loop of `validate`. -/
structure validate_state where
  lb_workers : List worker_record
  j : Nat
  in_local_worker_mode : Bool
deriving DecidableEq, Repr

/-- The assignments that the first loop of `validate` makes to the record at index `i`
before it creates the member worker; `old` is what the allocated memory holds there. -/
def init_record (k : jk_consts) (wp : worker_props) (old : worker_record) : worker_record :=
  let lb_factor := if wp.lb_factor < 1 then 1 else wp.lb_factor
  let domain :=
    match wp.domain with
    | some d => d
    | none => k.JK_LB_DEF_DOMAIN_NAME
  { old with
    name := wp.name, lb_factor := lb_factor, domain := domain,
    is_local_worker := wp.is_local_worker, lb_value := lb_factor,
    in_error_state := false, in_recovering := false }

/-- The exchange of the records at indices `j` and `i` through `tmp_worker`. -/
def swap_records (ws : List worker_record) (j i : Nat) : List worker_record :=
  match ws[j]?, ws[i]? with
  | some a, some b => (ws.set j b).set i a
  | _, _ => ws

/-- One pass through the body of the first `for` loop of `validate` at index `i`;
`old` is what the allocated memory holds at index `i`.  The second component tells
whether the body left the loop by `break`. -/
def validate_body (k : jk_consts) (wp : worker_props) (old : worker_record) (i : Nat)
    (st : validate_state) : validate_state × Bool :=
  let rec0 := init_record k wp old
  let mode := if wp.is_local_worker then true else st.in_local_worker_mode
  match wp.created with
  | none =>
    ({ lb_workers := st.lb_workers.set i rec0, j := st.j, in_local_worker_mode := mode },
      true)
  | some w =>
    let ws := st.lb_workers.set i { rec0 with w := w }
    if wp.is_local_worker then
      ({ lb_workers := if i ≠ st.j then swap_records ws st.j i else ws, j := st.j + 1,
         in_local_worker_mode := mode }, false)
    else ({ lb_workers := ws, j := st.j, in_local_worker_mode := mode }, false)

/-- The first `for` loop of `validate`; the result holds the final `i`. -/
def validate_loop (k : jk_consts) (mem : Nat → worker_record) :
    List worker_props → Nat → validate_state → validate_state × Nat
  | [], i, st => (st, i)
  | wp :: rest, i, st =>
    match validate_body k wp (st.lb_workers.getD i (mem i)) i st with
    | (st1, true) => (st1, i)
    | (st1, false) => validate_loop k mem rest (i + 1) st1

/-- The loops of `validate` that set `is_local_domain`. -/
def set_local_domains (ws : List worker_record) (num_of_local_workers : Nat) :
    List worker_record :=
  ws.enum.map (fun (iw : Nat × worker_record) =>
    if iw.1 < num_of_local_workers then { iw.2 with is_local_domain := true }
    else
      { iw.2 with
        is_local_domain :=
          (ws.take num_of_local_workers).any (fun l => decide (iw.2.domain = l.domain)) })

/-- What `validate` leaves: its return value, the balancer, and the member workers
destroyed by `close_workers`, in order. -/
structure validate_result where
  rc : Bool
  p : lb_worker
  destroyed : List Nat
deriving DecidableEq, Repr

/-- The function `validate`.  `valid_args` is the test `pThis && pThis->worker_private`;
`mem i` is what the memory given by `jk_pool_alloc` holds at index `i`. -/
def validate (k : jk_consts) (valid_args : Bool) (p : lb_worker) (props : lb_props)
    (mem : Nat → worker_record) : validate_result :=
  if valid_args then
    let p1 := { p with
      in_local_worker_mode := false, local_worker_only := props.local_worker_only,
      sticky_session := props.sticky_session, num_of_local_workers := 0 }
    match props.worker_list with
    | none => { rc := false, p := p1, destroyed := [] }
    | some worker_names =>
      let num_of_workers := worker_names.length
      if num_of_workers = 0 then { rc := false, p := p1, destroyed := [] }
      else if props.alloc_ok = false then
        { rc := false, p := { p1 with lb_workers := [] }, destroyed := [] }
      else
        let (st, i) := validate_loop k mem worker_names 0
          { lb_workers := (List.range num_of_workers).map mem, j := 0,
            in_local_worker_mode := false }
        let num_of_local_workers := st.j
        let p2 := { p1 with
          lb_workers := st.lb_workers, in_local_worker_mode := st.in_local_worker_mode
          local_worker_only :=
            if st.in_local_worker_mode then p1.local_worker_only else false }
        if i ≠ num_of_workers then
          { rc := false, p := p2, destroyed := (p2.lb_workers.take i).map (fun wr => wr.w) }
        else
          { rc := true,
            p := { p2 with
              lb_workers := set_local_domains p2.lb_workers num_of_local_workers
              num_of_workers := num_of_workers
              num_of_local_workers := num_of_local_workers },
            destroyed := [] }
  else { rc := false, p := p, destroyed := [] }

/-! ## Teardown -/

/-- The function `close_workers`: the member workers of the first `num_of_workers`
records, destroyed in this order. -/
def close_workers (p : lb_worker) (num_of_workers : Nat) : List Nat :=
  (p.lb_workers.take num_of_workers).map (fun wr => wr.w)

/-- The function `destroy` of the balancer: its return value and the member workers it
destroys.  `valid_args` is the test `pThis && *pThis && (*pThis)->worker_private`. -/
def destroy (valid_args : Bool) (p : lb_worker) : Bool × List Nat :=
  if valid_args then (true, close_workers p p.num_of_workers) else (false, [])

/-! ## The lock and the error fields -/

/-- The three error fields of a record. -/
inductive error_field where
  | in_error_state
  | in_recovering
  | error_time
deriving DecidableEq, Repr

/-- What a run does, as far as the lock and the error fields go: a call of
`get_suitable_worker` with its criterion, `JK_ENTER_CS` on the lock of the balancer,
`JK_LEAVE_CS`, and an assignment to an error field of the record of index `j`. -/
inductive lb_action where
  | call (search_id : Nat)
  | enter_cs
  | leave_cs
  | write (j : Nat) (f : error_field)
deriving DecidableEq, Repr

/-- The actions of a call of `get_suitable_worker`, in program order: the lock is taken
before the loop, the loop assigns to no error field, the part after the loop assigns
`in_recovering` and `error_time` of a returned record that is in error state, and the
lock is released before either `return`.  `Traced.get_suitable_worker` makes these
assignments and lists them in one, and gives this list. -/
def gsw_actions (p : lb_worker) (search_id : Nat) (search_string : List Char)
    (start stop : Nat) (use_lb_factor : Bool) (clock : Nat → Int) (tick : Nat) :
    List lb_action :=
  if JK_ENTER_CS = false then [lb_action.call search_id]
  else
    let st := scan_loop p.recover_wait_time search_id search_string use_lb_factor clock
      (stop - start) start
      { lb_workers := p.lb_workers, rc := none, lb_max := 0, total_factor := 0,
        domain_id := -1, tick := tick }
    let marks : List lb_action :=
      match st.rc with
      | none => []
      | some j =>
        match st.lb_workers[j]? with
        | none => []
        | some wr =>
          if wr.in_error_state then
            [lb_action.write j error_field.in_recovering,
             lb_action.write j error_field.error_time]
          else []
    [lb_action.call search_id, lb_action.enter_cs] ++ marks ++ [lb_action.leave_cs]

/-- The actions of the part of `get_most_suitable_worker` after the session loop. -/
def route_no_session_actions (p : lb_worker) (clock : Nat → Int) (tick : Nat) :
    List lb_action :=
  if p.num_of_local_workers ≠ 0 then
    let r3 := get_suitable_worker p 3 "any".toList 0 p.num_of_local_workers true clock tick
    let a3 := gsw_actions p 3 "any".toList 0 p.num_of_local_workers true clock tick
    if r3.rc ≠ none then a3
    else if r3.p.local_worker_only then a3
    else
      let r4 := get_suitable_worker r3.p 4 "any".toList r3.p.num_of_local_workers
        r3.p.num_of_workers true clock r3.tick
      let a4 := gsw_actions r3.p 4 "any".toList r3.p.num_of_local_workers
        r3.p.num_of_workers true clock r3.tick
      if r4.rc ≠ none then a3 ++ a4
      else
        a3 ++ a4 ++ gsw_actions r4.p 5 "any".toList r4.p.num_of_local_workers
          r4.p.num_of_workers true clock r4.tick
  else
    gsw_actions p 5 "any".toList p.num_of_local_workers p.num_of_workers true clock tick

/-- The actions of the loop `while (sessionid)` of `get_most_suitable_worker` and of
the rest of the function. -/
def route_session_actions (k : jk_consts) (clock : Nat → Int) :
    List (List Char) → lb_worker → Nat → List lb_action
  | [], p, tick => route_no_session_actions p clock tick
  | part :: rest, p, tick =>
    match strchr part '.' with
    | none => route_session_actions k clock rest p tick
    | some dot =>
      let session_route := part.drop (dot + 1)
      let r1 := get_suitable_worker p 1 session_route 0 p.num_of_workers false clock tick
      let a1 := gsw_actions p 1 session_route 0 p.num_of_workers false clock tick
      if r1.rc ≠ none then a1
      else
        let session_domain :=
          if 0 ≤ r1.domain_id ∧ r1.domain_id < (r1.p.num_of_workers : Int) then
            match r1.p.lb_workers[r1.domain_id.toNat]? with
            | some wr => wr.domain
            | none => k.JK_LB_DEF_DOMAIN_NAME
          else k.JK_LB_DEF_DOMAIN_NAME
        let r2 := get_suitable_worker r1.p 2 session_domain 0 r1.p.num_of_workers true
          clock r1.tick
        let a2 := gsw_actions r1.p 2 session_domain 0 r1.p.num_of_workers true
          clock r1.tick
        if r2.rc ≠ none then a1 ++ a2
        else a1 ++ a2 ++ route_session_actions k clock rest r2.p r2.tick

/-- The actions of a call of `get_most_suitable_worker`. -/
def gmsw_actions (k : jk_consts) (p : lb_worker) (s : jk_ws_service)
    (clock : Nat → Int) (tick : Nat) : List lb_action :=
  let sessionid := if p.sticky_session then get_sessionid k s else none
  match sessionid with
  | none => route_no_session_actions p clock tick
  | some sid => route_session_actions k clock (session_parts sid) p tick

/-- The assignments `service` makes to the record of index `i` after an attempt: the
three error fields, after a success as after a failure. -/
def outcome_writes (i : Nat) : List lb_action :=
  [lb_action.write i error_field.in_error_state,
   lb_action.write i error_field.in_recovering,
   lb_action.write i error_field.error_time]

/-- The actions of one pass through the body of the `while (1)` loop of `service`:
those of `get_most_suitable_worker`, then the assignments to the returned record. -/
def service_body_actions (k : jk_consts) (s : jk_ws_service) (clock : Nat → Int)
    (st : service_state) : List lb_action :=
  let r := get_most_suitable_worker k st.p s clock st.tick
  gmsw_actions k st.p s clock st.tick ++
    (match r.rc with
      | some i =>
        match r.p.lb_workers[i]? with
        | none => []
        | some _ => outcome_writes i
      | none => [])

/-- The actions of the loop `while (1)` of `service`, cut after `fuel` passes. -/
def service_loop_actions (k : jk_consts) (s : jk_ws_service) (be : backend)
    (clock : Nat → Int) : Nat → service_state → List lb_action
  | 0, _ => []
  | fuel + 1, st =>
    match service_body k s be clock st with
    | (_, some _) => service_body_actions k s clock st
    | (st1, none) =>
      service_body_actions k s clock st ++ service_loop_actions k s be clock fuel st1

/-- The actions of a call of `service`. -/
def service_actions (k : jk_consts) (valid_args : Bool) (p : lb_worker) (s : jk_ws_service)
    (be : backend) (clock : Nat → Int) (tick : Nat) (fuel : Nat) : List lb_action :=
  if valid_args then
    service_loop_actions k s be clock fuel
      { p := p, attempt := 0, tick := tick, jvm_route := none, tried := [], forwarded := [] }
  else []

/-! ## The arithmetic of `int`

The definitions above compute with exact integers.  The counters `lb_value`,
`lb_factor`, `lb_max`, `total_factor` and the local `elapsed` of
`get_suitable_worker` are of type `int`; the definitions of this section repeat the
scan with every value stored in an `int` reduced to the range of `int` (32 bits, two's
complement), as the conversion from `time_t` does and as the additions do on the
machines the connector runs on. -/

/-- Whether `x` lies in the range of `int`, from `INT_MIN` to `INT_MAX`. -/
def int_ok (x : Int) : Bool := decide (-2147483648 ≤ x ∧ x ≤ 2147483647)

/-- The `int` that holds the exact value `x`: `x` modulo 2^32, in the range of `int`. -/
def to_int (x : Int) : Int := (x + 2147483648) % 4294967296 - 2147483648

/-- One pass through the body of the `for` loop of `get_suitable_worker` at index `i`,
with the arithmetic of `int`: `int elapsed = now - p->lb_workers[i].error_time`,
`lb_value += lb_factor`, `total_factor += lb_factor`. -/
def Machine.scan_body (recover_wait_time : Int) (search_id : Nat)
    (search_string : List Char) (use_lb_factor : Bool) (clock : Nat → Int) (i : Nat)
    (st : scan_state) : scan_state × Bool :=
  match st.lb_workers[i]? with
  | none => (st, false)
  | some wr =>
    if is_worker_candidate wr search_id search_string then
      let st1 := if search_id = 1 then { st with domain_id := (i : Int) } else st
      if !wr.in_error_state || !wr.in_recovering then
        if wr.in_error_state ∧ to_int (clock st1.tick - wr.error_time) ≤ recover_wait_time then
          ({ st1 with tick := st1.tick + 1 }, false)
        else
          let st2 := if wr.in_error_state then { st1 with tick := st1.tick + 1 } else st1
          if use_lb_factor then
            let v := to_int (wr.lb_value + wr.lb_factor)
            let st3 := { st2 with
              lb_workers := st2.lb_workers.set i { wr with lb_value := v }
              total_factor := to_int (st2.total_factor + wr.lb_factor) }
            if v > st3.lb_max ∨ st3.rc = none then
              ({ st3 with lb_max := v, rc := some i }, false)
            else (st3, false)
          else ({ st2 with rc := some i }, true)
      else (st1, false)
    else (st, false)

/-- The loop `for (i = start; i < stop; i++)` with the arithmetic of `int`. -/
def Machine.scan_loop (recover_wait_time : Int) (search_id : Nat) (search_string : List Char)
    (use_lb_factor : Bool) (clock : Nat → Int) : Nat → Nat → scan_state → scan_state
  | 0, _, st => st
  | n + 1, i, st =>
    match Machine.scan_body recover_wait_time search_id search_string use_lb_factor clock i st
      with
    | (st1, true) => st1
    | (st1, false) =>
      Machine.scan_loop recover_wait_time search_id search_string use_lb_factor clock n (i + 1)
        st1

/-- The part of `get_suitable_worker` after the loop, with the arithmetic of `int`:
`rc->lb_value -= total_factor`. -/
def Machine.scan_finish (clock : Nat → Int) (st : scan_state) : scan_state :=
  match st.rc with
  | none => st
  | some j =>
    match st.lb_workers[j]? with
    | none => st
    | some wr =>
      if wr.in_error_state then
        { st with
          lb_workers := st.lb_workers.set j
            { wr with in_recovering := true, error_time := clock st.tick,
                      lb_value := to_int (wr.lb_value - st.total_factor) }
          tick := st.tick + 1 }
      else
        { st with
          lb_workers := st.lb_workers.set j
            { wr with lb_value := to_int (wr.lb_value - st.total_factor) } }

/-- The function `get_suitable_worker` with the arithmetic of `int`. -/
def Machine.get_suitable_worker (p : lb_worker) (search_id : Nat)
    (search_string : List Char) (start stop : Nat) (use_lb_factor : Bool)
    (clock : Nat → Int) (tick : Nat) : gsw_result :=
  if JK_ENTER_CS = false then { p := p, rc := none, domain_id := -1, tick := tick }
  else
    let st := Machine.scan_finish clock
      (Machine.scan_loop p.recover_wait_time search_id search_string use_lb_factor clock
        (stop - start) start
        { lb_workers := p.lb_workers, rc := none, lb_max := 0, total_factor := 0,
          domain_id := -1, tick := tick })
    { p := { p with lb_workers := st.lb_workers }, rc := st.rc, domain_id := st.domain_id,
      tick := st.tick }

/-! ## Reads past the terminator

A pointer one past the terminator of a string does not point into the string, and
`strstr` on it reads memory that is not part of it: the behaviour is undefined.  The
definitions of this section repeat the two extraction loops with that case made
explicit. -/

/-- What a C function gives: a value, or undefined behaviour. -/
inductive c_result (α : Type) where
  | ok (a : α)
  | undefined
deriving DecidableEq, Repr

/-- C `strstr(m + i, needle)` on the buffer of a string, as an offset into the buffer:
undefined when `m + i` lies past the terminator. -/
def Machine.strstr_at (m : List Char) (i : Nat) (needle : List Char) :
    c_result (Option Nat) :=
  if i ≤ m.length then c_result.ok (JkLb.strstr_at m i needle) else c_result.undefined

/-- The loop of `get_path_param`, with the update `strstr(id_start + 1, name)` undefined
when `id_start` stands on the terminator. -/
def Machine.get_path_param_loop (uri name : List Char) :
    Nat → Option Nat → c_result (Option (List Char))
  | 0, _ => c_result.ok none
  | _ + 1, none => c_result.ok none
  | fuel + 1, some id_start =>
    if char_at uri (id_start + name.length) = '=' then
      let id_start1 := id_start + (1 + name.length)
      if (cstr_at uri id_start1).length ≠ 0 then
        c_result.ok (some (cstr_at (cut_at (cut_at (cstr_at uri id_start1) '?') ';') 0))
      else
        match Machine.strstr_at uri (id_start1 + 1) name with
        | c_result.ok o => Machine.get_path_param_loop uri name fuel o
        | c_result.undefined => c_result.undefined
    else
      match Machine.strstr_at uri (id_start + 1) name with
      | c_result.ok o => Machine.get_path_param_loop uri name fuel o
      | c_result.undefined => c_result.undefined

/-- The function `get_path_param`, undefined behaviour made explicit. -/
def Machine.get_path_param (s : jk_ws_service) (name : List Char) :
    c_result (Option (List Char)) :=
  Machine.get_path_param_loop s.req_uri name (s.req_uri.length + 2)
    (JkLb.strstr_at s.req_uri 0 name)

/-- The inner loop of `get_cookie` over one header value, with the updates
`strstr(id_start + 1, name)` undefined when `id_start` stands on the terminator. -/
def Machine.get_cookie_loop (name : List Char) :
    Nat → List Char → Bool → Option Nat → Option (List Char) →
      c_result (Option (List Char))
  | 0, _, _, _, result => c_result.ok result
  | _ + 1, _, _, none, result => c_result.ok result
  | fuel + 1, m, orig, some id_start, result =>
    if (orig && id_start = 0) ||
        (id_start ≠ 0 &&
          (char_at m (id_start - 1) = ';' || char_at m (id_start - 1) = ',' ||
            isspace (char_at m (id_start - 1)))) then
      let id_start1 := skip_space m m.length (id_start + name.length)
      if char_at m id_start1 = '=' ∧ char_at m (id_start1 + 1) ≠ NUL then
        let dup := cut_at (cut_at (cstr_at m (id_start1 + 1)) ';') ','
        let result1 :=
          match result with
          | none => some (cstr_at dup 0)
          | some r => some (r ++ [';'] ++ cstr_at dup 0)
        match Machine.strstr_at dup 1 name with
        | c_result.ok o => Machine.get_cookie_loop name fuel dup false o result1
        | c_result.undefined => c_result.undefined
      else
        match Machine.strstr_at m (id_start1 + 1) name with
        | c_result.ok o => Machine.get_cookie_loop name fuel m orig o result
        | c_result.undefined => c_result.undefined
    else
      match Machine.strstr_at m (id_start + 1) name with
      | c_result.ok o => Machine.get_cookie_loop name fuel m orig o result
      | c_result.undefined => c_result.undefined

/-- The outer loop of `get_cookie` over the headers, undefined behaviour made
explicit. -/
def Machine.get_cookie_headers (name : List Char) :
    List (List Char × List Char) → Option (List Char) → c_result (Option (List Char))
  | [], result => c_result.ok result
  | (hn, hv) :: rest, result =>
    if strcasecmp_eq hn "cookie".toList then
      match Machine.get_cookie_loop name (hv.length + 2) hv true (JkLb.strstr_at hv 0 name) result
        with
      | c_result.ok r => Machine.get_cookie_headers name rest r
      | c_result.undefined => c_result.undefined
    else Machine.get_cookie_headers name rest result

/-- The function `get_cookie`, undefined behaviour made explicit. -/
def Machine.get_cookie (s : jk_ws_service) (name : List Char) :
    c_result (Option (List Char)) :=
  Machine.get_cookie_headers name s.headers none

/-! ## The functions with their actions

The functions of selection and dispatch once more, each returning the list of its
actions beside its result.  An error field is assigned through one of three setters,
which makes the assignment and lists it; `JK_ENTER_CS`, `JK_LEAVE_CS` and the calls of
`get_suitable_worker` are listed where the code has them. -/

/-- The assignment `lb_workers[j].in_error_state = b`, listed after the actions `log`. -/
def Traced.set_in_error_state (j : Nat) (b : Bool) (ws : List worker_record)
    (log : List lb_action) : List worker_record × List lb_action :=
  (match ws[j]? with
    | some wr => ws.set j { wr with in_error_state := b }
    | none => ws,
   log ++ [lb_action.write j error_field.in_error_state])

/-- The assignment `lb_workers[j].in_recovering = b`, listed after the actions `log`. -/
def Traced.set_in_recovering (j : Nat) (b : Bool) (ws : List worker_record)
    (log : List lb_action) : List worker_record × List lb_action :=
  (match ws[j]? with
    | some wr => ws.set j { wr with in_recovering := b }
    | none => ws,
   log ++ [lb_action.write j error_field.in_recovering])

/-- The assignment `lb_workers[j].error_time = t`, listed after the actions `log`. -/
def Traced.set_error_time (j : Nat) (t : Int) (ws : List worker_record)
    (log : List lb_action) : List worker_record × List lb_action :=
  (match ws[j]? with
    | some wr => ws.set j { wr with error_time := t }
    | none => ws,
   log ++ [lb_action.write j error_field.error_time])

/-- The assignment `lb_workers[j].lb_value -= d`; no error field is involved. -/
def Traced.sub_lb_value (j : Nat) (d : Int) (ws : List worker_record) : List worker_record :=
  match ws[j]? with
  | some wr => ws.set j { wr with lb_value := wr.lb_value - d }
  | none => ws

/-- The part of `get_suitable_worker` after the loop, with its actions. -/
def Traced.scan_finish (clock : Nat → Int) (st : scan_state) :
    scan_state × List lb_action :=
  match st.rc with
  | none => (st, [])
  | some j =>
    match st.lb_workers[j]? with
    | none => (st, [])
    | some wr =>
      if wr.in_error_state then
        let now := clock st.tick
        let x1 := Traced.set_in_recovering j true st.lb_workers []
        let x2 := Traced.set_error_time j now x1.1 x1.2
        ({ st with
            lb_workers := Traced.sub_lb_value j st.total_factor x2.1
            tick := st.tick + 1 }, x2.2)
      else
        ({ st with lb_workers := Traced.sub_lb_value j st.total_factor st.lb_workers }, [])

/-- The function `get_suitable_worker`, with its actions. -/
def Traced.get_suitable_worker (p : lb_worker) (search_id : Nat)
    (search_string : List Char) (start stop : Nat) (use_lb_factor : Bool)
    (clock : Nat → Int) (tick : Nat) : gsw_result × List lb_action :=
  if JK_ENTER_CS = false then
    ({ p := p, rc := none, domain_id := -1, tick := tick }, [lb_action.call search_id])
  else
    let x := Traced.scan_finish clock
      (scan_loop p.recover_wait_time search_id search_string use_lb_factor clock
        (stop - start) start
        { lb_workers := p.lb_workers, rc := none, lb_max := 0, total_factor := 0,
          domain_id := -1, tick := tick })
    ({ p := { p with lb_workers := x.1.lb_workers }, rc := x.1.rc,
       domain_id := x.1.domain_id, tick := x.1.tick },
     [lb_action.call search_id, lb_action.enter_cs] ++ x.2 ++ [lb_action.leave_cs])

/-- The part of `get_most_suitable_worker` after the session loop, with its actions. -/
def Traced.route_no_session (p : lb_worker) (clock : Nat → Int) (tick : Nat) :
    route_result × List lb_action :=
  if p.num_of_local_workers ≠ 0 then
    let x3 := Traced.get_suitable_worker p 3 "any".toList 0 p.num_of_local_workers true
      clock tick
    let r3 := x3.1
    if r3.rc ≠ none then ({ p := r3.p, rc := r3.rc, tick := r3.tick }, x3.2)
    else if r3.p.local_worker_only then ({ p := r3.p, rc := none, tick := r3.tick }, x3.2)
    else
      let x4 := Traced.get_suitable_worker r3.p 4 "any".toList r3.p.num_of_local_workers
        r3.p.num_of_workers true clock r3.tick
      let r4 := x4.1
      if r4.rc ≠ none then ({ p := r4.p, rc := r4.rc, tick := r4.tick }, x3.2 ++ x4.2)
      else
        let x5 := Traced.get_suitable_worker r4.p 5 "any".toList r4.p.num_of_local_workers
          r4.p.num_of_workers true clock r4.tick
        ({ p := x5.1.p, rc := x5.1.rc, tick := x5.1.tick }, x3.2 ++ x4.2 ++ x5.2)
  else
    let x5 := Traced.get_suitable_worker p 5 "any".toList p.num_of_local_workers
      p.num_of_workers true clock tick
    ({ p := x5.1.p, rc := x5.1.rc, tick := x5.1.tick }, x5.2)

/-- The loop `while (sessionid)` of `get_most_suitable_worker` and the rest of the
function, with their actions. -/
def Traced.route_session (k : jk_consts) (clock : Nat → Int) :
    List (List Char) → lb_worker → Nat → route_result × List lb_action
  | [], p, tick => Traced.route_no_session p clock tick
  | part :: rest, p, tick =>
    match strchr part '.' with
    | none => Traced.route_session k clock rest p tick
    | some dot =>
      let session_route := part.drop (dot + 1)
      let x1 := Traced.get_suitable_worker p 1 session_route 0 p.num_of_workers false
        clock tick
      let r1 := x1.1
      if r1.rc ≠ none then ({ p := r1.p, rc := r1.rc, tick := r1.tick }, x1.2)
      else
        let session_domain :=
          if 0 ≤ r1.domain_id ∧ r1.domain_id < (r1.p.num_of_workers : Int) then
            match r1.p.lb_workers[r1.domain_id.toNat]? with
            | some wr => wr.domain
            | none => k.JK_LB_DEF_DOMAIN_NAME
          else k.JK_LB_DEF_DOMAIN_NAME
        let x2 := Traced.get_suitable_worker r1.p 2 session_domain 0 r1.p.num_of_workers
          true clock r1.tick
        let r2 := x2.1
        if r2.rc ≠ none then ({ p := r2.p, rc := r2.rc, tick := r2.tick }, x1.2 ++ x2.2)
        else
          let x := Traced.route_session k clock rest r2.p r2.tick
          (x.1, x1.2 ++ x2.2 ++ x.2)

/-- The function `get_most_suitable_worker`, with its actions. -/
def Traced.get_most_suitable_worker (k : jk_consts) (p : lb_worker) (s : jk_ws_service)
    (clock : Nat → Int) (tick : Nat) : route_result × List lb_action :=
  let sessionid := if p.sticky_session then get_sessionid k s else none
  match sessionid with
  | none => Traced.route_no_session p clock tick
  | some sid => Traced.route_session k clock (session_parts sid) p tick

/-- One pass through the body of the `while (1)` loop of `service`, with its actions:
those of `get_most_suitable_worker`, then the three assignments to the returned
record. -/
def Traced.service_body (k : jk_consts) (s : jk_ws_service) (be : backend)
    (clock : Nat → Int) (st : service_state) :
    (service_state × Option Bool) × List lb_action :=
  let x := Traced.get_most_suitable_worker k st.p s clock st.tick
  let r := x.1
  match r.rc with
  | some i =>
    match r.p.lb_workers[i]? with
    | none =>
      (({ st with p := r.p, attempt := st.attempt + 1, tick := r.tick }, some false), x.2)
    | some wr =>
      let o := be st.attempt i
      let is_recoverable := o.endpoint_ok && o.is_recoverable
      let st1 : service_state :=
        { p := r.p, attempt := st.attempt + 1, tick := r.tick, jvm_route := some wr.name,
          tried := st.tried ++ [i],
          forwarded := if o.endpoint_ok then st.forwarded ++ [i] else st.forwarded }
      if o.endpoint_ok ∧ o.src then
        let y1 := Traced.set_in_error_state i false r.p.lb_workers x.2
        let y2 := Traced.set_in_recovering i false y1.1 y1.2
        let y3 := Traced.set_error_time i 0 y2.1 y2.2
        (({ st1 with p := { r.p with lb_workers := y3.1 } }, some true), y3.2)
      else
        let y1 := Traced.set_in_error_state i true r.p.lb_workers x.2
        let y2 := Traced.set_in_recovering i false y1.1 y1.2
        let y3 := Traced.set_error_time i (clock r.tick) y2.1 y2.2
        let st2 : service_state :=
          { st1 with
            p := { r.p with lb_workers := y3.1 }
            tick := r.tick + 1 }
        if is_recoverable = false then ((st2, some false), y3.2) else ((st2, none), y3.2)
  | none =>
    (({ st with p := r.p, attempt := st.attempt + 1, tick := r.tick }, some false), x.2)

/-- The loop `while (1)` of `service`, cut after `fuel` passes, with its actions. -/
def Traced.service_loop (k : jk_consts) (s : jk_ws_service) (be : backend)
    (clock : Nat → Int) : Nat → service_state → Option (service_state × Bool) × List lb_action
  | 0, _ => (none, [])
  | fuel + 1, st =>
    match Traced.service_body k s be clock st with
    | ((st1, some rc), log) => (some (st1, rc), log)
    | ((st1, none), log) =>
      let x := Traced.service_loop k s be clock fuel st1
      (x.1, log ++ x.2)

/-- The function `service` of the balancer, with its actions. -/
def Traced.service (k : jk_consts) (valid_args : Bool) (p : lb_worker) (s : jk_ws_service)
    (be : backend) (clock : Nat → Int) (tick : Nat) (is_recoverable_error : Bool)
    (fuel : Nat) : Option service_result × List lb_action :=
  let st0 : service_state :=
    { p := p, attempt := 0, tick := tick, jvm_route := none, tried := [], forwarded := [] }
  if valid_args then
    match Traced.service_loop k s be clock fuel st0 with
    | (some (st, rc), log) =>
      (some { rc := rc, is_recoverable_error := false, st := st }, log)
    | (none, log) => (none, log)
  else (some { rc := false, is_recoverable_error := is_recoverable_error, st := st0 }, [])

/-! ## Notions used in the statements -/

/-- A record with its load counter blanked: all that the scan loop never changes. -/
def erase_lb (wr : worker_record) : worker_record := { wr with lb_value := 0 }

/-- A record may be handed out by the scan: it is not in error state, or it is in
error state, not recovering, and some clock reading lies past its recovery wait. -/
def trial_ok (rwt : Int) (clock : Nat → Int) (wr : worker_record) : Prop :=
  wr.in_error_state = true → wr.in_recovering = false ∧ ∃ k, rwt < clock k - wr.error_time

/-- Invariant of the scan loop of `get_suitable_worker`, relative to the records `ws0`
on entry. -/
structure scan_inv (rwt : Int) (sid : Nat) (ss : List Char) (ulf : Bool) (clock : Nat → Int)
    (ws0 : List worker_record) (start : Nat) (i : Nat) (st : scan_state) : Prop where
  static : st.lb_workers.map erase_lb = ws0.map erase_lb
  none_same : st.rc = none → st.lb_workers = ws0 ∧ st.total_factor = 0
  unweighted : ulf = false → st.lb_workers = ws0 ∧ st.total_factor = 0
  rc_ok : ∀ j, st.rc = some j → start ≤ j ∧ j < i ∧ ∃ wr0, ws0[j]? = some wr0 ∧
    is_worker_candidate wr0 sid ss = true ∧ trial_ok rwt clock wr0

/-- Value of `domain_id` after the body has met a candidate at index `i`. -/
def dom_after (sid : Nat) (i : Nat) (d : Int) : Int := if sid = 1 then (i : Int) else d

/-- Clock readings consumed once the body has tested the recovery wait of `wr`. -/
def tick_after (wr : worker_record) (t : Nat) : Nat := if wr.in_error_state then t + 1 else t

/-- What the end of `get_suitable_worker` does to the error fields of the record it
returns: a record in error state starts its trial at time `now`. -/
def mark_trial (now : Int) (wr : worker_record) : worker_record :=
  if wr.in_error_state then { wr with in_recovering := true, error_time := now } else wr

/-- Eligibility in the words of the specification: not (in error state and recovering),
and, when in error state, only if `now - error_time > recover_wait_time`. -/
def eligible (rwt now : Int) (wr : worker_record) : Bool :=
  (!wr.in_error_state || !wr.in_recovering) &&
    (!wr.in_error_state || decide (rwt < now - wr.error_time))

/-- Index `k` of `ws` holds a record that matches the criterion and is eligible at
clock value `now`. -/
def selectable (rwt now : Int) (sid : Nat) (ss : List Char) (ws : List worker_record)
    (k : Nat) : Bool :=
  match ws[k]? with
  | some wr => is_worker_candidate wr sid ss && eligible rwt now wr
  | none => false

/-- A record after `lb_value += lb_factor`. -/
def bump (wr : worker_record) : worker_record :=
  { wr with lb_value := wr.lb_value + wr.lb_factor }

/-- Sum of `lb_factor` over the selectable indices among the `n` indices from `start`. -/
def weight_sum (rwt now : Int) (sid : Nat) (ss : List Char) (ws : List worker_record)
    (start : Nat) : Nat → Int
  | 0 => 0
  | n + 1 =>
    weight_sum rwt now sid ss ws start n +
      (match ws[start + n]? with
        | some wr => if selectable rwt now sid ss ws (start + n) then wr.lb_factor else 0
        | none => 0)

/-- Invariant of the weighted scan at a fixed clock value, relative to the records
`ws0` on entry. -/
structure weighted_inv (rwt now : Int) (sid : Nat) (ss : List Char)
    (ws0 : List worker_record) (start : Nat) (i : Nat) (st : scan_state) : Prop where
  start_le : start ≤ i
  vals : ∀ k, st.lb_workers[k]? = (ws0[k]?).map (fun wr =>
    if start ≤ k ∧ k < i ∧ selectable rwt now sid ss ws0 k = true then bump wr else wr)
  total : st.total_factor = weight_sum rwt now sid ss ws0 start (i - start)
  rc_none : st.rc = none → ∀ k, start ≤ k → k < i → selectable rwt now sid ss ws0 k = false
  rc_max : ∀ j, st.rc = some j → start ≤ j ∧ j < i ∧ ∃ wj, ws0[j]? = some wj ∧
    selectable rwt now sid ss ws0 j = true ∧ st.lb_max = wj.lb_value + wj.lb_factor ∧
    ∀ k wk, start ≤ k → k < i → ws0[k]? = some wk →
      selectable rwt now sid ss ws0 k = true →
      wk.lb_value + wk.lb_factor ≤ st.lb_max ∧ (k < j → wk.lb_value + wk.lb_factor < st.lb_max)

/-- No two records of the registry carry the same name. -/
def names_unique (ws : List worker_record) : Prop :=
  ∀ (a b : Nat) (wa wb : worker_record),
    ws[a]? = some wa → ws[b]? = some wb → wa.name = wb.name → a = b

/-- What a selection leaves, for any clock: only `lb_workers` of the balancer may
change; nothing changes when nothing is returned; a returned index `j` held a record
that passed the recovery test, and apart from load counters the records are those on
entry with the trial marked on record `j`. -/
def sel_post (clock : Nat → Int) (p p1 : lb_worker) (rc : Option Nat) : Prop :=
  p1 = { p with lb_workers := p1.lb_workers } ∧
  (rc = none → p1 = p) ∧
  (∀ j, rc = some j → ∃ wr0, p.lb_workers[j]? = some wr0 ∧
    trial_ok p.recover_wait_time clock wr0 ∧
    ∃ t, p1.lb_workers.map erase_lb =
      (p.lb_workers.set j (mark_trial (clock t) wr0)).map erase_lb)

/-- The loop state `service` starts from. -/
def service_init (p : lb_worker) (tick : Nat) : service_state :=
  { p := p, attempt := 0, tick := tick, jvm_route := none, tried := [], forwarded := [] }

/-- The state of the loop of `service` at the start of pass `n + 1`, when the run that
starts in `st` gets that far (`none` when it returns earlier). -/
def service_pass (k : jk_consts) (s : jk_ws_service) (be : backend) (clock : Nat → Int) :
    Nat → service_state → Option service_state
  | 0, st => some st
  | n + 1, st =>
    match service_body k s be clock st with
    | (st1, none) => service_pass k s be clock n st1
    | (_, some _) => none

/-- Invariant of the loop of `service` while every clock reading lies in
`[lo, lo + rwt]`: the records tried so far are distinct, each is marked failed at a
time of that interval, and `attempt` counts them. -/
structure dispatch_inv (rwt lo : Int) (N : Nat) (st : service_state) : Prop where
  rwt_eq : st.p.recover_wait_time = rwt
  len_eq : st.p.lb_workers.length = N
  nodup : st.tried.Nodup
  fwd : st.forwarded.Sublist st.tried
  count : st.attempt = st.tried.length
  marked : ∀ i ∈ st.tried, ∃ wr, st.p.lb_workers[i]? = some wr ∧ wr.in_error_state = true ∧
    wr.in_recovering = false ∧ lo ≤ wr.error_time ∧ wr.error_time ≤ lo + rwt

/-- No record is in error state. -/
def all_healthy (ws : List worker_record) : Prop := ∀ wr ∈ ws, wr.in_error_state = false

/-- Sum of the weights `lb_factor` of the registry. -/
def total_weight (ws : List worker_record) : Int := (ws.map (fun wr => wr.lb_factor)).sum

/-- Run of `M` consecutive weighted `Any` selections over the full range: the balancer they
leave, the clock readings consumed, and the indices returned, in order. -/
def any_run (clock : Nat → Int) : Nat → lb_worker → Nat → lb_worker × Nat × List Nat
  | 0, p, tick => (p, tick, [])
  | M + 1, p, tick =>
    let r := get_suitable_worker p 5 "any".toList 0 p.num_of_workers true clock tick
    let q := any_run clock M r.p r.tick
    (q.1, q.2.1, r.rc.toList ++ q.2.2)

/-- Run of `M` consecutive calls of `get_most_suitable_worker` for one request: the balancer
they leave, the clock readings consumed, and the indices returned, in order. -/
def route_run (k : jk_consts) (s : jk_ws_service) (clock : Nat → Int) :
    Nat → lb_worker → Nat → lb_worker × Nat × List Nat
  | 0, p, tick => (p, tick, [])
  | M + 1, p, tick =>
    let r := get_most_suitable_worker k p s clock tick
    let q := route_run k s clock M r.p r.tick
    (q.1, q.2.1, r.rc.toList ++ q.2.2)

/-- The returned record after `lb_value += lb_factor` and the payback of `W`. -/
def pay (W : Int) (wr : worker_record) : worker_record :=
  { wr with lb_value := wr.lb_value + wr.lb_factor - W }

/-- Invariant of the load counters under weighted `Any` selections without failures:
no record is in error state, weights are at least 1, the counters add up to the sum of
the weights, and every counter lies above minus that sum. -/
structure balanced (ws : List worker_record) : Prop where
  healthy : all_healthy ws
  weights : ∀ wr ∈ ws, 1 ≤ wr.lb_factor
  sum_eq : (ws.map (fun wr => wr.lb_value)).sum = total_weight ws
  lower : ∀ wr ∈ ws, - total_weight ws < wr.lb_value

/-- A record as `validate` initialises it: not in error state, not recovering, weight
at least 1, load counter equal to the weight. -/
def fresh_record (wr : worker_record) : Prop :=
  wr.in_error_state = false ∧ wr.in_recovering = false ∧ wr.lb_value = wr.lb_factor ∧
    1 ≤ wr.lb_factor

/-- Load counter and weight of every record, in registry order. -/
def load_vals (ws : List worker_record) : List (Int × Int) :=
  ws.map (fun wr => (wr.lb_value, wr.lb_factor))

/-- Index `j` holds the first largest value of `lb_value + lb_factor`. -/
def first_max (l : List (Int × Int)) (j : Nat) : Prop :=
  j < l.length ∧
  (∀ k, k < l.length →
    (l.getD k (0, 0)).1 + (l.getD k (0, 0)).2 ≤ (l.getD j (0, 0)).1 + (l.getD j (0, 0)).2) ∧
  (∀ k, k < j →
    (l.getD k (0, 0)).1 + (l.getD k (0, 0)).2 < (l.getD j (0, 0)).1 + (l.getD j (0, 0)).2)

instance first_max_decidable (l : List (Int × Int)) (j : Nat) : Decidable (first_max l j) := by
  unfold first_max
  infer_instance

/-- Load counters and weights after a weighted selection over all records that returns
index `j`. -/
def next_vals (l : List (Int × Int)) (j : Nat) : List (Int × Int) :=
  match (l.map (fun x => (x.1 + x.2, x.2)))[j]? with
  | some x => (l.map (fun x => (x.1 + x.2, x.2))).set j (x.1 - (l.map Prod.snd).sum, x.2)
  | none => l.map (fun x => (x.1 + x.2, x.2))

/-- A registry on which `get_most_suitable_worker` is the weighted `Any` selection over
all records, none of which is in error state: sticky sessions off, no local records. -/
structure plain_healthy (p : lb_worker) : Prop where
  sticky_off : p.sticky_session = false
  no_local : p.num_of_local_workers = 0
  count_eq : p.num_of_workers = p.lb_workers.length
  nonempty : 0 < p.lb_workers.length
  healthy : all_healthy p.lb_workers

/-- The assignments by which `service` records the outcome of an attempt on the record
of index `j`: after a success the error fields are cleared, after a failure the record
is marked failed at time `now`. -/
def record_outcome (p : lb_worker) (j : Nat) (ok : Bool) (now : Int) : lb_worker :=
  match p.lb_workers[j]? with
  | none => p
  | some wr =>
    { p with
      lb_workers := p.lb_workers.set j
        (if ok then { wr with in_error_state := false, in_recovering := false, error_time := 0 }
         else { wr with in_error_state := true, in_recovering := false, error_time := now }) }

/-- What happens to the registry in the course of a run: a call of
`get_suitable_worker` with the given arguments, or the dispatch loop recording the
outcome of an attempt on the record of index `j`. -/
inductive lb_event where
  | select (search_id : Nat) (search_string : List Char) (start stop : Nat)
      (use_lb_factor : Bool)
  | outcome (j : Nat) (ok : Bool)
deriving DecidableEq, Repr

/-- A run of events on the registry: the balancer it leaves, the clock readings
consumed, and what the calls of `get_suitable_worker` returned, in order. -/
def run_events (clock : Nat → Int) :
    List lb_event → lb_worker → Nat → lb_worker × Nat × List (Option Nat)
  | [], p, tick => (p, tick, [])
  | lb_event.select sid ss start stop ulf :: es, p, tick =>
    let r := get_suitable_worker p sid ss start stop ulf clock tick
    let q := run_events clock es r.p r.tick
    (q.1, q.2.1, r.rc :: q.2.2)
  | lb_event.outcome j ok :: es, p, tick =>
    run_events clock es (record_outcome p j ok (clock tick)) (if ok then tick else tick + 1)

/-- The record of index `i` is on its recovery trial: in error state and recovering. -/
def on_trial (p : lb_worker) (i : Nat) : Prop :=
  ∃ wi, p.lb_workers[i]? = some wi ∧ wi.in_error_state = true ∧ wi.in_recovering = true

/-- The string `name` occurs in `s` at offset `i`. -/
def occurs_at (s name : List Char) (i : Nat) : Prop := i ≤ s.length ∧ name <+: s.drop i

instance occurs_at_decidable (s name : List Char) (i : Nat) :
    Decidable (occurs_at s name i) := by
  unfold occurs_at
  infer_instance

/-- An occurrence of the key at offset `i` of the path that is immediately followed by
`=` and at least one more character. -/
def param_at (uri name : List Char) (i : Nat) : Prop :=
  occurs_at uri name i ∧ uri[i + name.length]? = some '=' ∧ i + name.length + 1 < uri.length

instance param_at_decidable (uri name : List Char) (i : Nat) :
    Decidable (param_at uri name i) := by
  unfold param_at
  infer_instance

/-- The text after the `=` of the occurrence at offset `i`, cut before the first `?`
or `;`. -/
def param_value (uri name : List Char) (i : Nat) : List Char :=
  (uri.drop (i + name.length + 1)).takeWhile (fun c => c != '?' && c != ';')

/-- A character before which a cookie name may start: `;`, `,` or white space. -/
def is_separator (c : Char) : Bool := c = ';' || c = ',' || isspace c

/-- Offset `i` of a header value is at a boundary: the start of the value, or the
place after a `;`, a `,` or a white space character. -/
def at_boundary (hv : List Char) (i : Nat) : Prop :=
  i = 0 ∨ (0 < i ∧ is_separator (char_at hv (i - 1)) = true)

instance at_boundary_decidable (hv : List Char) (i : Nat) : Decidable (at_boundary hv i) := by
  unfold at_boundary
  infer_instance

/-- The offset that follows the name at offset `i` and the white space after it. -/
def after_name (hv name : List Char) (i : Nat) : Nat :=
  i + name.length + ((hv.drop (i + name.length)).takeWhile isspace).length

/-- A qualifying occurrence of the cookie name at offset `i` of a header value: the name
occurs there at a boundary and is followed by optional white space and then `=`. -/
def cookie_at (hv name : List Char) (i : Nat) : Prop :=
  occurs_at hv name i ∧ at_boundary hv i ∧ hv[after_name hv name i]? = some '='

instance cookie_at_decidable (hv name : List Char) (i : Nat) :
    Decidable (cookie_at hv name i) := by
  unfold cookie_at
  infer_instance

/-- The value of the occurrence at offset `i`: the text after its `=`, cut before the
first `;` or `,`. -/
def cookie_value (hv name : List Char) (i : Nat) : List Char :=
  (hv.drop (after_name hv name i + 1)).takeWhile (fun c => c != ';' && c != ',')

/-- Values joined with `;`, in order. -/
def join_values : List (List Char) → List Char
  | [] => []
  | [v] => v
  | v :: w :: rest => v ++ ';' :: join_values (w :: rest)

/-- A result of `get_cookie` extended by one more value. -/
def append_value (result : Option (List Char)) (v : List Char) : Option (List Char) :=
  match result with
  | none => some v
  | some r => some (r ++ [';'] ++ v)

/-- A result of `get_cookie` extended by more values, in order. -/
def append_values (result : Option (List Char)) (vs : List (List Char)) :
    Option (List Char) :=
  vs.foldl append_value result

/-- Characters at the same place of a working copy and of the header value: equal, or a
terminator written over a `;` or a `,`. -/
def cut_sim (x y : Char) : Prop := x = y ∨ (x = NUL ∧ (y = ';' ∨ y = ','))

/-- Buffer `m` is a working copy of the part of the header value `hv` that starts at
offset `b`: it holds the characters of `hv`, with terminators written over some `;` or
`,`, and ends where `hv` ends or before a `;` or a `,`. -/
def window (hv m : List Char) (b : Nat) : Prop :=
  b + m.length ≤ hv.length ∧ ∀ q, q ≤ m.length → cut_sim (char_at m q) (char_at hv (b + q))

/-- The search has found `name` at offset `q` of buffer `m`, before any terminator. -/
def found (m name : List Char) (q : Nat) : Prop :=
  q + name.length ≤ m.length ∧
    ∀ t, t < name.length → char_at m (q + t) = name.getD t NUL ∧ name.getD t NUL ≠ NUL

/-- The record that `validate` makes of the entry `wp` of the worker list in the memory
cell that holds `old`, once the member worker is created. -/
def built_record (k : jk_consts) (wp : worker_props) (old : worker_record) : worker_record :=
  { init_record k wp old with w := wp.created.getD 0 }

/-- The records that `validate` makes of a worker list, in the order of the list;
`olds` is what the allocated memory holds. -/
def built (k : jk_consts) (wps : List worker_props) (olds : List worker_record) :
    List worker_record :=
  List.zipWith (built_record k) wps olds

/-- A record with the flag `is_local_domain` blanked. -/
def erase_local_domain (wr : worker_record) : worker_record :=
  { wr with is_local_domain := false }

/-- The invariant "recovering only when in error state" of a list of records. -/
def recovering_in_error (ws : List worker_record) : Prop :=
  ∀ wr ∈ ws, wr.in_recovering = true → wr.in_error_state = true

/-- Whether the lock is held after the actions `as`, when `held` tells whether it is
held before them. -/
def lock_after : Bool → List lb_action → Bool
  | held, [] => held
  | _, lb_action.enter_cs :: t => lock_after true t
  | _, lb_action.leave_cs :: t => lock_after false t
  | held, lb_action.call _ :: t => lock_after held t
  | held, lb_action.write _ _ :: t => lock_after held t

/-- Every assignment to an error field among the actions `as` is made while the lock
is held, when `held` tells whether it is held before them. -/
def writes_locked : Bool → List lb_action → Bool
  | _, [] => true
  | _, lb_action.enter_cs :: t => writes_locked true t
  | _, lb_action.leave_cs :: t => writes_locked false t
  | held, lb_action.call _ :: t => writes_locked held t
  | held, lb_action.write _ _ :: t => held && writes_locked held t

/-- Every assignment to an error field among the actions `as` is made while the lock
is not held. -/
def writes_unlocked : Bool → List lb_action → Bool
  | _, [] => true
  | _, lb_action.enter_cs :: t => writes_unlocked true t
  | _, lb_action.leave_cs :: t => writes_unlocked false t
  | held, lb_action.call _ :: t => writes_unlocked held t
  | held, lb_action.write _ _ :: t => !held && writes_unlocked held t

/-- No value that the body of the scan loop stores in an `int` at index `i` leaves the
range of `int`: the elapsed time of a record in error state that is tested for its
recovery wait, and, in a weighted scan, the incremented load counter and the
incremented `total_factor` of a record that passes. -/
def scan_body_ok (rwt : Int) (sid : Nat) (ss : List Char) (ulf : Bool) (clock : Nat → Int)
    (i : Nat) (st : scan_state) : Bool :=
  match st.lb_workers[i]? with
  | none => true
  | some wr =>
    if is_worker_candidate wr sid ss = true ∧ (!wr.in_error_state || !wr.in_recovering) = true
    then
      (!wr.in_error_state || int_ok (clock st.tick - wr.error_time)) &&
        ((wr.in_error_state && decide (clock st.tick - wr.error_time ≤ rwt)) || !ulf ||
          (int_ok (wr.lb_value + wr.lb_factor) && int_ok (st.total_factor + wr.lb_factor)))
    else true

/-- No value stored in an `int` leaves the range of `int` in the `n` passes of the scan
loop from index `i`. -/
def scan_loop_ok (rwt : Int) (sid : Nat) (ss : List Char) (ulf : Bool) (clock : Nat → Int) :
    Nat → Nat → scan_state → Bool
  | 0, _, _ => true
  | n + 1, i, st =>
    scan_body_ok rwt sid ss ulf clock i st &&
      (match scan_body rwt sid ss ulf clock i st with
        | (_, true) => true
        | (st1, false) => scan_loop_ok rwt sid ss ulf clock n (i + 1) st1)

/-- The load counter of the returned record stays in the range of `int` when
`total_factor` is subtracted from it. -/
def scan_finish_ok (st : scan_state) : Bool :=
  match st.rc with
  | none => true
  | some j =>
    match st.lb_workers[j]? with
    | none => true
    | some wr => int_ok (wr.lb_value - st.total_factor)

/-- No value that a call of `get_suitable_worker` stores in an `int` leaves the range of
`int`. -/
def gsw_ok (p : lb_worker) (sid : Nat) (ss : List Char) (start stop : Nat) (ulf : Bool)
    (clock : Nat → Int) (tick : Nat) : Bool :=
  scan_loop_ok p.recover_wait_time sid ss ulf clock (stop - start) start
      ⟨p.lb_workers, none, 0, 0, -1, tick⟩ &&
    scan_finish_ok (scan_loop p.recover_wait_time sid ss ulf clock (stop - start) start
      ⟨p.lb_workers, none, 0, 0, -1, tick⟩)

/-- Run of `M` consecutive weighted `Any` selections over the full range with the
arithmetic of `int`: the balancer they leave, the clock readings consumed, and the
indices returned, in order. -/
def Machine.any_run (clock : Nat → Int) : Nat → lb_worker → Nat → lb_worker × Nat × List Nat
  | 0, p, tick => (p, tick, [])
  | M + 1, p, tick =>
    let r := Machine.get_suitable_worker p 5 "any".toList 0 p.num_of_workers true clock tick
    let q := Machine.any_run clock M r.p r.tick
    (q.1, q.2.1, r.rc.toList ++ q.2.2)

/-- An occurrence of the key at offset `i` of the path that is followed by `=` and the
end of the path. -/
def bare_key_at (uri name : List Char) (i : Nat) : Prop :=
  occurs_at uri name i ∧ uri[i + name.length]? = some '=' ∧ i + name.length + 1 = uri.length

instance bare_key_at_decidable (uri name : List Char) (i : Nat) :
    Decidable (bare_key_at uri name i) := by
  unfold bare_key_at
  infer_instance

/-- The value of an error field of a record, as the `int` or `time_t` the field holds. -/
def read_field (f : error_field) (wr : worker_record) : Int :=
  match f with
  | error_field.in_error_state => if wr.in_error_state then 1 else 0
  | error_field.in_recovering => if wr.in_recovering then 1 else 0
  | error_field.error_time => wr.error_time

/-- Field `f` of the record of index `m` holds in `ws1` what it holds in `ws`. -/
def field_kept (f : error_field) (m : Nat) (ws ws1 : List worker_record) : Prop :=
  (ws1[m]?).map (read_field f) = (ws[m]?).map (read_field f)

/-! ## Concrete inputs -/

/-- A balancer with one record, marked failed at time 100, recovery wait 60. -/
def quarantine_example : lb_worker :=
  { lb_workers := [⟨['A'], ['d'], 1, 1, false, false, true, false, 100, 0⟩],
    num_of_workers := 1, num_of_local_workers := 0, in_local_worker_mode := false,
    local_worker_only := false, sticky_session := false, recover_wait_time := 60 }

/-- The string constants as the connector headers define them. -/
def example_consts : jk_consts :=
  { JK_PATH_SESSION_IDENTIFIER := ";jsessionid".toList,
    JK_SESSION_IDENTIFIER := "JSESSIONID".toList,
    JK_LB_DEF_DOMAIN_NAME := "unknown".toList }

/-- A request whose path carries the affinity token `xyz123.A`. -/
def sticky_request : jk_ws_service :=
  { req_uri := "/app;jsessionid=xyz123.A".toList, headers := [] }

/-- Healthy records `B` (load 9, weight 5) and `A` (load 1, weight 1) in one domain. -/
def sticky_example : lb_worker :=
  { lb_workers :=
      [⟨['B'], ['d'], 5, 9, false, false, false, false, 0, 0⟩,
       ⟨['A'], ['d'], 1, 1, false, false, false, false, 0, 1⟩],
    num_of_workers := 2, num_of_local_workers := 0, in_local_worker_mode := false,
    local_worker_only := false, sticky_session := true, recover_wait_time := 60 }

/-- A balancer with the single healthy record `A`. -/
def single_example : lb_worker :=
  { lb_workers := [⟨['A'], ['d'], 1, 1, false, false, false, false, 0, 0⟩],
    num_of_workers := 1, num_of_local_workers := 0, in_local_worker_mode := false,
    local_worker_only := false, sticky_session := false, recover_wait_time := 60 }

/-- A request without affinity token. -/
def plain_request : jk_ws_service := { req_uri := "/app".toList, headers := [] }

/-- Member workers whose every attempt fails after the reply has started. -/
def fatal_backend : backend := fun _ _ =>
  { endpoint_ok := true, src := false, is_recoverable := false }

/-- A clock that advances by one second at every reading, from time 1000. -/
def ticking_clock : Nat → Int := fun n => 1000 + (n : Int)

/-- Member workers whose every attempt fails before any reply. -/
def recoverable_backend : backend := fun _ _ =>
  { endpoint_ok := true, src := false, is_recoverable := true }

/-- Member workers whose every attempt succeeds. -/
def good_backend : backend := fun _ _ =>
  { endpoint_ok := true, src := true, is_recoverable := false }

/-- A balancer whose single record `A` is on its recovery trial. -/
def trial_example : lb_worker :=
  { lb_workers := [⟨['A'], ['d'], 1, 1, false, false, true, false, 100, 0⟩],
    num_of_workers := 1, num_of_local_workers := 0, in_local_worker_mode := false,
    local_worker_only := false, sticky_session := false, recover_wait_time := 60 }

/-- A clock that stands at time 120. -/
def early_clock : Nat → Int := fun _ => 120

/-- Three healthy records, none local. -/
def three_example : lb_worker :=
  { lb_workers :=
      [⟨['A'], ['d'], 1, 1, false, false, false, false, 0, 0⟩,
       ⟨['B'], ['d'], 2, 2, false, false, false, false, 0, 1⟩,
       ⟨['C'], ['d'], 1, 1, false, false, false, false, 0, 2⟩],
    num_of_workers := 3, num_of_local_workers := 0, in_local_worker_mode := false,
    local_worker_only := false, sticky_session := false, recover_wait_time := 60 }

/-- A clock that advances by one second at every reading, from time 1000 to time
1060, where it stays. -/
def bounded_clock : Nat → Int := fun n => 1000 + ((min n 60 : Nat) : Int)

/-- Allocated memory that holds zeroes. -/
def zero_mem : Nat → worker_record := fun _ =>
  ⟨[], [], 0, 0, false, false, false, false, 0, 0⟩

/-- The configuration of three backends `A` (weight 1), `B` (weight 2), `C` (weight 1),
none local, sticky sessions off. -/
def abc_props : lb_props :=
  { local_worker_only := false, sticky_session := false,
    worker_list := some
      [⟨['A'], 1, none, false, some 0⟩, ⟨['B'], 2, none, false, some 1⟩,
       ⟨['C'], 1, none, false, some 2⟩],
    alloc_ok := true }

/-- A request whose path carries the affinity token `a.b.A`. -/
def dotted_request : jk_ws_service :=
  { req_uri := "/app;jsessionid=a.b.A".toList, headers := [] }

/-- Healthy records `B` (load 9, weight 5) and `b.A` (load 1, weight 1). -/
def dotted_example : lb_worker :=
  { lb_workers :=
      [⟨['B'], ['d'], 5, 9, false, false, false, false, 0, 0⟩,
       ⟨"b.A".toList, ['d'], 1, 1, false, false, false, false, 0, 1⟩],
    num_of_workers := 2, num_of_local_workers := 0, in_local_worker_mode := false,
    local_worker_only := false, sticky_session := true, recover_wait_time := 60 }

/-- A balancer whose record `A` was marked failed at time 100 and whose record `B` is
healthy. -/
def recovery_example : lb_worker :=
  { lb_workers :=
      [⟨['A'], ['d'], 1, 1, false, false, true, false, 100, 0⟩,
       ⟨['B'], ['d'], 1, 1, false, false, false, false, 0, 1⟩],
    num_of_workers := 2, num_of_local_workers := 0, in_local_worker_mode := false,
    local_worker_only := false, sticky_session := false, recover_wait_time := 60 }

/-- A request with one cookie header that holds the session cookie after another
cookie. -/
def cookie_request : jk_ws_service :=
  { req_uri := "/app".toList,
    headers := [("Cookie".toList, "x=1; JSESSIONID=a.A".toList)] }

/-- A request with one cookie header that holds two session cookies. -/
def two_cookie_request : jk_ws_service :=
  { req_uri := "/app".toList,
    headers := [("Cookie".toList, "JSESSIONID=a.A; JSESSIONID=b.B".toList)] }

/-- A request that carries a session id in its path and another one in a cookie. -/
def both_request : jk_ws_service :=
  { req_uri := "/app;jsessionid=p.A".toList,
    headers := [("Cookie".toList, "JSESSIONID=c.B".toList)] }

/-- A request whose cookie header holds the cookie name after another character. -/
def prefixed_request : jk_ws_service :=
  { req_uri := "/app".toList, headers := [("Cookie".toList, "XJSESSIONID=a.A".toList)] }

/-- The configuration of five backends `A`, `B`, `C`, `D`, `E`, of which `B` and `D`
are local. -/
def abcde_props : lb_props :=
  { local_worker_only := false, sticky_session := false,
    worker_list := some
      [⟨['A'], 1, none, false, some 0⟩, ⟨['B'], 1, none, true, some 1⟩,
       ⟨['C'], 1, none, false, some 2⟩, ⟨['D'], 1, none, true, some 3⟩,
       ⟨['E'], 1, none, false, some 4⟩],
    alloc_ok := true }

/-- The configuration of three backends of which the second, `B`, has a member worker
that cannot be created. -/
def failing_props : lb_props :=
  { local_worker_only := false, sticky_session := false,
    worker_list := some
      [⟨['A'], 1, none, true, some 7⟩, ⟨['B'], 1, none, false, none⟩,
       ⟨['C'], 1, none, false, some 9⟩],
    alloc_ok := true }

/-- Five records, none local: `B` is on its recovery trial, the others are healthy;
after the increment by the weight `C` and `D` both stand at 4. -/
def weighted_example : lb_worker :=
  { lb_workers :=
      [⟨['A'], ['d'], 1, 1, false, false, false, false, 0, 0⟩,
       ⟨['B'], ['d'], 2, 5, false, false, true, true, 0, 1⟩,
       ⟨['C'], ['d'], 2, 2, false, false, false, false, 0, 2⟩,
       ⟨['D'], ['d'], 1, 3, false, false, false, false, 0, 3⟩,
       ⟨['E'], ['d'], 1, 9, false, false, false, false, 0, 4⟩],
    num_of_workers := 5, num_of_local_workers := 0, in_local_worker_mode := false,
    local_worker_only := false, sticky_session := false, recover_wait_time := 60 }

/-- Member workers that give no endpoint; the other two fields say what an attempt
would have given and are never looked at. -/
def no_endpoint_backend : backend := fun _ _ =>
  { endpoint_ok := false, src := true, is_recoverable := true }

/-- A sticky balancer with a healthy local record `L` and two healthy records `U` and
`V` in the default domain. -/
def default_domain_example : lb_worker :=
  { lb_workers :=
      [⟨['L'], ['d'], 9, 90, true, true, false, false, 0, 0⟩,
       ⟨['U'], "unknown".toList, 1, 1, false, false, false, false, 0, 1⟩,
       ⟨['V'], "unknown".toList, 2, 5, false, false, false, false, 0, 2⟩],
    num_of_workers := 3, num_of_local_workers := 1, in_local_worker_mode := true,
    local_worker_only := false, sticky_session := true, recover_wait_time := 60 }

/-- A request whose path carries the affinity token `xyz123.Z`. -/
def unknown_route_request : jk_ws_service :=
  { req_uri := "/app;jsessionid=xyz123.Z".toList, headers := [] }

/-- A request with two cookie headers whose session cookies `abc` and `def` hold no
`.`. -/
def dotless_request : jk_ws_service :=
  { req_uri := "/app".toList,
    headers :=
      [("Cookie".toList, "JSESSIONID=abc".toList),
       ("Cookie".toList, "JSESSIONID=def".toList)] }

/-- A request whose path ends with the key and `=`, without a value. -/
def empty_param_request : jk_ws_service :=
  { req_uri := "/app;jsessionid=".toList, headers := [] }

/-- A request with one cookie header whose value ends with the cookie name. -/
def bare_cookie_request : jk_ws_service :=
  { req_uri := "/app".toList, headers := [("Cookie".toList, "JSESSIONID".toList)] }

/-- Two healthy records as `validate` leaves them for the weights `2147483647` and `1`. -/
def overflow_example : lb_worker :=
  { lb_workers :=
      [⟨['A'], ['d'], 2147483647, 2147483647, false, false, false, false, 0, 0⟩,
       ⟨['B'], ['d'], 1, 1, false, false, false, false, 0, 1⟩],
    num_of_workers := 2, num_of_local_workers := 0, in_local_worker_mode := false,
    local_worker_only := false, sticky_session := false, recover_wait_time := 60 }

/-- A balancer with one record, marked failed at time 100, with the largest recovery
wait an `int` holds. -/
def long_wait_example : lb_worker :=
  { lb_workers := [⟨['A'], ['d'], 1, 1, false, false, true, false, 100, 0⟩],
    num_of_workers := 1, num_of_local_workers := 0, in_local_worker_mode := false,
    local_worker_only := false, sticky_session := false, recover_wait_time := 2147483647 }

/-! ## The scan loop of `get_suitable_worker` -/

theorem scan_loop_rule {rwt : Int} {sid : Nat} {ss : List Char} {ulf : Bool}
    {clock : Nat → Int} (Inv : Nat → scan_state → Prop) (Post : scan_state → Prop)
    (stop : Nat)
    (hstep : ∀ i st, i < stop → Inv i st → (scan_body rwt sid ss ulf clock i st).2 = false →
      Inv (i + 1) (scan_body rwt sid ss ulf clock i st).1)
    (hbrk : ∀ i st, i < stop → Inv i st → (scan_body rwt sid ss ulf clock i st).2 = true →
      Post (scan_body rwt sid ss ulf clock i st).1)
    (hend : ∀ st, Inv stop st → Post st) :
    ∀ n i st, i + n = stop → Inv i st → Post (scan_loop rwt sid ss ulf clock n i st) := by
  intro n
  induction n with
  | zero =>
    intro i st hn h
    have : i = stop := by omega
    subst this
    simpa [scan_loop] using hend st h
  | succ n ih =>
    intro i st hn h
    rw [scan_loop]
    have h1 := hstep i st (by omega) h
    have h2 := hbrk i st (by omega) h
    rcases hb : scan_body rwt sid ss ulf clock i st with ⟨st1, b⟩
    rw [hb] at h1 h2
    cases b with
    | true => exact h2 rfl
    | false => exact ih (i + 1) st1 (by omega) (h1 rfl)

theorem set_same {α : Type} (l : List α) (i : Nat) (x : α) (h : l[i]? = some x) :
    l.set i x = l := by
  apply List.ext_getElem?
  intro n
  by_cases hn : i = n
  · subst hn
    rw [h]
    have hlt : i < l.length := by
      rcases Nat.lt_or_ge i l.length with h1 | h1
      · exact h1
      · rw [List.getElem?_eq_none h1] at h; cases h
    simp [List.getElem?_set_self, hlt]
  · simp [List.getElem?_set_ne hn]

theorem map_erase_set (ws : List worker_record) (i : Nat) (wr x : worker_record)
    (h : ws[i]? = some wr) (hx : erase_lb x = erase_lb wr) :
    (ws.set i x).map erase_lb = ws.map erase_lb := by
  rw [List.map_set, hx]
  apply set_same
  simp [List.getElem?_map, h]

theorem static_get {ws ws0 : List worker_record} (h : ws.map erase_lb = ws0.map erase_lb)
    {i : Nat} {wr : worker_record} (hi : ws[i]? = some wr) :
    ∃ wr0, ws0[i]? = some wr0 ∧ erase_lb wr0 = erase_lb wr := by
  have h1 : (ws.map erase_lb)[i]? = (ws0.map erase_lb)[i]? := by rw [h]
  simp only [List.getElem?_map, hi, Option.map_some'] at h1
  cases h0 : ws0[i]? with
  | none => rw [h0] at h1; cases h1
  | some wr0 =>
    rw [h0] at h1
    simp only [Option.map_some', Option.some.injEq] at h1
    exact ⟨wr0, rfl, h1.symm⟩

theorem erase_lb_fields {a b : worker_record} (h : erase_lb a = erase_lb b) :
    a.name = b.name ∧ a.domain = b.domain ∧ a.lb_factor = b.lb_factor ∧
    a.is_local_worker = b.is_local_worker ∧ a.is_local_domain = b.is_local_domain ∧
    a.in_error_state = b.in_error_state ∧ a.in_recovering = b.in_recovering ∧
    a.error_time = b.error_time ∧ a.w = b.w := by
  cases a; cases b
  simp only [erase_lb, worker_record.mk.injEq] at h
  simp only
  tauto

theorem is_worker_candidate_congr {a b : worker_record} (h : erase_lb a = erase_lb b)
    (sid : Nat) (ss : List Char) :
    is_worker_candidate a sid ss = is_worker_candidate b sid ss := by
  obtain ⟨h1, h2, -, h4, h5, -⟩ := erase_lb_fields h
  unfold is_worker_candidate
  rw [h1, h2, h4, h5]

/-- The five ways through the loop body of `get_suitable_worker`. -/
theorem scan_body_cases (rwt : Int) (sid : Nat) (ss : List Char) (ulf : Bool)
    (clock : Nat → Int) (i : Nat) (st : scan_state) :
    (scan_body rwt sid ss ulf clock i st = (st, false) ∧
      ∀ wr, st.lb_workers[i]? = some wr → is_worker_candidate wr sid ss = false) ∨
    (∃ wr, st.lb_workers[i]? = some wr ∧ is_worker_candidate wr sid ss = true ∧
      wr.in_error_state = true ∧ wr.in_recovering = true ∧
      scan_body rwt sid ss ulf clock i st =
        (⟨st.lb_workers, st.rc, st.lb_max, st.total_factor, dom_after sid i st.domain_id,
          st.tick⟩, false)) ∨
    (∃ wr, st.lb_workers[i]? = some wr ∧ is_worker_candidate wr sid ss = true ∧
      wr.in_error_state = true ∧ wr.in_recovering = false ∧
      clock st.tick - wr.error_time ≤ rwt ∧
      scan_body rwt sid ss ulf clock i st =
        (⟨st.lb_workers, st.rc, st.lb_max, st.total_factor, dom_after sid i st.domain_id,
          st.tick + 1⟩, false)) ∨
    (∃ wr, st.lb_workers[i]? = some wr ∧ is_worker_candidate wr sid ss = true ∧
      (wr.in_error_state = true → wr.in_recovering = false ∧
        rwt < clock st.tick - wr.error_time) ∧
      ulf = true ∧
      scan_body rwt sid ss ulf clock i st =
        (⟨st.lb_workers.set i { wr with lb_value := wr.lb_value + wr.lb_factor },
          if wr.lb_value + wr.lb_factor > st.lb_max ∨ st.rc = none then some i else st.rc,
          if wr.lb_value + wr.lb_factor > st.lb_max ∨ st.rc = none
            then wr.lb_value + wr.lb_factor else st.lb_max,
          st.total_factor + wr.lb_factor, dom_after sid i st.domain_id,
          tick_after wr st.tick⟩, false)) ∨
    (∃ wr, st.lb_workers[i]? = some wr ∧ is_worker_candidate wr sid ss = true ∧
      (wr.in_error_state = true → wr.in_recovering = false ∧
        rwt < clock st.tick - wr.error_time) ∧
      ulf = false ∧
      scan_body rwt sid ss ulf clock i st =
        (⟨st.lb_workers, some i, st.lb_max, st.total_factor, dom_after sid i st.domain_id,
          tick_after wr st.tick⟩, true)) := by
  unfold scan_body dom_after tick_after
  cases hw : st.lb_workers[i]? with
  | none => left; simp
  | some wr =>
    by_cases hc : is_worker_candidate wr sid ss = true
    swap
    · left; simp [hc]
    right
    by_cases he : wr.in_error_state = true
    · by_cases hr : wr.in_recovering = true
      · left
        refine ⟨wr, rfl, hc, he, hr, ?_⟩
        simp only [hc, if_true]
        by_cases hs : sid = 1 <;> simp [he, hr, hs]
      · right
        have hr' : wr.in_recovering = false := by simpa using hr
        by_cases hq : clock st.tick - wr.error_time ≤ rwt
        · left
          refine ⟨wr, rfl, hc, he, hr', hq, ?_⟩
          simp only [hc, if_true]
          by_cases hs : sid = 1 <;> simp [he, hr', hs, hq]
        · right
          cases ulf with
          | true =>
            left
            refine ⟨wr, rfl, hc, fun _ => ⟨hr', by omega⟩, rfl, ?_⟩
            simp only [hc, if_true]
            by_cases hs : sid = 1 <;>
              by_cases hm : wr.lb_value + wr.lb_factor > st.lb_max ∨ st.rc = none <;>
              simp [he, hr', hs, hq, hm]
          | false =>
            right
            refine ⟨wr, rfl, hc, fun _ => ⟨hr', by omega⟩, rfl, ?_⟩
            simp only [hc, if_true]
            by_cases hs : sid = 1 <;> simp [he, hr', hs, hq]
    · right; right
      have he' : wr.in_error_state = false := by simpa using he
      cases ulf with
      | true =>
        left
        refine ⟨wr, rfl, hc, (fun h => by rw [he'] at h; cases h), rfl, ?_⟩
        simp only [hc, if_true]
        by_cases hs : sid = 1 <;>
          by_cases hm : wr.lb_value + wr.lb_factor > st.lb_max ∨ st.rc = none <;>
          simp [he', hs, hm]
      | false =>
        right
        refine ⟨wr, rfl, hc, (fun h => by rw [he'] at h; cases h), rfl, ?_⟩
        simp only [hc, if_true]
        by_cases hs : sid = 1 <;> simp [he', hs]

theorem trial_ok_congr {a b : worker_record} (h : erase_lb a = erase_lb b) (rwt : Int)
    (clock : Nat → Int) : trial_ok rwt clock a ↔ trial_ok rwt clock b := by
  obtain ⟨-, -, -, -, -, h6, h7, h8, -⟩ := erase_lb_fields h
  unfold trial_ok
  rw [h6, h7, h8]

theorem scan_body_inv {rwt : Int} {sid : Nat} {ss : List Char} {ulf : Bool}
    {clock : Nat → Int} {ws0 : List worker_record} {start : Nat} (i : Nat) (st : scan_state)
    (hi : start ≤ i)
    (h : scan_inv rwt sid ss ulf clock ws0 start i st) :
    scan_inv rwt sid ss ulf clock ws0 start (i + 1) (scan_body rwt sid ss ulf clock i st).1 := by
  have hmono : ∀ st1 : scan_state, st1.lb_workers = st.lb_workers → st1.rc = st.rc →
      st1.total_factor = st.total_factor → scan_inv rwt sid ss ulf clock ws0 start (i + 1) st1 := by
    intro st1 e1 e2 e3
    refine ⟨by rw [e1]; exact h.static, by rw [e1, e2, e3]; exact h.none_same,
      by rw [e1, e3]; exact h.unweighted, ?_⟩
    intro j hj
    rw [e2] at hj
    obtain ⟨a, b, c⟩ := h.rc_ok j hj
    exact ⟨a, by omega, c⟩
  have hnew : ∀ wr, st.lb_workers[i]? = some wr → is_worker_candidate wr sid ss = true →
      (wr.in_error_state = true → wr.in_recovering = false ∧
        rwt < clock st.tick - wr.error_time) →
      ∃ wr0, ws0[i]? = some wr0 ∧ is_worker_candidate wr0 sid ss = true ∧
        trial_ok rwt clock wr0 := by
    intro wr hw hc hel
    obtain ⟨wr0, hwr0, he⟩ := static_get h.static hw
    refine ⟨wr0, hwr0, by rw [is_worker_candidate_congr he]; exact hc, ?_⟩
    rw [trial_ok_congr he]
    intro hes
    exact ⟨(hel hes).1, st.tick, (hel hes).2⟩
  rcases scan_body_cases rwt sid ss ulf clock i st with
    ⟨e, -⟩ | ⟨wr, hw, hc, he, hr, e⟩ | ⟨wr, hw, hc, he, hr, hq, e⟩ |
    ⟨wr, hw, hc, hel, hu, e⟩ | ⟨wr, hw, hc, hel, hu, e⟩ <;> rw [e]
  · exact hmono _ rfl rfl rfl
  · exact hmono _ rfl rfl rfl
  · exact hmono _ rfl rfl rfl
  · refine ⟨?_, ?_, ?_, ?_⟩
    · simp only
      exact (map_erase_set st.lb_workers i wr
        { wr with lb_value := wr.lb_value + wr.lb_factor } hw rfl).trans h.static
    · simp only
      intro hn
      exfalso
      split_ifs at hn with hm
      exact hm (Or.inr hn)
    · intro hf; rw [hu] at hf; cases hf
    · intro j hj
      simp only at hj
      split_ifs at hj with hm
      · cases hj
        exact ⟨hi, by omega, hnew wr hw hc hel⟩
      · obtain ⟨a, b, c⟩ := h.rc_ok j hj
        exact ⟨a, by omega, c⟩
  · refine ⟨h.static, ?_, h.unweighted, ?_⟩
    · intro hn; cases hn
    · intro j hj
      cases hj
      exact ⟨hi, by omega, hnew wr hw hc hel⟩

theorem scan_loop_inv (rwt : Int) (sid : Nat) (ss : List Char) (ulf : Bool)
    (clock : Nat → Int) (ws0 : List worker_record) (start n tick : Nat) :
    scan_inv rwt sid ss ulf clock ws0 start (start + n)
      (scan_loop rwt sid ss ulf clock n start ⟨ws0, none, 0, 0, -1, tick⟩) := by
  refine scan_loop_rule
    (fun i st => start ≤ i ∧ scan_inv rwt sid ss ulf clock ws0 start i st)
    (fun st => scan_inv rwt sid ss ulf clock ws0 start (start + n) st) (start + n)
    ?_ ?_ ?_ n start _ rfl ?_
  · intro i st _ h _
    exact ⟨by omega, scan_body_inv i st h.1 h.2⟩
  · intro i st hi h _
    have h1 := scan_body_inv i st h.1 h.2
    refine ⟨h1.static, h1.none_same, h1.unweighted, ?_⟩
    intro j hj
    obtain ⟨a, b, c⟩ := h1.rc_ok j hj
    exact ⟨a, by omega, c⟩
  · intro st h; exact h.2
  · refine ⟨le_refl _, rfl, fun _ => ⟨rfl, rfl⟩, fun _ => ⟨rfl, rfl⟩, ?_⟩
    intro j hj; cases hj

theorem scan_finish_rc (clock : Nat → Int) (st : scan_state) :
    (scan_finish clock st).rc = st.rc := by
  unfold scan_finish
  cases hr : st.rc with
  | none => simp only [hr]
  | some j =>
    simp only
    cases hw : st.lb_workers[j]? with
    | none => simp only [hr]
    | some wr =>
      simp only
      split_ifs <;> simp only [hr]

theorem scan_finish_domain_id (clock : Nat → Int) (st : scan_state) :
    (scan_finish clock st).domain_id = st.domain_id := by
  unfold scan_finish
  cases hr : st.rc with
  | none => simp only
  | some j =>
    simp only
    cases hw : st.lb_workers[j]? with
    | none => simp only
    | some wr =>
      simp only
      split_ifs <;> simp only

theorem gsw_unfold (p : lb_worker) (sid : Nat) (ss : List Char) (start stop : Nat)
    (ulf : Bool) (clock : Nat → Int) (tick : Nat) :
    get_suitable_worker p sid ss start stop ulf clock tick =
      { p := { p with lb_workers := (scan_finish clock
          (scan_loop p.recover_wait_time sid ss ulf clock (stop - start) start
            ⟨p.lb_workers, none, 0, 0, -1, tick⟩)).lb_workers },
        rc := (scan_loop p.recover_wait_time sid ss ulf clock (stop - start) start
            ⟨p.lb_workers, none, 0, 0, -1, tick⟩).rc,
        domain_id := (scan_loop p.recover_wait_time sid ss ulf clock (stop - start) start
            ⟨p.lb_workers, none, 0, 0, -1, tick⟩).domain_id,
        tick := (scan_finish clock
          (scan_loop p.recover_wait_time sid ss ulf clock (stop - start) start
            ⟨p.lb_workers, none, 0, 0, -1, tick⟩)).tick } := by
  unfold get_suitable_worker
  simp only [JK_ENTER_CS, Bool.true_eq_false, if_false, scan_finish_rc, scan_finish_domain_id]

/-- Facts about one call of `get_suitable_worker`, for any clock. -/
theorem gsw_frame (p : lb_worker) (sid : Nat) (ss : List Char) (start stop : Nat)
    (ulf : Bool) (clock : Nat → Int) (tick : Nat) :
    (get_suitable_worker p sid ss start stop ulf clock tick).p =
      { p with lb_workers := (get_suitable_worker p sid ss start stop ulf clock tick).p.lb_workers } ∧
    ((get_suitable_worker p sid ss start stop ulf clock tick).rc = none →
      (get_suitable_worker p sid ss start stop ulf clock tick).p = p) ∧
    (∀ j, (get_suitable_worker p sid ss start stop ulf clock tick).rc = some j →
      start ≤ j ∧ j < stop ∧ ∃ wr0, p.lb_workers[j]? = some wr0 ∧
        is_worker_candidate wr0 sid ss = true ∧ trial_ok p.recover_wait_time clock wr0 ∧
        ∃ t, (get_suitable_worker p sid ss start stop ulf clock tick).p.lb_workers.map erase_lb =
            (p.lb_workers.set j (mark_trial (clock t) wr0)).map erase_lb ∧
          (ulf = false →
            (get_suitable_worker p sid ss start stop ulf clock tick).p.lb_workers =
              p.lb_workers.set j (mark_trial (clock t) wr0))) := by
  have hinv := scan_loop_inv p.recover_wait_time sid ss ulf clock p.lb_workers start
    (stop - start) tick
  rw [gsw_unfold]
  generalize scan_loop p.recover_wait_time sid ss ulf clock (stop - start) start
    ⟨p.lb_workers, none, 0, 0, -1, tick⟩ = st at hinv
  refine ⟨rfl, ?_, ?_⟩
  · intro hrc
    simp only at hrc
    have hl := (hinv.none_same hrc).1
    unfold scan_finish
    rw [hrc]
    simp only [hl]
  · intro j hrc
    simp only at hrc
    obtain ⟨h1, h2, wr0, hw0, hc, ht⟩ := hinv.rc_ok j hrc
    refine ⟨h1, by omega, wr0, hw0, hc, ht, ?_⟩
    have hw0' : (p.lb_workers.map erase_lb)[j]? = some (erase_lb wr0) := by
      simp [List.getElem?_map, hw0]
    obtain ⟨wr, hw, he⟩ : ∃ wr, st.lb_workers[j]? = some wr ∧ erase_lb wr = erase_lb wr0 := by
      have h3 : (st.lb_workers.map erase_lb)[j]? = some (erase_lb wr0) := by
        rw [hinv.static]; exact hw0'
      simp only [List.getElem?_map] at h3
      cases hw : st.lb_workers[j]? with
      | none => rw [hw] at h3; cases h3
      | some wr =>
        rw [hw] at h3
        simp only [Option.map_some', Option.some.injEq] at h3
        exact ⟨wr, rfl, h3⟩
    have hf := erase_lb_fields he
    refine ⟨st.tick, ?_, ?_⟩
    · unfold scan_finish
      rw [hrc]; simp only [hw]
      split_ifs with hes
      · simp only [List.map_set]
        rw [hinv.static]
        congr 1
        have : wr0.in_error_state = true := by rw [← hes]; exact hf.2.2.2.2.2.1.symm
        simp only [mark_trial, this, if_true]
        cases wr; cases wr0
        simp only [erase_lb, worker_record.mk.injEq] at he ⊢
        tauto
      · simp only [List.map_set]
        rw [hinv.static]
        congr 1
        have : wr0.in_error_state = false := by
          rw [hf.2.2.2.2.2.1] at hes; simpa using hes
        simp only [mark_trial, this]
        exact he
    · intro hu
      obtain ⟨hl, htf⟩ := hinv.unweighted hu
      have hwr : wr = wr0 := by rw [hl, hw0] at hw; exact (Option.some.inj hw).symm
      subst hwr
      unfold scan_finish
      rw [hrc]; simp only [hw]
      simp only [htf, sub_zero, hl]
      unfold mark_trial
      split_ifs <;> rfl

/-! ## The scan at a fixed clock value -/

theorem eligible_iff (rwt now : Int) (wr : worker_record) :
    eligible rwt now wr = true ↔
      (wr.in_error_state = true → wr.in_recovering = false ∧ rwt < now - wr.error_time) := by
  unfold eligible
  cases wr.in_error_state <;> cases wr.in_recovering <;> simp

theorem selectable_of_get {rwt now : Int} {sid : Nat} {ss : List Char}
    {ws : List worker_record} {k : Nat} {wr : worker_record} (h : ws[k]? = some wr) :
    selectable rwt now sid ss ws k = (is_worker_candidate wr sid ss && eligible rwt now wr) := by
  unfold selectable; rw [h]

theorem selectable_lt {rwt now : Int} {sid : Nat} {ss : List Char}
    {ws : List worker_record} {k : Nat} (h : selectable rwt now sid ss ws k = true) :
    k < ws.length := by
  unfold selectable at h
  rcases Nat.lt_or_ge k ws.length with h1 | h1
  · exact h1
  · rw [List.getElem?_eq_none h1] at h; cases h

/-- Outcome of the loop of an unweighted scan at clock value `now`: either nothing is
selectable in the range and `rc` is null, or `rc` is the first selectable index. -/
theorem scan_unweighted (rwt now : Int) (sid : Nat) (ss : List Char)
    (ws0 : List worker_record) (start n tick : Nat) :
    ((scan_loop rwt sid ss false (fun _ => now) n start ⟨ws0, none, 0, 0, -1, tick⟩).rc = none ∧
      ∀ k, start ≤ k → k < start + n → selectable rwt now sid ss ws0 k = false) ∨
    (∃ j, (scan_loop rwt sid ss false (fun _ => now) n start ⟨ws0, none, 0, 0, -1, tick⟩).rc
        = some j ∧ start ≤ j ∧ j < start + n ∧ selectable rwt now sid ss ws0 j = true ∧
      ∀ k, start ≤ k → k < j → selectable rwt now sid ss ws0 k = false) := by
  refine scan_loop_rule
    (fun i st => start ≤ i ∧ st.lb_workers = ws0 ∧ st.rc = none ∧
      ∀ k, start ≤ k → k < i → selectable rwt now sid ss ws0 k = false)
    (fun st => (st.rc = none ∧
        ∀ k, start ≤ k → k < start + n → selectable rwt now sid ss ws0 k = false) ∨
      (∃ j, st.rc = some j ∧ start ≤ j ∧ j < start + n ∧
        selectable rwt now sid ss ws0 j = true ∧
        ∀ k, start ≤ k → k < j → selectable rwt now sid ss ws0 k = false))
    (start + n) ?_ ?_ ?_ n start _ rfl ⟨le_refl _, rfl, rfl, fun k h1 h2 => by omega⟩
  · intro i st _ ⟨h1, h2, h3, h4⟩ hb
    have hext : selectable rwt now sid ss ws0 i = false →
        ∀ k, start ≤ k → k < i + 1 → selectable rwt now sid ss ws0 k = false := by
      intro hi k hk1 hk2
      rcases Nat.lt_or_ge k i with hlt | hge
      · exact h4 k hk1 hlt
      · have : k = i := by omega
        rw [this]; exact hi
    rcases scan_body_cases rwt sid ss false (fun _ => now) i st with
      ⟨e, hn⟩ | ⟨wr, hw, hc, he, hr, e⟩ | ⟨wr, hw, hc, he, hr, hq, e⟩ |
      ⟨wr, hw, hc, hel, hu, e⟩ | ⟨wr, hw, hc, hel, hu, e⟩
    · rw [e]
      refine ⟨by omega, h2, h3, hext ?_⟩
      unfold selectable
      rw [← h2]
      cases hw : st.lb_workers[i]? with
      | none => rfl
      | some wr => simp [hn wr hw]
    · rw [e]
      refine ⟨by omega, h2, h3, hext ?_⟩
      rw [h2] at hw
      rw [selectable_of_get hw]
      simp [eligible, he, hr]
    · rw [e]
      refine ⟨by omega, h2, h3, hext ?_⟩
      rw [h2] at hw
      rw [selectable_of_get hw]
      have : ¬ rwt < now - wr.error_time := by omega
      simp [eligible, he, this]
    · cases hu
    · rw [e] at hb; cases hb
  · intro i st hi ⟨h1, h2, h3, h4⟩ hb
    rcases scan_body_cases rwt sid ss false (fun _ => now) i st with
      ⟨e, hn⟩ | ⟨wr, hw, hc, he, hr, e⟩ | ⟨wr, hw, hc, he, hr, hq, e⟩ |
      ⟨wr, hw, hc, hel, hu, e⟩ | ⟨wr, hw, hc, hel, hu, e⟩
    · rw [e] at hb; cases hb
    · rw [e] at hb; cases hb
    · rw [e] at hb; cases hb
    · cases hu
    · rw [e]
      right
      refine ⟨i, rfl, h1, hi, ?_, h4⟩
      rw [h2] at hw
      rw [selectable_of_get hw, hc, (eligible_iff rwt now wr).2 hel]
      rfl
  · intro st ⟨_, _, h3, h4⟩
    exact Or.inl ⟨h3, h4⟩

theorem weighted_inv_skip {rwt now : Int} {sid : Nat} {ss : List Char}
    {ws0 : List worker_record} {start i : Nat} {st st1 : scan_state}
    (h : weighted_inv rwt now sid ss ws0 start i st)
    (hsel : selectable rwt now sid ss ws0 i = false)
    (e1 : st1.lb_workers = st.lb_workers) (e2 : st1.rc = st.rc) (e3 : st1.lb_max = st.lb_max)
    (e4 : st1.total_factor = st.total_factor) :
    weighted_inv rwt now sid ss ws0 start (i + 1) st1 := by
  have hs := h.start_le
  have hk : ∀ k, (start ≤ k ∧ k < i + 1 ∧ selectable rwt now sid ss ws0 k = true) ↔
      (start ≤ k ∧ k < i ∧ selectable rwt now sid ss ws0 k = true) := by
    intro k
    constructor
    · rintro ⟨a, b, c⟩
      refine ⟨a, ?_, c⟩
      rcases Nat.lt_or_ge k i with hlt | hge
      · exact hlt
      · have : k = i := by omega
        rw [this, hsel] at c; cases c
    · rintro ⟨a, b, c⟩
      exact ⟨a, by omega, c⟩
  refine ⟨by omega, ?_, ?_, ?_, ?_⟩
  · intro k
    rw [e1, h.vals k]
    simp only [hk k]
  · rw [e4, h.total]
    have : i + 1 - start = (i - start) + 1 := by omega
    rw [this, weight_sum]
    have h2 : start + (i - start) = i := by omega
    rw [h2]
    cases hw : ws0[i]? with
    | none => simp
    | some wr => simp [hsel]
  · intro hn k hk1 hk2
    rw [e2] at hn
    rcases Nat.lt_or_ge k i with hlt | hge
    · exact h.rc_none hn k hk1 hlt
    · have : k = i := by omega
      rw [this]; exact hsel
  · intro j hj
    rw [e2] at hj
    obtain ⟨a, b, wj, hwj, hsj, hmax, hall⟩ := h.rc_max j hj
    refine ⟨a, by omega, wj, hwj, hsj, by rw [e3]; exact hmax, ?_⟩
    intro k wk hk1 hk2 hwk hsk
    rw [e3]
    rcases Nat.lt_or_ge k i with hlt | hge
    · exact hall k wk hk1 hlt hwk hsk
    · have : k = i := by omega
      rw [this, hsel] at hsk; cases hsk

theorem weighted_inv_step {rwt now : Int} {sid : Nat} {ss : List Char}
    {ws0 : List worker_record} {start : Nat} (i : Nat) (st : scan_state)
    (h : weighted_inv rwt now sid ss ws0 start i st) :
    weighted_inv rwt now sid ss ws0 start (i + 1)
      (scan_body rwt sid ss true (fun _ => now) i st).1 := by
  have hs := h.start_le
  have hcur : st.lb_workers[i]? = ws0[i]? := by
    rw [h.vals i]
    cases ws0[i]? with
    | none => rfl
    | some wr =>
      have : ¬ (start ≤ i ∧ i < i ∧ selectable rwt now sid ss ws0 i = true) := by
        rintro ⟨-, b, -⟩; omega
      simp only [Option.map_some', this, if_false]
  rcases scan_body_cases rwt sid ss true (fun _ => now) i st with
    ⟨e, hn⟩ | ⟨wr, hw, hc, he, hr, e⟩ | ⟨wr, hw, hc, he, hr, hq, e⟩ |
    ⟨wr, hw, hc, hel, hu, e⟩ | ⟨wr, hw, hc, hel, hu, e⟩
  · rw [e]
    refine weighted_inv_skip h ?_ rfl rfl rfl rfl
    unfold selectable
    rw [← hcur]
    cases hw : st.lb_workers[i]? with
    | none => rfl
    | some wr => simp [hn wr hw]
  · rw [e]
    refine weighted_inv_skip h ?_ rfl rfl rfl rfl
    rw [hcur] at hw
    rw [selectable_of_get hw]
    simp [eligible, he, hr]
  · rw [e]
    refine weighted_inv_skip h ?_ rfl rfl rfl rfl
    rw [hcur] at hw
    rw [selectable_of_get hw]
    have : ¬ rwt < now - wr.error_time := by omega
    simp [eligible, he, this]
  · rw [e]
    rw [hcur] at hw
    have hsel : selectable rwt now sid ss ws0 i = true := by
      rw [selectable_of_get hw, hc, (eligible_iff rwt now wr).2 hel]; rfl
    have hlen : i < st.lb_workers.length := by
      rcases Nat.lt_or_ge i st.lb_workers.length with h1 | h1
      · exact h1
      · have := List.getElem?_eq_none h1
        rw [hcur, hw] at this; cases this
    refine ⟨by omega, ?_, ?_, ?_, ?_⟩
    · intro k
      simp only
      by_cases hki : i = k
      · subst hki
        rw [List.getElem?_set_self hlen, hw]
        have : start ≤ i ∧ i < i + 1 ∧ selectable rwt now sid ss ws0 i = true :=
          ⟨hs, by omega, hsel⟩
        simp only [Option.map_some', this, and_self, if_true]
        rfl
      · rw [List.getElem?_set_ne hki, h.vals k]
        have hiff : (start ≤ k ∧ k < i + 1 ∧ selectable rwt now sid ss ws0 k = true) ↔
            (start ≤ k ∧ k < i ∧ selectable rwt now sid ss ws0 k = true) := by
          constructor
          · rintro ⟨a, b, c⟩; exact ⟨a, by omega, c⟩
          · rintro ⟨a, b, c⟩; exact ⟨a, by omega, c⟩
        simp only [hiff]
    · simp only
      rw [h.total]
      have : i + 1 - start = (i - start) + 1 := by omega
      rw [this, weight_sum]
      have h2 : start + (i - start) = i := by omega
      rw [h2, hw]
      simp [hsel]
    · simp only
      intro hn
      exfalso
      split_ifs at hn with hm
      exact hm (Or.inr hn)
    · intro j hj
      simp only at hj ⊢
      split_ifs at hj with hm
      · cases hj
        simp only [hm, if_true]
        refine ⟨hs, by omega, wr, hw, hsel, rfl, ?_⟩
        intro k wk hk1 hk2 hwk hsk
        rcases Nat.lt_or_ge k i with hlt | hge
        · rcases hm with hm | hm
          · cases hrc : st.rc with
            | none => rw [h.rc_none hrc k hk1 hlt] at hsk; cases hsk
            | some j0 =>
              obtain ⟨-, -, wj, -, -, hmax, hall⟩ := h.rc_max j0 hrc
              have := (hall k wk hk1 hlt hwk hsk).1
              exact ⟨by omega, fun _ => by omega⟩
          · rw [h.rc_none hm k hk1 hlt] at hsk; cases hsk
        · have hke : k = i := by omega
          subst hke
          rw [hw] at hwk
          cases hwk
          exact ⟨le_refl _, fun hlt => by omega⟩
      · simp only [hm, if_false]
        obtain ⟨a, b, wj, hwj, hsj, hmax, hall⟩ := h.rc_max j hj
        refine ⟨a, by omega, wj, hwj, hsj, hmax, ?_⟩
        intro k wk hk1 hk2 hwk hsk
        rcases Nat.lt_or_ge k i with hlt | hge
        · exact hall k wk hk1 hlt hwk hsk
        · have hke : k = i := by omega
          subst hke
          rw [hw] at hwk
          cases hwk
          push_neg at hm
          exact ⟨by omega, fun hlt => by omega⟩
  · cases hu

/-- Outcome of the loop of a weighted scan at clock value `now`. -/
theorem scan_weighted (rwt now : Int) (sid : Nat) (ss : List Char)
    (ws0 : List worker_record) (start n tick : Nat) :
    weighted_inv rwt now sid ss ws0 start (start + n)
      (scan_loop rwt sid ss true (fun _ => now) n start ⟨ws0, none, 0, 0, -1, tick⟩) := by
  refine scan_loop_rule
    (fun i st => weighted_inv rwt now sid ss ws0 start i st)
    (fun st => weighted_inv rwt now sid ss ws0 start (start + n) st) (start + n)
    ?_ ?_ ?_ n start _ rfl ?_
  · intro i st _ h _
    exact weighted_inv_step i st h
  · intro i st _ h hb
    exfalso
    rcases scan_body_cases rwt sid ss true (fun _ => now) i st with
      ⟨e, hn⟩ | ⟨wr, hw, hc, he, hr, e⟩ | ⟨wr, hw, hc, he, hr, hq, e⟩ |
      ⟨wr, hw, hc, hel, hu, e⟩ | ⟨wr, hw, hc, hel, hu, e⟩
    · rw [e] at hb; cases hb
    · rw [e] at hb; cases hb
    · rw [e] at hb; cases hb
    · rw [e] at hb; cases hb
    · cases hu
  · intro st h; exact h
  · refine ⟨le_refl _, ?_, ?_, ?_, ?_⟩
    · intro k
      simp only
      cases ws0[k]? with
      | none => rfl
      | some wr =>
        have : ¬ (start ≤ k ∧ k < start ∧ selectable rwt now sid ss ws0 k = true) := by
          rintro ⟨a, b, -⟩; omega
        simp only [Option.map_some', this, if_false]
    · simp [weight_sum]
    · intro _ k h1 h2; omega
    · intro j hj; cases hj

/-! ## `get_suitable_worker` at a fixed clock value -/

theorem gsw_rc (p : lb_worker) (sid : Nat) (ss : List Char) (start stop : Nat)
    (ulf : Bool) (clock : Nat → Int) (tick : Nat) :
    (get_suitable_worker p sid ss start stop ulf clock tick).rc =
      (scan_loop p.recover_wait_time sid ss ulf clock (stop - start) start
        ⟨p.lb_workers, none, 0, 0, -1, tick⟩).rc := by
  rw [gsw_unfold]

/-- At a fixed clock value a scan returns nothing exactly when no index of the range is
selectable. -/
theorem gsw_rc_none_iff (p : lb_worker) (sid : Nat) (ss : List Char) (start stop : Nat)
    (ulf : Bool) (now : Int) (tick : Nat) :
    (get_suitable_worker p sid ss start stop ulf (fun _ => now) tick).rc = none ↔
      ∀ k, start ≤ k → k < stop →
        selectable p.recover_wait_time now sid ss p.lb_workers k = false := by
  rw [gsw_rc]
  cases ulf with
  | false =>
    rcases scan_unweighted p.recover_wait_time now sid ss p.lb_workers start (stop - start) tick
      with ⟨h1, h2⟩ | ⟨j, h1, h2, h3, h4, -⟩
    · exact ⟨fun _ k hk1 hk2 => h2 k hk1 (by omega), fun _ => h1⟩
    · constructor
      · intro hn; rw [h1] at hn; cases hn
      · intro hall
        rw [hall j h2 (by omega)] at h4; cases h4
  | true =>
    have h := scan_weighted p.recover_wait_time now sid ss p.lb_workers start (stop - start) tick
    constructor
    · intro hn k hk1 hk2
      exact h.rc_none hn k hk1 (by omega)
    · intro hall
      cases hrc : (scan_loop p.recover_wait_time sid ss true (fun _ => now) (stop - start) start
        ⟨p.lb_workers, none, 0, 0, -1, tick⟩).rc with
      | none => rfl
      | some j =>
        obtain ⟨a, b, wj, -, hsj, -⟩ := h.rc_max j hrc
        rw [hall j a (by omega)] at hsj; cases hsj

/-- At a fixed clock value the index a scan returns lies in the range and is
selectable. -/
theorem gsw_rc_selectable (p : lb_worker) (sid : Nat) (ss : List Char) (start stop : Nat)
    (ulf : Bool) (now : Int) (tick : Nat) (j : Nat)
    (h : (get_suitable_worker p sid ss start stop ulf (fun _ => now) tick).rc = some j) :
    start ≤ j ∧ j < stop ∧ selectable p.recover_wait_time now sid ss p.lb_workers j = true := by
  rw [gsw_rc] at h
  cases ulf with
  | false =>
    rcases scan_unweighted p.recover_wait_time now sid ss p.lb_workers start (stop - start) tick
      with ⟨h1, h2⟩ | ⟨j1, h1, h2, h3, h4, -⟩
    · rw [h1] at h; cases h
    · rw [h1] at h; cases h
      exact ⟨h2, by omega, h4⟩
  | true =>
    have hw := scan_weighted p.recover_wait_time now sid ss p.lb_workers start (stop - start) tick
    obtain ⟨a, b, wj, -, hsj, -⟩ := hw.rc_max j h
    exact ⟨a, by omega, hsj⟩

/-- An unweighted scan at a fixed clock value returns the first selectable index. -/
theorem gsw_unweighted_first (p : lb_worker) (sid : Nat) (ss : List Char) (start stop : Nat)
    (now : Int) (tick : Nat) (j : Nat)
    (h : (get_suitable_worker p sid ss start stop false (fun _ => now) tick).rc = some j) :
    ∀ k, start ≤ k → k < j → selectable p.recover_wait_time now sid ss p.lb_workers k = false := by
  rw [gsw_rc] at h
  rcases scan_unweighted p.recover_wait_time now sid ss p.lb_workers start (stop - start) tick
    with ⟨h1, h2⟩ | ⟨j1, h1, h2, h3, h4, h5⟩
  · rw [h1] at h; cases h
  · rw [h1] at h; cases h
    exact h5

/-! ## Session routes -/

theorem strchr_append (a b : List Char) (c : Char) (h : c ∉ a) :
    strchr (a ++ c :: b) c = some a.length := by
  induction a with
  | nil => simp [strchr]
  | cons x t ih =>
    have hx : x ≠ c := fun e => h (by rw [e]; exact List.mem_cons_self _ _)
    have ht : c ∉ t := fun e => h (List.mem_cons_of_mem _ e)
    simp [strchr, hx, ih ht]

theorem session_parts_single (l : List Char) (h : ';' ∉ l) : session_parts l = [l] := by
  induction l with
  | nil => rfl
  | cons x t ih =>
    have hx : x ≠ ';' := fun e => h (by rw [e]; exact List.mem_cons_self _ _)
    have ht : ';' ∉ t := fun e => h (List.mem_cons_of_mem _ e)
    simp [session_parts, hx, ih ht]

theorem drop_route (a b : List Char) (c : Char) : (a ++ c :: b).drop (a.length + 1) = b := by
  induction a with
  | nil => rfl
  | cons x t ih => simp [ih]

/-- The record a weighted scan returns at a fixed clock value has the largest load
counter after the increment by its weight among the selectable records of the range,
and is the first such record. -/
theorem gsw_weighted_max (p : lb_worker) (sid : Nat) (ss : List Char) (start stop : Nat)
    (now : Int) (tick : Nat) (j : Nat) (wj : worker_record)
    (h : (get_suitable_worker p sid ss start stop true (fun _ => now) tick).rc = some j)
    (hwj : p.lb_workers[j]? = some wj) :
    ∀ k wk, start ≤ k → k < stop → p.lb_workers[k]? = some wk →
      selectable p.recover_wait_time now sid ss p.lb_workers k = true →
      wk.lb_value + wk.lb_factor ≤ wj.lb_value + wj.lb_factor ∧
      (k < j → wk.lb_value + wk.lb_factor < wj.lb_value + wj.lb_factor) := by
  rw [gsw_rc] at h
  have hw := scan_weighted p.recover_wait_time now sid ss p.lb_workers start (stop - start) tick
  obtain ⟨-, -, wj1, hwj1, -, hmax, hall⟩ := hw.rc_max j h
  rw [hwj] at hwj1
  cases hwj1
  intro k wk hk1 hk2 hwk hsk
  rw [← hmax]
  exact hall k wk hk1 (by omega) hwk hsk

theorem names_unique_of_nodup (ws : List worker_record)
    (h : (ws.map (fun wr => wr.name)).Nodup) : names_unique ws := by
  intro a b wa wb ha hb hn
  have hlt : a < (ws.map (fun wr => wr.name)).length := by
    rw [List.length_map]
    rcases Nat.lt_or_ge a ws.length with h1 | h1
    · exact h1
    · rw [List.getElem?_eq_none h1] at ha; cases ha
  apply List.getElem?_inj hlt h
  simp [List.getElem?_map, ha, hb, hn]

theorem gsw_sel_post (p : lb_worker) (sid : Nat) (ss : List Char) (start stop : Nat)
    (ulf : Bool) (clock : Nat → Int) (tick : Nat) :
    sel_post clock p (get_suitable_worker p sid ss start stop ulf clock tick).p
      (get_suitable_worker p sid ss start stop ulf clock tick).rc := by
  obtain ⟨h1, h2, h3⟩ := gsw_frame p sid ss start stop ulf clock tick
  refine ⟨h1, h2, ?_⟩
  intro j hj
  obtain ⟨-, -, wr0, hw0, -, ht, t, he, -⟩ := h3 j hj
  exact ⟨wr0, hw0, ht, t, he⟩

theorem sel_post_of_none {clock : Nat → Int} {p p1 p2 : lb_worker} {rc : Option Nat}
    (h1 : p1 = p) (h2 : sel_post clock p1 p2 rc) : sel_post clock p p2 rc := by
  subst h1; exact h2

theorem route_no_session_post (p : lb_worker) (clock : Nat → Int) (tick : Nat) :
    sel_post clock p (route_no_session p clock tick).p (route_no_session p clock tick).rc := by
  unfold route_no_session
  have g3 := gsw_sel_post p 3 "any".toList 0 p.num_of_local_workers true clock tick
  have g5 := gsw_sel_post p 5 "any".toList p.num_of_local_workers p.num_of_workers true
    clock tick
  by_cases h0 : p.num_of_local_workers ≠ 0
  · rw [if_pos h0]
    dsimp only
    by_cases h3 : (get_suitable_worker p 3 "any".toList 0 p.num_of_local_workers true clock
        tick).rc = none
    · have e3 := g3.2.1 h3
      have n3 : ¬ (get_suitable_worker p 3 "any".toList 0 p.num_of_local_workers true clock
        tick).rc ≠ none := fun h => h h3
      rw [if_neg n3, e3]
      generalize (get_suitable_worker p 3 "any".toList 0 p.num_of_local_workers true clock
        tick).tick = t3
      by_cases hl : p.local_worker_only = true
      · rw [if_pos hl]
        exact ⟨rfl, fun _ => rfl, fun j hj => by cases hj⟩
      · rw [if_neg hl]
        have g4 := gsw_sel_post p 4 "any".toList p.num_of_local_workers p.num_of_workers true
          clock t3
        by_cases h4 : (get_suitable_worker p 4 "any".toList p.num_of_local_workers
            p.num_of_workers true clock t3).rc = none
        · have e4 := g4.2.1 h4
          have n4 : ¬ (get_suitable_worker p 4 "any".toList p.num_of_local_workers
            p.num_of_workers true clock t3).rc ≠ none := fun h => h h4
          rw [if_neg n4, e4]
          exact gsw_sel_post p 5 "any".toList p.num_of_local_workers p.num_of_workers true
            clock _
        · rw [if_pos h4]
          exact g4
    · rw [if_pos h3]
      exact g3
  · rw [if_neg h0]
    exact g5

theorem route_session_post (k : jk_consts) (clock : Nat → Int) (parts : List (List Char)) :
    ∀ (p : lb_worker) (tick : Nat),
      sel_post clock p (route_session k clock parts p tick).p
        (route_session k clock parts p tick).rc := by
  induction parts with
  | nil => intro p tick; exact route_no_session_post p clock tick
  | cons part rest ih =>
    intro p tick
    rw [route_session]
    cases hd : strchr part '.' with
    | none => exact ih p tick
    | some dot =>
      dsimp only
      have g1 := gsw_sel_post p 1 (part.drop (dot + 1)) 0 p.num_of_workers false clock tick
      by_cases h1 : (get_suitable_worker p 1 (part.drop (dot + 1)) 0 p.num_of_workers false
          clock tick).rc = none
      · have e1 := g1.2.1 h1
        have n1 : ¬ (get_suitable_worker p 1 (part.drop (dot + 1)) 0 p.num_of_workers false
          clock tick).rc ≠ none := fun h => h h1
        rw [if_neg n1, e1]
        generalize (get_suitable_worker p 1 (part.drop (dot + 1)) 0 p.num_of_workers false
          clock tick).tick = t1
        generalize (get_suitable_worker p 1 (part.drop (dot + 1)) 0 p.num_of_workers false
          clock tick).domain_id = d1
        generalize (if 0 ≤ d1 ∧ d1 < (p.num_of_workers : Int) then
            match p.lb_workers[d1.toNat]? with
            | some wr => wr.domain
            | none => k.JK_LB_DEF_DOMAIN_NAME
          else k.JK_LB_DEF_DOMAIN_NAME) = dom
        have g2 := gsw_sel_post p 2 dom 0 p.num_of_workers true clock t1
        by_cases h2 : (get_suitable_worker p 2 dom 0 p.num_of_workers true clock t1).rc = none
        · have e2 := g2.2.1 h2
          have n2 : ¬ (get_suitable_worker p 2 dom 0 p.num_of_workers true clock t1).rc ≠ none :=
            fun h => h h2
          rw [if_neg n2, e2]
          exact ih p _
        · rw [if_pos h2]
          exact g2
      · rw [if_pos h1]
        exact g1

/-- Facts about one call of `get_most_suitable_worker`, for any clock. -/
theorem gmsw_sel_post (k : jk_consts) (p : lb_worker) (s : jk_ws_service)
    (clock : Nat → Int) (tick : Nat) :
    sel_post clock p (get_most_suitable_worker k p s clock tick).p
      (get_most_suitable_worker k p s clock tick).rc := by
  unfold get_most_suitable_worker
  simp only
  cases (if p.sticky_session = true then get_sessionid k s else none) with
  | none => exact route_no_session_post p clock tick
  | some sid => exact route_session_post k clock _ p tick

theorem getElem?_lt_of_some {α : Type} {l : List α} {i : Nat} {x : α} (h : l[i]? = some x) :
    i < l.length := by
  rcases Nat.lt_or_ge i l.length with h1 | h1
  · exact h1
  · rw [List.getElem?_eq_none h1] at h; cases h

/-- Reading of `sel_post` index by index. -/
theorem sel_post_get {clock : Nat → Int} {p p1 : lb_worker} {j : Nat}
    (h : sel_post clock p p1 (some j)) :
    ∃ wr0 wr1 t, p.lb_workers[j]? = some wr0 ∧ trial_ok p.recover_wait_time clock wr0 ∧
      p1.lb_workers[j]? = some wr1 ∧ erase_lb wr1 = erase_lb (mark_trial (clock t) wr0) ∧
      (∀ m : Nat, m ≠ j →
        (p1.lb_workers[m]?).map erase_lb = (p.lb_workers[m]?).map erase_lb) ∧
      p1.lb_workers.length = p.lb_workers.length := by
  obtain ⟨wr0, hw0, ht, t, he⟩ := h.2.2 j rfl
  have hj := getElem?_lt_of_some hw0
  have hget : ∀ m : Nat, (p1.lb_workers[m]?).map erase_lb =
      ((p.lb_workers.set j (mark_trial (clock t) wr0))[m]?).map erase_lb := by
    intro m
    rw [← List.getElem?_map, ← List.getElem?_map, he]
  have hlen : p1.lb_workers.length = p.lb_workers.length := by
    have := congrArg List.length he
    simpa using this
  have hj1 := hget j
  rw [List.getElem?_set_self hj] at hj1
  cases hw1 : p1.lb_workers[j]? with
  | none => rw [hw1] at hj1; cases hj1
  | some wr1 =>
    rw [hw1] at hj1
    simp only [Option.map_some', Option.some.injEq] at hj1
    refine ⟨wr0, wr1, t, hw0, ht, rfl, hj1, ?_, hlen⟩
    intro m hm
    rw [hget m, List.getElem?_set_ne (Ne.symm hm)]

/-! ## The dispatch loop -/

theorem service_body_none (k : jk_consts) (s : jk_ws_service) (be : backend)
    (clock : Nat → Int) (st : service_state)
    (h : (get_most_suitable_worker k st.p s clock st.tick).rc = none) :
    service_body k s be clock st =
      (⟨st.p, st.attempt + 1, (get_most_suitable_worker k st.p s clock st.tick).tick,
        st.jvm_route, st.tried, st.forwarded⟩, some false) := by
  have hp := (gmsw_sel_post k st.p s clock st.tick).2.1 h
  unfold service_body
  simp only [h, hp]

theorem service_body_some (k : jk_consts) (s : jk_ws_service) (be : backend)
    (clock : Nat → Int) (st : service_state) (i : Nat) (wr : worker_record)
    (h : (get_most_suitable_worker k st.p s clock st.tick).rc = some i)
    (hw : (get_most_suitable_worker k st.p s clock st.tick).p.lb_workers[i]? = some wr) :
    service_body k s be clock st =
      if (be st.attempt i).endpoint_ok = true ∧ (be st.attempt i).src = true then
        (⟨{ (get_most_suitable_worker k st.p s clock st.tick).p with
            lb_workers := (get_most_suitable_worker k st.p s clock st.tick).p.lb_workers.set i
              { wr with in_error_state := false, in_recovering := false, error_time := 0 } },
          st.attempt + 1, (get_most_suitable_worker k st.p s clock st.tick).tick,
          some wr.name, st.tried ++ [i], st.forwarded ++ [i]⟩, some true)
      else
        (⟨{ (get_most_suitable_worker k st.p s clock st.tick).p with
            lb_workers := (get_most_suitable_worker k st.p s clock st.tick).p.lb_workers.set i
              { wr with in_error_state := true, in_recovering := false,
                        error_time := clock (get_most_suitable_worker k st.p s clock st.tick).tick } },
          st.attempt + 1, (get_most_suitable_worker k st.p s clock st.tick).tick + 1,
          some wr.name, st.tried ++ [i],
          if (be st.attempt i).endpoint_ok = true then st.forwarded ++ [i] else st.forwarded⟩,
          if ((be st.attempt i).endpoint_ok && (be st.attempt i).is_recoverable) = false
            then some false else none) := by
  unfold service_body
  simp only [h, hw]
  by_cases hc : (be st.attempt i).endpoint_ok = true ∧ (be st.attempt i).src = true
  · rw [if_pos hc, if_pos hc]
    simp [hc.1]
  · rw [if_neg hc, if_neg hc]
    by_cases hr : ((be st.attempt i).endpoint_ok && (be st.attempt i).is_recoverable) = false
    · rw [if_pos hr, if_pos hr]
    · rw [if_neg hr, if_neg hr]

/-- The record that a selection returns is there in the registry it leaves. -/
theorem gmsw_some_get (k : jk_consts) (p : lb_worker) (s : jk_ws_service)
    (clock : Nat → Int) (tick : Nat) (i : Nat)
    (h : (get_most_suitable_worker k p s clock tick).rc = some i) :
    ∃ wr, (get_most_suitable_worker k p s clock tick).p.lb_workers[i]? = some wr := by
  have hp := gmsw_sel_post k p s clock tick
  rw [h] at hp
  obtain ⟨_, wr1, _, _, _, h1, _⟩ := sel_post_get hp
  exact ⟨wr1, h1⟩

/-- Under any clock, a scan whose range holds a candidate that is not in error state
returns a record. -/
theorem gsw_healthy_some (p : lb_worker) (sid : Nat) (ss : List Char) (start stop : Nat)
    (ulf : Bool) (clock : Nat → Int) (tick : Nat) (b : Nat) (wb : worker_record)
    (h1 : start ≤ b) (h2 : b < stop) (hwb : p.lb_workers[b]? = some wb)
    (hc : is_worker_candidate wb sid ss = true) (hh : wb.in_error_state = false) :
    (get_suitable_worker p sid ss start stop ulf clock tick).rc ≠ none := by
  rw [gsw_rc]
  refine @scan_loop_rule p.recover_wait_time sid ss ulf clock
    (fun i st => start ≤ i ∧ st.lb_workers.map erase_lb = p.lb_workers.map erase_lb ∧
      (b < i → st.rc ≠ none))
    (fun st => st.rc ≠ none) (start + (stop - start))
    ?_ ?_ ?_ (stop - start) start _ rfl ⟨le_refl _, rfl, fun h => by omega⟩
  · intro i st _ ⟨hs, hst, hb⟩ _
    have hat : i = b → ∀ wr, st.lb_workers[i]? = some wr →
        is_worker_candidate wr sid ss = true ∧ wr.in_error_state = false := by
      intro hib wr hw
      subst hib
      obtain ⟨wr0, hw0, he⟩ := static_get hst hw
      rw [hwb] at hw0; cases hw0
      exact ⟨by rw [← is_worker_candidate_congr he]; exact hc,
        by rw [← (erase_lb_fields he).2.2.2.2.2.1]; exact hh⟩
    have hexists : i = b → ∃ wr, st.lb_workers[i]? = some wr := by
      intro hib
      subst hib
      have : (st.lb_workers.map erase_lb)[i]? = some (erase_lb wb) := by
        rw [hst]; simp [List.getElem?_map, hwb]
      simp only [List.getElem?_map] at this
      cases hw : st.lb_workers[i]? with
      | none => rw [hw] at this; cases this
      | some wr => exact ⟨wr, rfl⟩
    have hkeep : ∀ st1 : scan_state, st1.lb_workers = st.lb_workers → st1.rc = st.rc →
        i ≠ b → start ≤ i + 1 ∧ st1.lb_workers.map erase_lb = p.lb_workers.map erase_lb ∧
          (b < i + 1 → st1.rc ≠ none) := by
      intro st1 e1 e2 hne
      refine ⟨by omega, by rw [e1]; exact hst, fun hlt => ?_⟩
      rw [e2]; exact hb (by omega)
    rcases scan_body_cases p.recover_wait_time sid ss ulf clock i st with
      ⟨e, hn⟩ | ⟨wr, hw, hc1, he, hr, e⟩ | ⟨wr, hw, hc1, he, hr, hq, e⟩ |
      ⟨wr, hw, hc1, hel, hu1, e⟩ | ⟨wr, hw, hc1, hel, hu1, e⟩
    · rw [e]
      apply hkeep _ rfl rfl
      intro hib
      obtain ⟨wr, hw⟩ := hexists hib
      have := (hat hib wr hw).1
      rw [hn wr hw] at this; cases this
    · rw [e]
      apply hkeep _ rfl rfl
      intro hib
      have := (hat hib wr hw).2
      rw [he] at this; cases this
    · rw [e]
      apply hkeep _ rfl rfl
      intro hib
      have := (hat hib wr hw).2
      rw [he] at this; cases this
    · rw [e]
      refine ⟨by omega, ?_, ?_⟩
      · exact (map_erase_set st.lb_workers i wr
          { wr with lb_value := wr.lb_value + wr.lb_factor } hw rfl).trans hst
      · intro _
        simp only
        split_ifs with hm
        · exact fun h => by cases h
        · exact fun h => hm (Or.inr h)
    · rw [e]
      exact ⟨by omega, hst, fun _ h => by cases h⟩
  · intro i st _ _ hb
    rcases scan_body_cases p.recover_wait_time sid ss ulf clock i st with
      ⟨e, hn⟩ | ⟨wr, hw, hc1, he, hr, e⟩ | ⟨wr, hw, hc1, he, hr, hq, e⟩ |
      ⟨wr, hw, hc1, hel, hu1, e⟩ | ⟨wr, hw, hc1, hel, hu1, e⟩
    · rw [e] at hb; cases hb
    · rw [e] at hb; cases hb
    · rw [e] at hb; cases hb
    · rw [e] at hb; cases hb
    · rw [e]; exact fun h => by cases h
  · intro st ⟨_, _, hb⟩
    exact hb (by omega)

/-- Under any clock, routing returns a record when the registry holds a record that is
not in error state and that the cascade after the session loop may use: a local
record below `num_of_local_workers`, or any record when there are no local ones. -/
theorem route_no_session_some (p : lb_worker) (clock : Nat → Int) (tick : Nat)
    (b : Nat) (wb : worker_record) (hwb : p.lb_workers[b]? = some wb)
    (hh : wb.in_error_state = false)
    (hb : (p.num_of_local_workers = 0 ∧ b < p.num_of_workers) ∨
      (b < p.num_of_local_workers ∧ wb.is_local_worker = true)) :
    (route_no_session p clock tick).rc ≠ none := by
  unfold route_no_session
  by_cases h0 : p.num_of_local_workers ≠ 0
  · rw [if_pos h0]
    dsimp only
    have hb' : b < p.num_of_local_workers ∧ wb.is_local_worker = true := by
      rcases hb with ⟨h, _⟩ | h
      · exact absurd h h0
      · exact h
    have h3 := gsw_healthy_some p 3 "any".toList 0 p.num_of_local_workers true clock tick b wb
      (Nat.zero_le _) hb'.1 hwb (by simp [is_worker_candidate, hb'.2]) hh
    rw [if_pos h3]
    exact h3
  · rw [if_neg h0]
    have hb' : p.num_of_local_workers = 0 ∧ b < p.num_of_workers := by
      rcases hb with h | ⟨h, _⟩
      · exact h
      · have : p.num_of_local_workers = 0 := by simpa using h0
        omega
    exact gsw_healthy_some p 5 "any".toList p.num_of_local_workers p.num_of_workers true clock
      tick b wb (by omega) hb'.2 hwb (by simp [is_worker_candidate]) hh

theorem route_session_some (k : jk_consts) (clock : Nat → Int) (parts : List (List Char))
    (p : lb_worker) (b : Nat) (wb : worker_record) (hwb : p.lb_workers[b]? = some wb)
    (hh : wb.in_error_state = false)
    (hb : (p.num_of_local_workers = 0 ∧ b < p.num_of_workers) ∨
      (b < p.num_of_local_workers ∧ wb.is_local_worker = true)) :
    ∀ tick, (route_session k clock parts p tick).rc ≠ none := by
  induction parts with
  | nil => intro tick; exact route_no_session_some p clock tick b wb hwb hh hb
  | cons part rest ih =>
    intro tick
    rw [route_session]
    cases hd : strchr part '.' with
    | none => exact ih tick
    | some dot =>
      dsimp only
      have g1 := gsw_sel_post p 1 (part.drop (dot + 1)) 0 p.num_of_workers false clock tick
      by_cases h1 : (get_suitable_worker p 1 (part.drop (dot + 1)) 0 p.num_of_workers false
          clock tick).rc = none
      · have e1 := g1.2.1 h1
        have n1 : ¬ (get_suitable_worker p 1 (part.drop (dot + 1)) 0 p.num_of_workers false
          clock tick).rc ≠ none := fun h => h h1
        rw [if_neg n1, e1]
        generalize (get_suitable_worker p 1 (part.drop (dot + 1)) 0 p.num_of_workers false
          clock tick).tick = t1
        generalize (get_suitable_worker p 1 (part.drop (dot + 1)) 0 p.num_of_workers false
          clock tick).domain_id = d1
        generalize (if 0 ≤ d1 ∧ d1 < (p.num_of_workers : Int) then
            match p.lb_workers[d1.toNat]? with
            | some wr => wr.domain
            | none => k.JK_LB_DEF_DOMAIN_NAME
          else k.JK_LB_DEF_DOMAIN_NAME) = dom
        have g2 := gsw_sel_post p 2 dom 0 p.num_of_workers true clock t1
        by_cases h2 : (get_suitable_worker p 2 dom 0 p.num_of_workers true clock t1).rc = none
        · have e2 := g2.2.1 h2
          have n2 : ¬ (get_suitable_worker p 2 dom 0 p.num_of_workers true clock t1).rc ≠ none :=
            fun h => h h2
          rw [if_neg n2, e2]
          exact ih _
        · rw [if_pos h2]
          exact h2
      · rw [if_pos h1]
        exact h1

theorem gmsw_some_of_healthy (k : jk_consts) (p : lb_worker) (s : jk_ws_service)
    (clock : Nat → Int) (tick : Nat) (b : Nat) (wb : worker_record)
    (hwb : p.lb_workers[b]? = some wb) (hh : wb.in_error_state = false)
    (hb : (p.num_of_local_workers = 0 ∧ b < p.num_of_workers) ∨
      (b < p.num_of_local_workers ∧ wb.is_local_worker = true)) :
    (get_most_suitable_worker k p s clock tick).rc ≠ none := by
  unfold get_most_suitable_worker
  simp only
  cases (if p.sticky_session = true then get_sessionid k s else none) with
  | none => exact route_no_session_some p clock tick b wb hwb hh hb
  | some sid => exact route_session_some k clock _ p b wb hwb hh hb tick

theorem service_loop_pass (k : jk_consts) (s : jk_ws_service) (be : backend)
    (clock : Nat → Int) (fuel : Nat) :
    ∀ (n : Nat) (st0 st : service_state), service_pass k s be clock n st0 = some st →
      service_loop k s be clock (n + fuel) st0 = service_loop k s be clock fuel st := by
  intro n
  induction n with
  | zero =>
    intro st0 st h
    simp only [service_pass, Option.some.injEq] at h
    subst h
    simp
  | succ n ih =>
    intro st0 st h
    rw [service_pass] at h
    have : n + 1 + fuel = (n + fuel) + 1 := by omega
    rw [this, service_loop]
    rcases hb : service_body k s be clock st0 with ⟨st1, o⟩
    rw [hb] at h
    cases o with
    | none => exact ih st1 st h
    | some b => cases h

theorem service_valid (k : jk_consts) (p : lb_worker) (s : jk_ws_service) (be : backend)
    (clock : Nat → Int) (tick : Nat) (flag : Bool) (fuel : Nat) :
    service k true p s be clock tick flag fuel =
      (service_loop k s be clock fuel (service_init p tick)).map
        (fun r => ⟨r.2, false, r.1⟩) := by
  unfold service service_init
  simp only [if_true]
  cases service_loop k s be clock fuel ⟨p, 0, tick, none, [], []⟩ with
  | none => rfl
  | some r => rfl

/-- A pass that forwards and fails with `is_recoverable` false returns failure and
leaves the record marked. -/
theorem fatal_step (k : jk_consts) (s : jk_ws_service) (be : backend)
    (clock : Nat → Int) (fuel : Nat) (st : service_state) (i : Nat)
    (hsel : (get_most_suitable_worker k st.p s clock st.tick).rc = some i)
    (hok : (be st.attempt i).endpoint_ok = true) (hsrc : (be st.attempt i).src = false)
    (hrec : (be st.attempt i).is_recoverable = false) :
    ∃ st1 wr, service_loop k s be clock (fuel + 1) st = some (st1, false) ∧
      st1.attempt = st.attempt + 1 ∧ st1.tried = st.tried ++ [i] ∧
      st1.forwarded = st.forwarded ++ [i] ∧
      st1.p.lb_workers[i]? = some wr ∧ wr.in_error_state = true ∧
      wr.in_recovering = false ∧
      wr.error_time = clock (get_most_suitable_worker k st.p s clock st.tick).tick ∧
      st1.tick = (get_most_suitable_worker k st.p s clock st.tick).tick + 1 := by
  obtain ⟨wr, hw⟩ := gmsw_some_get k st.p s clock st.tick i hsel
  have hbody := service_body_some k s be clock st i wr hsel hw
  have hc : ¬ ((be st.attempt i).endpoint_ok = true ∧ (be st.attempt i).src = true) := by
    rw [hsrc]; simp
  rw [if_neg hc] at hbody
  simp only [hok, hrec, Bool.and_false, if_true] at hbody
  rw [service_loop, hbody]
  dsimp only
  exact ⟨_, { wr with in_error_state := true, in_recovering := false,
                      error_time := clock (get_most_suitable_worker k st.p s clock st.tick).tick },
    rfl, rfl, rfl, rfl, List.getElem?_set_self (getElem?_lt_of_some hw), rfl, rfl, rfl, rfl⟩

/-! ## C4 -/

/-- C4 (fatal failure ends dispatch).  In every run of `service`, when the record that
the selection of some pass returns is forwarded to and the attempt fails with
`is_recoverable` false, `service` returns failure in that pass: no further selection
(`attempt` is one more than at the start of the pass) and no further call on a member
worker, and the attempted record is left with `in_error_state = true`,
`in_recovering = false` and `error_time` the clock reading taken at the failure.  In
particular, for a registry of a single record that is not in error state, `service`
returns failure after exactly one attempt and leaves that record marked. -/
theorem fatal_failure_ends_dispatch (k : jk_consts) (s : jk_ws_service) (be : backend)
    (clock : Nat → Int) (p : lb_worker) (tick : Nat) (flag : Bool) (fuel : Nat) :
    (∀ (n : Nat) (st : service_state) (i : Nat),
      service_pass k s be clock n (service_init p tick) = some st →
      (get_most_suitable_worker k st.p s clock st.tick).rc = some i →
      (be st.attempt i).endpoint_ok = true → (be st.attempt i).src = false →
      (be st.attempt i).is_recoverable = false →
      ∃ res wr, service k true p s be clock tick flag (n + (fuel + 1)) = some res ∧
        res.rc = false ∧
        res.st.attempt = st.attempt + 1 ∧ res.st.tried = st.tried ++ [i] ∧
        res.st.forwarded = st.forwarded ++ [i] ∧
        res.st.p.lb_workers[i]? = some wr ∧ wr.in_error_state = true ∧
        wr.in_recovering = false ∧
        wr.error_time = clock (get_most_suitable_worker k st.p s clock st.tick).tick ∧
        res.st.tick = (get_most_suitable_worker k st.p s clock st.tick).tick + 1) ∧
    (∀ (w : worker_record),
      p.lb_workers = [w] → p.num_of_workers = 1 →
      p.num_of_local_workers = (if w.is_local_worker then 1 else 0) →
      w.in_error_state = false →
      (be 0 0).endpoint_ok = true → (be 0 0).src = false → (be 0 0).is_recoverable = false →
      ∃ res wr, service k true p s be clock tick flag (fuel + 1) = some res ∧
        res.rc = false ∧ res.st.attempt = 1 ∧ res.st.tried = [0] ∧ res.st.forwarded = [0] ∧
        res.st.p.lb_workers[0]? = some wr ∧ wr.in_error_state = true ∧
        wr.in_recovering = false ∧ wr.error_time = clock (res.st.tick - 1)) := by
  have main : ∀ (n : Nat) (st : service_state) (i : Nat),
      service_pass k s be clock n (service_init p tick) = some st →
      (get_most_suitable_worker k st.p s clock st.tick).rc = some i →
      (be st.attempt i).endpoint_ok = true → (be st.attempt i).src = false →
      (be st.attempt i).is_recoverable = false →
      ∃ res wr, service k true p s be clock tick flag (n + (fuel + 1)) = some res ∧
        res.rc = false ∧
        res.st.attempt = st.attempt + 1 ∧ res.st.tried = st.tried ++ [i] ∧
        res.st.forwarded = st.forwarded ++ [i] ∧
        res.st.p.lb_workers[i]? = some wr ∧ wr.in_error_state = true ∧
        wr.in_recovering = false ∧
        wr.error_time = clock (get_most_suitable_worker k st.p s clock st.tick).tick ∧
        res.st.tick = (get_most_suitable_worker k st.p s clock st.tick).tick + 1 := by
    intro n st i hreach hsel hok hsrc hrec
    obtain ⟨st1, wr, h1, h2, h3, h4, h5, h6, h7, h8, h9⟩ :=
      fatal_step k s be clock fuel st i hsel hok hsrc hrec
    refine ⟨⟨false, false, st1⟩, wr, ?_, rfl, h2, h3, h4, h5, h6, h7, h8, h9⟩
    rw [service_valid, service_loop_pass k s be clock (fuel + 1) n _ st hreach, h1]
    rfl
  refine ⟨main, ?_⟩
  intro w hl hn hnl hh hok hsrc hrec
  have hw0 : p.lb_workers[0]? = some w := by rw [hl]; rfl
  have hne := gmsw_some_of_healthy k p s clock tick 0 w hw0 hh (by
    by_cases hloc : w.is_local_worker = true
    · right; rw [hnl, if_pos hloc]; exact ⟨by omega, hloc⟩
    · left; rw [hnl, if_neg hloc, hn]; exact ⟨rfl, by omega⟩)
  cases hrc : (get_most_suitable_worker k p s clock tick).rc with
  | none => exact absurd hrc hne
  | some j =>
    have hp := gmsw_sel_post k p s clock tick
    rw [hrc] at hp
    obtain ⟨wr0, _, _, hj, _⟩ := sel_post_get hp
    have hj0 : j = 0 := by
      have := getElem?_lt_of_some hj
      rw [hl] at this
      simpa using this
    subst hj0
    obtain ⟨res, wr, h1, h2, h3, h4, h5, h6, h7, h8, h9, h10⟩ :=
      main 0 (service_init p tick) 0 rfl hrc hok hsrc hrec
    refine ⟨res, wr, ?_, h2, h3, h4, h5, h6, h7, h8, ?_⟩
    · rw [← h1]; congr 1; omega
    · rw [h9, h10]; rfl

theorem fatal_failure_ends_dispatch_witness :
    ∃ res wr, service example_consts true single_example plain_request fatal_backend
        ticking_clock 0 true (0 + 1) = some res ∧
      res.rc = false ∧ res.st.attempt = 1 ∧ res.st.tried = [0] ∧ res.st.forwarded = [0] ∧
      res.st.p.lb_workers[0]? = some wr ∧ wr.in_error_state = true ∧
      wr.in_recovering = false ∧ wr.error_time = ticking_clock (res.st.tick - 1) :=
  (fatal_failure_ends_dispatch example_consts plain_request fatal_backend ticking_clock
    single_example 0 true 0).2
    ⟨['A'], ['d'], 1, 1, false, false, false, false, 0, 0⟩
    rfl rfl rfl rfl rfl rfl rfl

theorem with_lb_workers_eq {p p1 : lb_worker} (h : p1 = { p with lb_workers := p1.lb_workers })
    (ws : List worker_record) :
    { p1 with lb_workers := ws } = { p with lb_workers := ws } := by
  cases p1; cases p
  simp only [lb_worker.mk.injEq] at h ⊢
  tauto

theorem service_body_attempt (k : jk_consts) (s : jk_ws_service) (be : backend)
    (clock : Nat → Int) (st : service_state) :
    (service_body k s be clock st).1.attempt = st.attempt + 1 ∧
    ∃ ws, (service_body k s be clock st).1.p = { st.p with lb_workers := ws } := by
  have hp := gmsw_sel_post k st.p s clock st.tick
  cases hrc : (get_most_suitable_worker k st.p s clock st.tick).rc with
  | none =>
    rw [service_body_none k s be clock st hrc]
    exact ⟨rfl, st.p.lb_workers, rfl⟩
  | some i =>
    obtain ⟨wr, hw⟩ := gmsw_some_get k st.p s clock st.tick i hrc
    rw [service_body_some k s be clock st i wr hrc hw]
    have h1 := hp.1
    by_cases hc : (be st.attempt i).endpoint_ok = true ∧ (be st.attempt i).src = true
    · rw [if_pos hc]
      exact ⟨rfl, _, with_lb_workers_eq h1 _⟩
    · rw [if_neg hc]
      exact ⟨rfl, _, with_lb_workers_eq h1 _⟩

theorem service_loop_attempt (k : jk_consts) (s : jk_ws_service) (be : backend)
    (clock : Nat → Int) :
    ∀ (fuel : Nat) (st : service_state) (r : service_state × Bool),
      service_loop k s be clock fuel st = some r → st.attempt + 1 ≤ r.1.attempt := by
  intro fuel
  induction fuel with
  | zero => intro st r h; simp [service_loop] at h
  | succ fuel ih =>
    intro st r h
    rw [service_loop] at h
    have ha := (service_body_attempt k s be clock st).1
    rcases hb : service_body k s be clock st with ⟨st1, o⟩
    rw [hb] at h ha
    simp only at ha
    cases o with
    | none =>
      have := ih st1 r h
      omega
    | some b =>
      simp only [Option.some.injEq] at h
      rw [← h]
      simp only
      omega

theorem service_pass_frame (k : jk_consts) (s : jk_ws_service) (be : backend)
    (clock : Nat → Int) :
    ∀ (n : Nat) (st0 st : service_state), service_pass k s be clock n st0 = some st →
      st.attempt = st0.attempt + n ∧ st.p.recover_wait_time = st0.p.recover_wait_time := by
  intro n
  induction n with
  | zero =>
    intro st0 st h
    simp only [service_pass, Option.some.injEq] at h
    subst h
    exact ⟨rfl, rfl⟩
  | succ n ih =>
    intro st0 st h
    rw [service_pass] at h
    obtain ⟨ha, ws, hp⟩ := service_body_attempt k s be clock st0
    rcases hb : service_body k s be clock st0 with ⟨st1, o⟩
    rw [hb] at h ha hp
    simp only at ha hp
    cases o with
    | none =>
      obtain ⟨h1, h2⟩ := ih st1 st h
      refine ⟨by omega, ?_⟩
      rw [h2, hp]
    | some b => cases h

theorem service_loop_none_of_pass (k : jk_consts) (s : jk_ws_service) (be : backend)
    (clock : Nat → Int) :
    ∀ (n : Nat) (st0 st : service_state), service_pass k s be clock n st0 = some st →
      ∀ fuel, fuel ≤ n → service_loop k s be clock fuel st0 = none := by
  intro n
  induction n with
  | zero =>
    intro st0 st _ fuel hf
    have : fuel = 0 := by omega
    subst this
    rfl
  | succ n ih =>
    intro st0 st h fuel hf
    cases fuel with
    | zero => rfl
    | succ fuel =>
      rw [service_pass] at h
      rw [service_loop]
      rcases hb : service_body k s be clock st0 with ⟨st1, o⟩
      rw [hb] at h
      cases o with
      | none => exact ih st1 st h fuel (by omega)
      | some b => cases h

/-! ## C5 -/

/-- C5 (recoverable failure retries elsewhere).  In every run of `service` on a registry
with a recovery wait that is not negative, when the record that the selection of some
pass returns is forwarded to and the attempt fails with `is_recoverable` true, the
record is left with `in_error_state = true`, `in_recovering = false` and `error_time`
the clock reading taken at the failure, whatever its error fields were (a recovery trial
included), and the loop goes into a further pass, which calls
`get_most_suitable_worker` again: a run that returns has made at least two more calls
than before the failed pass.  At the clock value of the failure that call does not
return the record that just failed. -/
theorem recoverable_failure_retries (k : jk_consts) (s : jk_ws_service) (be : backend)
    (clock : Nat → Int) (p : lb_worker) (tick : Nat) (flag : Bool)
    (n : Nat) (st : service_state) (i : Nat)
    (hrwt : 0 ≤ p.recover_wait_time)
    (hreach : service_pass k s be clock n (service_init p tick) = some st)
    (hsel : (get_most_suitable_worker k st.p s clock st.tick).rc = some i)
    (hok : (be st.attempt i).endpoint_ok = true) (hsrc : (be st.attempt i).src = false)
    (hrec : (be st.attempt i).is_recoverable = true) :
    ∃ st1 wr, service_pass k s be clock (n + 1) (service_init p tick) = some st1 ∧
      st1.attempt = st.attempt + 1 ∧ st1.tried = st.tried ++ [i] ∧
      st1.forwarded = st.forwarded ++ [i] ∧
      st1.p.lb_workers[i]? = some wr ∧ wr.in_error_state = true ∧
      wr.in_recovering = false ∧
      wr.error_time = clock (get_most_suitable_worker k st.p s clock st.tick).tick ∧
      (service_body k s be clock st1).1.attempt = st.attempt + 2 ∧
      (∀ fuel res, service k true p s be clock tick flag fuel = some res →
        st.attempt + 2 ≤ res.st.attempt) ∧
      (∀ t, (get_most_suitable_worker k st1.p s (fun _ => wr.error_time) t).rc ≠ some i) := by
  obtain ⟨wr, hw⟩ := gmsw_some_get k st.p s clock st.tick i hsel
  have hbody := service_body_some k s be clock st i wr hsel hw
  have hc : ¬ ((be st.attempt i).endpoint_ok = true ∧ (be st.attempt i).src = true) := by
    rw [hsrc]; simp
  rw [if_neg hc] at hbody
  simp only [hok, hrec, Bool.and_true, if_true] at hbody
  have hnot : ¬ (true = false) := by simp
  rw [if_neg hnot] at hbody
  -- the state the next pass starts from
  have hstep : ∀ m st0, service_pass k s be clock m st0 = some st →
      service_pass k s be clock (m + 1) st0 = some (service_body k s be clock st).1 := by
    intro m
    induction m with
    | zero =>
      intro st0 h
      simp only [service_pass, Option.some.injEq] at h
      subst h
      rw [service_pass, hbody]
      rfl
    | succ m ih =>
      intro st0 h
      rw [service_pass] at h ⊢
      rcases hb : service_body k s be clock st0 with ⟨st1, o⟩
      rw [hb] at h
      cases o with
      | none => exact ih st1 h
      | some b => cases h
  have hnext := hstep n _ hreach
  rw [hbody] at hnext
  simp only at hnext
  have hfr := service_pass_frame k s be clock n _ st hreach
  refine ⟨_, { wr with in_error_state := true, in_recovering := false,
                       error_time := clock (get_most_suitable_worker k st.p s clock st.tick).tick },
    hnext, rfl, rfl, rfl, List.getElem?_set_self (getElem?_lt_of_some hw), rfl, rfl, rfl,
    ?_, ?_, ?_⟩
  · rw [(service_body_attempt k s be clock _).1]
  · intro fuel res hres
    rw [service_valid] at hres
    rcases Nat.lt_or_ge n fuel with hlt | hge
    · obtain ⟨f, hf⟩ : ∃ f, fuel = (n + 1) + f := ⟨fuel - (n + 1), by omega⟩
      rw [hf, service_loop_pass k s be clock f (n + 1) _ _ hnext] at hres
      cases hl : service_loop k s be clock f _ with
      | none => rw [hl] at hres; cases hres
      | some r =>
        rw [hl] at hres
        simp only [Option.map_some', Option.some.injEq] at hres
        have := service_loop_attempt k s be clock f _ r hl
        rw [← hres]
        simp only at this ⊢
        omega
    · rw [service_loop_none_of_pass k s be clock n _ st hreach fuel hge] at hres
      cases hres
  · intro t hrc
    have hp := gmsw_sel_post k (service_body k s be clock st).1.p s
      (fun _ => clock (get_most_suitable_worker k st.p s clock st.tick).tick) t
    rw [hbody] at hp
    simp only at hp hrc
    rw [hrc] at hp
    obtain ⟨wr0, _, _, hw0, htr, _⟩ := sel_post_get hp
    simp only at hw0 htr
    rw [List.getElem?_set_self (getElem?_lt_of_some hw)] at hw0
    cases hw0
    obtain ⟨_, _, hlt⟩ := htr rfl
    simp only at hlt
    have h1 := (gmsw_sel_post k st.p s clock st.tick).1
    have h2 : (get_most_suitable_worker k st.p s clock st.tick).p.recover_wait_time =
        st.p.recover_wait_time := by rw [h1]
    rw [h2, hfr.2] at hlt
    simp only [service_init] at hlt
    omega

theorem recoverable_failure_retries_witness :
    ∃ st1 wr, service_pass example_consts plain_request recoverable_backend ticking_clock
        (0 + 1) (service_init trial_example 0) = some st1 ∧
      st1.attempt = (service_init trial_example 0).attempt + 1 ∧
      st1.tried = (service_init trial_example 0).tried ++ [0] ∧
      st1.forwarded = (service_init trial_example 0).forwarded ++ [0] ∧
      st1.p.lb_workers[0]? = some wr ∧ wr.in_error_state = true ∧
      wr.in_recovering = false ∧
      wr.error_time = ticking_clock (get_most_suitable_worker example_consts
        (service_init trial_example 0).p plain_request ticking_clock
        (service_init trial_example 0).tick).tick ∧
      (service_body example_consts plain_request recoverable_backend ticking_clock st1).1.attempt
        = (service_init trial_example 0).attempt + 2 ∧
      (∀ fuel res, service example_consts true trial_example plain_request recoverable_backend
          ticking_clock 0 true fuel = some res →
        (service_init trial_example 0).attempt + 2 ≤ res.st.attempt) ∧
      (∀ t, (get_most_suitable_worker example_consts st1.p plain_request
        (fun _ => wr.error_time) t).rc ≠ some 0) :=
  recoverable_failure_retries example_consts plain_request recoverable_backend ticking_clock
    trial_example 0 true 0 (service_init trial_example 0) 0 (by decide) rfl (by decide)
    rfl rfl rfl

/-! ## C6 -/

/-- C6 (success gives full recovery).  In every run of `service`, when the record that
the selection of some pass returns is forwarded to and the attempt succeeds, `service`
returns success and that record ends with `in_error_state = false`,
`in_recovering = false` and `error_time = 0`, whatever these fields were (a record on
its recovery trial included); the attempt leaves every other record as selection left
it, and the error fields of every other record are those from before the pass. -/
theorem success_full_recovery (k : jk_consts) (s : jk_ws_service) (be : backend)
    (clock : Nat → Int) (p : lb_worker) (tick : Nat) (flag : Bool) (fuel : Nat)
    (n : Nat) (st : service_state) (i : Nat)
    (hreach : service_pass k s be clock n (service_init p tick) = some st)
    (hsel : (get_most_suitable_worker k st.p s clock st.tick).rc = some i)
    (hok : (be st.attempt i).endpoint_ok = true) (hsrc : (be st.attempt i).src = true) :
    ∃ res wr, service k true p s be clock tick flag (n + (fuel + 1)) = some res ∧
      res.rc = true ∧
      res.st.p.lb_workers[i]? = some wr ∧ wr.in_error_state = false ∧
      wr.in_recovering = false ∧ wr.error_time = 0 ∧
      (∀ m : Nat, m ≠ i → res.st.p.lb_workers[m]? =
        (get_most_suitable_worker k st.p s clock st.tick).p.lb_workers[m]?) ∧
      (∀ (m : Nat) (a : worker_record), m ≠ i → st.p.lb_workers[m]? = some a →
        ∃ b, res.st.p.lb_workers[m]? = some b ∧ b.in_error_state = a.in_error_state ∧
          b.in_recovering = a.in_recovering ∧ b.error_time = a.error_time) := by
  obtain ⟨wr, hw⟩ := gmsw_some_get k st.p s clock st.tick i hsel
  have hbody := service_body_some k s be clock st i wr hsel hw
  rw [if_pos ⟨hok, hsrc⟩] at hbody
  have hp := gmsw_sel_post k st.p s clock st.tick
  rw [hsel] at hp
  obtain ⟨_, _, _, _, _, _, _, hothers, _⟩ := sel_post_get hp
  refine ⟨⟨true, false, (service_body k s be clock st).1⟩,
    { wr with in_error_state := false, in_recovering := false, error_time := 0 },
    ?_, rfl, ?_, rfl, rfl, rfl, ?_, ?_⟩
  · rw [service_valid, service_loop_pass k s be clock (fuel + 1) n _ st hreach, service_loop,
      hbody]
    rfl
  · rw [hbody]
    exact List.getElem?_set_self (getElem?_lt_of_some hw)
  · intro m hm
    rw [hbody]
    exact List.getElem?_set_ne (Ne.symm hm)
  · intro m a hm ha
    have h1 := hothers m hm
    rw [ha] at h1
    rw [hbody]
    simp only
    rw [List.getElem?_set_ne (Ne.symm hm)]
    cases hb : (get_most_suitable_worker k st.p s clock st.tick).p.lb_workers[m]? with
    | none => rw [hb] at h1; cases h1
    | some b =>
      rw [hb] at h1
      simp only [Option.map_some', Option.some.injEq] at h1
      obtain ⟨-, -, -, -, -, h6, h7, h8, -⟩ := erase_lb_fields h1
      exact ⟨b, rfl, h6, h7, h8⟩

theorem success_full_recovery_witness :
    ∃ res wr, service example_consts true trial_example plain_request good_backend
        ticking_clock 0 true (0 + (0 + 1)) = some res ∧
      res.rc = true ∧
      res.st.p.lb_workers[0]? = some wr ∧ wr.in_error_state = false ∧
      wr.in_recovering = false ∧ wr.error_time = 0 ∧
      (∀ m : Nat, m ≠ 0 → res.st.p.lb_workers[m]? =
        (get_most_suitable_worker example_consts (service_init trial_example 0).p
          plain_request ticking_clock (service_init trial_example 0).tick).p.lb_workers[m]?) ∧
      (∀ (m : Nat) (a : worker_record), m ≠ 0 →
        (service_init trial_example 0).p.lb_workers[m]? = some a →
        ∃ b, res.st.p.lb_workers[m]? = some b ∧ b.in_error_state = a.in_error_state ∧
          b.in_recovering = a.in_recovering ∧ b.error_time = a.error_time) :=
  success_full_recovery example_consts plain_request good_backend ticking_clock
    trial_example 0 true 0 0 (service_init trial_example 0) 0 rfl (by decide) rfl rfl

/-! ## C7 -/

/-- C7 (exhausted pool is terminal).  In every run of `service`, when the selection of
some pass returns no record, `service` returns failure in that pass without any call on
a member worker and without touching the registry, and the flag
`*is_recoverable_error` it leaves is false; that flag is false in every outcome of
`service` called with valid arguments. -/
theorem exhausted_pool_terminal (k : jk_consts) (s : jk_ws_service) (be : backend)
    (clock : Nat → Int) (p : lb_worker) (tick : Nat) (flag : Bool) :
    (∀ (fuel n : Nat) (st : service_state),
      service_pass k s be clock n (service_init p tick) = some st →
      (get_most_suitable_worker k st.p s clock st.tick).rc = none →
      ∃ res, service k true p s be clock tick flag (n + (fuel + 1)) = some res ∧
        res.rc = false ∧ res.is_recoverable_error = false ∧
        res.st.tried = st.tried ∧ res.st.forwarded = st.forwarded ∧ res.st.p = st.p ∧
        res.st.attempt = st.attempt + 1) ∧
    (∀ (fuel : Nat) (res : service_result),
      service k true p s be clock tick flag fuel = some res →
      res.is_recoverable_error = false) := by
  constructor
  · intro fuel n st hreach hsel
    have hbody := service_body_none k s be clock st hsel
    refine ⟨⟨false, false, (service_body k s be clock st).1⟩, ?_, rfl, rfl, ?_, ?_, ?_, ?_⟩
    · rw [service_valid, service_loop_pass k s be clock (fuel + 1) n _ st hreach, service_loop,
        hbody]
      rfl
    all_goals rw [hbody]
  · intro fuel res h
    rw [service_valid] at h
    cases hl : service_loop k s be clock fuel (service_init p tick) with
    | none => rw [hl] at h; cases h
    | some r =>
      rw [hl] at h
      simp only [Option.map_some', Option.some.injEq] at h
      rw [← h]

theorem exhausted_pool_terminal_witness :
    ∃ res, service example_consts true quarantine_example plain_request good_backend
        early_clock 0 true (0 + (0 + 1)) = some res ∧
      res.rc = false ∧ res.is_recoverable_error = false ∧
      res.st.tried = (service_init quarantine_example 0).tried ∧
      res.st.forwarded = (service_init quarantine_example 0).forwarded ∧
      res.st.p = (service_init quarantine_example 0).p ∧
      res.st.attempt = (service_init quarantine_example 0).attempt + 1 :=
  (exhausted_pool_terminal example_consts plain_request good_backend early_clock
    quarantine_example 0 true).1 0 0 (service_init quarantine_example 0) rfl (by decide)

/-! ## C8 -/

theorem nodup_bounded_length (l : List Nat) (N : Nat) (h1 : l.Nodup) (h2 : ∀ i ∈ l, i < N) :
    l.length ≤ N := by
  have hsub : l ⊆ List.range N := fun i hi => List.mem_range.2 (h2 i hi)
  have := (List.subperm_of_subset h1 hsub).length_le
  simpa using this

theorem dispatch_inv_bound {rwt lo : Int} {N : Nat} {st : service_state}
    (h : dispatch_inv rwt lo N st) : ∀ i ∈ st.tried, i < N := by
  intro i hi
  obtain ⟨wr, hw, -⟩ := h.marked i hi
  rw [← h.len_eq]
  exact getElem?_lt_of_some hw

/-- A record tried earlier in the run is not returned again while the clock stays in
the interval. -/
theorem dispatch_inv_fresh (k : jk_consts) (s : jk_ws_service) (clock : Nat → Int)
    (rwt lo : Int) (N : Nat) (st : service_state) (i : Nat)
    (hclock : ∀ n, lo ≤ clock n ∧ clock n ≤ lo + rwt)
    (h : dispatch_inv rwt lo N st)
    (hsel : (get_most_suitable_worker k st.p s clock st.tick).rc = some i) :
    i ∉ st.tried := by
  intro hi
  obtain ⟨wr, hw, he, -, h1, h2⟩ := h.marked i hi
  have hp := gmsw_sel_post k st.p s clock st.tick
  rw [hsel] at hp
  obtain ⟨wr0, _, _, hw0, htr, _⟩ := sel_post_get hp
  rw [hw] at hw0; cases hw0
  obtain ⟨-, n, hn⟩ := htr he
  rw [h.rwt_eq] at hn
  have := hclock n
  omega

/-- A pass that fails keeps the invariant, with one more record tried. -/
theorem dispatch_inv_step (k : jk_consts) (s : jk_ws_service) (be : backend)
    (clock : Nat → Int) (rwt lo : Int) (N : Nat) (st : service_state)
    (hclock : ∀ n, lo ≤ clock n ∧ clock n ≤ lo + rwt)
    (h : dispatch_inv rwt lo N st) (st1 : service_state)
    (hb : service_body k s be clock st = (st1, none)) :
    dispatch_inv rwt lo N st1 ∧ st1.tried.length = st.tried.length + 1 := by
  cases hsel : (get_most_suitable_worker k st.p s clock st.tick).rc with
  | none =>
    rw [service_body_none k s be clock st hsel] at hb
    cases hb
  | some i =>
    obtain ⟨wr, hw⟩ := gmsw_some_get k st.p s clock st.tick i hsel
    have hfresh := dispatch_inv_fresh k s clock rwt lo N st i hclock h hsel
    have hp := gmsw_sel_post k st.p s clock st.tick
    have hp1 := hp.1
    rw [hsel] at hp
    obtain ⟨wr0, wr1, t, hw0, htr, hw1, he1, hothers, hlen⟩ := sel_post_get hp
    rw [service_body_some k s be clock st i wr hsel hw] at hb
    by_cases hc : (be st.attempt i).endpoint_ok = true ∧ (be st.attempt i).src = true
    · rw [if_pos hc] at hb; cases hb
    · rw [if_neg hc] at hb
      simp only [Prod.mk.injEq] at hb
      obtain ⟨hst1, -⟩ := hb
      subst hst1
      refine ⟨⟨?_, ?_, ?_, ?_, ?_, ?_⟩, by simp⟩
      · simp only
        rw [hp1]
        exact h.rwt_eq
      · simp only [List.length_set]
        rw [hlen]; exact h.len_eq
      · simp only
        rw [List.nodup_append]
        refine ⟨h.nodup, List.nodup_singleton i, ?_⟩
        intro a ha hb
        rw [List.mem_singleton] at hb
        subst hb
        exact hfresh ha
      · simp only
        split_ifs
        · exact List.Sublist.append h.fwd (List.Sublist.refl _)
        · exact h.fwd.trans (List.sublist_append_left _ _)
      · simp only [List.length_append, List.length_singleton]
        rw [h.count]
      · intro j hj
        simp only [List.mem_append, List.mem_singleton] at hj
        simp only
        by_cases hji : j = i
        · subst hji
          rw [List.getElem?_set_self (getElem?_lt_of_some hw)]
          have := hclock (get_most_suitable_worker k st.p s clock st.tick).tick
          exact ⟨_, rfl, rfl, rfl, this.1, this.2⟩
        · rcases hj with hj | hj
          · obtain ⟨a, ha, h1, h2, h3, h4⟩ := h.marked j hj
            rw [List.getElem?_set_ne (Ne.symm hji)]
            have ho := hothers j hji
            rw [ha] at ho
            cases hb : (get_most_suitable_worker k st.p s clock st.tick).p.lb_workers[j]? with
            | none => rw [hb] at ho; cases ho
            | some b =>
              rw [hb] at ho
              simp only [Option.map_some', Option.some.injEq] at ho
              obtain ⟨-, -, -, -, -, h6, h7, h8, -⟩ := erase_lb_fields ho
              exact ⟨b, rfl, by rw [h6]; exact h1, by rw [h7]; exact h2,
                by rw [h8]; exact h3, by rw [h8]; exact h4⟩
          · exact absurd hj hji

theorem service_pass_succ (k : jk_consts) (s : jk_ws_service) (be : backend)
    (clock : Nat → Int) (st st1 : service_state)
    (hb : service_body k s be clock st = (st1, none)) :
    ∀ (m : Nat) (st0 : service_state), service_pass k s be clock m st0 = some st →
      service_pass k s be clock (m + 1) st0 = some st1 := by
  intro m
  induction m with
  | zero =>
    intro st0 h
    simp only [service_pass, Option.some.injEq] at h
    subst h
    rw [service_pass, hb]
    rfl
  | succ m ih =>
    intro st0 h
    rw [service_pass] at h ⊢
    rcases hb0 : service_body k s be clock st0 with ⟨st2, o⟩
    rw [hb0] at h
    cases o with
    | none => exact ih st2 h
    | some b => cases h

/-- What holds of the state in which a pass returns. -/
theorem dispatch_return (k : jk_consts) (s : jk_ws_service) (be : backend)
    (clock : Nat → Int) (rwt lo : Int) (N : Nat) (st : service_state)
    (hclock : ∀ n, lo ≤ clock n ∧ clock n ≤ lo + rwt)
    (h : dispatch_inv rwt lo N st) (st1 : service_state) (rc : Bool)
    (hb : service_body k s be clock st = (st1, some rc)) :
    st1.tried.Nodup ∧ st1.forwarded.Sublist st1.tried ∧ (∀ i ∈ st1.tried, i < N) ∧
    st1.attempt ≤ st1.tried.length + 1 ∧
    ((∀ a i, (be a i).endpoint_ok = true ∧ (be a i).src = false ∧
        (be a i).is_recoverable = true) →
      rc = false ∧ (get_most_suitable_worker k st.p s clock st.tick).rc = none ∧
      st1.tried = st.tried ∧ st1.attempt = st.attempt + 1) := by
  have hbound := dispatch_inv_bound h
  cases hsel : (get_most_suitable_worker k st.p s clock st.tick).rc with
  | none =>
    rw [service_body_none k s be clock st hsel] at hb
    simp only [Prod.mk.injEq, Option.some.injEq] at hb
    obtain ⟨hst1, hrc⟩ := hb
    subst hst1
    refine ⟨h.nodup, h.fwd, hbound, ?_, fun _ => ⟨hrc.symm, rfl, rfl, rfl⟩⟩
    simp only
    rw [h.count]
  | some i =>
    obtain ⟨wr, hw⟩ := gmsw_some_get k st.p s clock st.tick i hsel
    have hfresh := dispatch_inv_fresh k s clock rwt lo N st i hclock h hsel
    have hp := gmsw_sel_post k st.p s clock st.tick
    rw [hsel] at hp
    obtain ⟨wr0, wr1, t, hw0, htr, hw1, he1, hothers, hlen⟩ := sel_post_get hp
    have hiN : i < N := by rw [← h.len_eq]; exact getElem?_lt_of_some hw0
    have hnd : (st.tried ++ [i]).Nodup := by
      rw [List.nodup_append]
      refine ⟨h.nodup, List.nodup_singleton i, ?_⟩
      intro a ha hb
      rw [List.mem_singleton] at hb
      subst hb
      exact hfresh ha
    have hbd : ∀ j ∈ st.tried ++ [i], j < N := by
      intro j hj
      simp only [List.mem_append, List.mem_singleton] at hj
      rcases hj with hj | hj
      · exact hbound j hj
      · rw [hj]; exact hiN
    rw [service_body_some k s be clock st i wr hsel hw] at hb
    by_cases hc : (be st.attempt i).endpoint_ok = true ∧ (be st.attempt i).src = true
    · rw [if_pos hc] at hb
      simp only [Prod.mk.injEq, Option.some.injEq] at hb
      obtain ⟨hst1, hrc⟩ := hb
      subst hst1
      refine ⟨hnd, List.Sublist.append h.fwd (List.Sublist.refl _), hbd, ?_, ?_⟩
      · simp only [List.length_append, List.length_singleton]
        rw [h.count]; omega
      · intro hall
        have := (hall st.attempt i).2.1
        rw [hc.2] at this; cases this
    · rw [if_neg hc] at hb
      simp only [Prod.mk.injEq] at hb
      obtain ⟨hst1, hrc⟩ := hb
      subst hst1
      refine ⟨hnd, ?_, hbd, ?_, ?_⟩
      · simp only
        split_ifs
        · exact List.Sublist.append h.fwd (List.Sublist.refl _)
        · exact h.fwd.trans (List.sublist_append_left _ _)
      · simp only [List.length_append, List.length_singleton]
        rw [h.count]; omega
      · intro hall
        obtain ⟨h1, -, h3⟩ := hall st.attempt i
        rw [h1, h3] at hrc
        simp at hrc

/-- While every clock reading lies in `[lo, lo + rwt]`, the loop of `service` returns
within as many passes as there are records not yet tried, plus one. -/
theorem dispatch_terminates (k : jk_consts) (s : jk_ws_service) (be : backend)
    (clock : Nat → Int) (rwt lo : Int) (N : Nat) (st0 : service_state)
    (hclock : ∀ n, lo ≤ clock n ∧ clock n ≤ lo + rwt) :
    ∀ (d m : Nat) (st : service_state), service_pass k s be clock m st0 = some st →
      dispatch_inv rwt lo N st → N - st.tried.length ≤ d →
      ∃ r : service_state × Bool,
        (∀ fuel, d + 1 ≤ fuel → service_loop k s be clock fuel st = some r) ∧
        r.1.tried.Nodup ∧ r.1.forwarded.Sublist r.1.tried ∧ (∀ i ∈ r.1.tried, i < N) ∧
        r.1.attempt ≤ r.1.tried.length + 1 ∧
        ((∀ a i, (be a i).endpoint_ok = true ∧ (be a i).src = false ∧
            (be a i).is_recoverable = true) →
          r.2 = false ∧ ∃ m1 st1, service_pass k s be clock m1 st0 = some st1 ∧
            (get_most_suitable_worker k st1.p s clock st1.tick).rc = none ∧
            r.1.tried = st1.tried ∧ r.1.attempt = st1.attempt + 1) := by
  intro d
  induction d with
  | zero =>
    intro m st hreach h hd
    rcases hb : service_body k s be clock st with ⟨st1, o⟩
    cases o with
    | none =>
      exfalso
      obtain ⟨h1, h2⟩ := dispatch_inv_step k s be clock rwt lo N st hclock h st1 hb
      have := nodup_bounded_length st1.tried N h1.nodup (dispatch_inv_bound h1)
      omega
    | some rc =>
      obtain ⟨r1, r2, r3, r4, r5⟩ := dispatch_return k s be clock rwt lo N st hclock h st1 rc hb
      refine ⟨(st1, rc), ?_, r1, r2, r3, r4, ?_⟩
      · intro fuel hf
        obtain ⟨f, rfl⟩ : ∃ f, fuel = f + 1 := ⟨fuel - 1, by omega⟩
        rw [service_loop, hb]
      · intro hall
        obtain ⟨a, b, c, e⟩ := r5 hall
        exact ⟨a, m, st, hreach, b, c, e⟩
  | succ d ih =>
    intro m st hreach h hd
    rcases hb : service_body k s be clock st with ⟨st1, o⟩
    cases o with
    | none =>
      obtain ⟨h1, h2⟩ := dispatch_inv_step k s be clock rwt lo N st hclock h st1 hb
      have hreach1 := service_pass_succ k s be clock st st1 hb m st0 hreach
      obtain ⟨r, hr, rest⟩ := ih (m + 1) st1 hreach1 h1 (by omega)
      refine ⟨r, ?_, rest⟩
      intro fuel hf
      obtain ⟨f, rfl⟩ : ∃ f, fuel = f + 1 := ⟨fuel - 1, by omega⟩
      rw [service_loop, hb]
      exact hr f (by omega)
    | some rc =>
      obtain ⟨r1, r2, r3, r4, r5⟩ := dispatch_return k s be clock rwt lo N st hclock h st1 rc hb
      refine ⟨(st1, rc), ?_, r1, r2, r3, r4, ?_⟩
      · intro fuel hf
        obtain ⟨f, rfl⟩ : ∃ f, fuel = f + 1 := ⟨fuel - 1, by omega⟩
        rw [service_loop, hb]
      · intro hall
        obtain ⟨a, b, c, e⟩ := r5 hall
        exact ⟨a, m, st, hreach, b, c, e⟩

/-- C8 (the dispatch loop is bounded).  For a registry of `N` records and any request,
member workers and starting point of the clock, if every clock reading lies in an
interval no longer than `recover_wait_time`, `service` returns within `N + 1` passes of
its loop: it calls at most `N` member workers, no record is tried twice, and when every
attempt fails recoverably it returns failure in a pass whose selection finds no
record. -/
theorem dispatch_bounded (k : jk_consts) (s : jk_ws_service) (be : backend)
    (clock : Nat → Int) (p : lb_worker) (tick : Nat) (flag : Bool) (lo : Int)
    (hclock : ∀ n, lo ≤ clock n ∧ clock n ≤ lo + p.recover_wait_time) :
    ∃ res : service_result,
      (∀ fuel, p.lb_workers.length + 1 ≤ fuel →
        service k true p s be clock tick flag fuel = some res) ∧
      res.st.tried.length ≤ p.lb_workers.length ∧
      res.st.forwarded.length ≤ p.lb_workers.length ∧
      res.st.tried.Nodup ∧ res.st.forwarded.Nodup ∧
      res.st.attempt ≤ p.lb_workers.length + 1 ∧
      ((∀ a i, (be a i).endpoint_ok = true ∧ (be a i).src = false ∧
          (be a i).is_recoverable = true) →
        res.rc = false ∧ ∃ m st, service_pass k s be clock m (service_init p tick) = some st ∧
          (get_most_suitable_worker k st.p s clock st.tick).rc = none ∧
          res.st.tried = st.tried ∧ res.st.attempt = st.attempt + 1) := by
  have hinit : dispatch_inv p.recover_wait_time lo p.lb_workers.length (service_init p tick) :=
    ⟨rfl, rfl, List.nodup_nil, List.Sublist.refl _, rfl, fun i hi => by cases hi⟩
  obtain ⟨r, hr, r1, r2, r3, r4, r5⟩ := dispatch_terminates k s be clock p.recover_wait_time lo
    p.lb_workers.length (service_init p tick) hclock p.lb_workers.length 0
    (service_init p tick) rfl hinit (by simp [service_init])
  have hlen := nodup_bounded_length r.1.tried _ r1 r3
  refine ⟨⟨r.2, false, r.1⟩, ?_, hlen, ?_, r1, r2.nodup r1, le_trans r4 (by omega), r5⟩
  · intro fuel hf
    rw [service_valid, hr fuel hf]
    rfl
  · exact le_trans r2.length_le hlen

theorem dispatch_bounded_witness :
    ∃ res : service_result,
      (∀ fuel, three_example.lb_workers.length + 1 ≤ fuel →
        service example_consts true three_example plain_request recoverable_backend
          bounded_clock 0 true fuel = some res) ∧
      res.st.tried.length ≤ three_example.lb_workers.length ∧
      res.st.forwarded.length ≤ three_example.lb_workers.length ∧
      res.st.tried.Nodup ∧ res.st.forwarded.Nodup ∧
      res.st.attempt ≤ three_example.lb_workers.length + 1 ∧
      ((∀ a i, (recoverable_backend a i).endpoint_ok = true ∧
          (recoverable_backend a i).src = false ∧
          (recoverable_backend a i).is_recoverable = true) →
        res.rc = false ∧ ∃ m st, service_pass example_consts plain_request recoverable_backend
            bounded_clock m (service_init three_example 0) = some st ∧
          (get_most_suitable_worker example_consts st.p plain_request bounded_clock
            st.tick).rc = none ∧
          res.st.tried = st.tried ∧ res.st.attempt = st.attempt + 1) :=
  dispatch_bounded example_consts plain_request recoverable_backend bounded_clock
    three_example 0 true 1000
    (fun n => ⟨by unfold bounded_clock; omega,
      by show bounded_clock n ≤ 1000 + 60; unfold bounded_clock; omega⟩)

/-! ## Selections on a registry without failures -/

theorem scan_body_healthy (rwt : Int) (sid : Nat) (ss : List Char) (ulf : Bool)
    (clock clock1 : Nat → Int) (i : Nat) (st : scan_state) (h : all_healthy st.lb_workers) :
    scan_body rwt sid ss ulf clock i st = scan_body rwt sid ss ulf clock1 i st ∧
    all_healthy (scan_body rwt sid ss ulf clock i st).1.lb_workers := by
  constructor
  · unfold scan_body
    cases hw : st.lb_workers[i]? with
    | none => rfl
    | some wr =>
      have hh : wr.in_error_state = false := h wr (List.getElem?_mem hw)
      simp only [hh, Bool.false_eq_true, false_and, if_false]
  · rcases scan_body_cases rwt sid ss ulf clock i st with
      ⟨e, hn⟩ | ⟨wr, hw, hc, he, hr, e⟩ | ⟨wr, hw, hc, he, hr, hq, e⟩ |
      ⟨wr, hw, hc, hel, hu, e⟩ | ⟨wr, hw, hc, hel, hu, e⟩ <;> rw [e]
    · exact h
    · exact h
    · exact h
    · intro x hx
      rcases List.mem_or_eq_of_mem_set hx with h1 | h1
      · exact h x h1
      · rw [h1]; exact h wr (List.getElem?_mem hw)
    · exact h

theorem scan_loop_healthy (rwt : Int) (sid : Nat) (ss : List Char) (ulf : Bool)
    (clock clock1 : Nat → Int) :
    ∀ (n i : Nat) (st : scan_state), all_healthy st.lb_workers →
      scan_loop rwt sid ss ulf clock n i st = scan_loop rwt sid ss ulf clock1 n i st ∧
      all_healthy (scan_loop rwt sid ss ulf clock n i st).lb_workers := by
  intro n
  induction n with
  | zero => intro i st h; exact ⟨rfl, h⟩
  | succ n ih =>
    intro i st h
    obtain ⟨h1, h2⟩ := scan_body_healthy rwt sid ss ulf clock clock1 i st h
    rw [scan_loop, scan_loop, ← h1]
    rcases hb : scan_body rwt sid ss ulf clock i st with ⟨st1, b⟩
    rw [hb] at h2
    cases b with
    | true => exact ⟨rfl, h2⟩
    | false => exact ih (i + 1) st1 h2

theorem scan_finish_healthy (clock clock1 : Nat → Int) (st : scan_state)
    (h : all_healthy st.lb_workers) :
    scan_finish clock st = scan_finish clock1 st ∧
    all_healthy (scan_finish clock st).lb_workers ∧ (scan_finish clock st).tick = st.tick := by
  unfold scan_finish
  cases hr : st.rc with
  | none => exact ⟨rfl, h, rfl⟩
  | some j =>
    simp only
    cases hw : st.lb_workers[j]? with
    | none => exact ⟨rfl, h, rfl⟩
    | some wr =>
      have hh : wr.in_error_state = false := h wr (List.getElem?_mem hw)
      simp only [hh, Bool.false_eq_true, if_false, true_and, and_true]
      intro x hx
      rcases List.mem_or_eq_of_mem_set hx with h1 | h1
      · exact h x h1
      · rw [h1]

/-- On a registry without a record in error state a scan does not depend on the
clock. -/
theorem gsw_healthy_clock (p : lb_worker) (sid : Nat) (ss : List Char) (start stop : Nat)
    (ulf : Bool) (clock clock1 : Nat → Int) (tick : Nat) (h : all_healthy p.lb_workers) :
    get_suitable_worker p sid ss start stop ulf clock tick =
      get_suitable_worker p sid ss start stop ulf clock1 tick ∧
    all_healthy (get_suitable_worker p sid ss start stop ulf clock tick).p.lb_workers := by
  obtain ⟨h1, h2⟩ := scan_loop_healthy p.recover_wait_time sid ss ulf clock clock1
    (stop - start) start ⟨p.lb_workers, none, 0, 0, -1, tick⟩ h
  obtain ⟨h3, h4, -⟩ := scan_finish_healthy clock clock1 _ h2
  rw [gsw_unfold, gsw_unfold, ← h1, ← h3]
  exact ⟨rfl, h4⟩

theorem weight_sum_all (rwt now : Int) (sid : Nat) (ss : List Char) (ws : List worker_record) :
    ∀ n, n ≤ ws.length → (∀ k, k < n → selectable rwt now sid ss ws k = true) →
      weight_sum rwt now sid ss ws 0 n = ((ws.take n).map (fun wr => wr.lb_factor)).sum := by
  intro n
  induction n with
  | zero => intro _ _; simp [weight_sum]
  | succ n ih =>
    intro hn hsel
    rw [weight_sum, ih (by omega) (fun k hk => hsel k (by omega)), List.take_succ]
    have hlt : n < ws.length := by omega
    simp only [Nat.zero_add, List.getElem?_eq_getElem hlt, hsel n (by omega), if_true,
      Option.toList_some, List.map_append, List.map_cons, List.map_nil, List.sum_append,
      List.sum_cons, List.sum_nil, add_zero]

theorem scan_loop_healthy_tick (rwt : Int) (sid : Nat) (ss : List Char) (ulf : Bool)
    (clock : Nat → Int) :
    ∀ (n i : Nat) (st : scan_state), all_healthy st.lb_workers →
      (scan_loop rwt sid ss ulf clock n i st).tick = st.tick := by
  intro n
  induction n with
  | zero => intro i st _; rfl
  | succ n ih =>
    intro i st h
    have h2 := (scan_body_healthy rwt sid ss ulf clock clock i st h).2
    have ht : (scan_body rwt sid ss ulf clock i st).1.tick = st.tick := by
      rcases scan_body_cases rwt sid ss ulf clock i st with
        ⟨e, hn⟩ | ⟨wr, hw, hc, he, hr, e⟩ | ⟨wr, hw, hc, he, hr, hq, e⟩ |
        ⟨wr, hw, hc, hel, hu, e⟩ | ⟨wr, hw, hc, hel, hu, e⟩ <;> rw [e]
      · have := h wr (List.getElem?_mem hw)
        rw [he] at this; cases this
      · have := h wr (List.getElem?_mem hw)
        simp [tick_after, this]
      · have := h wr (List.getElem?_mem hw)
        simp [tick_after, this]
    rw [scan_loop]
    rcases hb : scan_body rwt sid ss ulf clock i st with ⟨st1, b⟩
    rw [hb] at h2 ht
    cases b with
    | true => exact ht
    | false =>
      simp only
      rw [ih (i + 1) st1 h2]
      exact ht

/-- One weighted `Any` selection over the full range of a registry without failures:
every load counter grows by the weight of its record, the returned record is one with
the largest counter after that, and it pays back the sum of all weights. -/
theorem any_step (p : lb_worker) (ss : List Char) (clock : Nat → Int) (tick : Nat)
    (hN : p.num_of_workers = p.lb_workers.length) (hne : 0 < p.lb_workers.length)
    (hh : all_healthy p.lb_workers) :
    ∃ j wj, (get_suitable_worker p 5 ss 0 p.num_of_workers true clock tick).rc = some j ∧
      p.lb_workers[j]? = some wj ∧
      (∀ wk ∈ p.lb_workers, wk.lb_value + wk.lb_factor ≤ wj.lb_value + wj.lb_factor) ∧
      (∀ (m : Nat) (wm : worker_record), m < j → p.lb_workers[m]? = some wm →
        wm.lb_value + wm.lb_factor < wj.lb_value + wj.lb_factor) ∧
      (get_suitable_worker p 5 ss 0 p.num_of_workers true clock tick).p =
        { p with lb_workers :=
            (p.lb_workers.map bump).set j (pay (total_weight p.lb_workers) wj) } ∧
      (get_suitable_worker p 5 ss 0 p.num_of_workers true clock tick).tick = tick := by
  rw [(gsw_healthy_clock p 5 ss 0 p.num_of_workers true clock (fun _ => 0) tick hh).1]
  have hw := scan_weighted p.recover_wait_time 0 5 ss p.lb_workers 0 (p.num_of_workers - 0) tick
  rw [gsw_unfold]
  simp only [Nat.sub_zero, Nat.zero_add] at hw ⊢
  have htick := scan_loop_healthy_tick p.recover_wait_time 5 ss true (fun _ => (0 : Int))
    p.num_of_workers 0 ⟨p.lb_workers, none, 0, 0, -1, tick⟩ hh
  generalize scan_loop p.recover_wait_time 5 ss true (fun _ => (0 : Int)) p.num_of_workers 0
    ⟨p.lb_workers, none, 0, 0, -1, tick⟩ = st at hw htick
  have hsel : ∀ k, k < p.num_of_workers →
      selectable p.recover_wait_time 0 5 ss p.lb_workers k = true := by
    intro k hk
    rw [hN] at hk
    rw [selectable_of_get (List.getElem?_eq_getElem hk)]
    have := hh _ (List.getElem_mem hk)
    simp [is_worker_candidate, eligible, this]
  have hlist : st.lb_workers = p.lb_workers.map bump := by
    apply List.ext_getElem?
    intro k
    rw [hw.vals k, List.getElem?_map]
    rcases Nat.lt_or_ge k p.lb_workers.length with hk | hk
    · have : 0 ≤ k ∧ k < p.num_of_workers ∧
          selectable p.recover_wait_time 0 5 ss p.lb_workers k = true :=
        ⟨Nat.zero_le _, by omega, hsel k (by omega)⟩
      simp only [this, and_self, if_true]
    · rw [List.getElem?_eq_none hk]; rfl
  have htotal : st.total_factor = total_weight p.lb_workers := by
    rw [hw.total, Nat.sub_zero, weight_sum_all _ _ _ _ _ _ (by omega) hsel, hN, List.take_length]
    rfl
  cases hrc : st.rc with
  | none =>
    exfalso
    have := hw.rc_none hrc 0 (le_refl _) (by omega)
    rw [hsel 0 (by omega)] at this; cases this
  | some j =>
    obtain ⟨-, hj, wj, hwj, -, hmax, hall⟩ := hw.rc_max j hrc
    have hhj : wj.in_error_state = false := hh wj (List.getElem?_mem hwj)
    have hstj : st.lb_workers[j]? = some (bump wj) := by
      rw [hlist, List.getElem?_map, hwj]; rfl
    refine ⟨j, wj, rfl, hwj, ?_, ?_, ?_, ?_⟩
    · intro wk hk
      obtain ⟨k, hk1, hk2⟩ := List.getElem_of_mem hk
      have hk3 : p.lb_workers[k]? = some wk := by rw [List.getElem?_eq_getElem hk1, hk2]
      have := (hall k wk (Nat.zero_le _) (by omega) hk3 (hsel k (by omega))).1
      rw [hmax] at this
      exact this
    · intro m wm hm hwm
      have := (hall m wm (Nat.zero_le _) (by omega) hwm (hsel m (by omega))).2 hm
      rw [hmax] at this
      exact this
    · unfold scan_finish
      rw [hrc]
      simp only [hstj]
      have : (bump wj).in_error_state = false := hhj
      simp only [this, Bool.false_eq_true, if_false, htotal, hlist]
      congr 2
      cases wj
      simp only [bump, pay, worker_record.mk.injEq] at hhj ⊢
      simp [hhj]
    · unfold scan_finish
      rw [hrc]
      simp only [hstj]
      have : (bump wj).in_error_state = false := hhj
      simp only [this, Bool.false_eq_true, if_false]
      exact htick

/-! ## Load counters under repeated selections -/

theorem sum_map_set (g : worker_record → Int) :
    ∀ (l : List worker_record) (j : Nat) (w x : worker_record), l[j]? = some w →
      ((l.set j x).map g).sum = (l.map g).sum - g w + g x := by
  intro l
  induction l with
  | nil => intro j w x h; simp at h
  | cons a t ih =>
    intro j w x h
    cases j with
    | zero =>
      simp only [List.getElem?_cons_zero, Option.some.injEq] at h
      subst h
      simp only [List.set_cons_zero, List.map_cons, List.sum_cons]
      omega
    | succ j =>
      simp only [List.getElem?_cons_succ] at h
      simp only [List.set_cons_succ, List.map_cons, List.sum_cons, ih j w x h]
      omega

theorem sum_map_bump (ws : List worker_record) :
    ((ws.map bump).map (fun wr => wr.lb_value)).sum =
      (ws.map (fun wr => wr.lb_value)).sum + total_weight ws := by
  induction ws with
  | nil => simp [total_weight]
  | cons a t ih =>
    simp only [List.map_cons, List.sum_cons, ih, total_weight, bump]
    omega

theorem total_weight_bump_set (ws : List worker_record) (j : Nat) (W : Int)
    (wj : worker_record) (h : ws[j]? = some wj) :
    total_weight ((ws.map bump).set j (pay W wj)) = total_weight ws := by
  have hb : (ws.map bump)[j]? = some (bump wj) := by rw [List.getElem?_map, h]; rfl
  unfold total_weight
  rw [sum_map_set (fun wr => wr.lb_factor) _ j (bump wj) (pay W wj) hb]
  have : ((ws.map bump).map (fun wr => wr.lb_factor)) = ws.map (fun wr => wr.lb_factor) := by
    rw [List.map_map]; rfl
  rw [this]
  simp only [bump, pay]
  omega

theorem sum_le_length_mul (g : worker_record → Int) (m : Int) :
    ∀ (l : List worker_record), (∀ x ∈ l, g x ≤ m) → (l.map g).sum ≤ (l.length : Int) * m := by
  intro l
  induction l with
  | nil => intro _; simp
  | cons a t ih =>
    intro h
    have h1 := h a (List.mem_cons_self _ _)
    have h2 := ih (fun x hx => h x (List.mem_cons_of_mem _ hx))
    simp only [List.map_cons, List.sum_cons, List.length_cons, Nat.cast_add, Nat.cast_one]
    nlinarith

theorem length_mul_le_sum (g : worker_record → Int) (m : Int) :
    ∀ (l : List worker_record), (∀ x ∈ l, m ≤ g x) → (l.length : Int) * m ≤ (l.map g).sum := by
  intro l
  induction l with
  | nil => intro _; simp
  | cons a t ih =>
    intro h
    have h1 := h a (List.mem_cons_self _ _)
    have h2 := ih (fun x hx => h x (List.mem_cons_of_mem _ hx))
    simp only [List.map_cons, List.sum_cons, List.length_cons, Nat.cast_add, Nat.cast_one]
    nlinarith

/-- One element against the sum of a list whose elements are bounded below. -/
theorem le_sum_add (g : worker_record → Int) (m : Int) :
    ∀ (l : List worker_record) (k : Nat) (wk : worker_record), l[k]? = some wk →
      (∀ x ∈ l, m ≤ g x) → g wk + ((l.length : Int) - 1) * m ≤ (l.map g).sum := by
  intro l
  induction l with
  | nil => intro k wk h; simp at h
  | cons a t ih =>
    intro k wk h hall
    have ha := hall a (List.mem_cons_self _ _)
    have ht : ∀ x ∈ t, m ≤ g x := fun x hx => hall x (List.mem_cons_of_mem _ hx)
    simp only [List.map_cons, List.sum_cons, List.length_cons, Nat.cast_add, Nat.cast_one]
    cases k with
    | zero =>
      simp only [List.getElem?_cons_zero, Option.some.injEq] at h
      subst h
      have := length_mul_le_sum g m t ht
      linarith
    | succ k =>
      simp only [List.getElem?_cons_succ] at h
      have := ih k wk h ht
      linarith

theorem total_weight_pos (ws : List worker_record) (hw : ∀ wr ∈ ws, 1 ≤ wr.lb_factor) :
    (ws.length : Int) ≤ total_weight ws := by
  have := length_mul_le_sum (fun wr => wr.lb_factor) 1 ws hw
  simpa [total_weight] using this

/-- The invariant `balanced` is kept by one weighted `Any` selection. -/
theorem balanced_step (ws : List worker_record) (j : Nat) (wj : worker_record)
    (hne : 0 < ws.length) (hb : balanced ws) (hwj : ws[j]? = some wj)
    (hmax : ∀ wk ∈ ws, wk.lb_value + wk.lb_factor ≤ wj.lb_value + wj.lb_factor) :
    balanced ((ws.map bump).set j (pay (total_weight ws) wj)) := by
  have hW := total_weight_pos ws hb.weights
  have hWpos : 0 < total_weight ws := by
    have : (0 : Int) < (ws.length : Int) := by exact_mod_cast hne
    omega
  have hbj : (ws.map bump)[j]? = some (bump wj) := by rw [List.getElem?_map, hwj]; rfl
  have hmem : ∀ x ∈ (ws.map bump).set j (pay (total_weight ws) wj),
      (∃ y ∈ ws, x = bump y) ∨ x = pay (total_weight ws) wj := by
    intro x hx
    rcases List.mem_or_eq_of_mem_set hx with h1 | h1
    · left
      obtain ⟨y, hy, rfl⟩ := List.mem_map.1 h1
      exact ⟨y, hy, rfl⟩
    · exact Or.inr h1
  have hwjm : wj ∈ ws := List.getElem?_mem hwj
  refine ⟨?_, ?_, ?_, ?_⟩
  · intro x hx
    rcases hmem x hx with ⟨y, hy, rfl⟩ | rfl
    · exact hb.healthy y hy
    · exact hb.healthy wj hwjm
  · intro x hx
    rcases hmem x hx with ⟨y, hy, rfl⟩ | rfl
    · exact hb.weights y hy
    · exact hb.weights wj hwjm
  · rw [total_weight_bump_set ws j _ wj hwj,
      sum_map_set (fun wr => wr.lb_value) _ j (bump wj) _ hbj, sum_map_bump, hb.sum_eq]
    simp only [bump, pay]
    omega
  · rw [total_weight_bump_set ws j _ wj hwj]
    intro x hx
    rcases hmem x hx with ⟨y, hy, rfl⟩ | rfl
    · have h1 := hb.lower y hy
      have h2 := hb.weights y hy
      simp only [bump]
      omega
    · have h1 := sum_le_length_mul (fun wr => wr.lb_value + wr.lb_factor)
        (wj.lb_value + wj.lb_factor) ws hmax
      have h2 : (ws.map (fun wr => wr.lb_value + wr.lb_factor)).sum =
          (ws.map (fun wr => wr.lb_value)).sum + total_weight ws := by
        rw [← sum_map_bump, List.map_map]; rfl
      rw [h2, hb.sum_eq] at h1
      have h3 : 0 < wj.lb_value + wj.lb_factor := by
        by_contra hcon
        have : (ws.length : Int) * (wj.lb_value + wj.lb_factor) ≤ 0 :=
          mul_nonpos_of_nonneg_of_nonpos (by positivity) (by omega)
        omega
      simp only [pay]
      omega

/-- Along `M` weighted `Any` selections without failures the invariant is kept, weights
stay, and every load counter is its start value plus `M` times the weight of its record
minus the sum of all weights for each time the record was returned. -/
theorem any_run_balance (clock : Nat → Int) :
    ∀ (M : Nat) (p : lb_worker) (tick : Nat),
      p.num_of_workers = p.lb_workers.length → 0 < p.lb_workers.length →
      balanced p.lb_workers →
      balanced (any_run clock M p tick).1.lb_workers ∧
      (any_run clock M p tick).1.lb_workers.length = p.lb_workers.length ∧
      total_weight (any_run clock M p tick).1.lb_workers = total_weight p.lb_workers ∧
      (any_run clock M p tick).2.2.length = M ∧
      ∀ (k : Nat) (wk : worker_record), p.lb_workers[k]? = some wk →
        ∃ wk1, (any_run clock M p tick).1.lb_workers[k]? = some wk1 ∧
          wk1.lb_factor = wk.lb_factor ∧
          wk1.lb_value = wk.lb_value + (M : Int) * wk.lb_factor -
            ((any_run clock M p tick).2.2.count k : Int) * total_weight p.lb_workers := by
  intro M
  induction M with
  | zero =>
    intro p tick _ _ hb
    refine ⟨hb, rfl, rfl, rfl, ?_⟩
    intro k wk hk
    exact ⟨wk, hk, rfl, by simp [any_run]⟩
  | succ M ih =>
    intro p tick hN hne hb
    obtain ⟨j, wj, hrc, hwj, hmax, -, hp, htick⟩ :=
      any_step p "any".toList clock tick hN hne hb.healthy
    have hb1 := balanced_step p.lb_workers j wj hne hb hwj hmax
    have hW1 := total_weight_bump_set p.lb_workers j (total_weight p.lb_workers) wj hwj
    rw [any_run]
    simp only [hrc, hp, Option.toList_some]
    generalize hws1 : (p.lb_workers.map bump).set j (pay (total_weight p.lb_workers) wj) = ws1
      at hb1 hW1
    have hlen1 : ws1.length = p.lb_workers.length := by rw [← hws1]; simp
    generalize (get_suitable_worker p 5 "any".toList 0 p.num_of_workers true clock tick).tick = t1
    obtain ⟨h1, h2, h3, h4, h5⟩ := ih { p with lb_workers := ws1 } t1
      (by simp only [hlen1]; exact hN) (by simp only [hlen1]; exact hne) hb1
    simp only at h1 h2 h3 h4 h5
    refine ⟨h1, by rw [h2, hlen1], by rw [h3, hW1], by simp [h4], ?_⟩
    intro k wk hk
    have hk1 : ws1[k]? = some (if k = j then pay (total_weight p.lb_workers) wj else bump wk) := by
      rw [← hws1]
      by_cases hkj : k = j
      · subst hkj
        rw [if_pos rfl, List.getElem?_set_self (by simpa using getElem?_lt_of_some hk)]
      · rw [if_neg hkj, List.getElem?_set_ne (Ne.symm hkj), List.getElem?_map, hk]; rfl
    obtain ⟨wk1, hwk1, hf, hv⟩ := h5 k _ hk1
    refine ⟨wk1, hwk1, ?_, ?_⟩
    · rw [hf]
      by_cases hkj : k = j
      · subst hkj
        rw [hk] at hwj; cases hwj
        rw [if_pos rfl]; rfl
      · rw [if_neg hkj]; rfl
    · rw [hv, hW1]
      by_cases hkj : k = j
      · subst hkj
        rw [hk] at hwj; cases hwj
        simp only [if_true, pay, List.singleton_append, List.count_cons_self, Nat.cast_add,
          Nat.cast_one]
        ring
      · have hjk : ¬ ((j == k) = true) := by simpa using Ne.symm hkj
        simp only [if_neg hkj, bump, List.singleton_append, List.count_cons, hjk, if_false,
          Nat.add_zero, Nat.cast_add, Nat.cast_one, Bool.false_eq_true, Nat.cast_zero]
        ring

/-- A record whose counter is its weight at the start lies, after `M` selections,
within `N` times the sum of the weights of its share. -/
theorem fairness_of_balanced (ws : List worker_record) (hb : balanced ws)
    (k : Nat) (wk : worker_record) (hk : ws[k]? = some wk) (f : Int)
    (hf : wk.lb_factor = f) (c M : Int)
    (hv : wk.lb_value = f + M * f - c * total_weight ws) :
    |c * total_weight ws - M * f| ≤ (ws.length : Int) * total_weight ws := by
  have hmem : wk ∈ ws := List.getElem?_mem hk
  have hlow := hb.lower wk hmem
  have hW := total_weight_pos ws hb.weights
  have hf1 : 1 ≤ f := by rw [← hf]; exact hb.weights wk hmem
  have hlen : 0 < ws.length := getElem?_lt_of_some hk |> Nat.lt_of_le_of_lt (Nat.zero_le _)
  have hlenZ : (1 : Int) ≤ (ws.length : Int) := by exact_mod_cast hlen
  -- the counter is at most `N` times the sum of the weights
  have hup := le_sum_add (fun wr => wr.lb_value) (- total_weight ws) ws k wk hk
    (fun x hx => le_of_lt (hb.lower x hx))
  rw [hb.sum_eq] at hup
  simp only at hup
  -- the weight of one record is at most the sum, with room for the others
  have hfW := le_sum_add (fun wr => wr.lb_factor) 1 ws k wk hk hb.weights
  simp only at hfW
  rw [hf] at hfW
  have hfW' : f + ((ws.length : Int) - 1) ≤ total_weight ws := by
    have : (ws.map (fun wr => wr.lb_factor)).sum = total_weight ws := rfl
    linarith
  have hNW : total_weight ws ≤ (ws.length : Int) * total_weight ws := by nlinarith
  rw [abs_le]
  constructor
  · -- c * W - M * f = f - lb_value
    have : c * total_weight ws - M * f = f - wk.lb_value := by rw [hv]; ring
    rw [this]
    nlinarith
  · have : c * total_weight ws - M * f = f - wk.lb_value := by rw [hv]; ring
    rw [this]
    rcases Nat.lt_or_ge 1 ws.length with h2 | h2
    · have h2Z : (2 : Int) ≤ (ws.length : Int) := by exact_mod_cast h2
      nlinarith
    · have h1 : ws.length = 1 := by omega
      -- a single record: its counter is the sum of the weights
      match ws, h1, hk, hb.sum_eq with
      | [w0], _, hk0, hs =>
        cases k with
        | zero =>
          simp only [List.getElem?_cons_zero, Option.some.injEq] at hk0
          subst hk0
          simp only [List.map_cons, List.map_nil, List.sum_cons, List.sum_nil, add_zero,
            total_weight] at hs ⊢
          simp only [List.length_singleton, Nat.cast_one, one_mul]
          rw [hs, hf]
          omega
        | succ k => simp at hk0

/-! ## The registry that `validate` builds -/

theorem swap_records_spec (ws : List worker_record) (j i : Nat) (P : worker_record → Prop)
    (n : Nat) (hj : j ≤ i)
    (h : ∀ (m : Nat) (wr : worker_record), m < n → ws[m]? = some wr → P wr) (hi : i < n) :
    (swap_records ws j i).length = ws.length ∧
    ∀ (m : Nat) (wr : worker_record), m < n → (swap_records ws j i)[m]? = some wr → P wr := by
  unfold swap_records
  cases ha : ws[j]? with
  | none => exact ⟨rfl, h⟩
  | some a =>
    cases hb : ws[i]? with
    | none => exact ⟨rfl, h⟩
    | some b =>
      simp only [List.length_set, true_and]
      intro m wr hm hw
      have hjL := getElem?_lt_of_some ha
      have hiL := getElem?_lt_of_some hb
      by_cases hmi : i = m
      · subst hmi
        rw [List.getElem?_set_self (by simp only [List.length_set]; exact hiL)] at hw
        cases hw
        exact h j _ (by omega) ha
      · rw [List.getElem?_set_ne hmi] at hw
        by_cases hmj : j = m
        · subst hmj
          rw [List.getElem?_set_self hjL] at hw
          cases hw
          exact h i _ hi hb
        · rw [List.getElem?_set_ne hmj] at hw
          exact h m wr hm hw

theorem init_record_fresh (k : jk_consts) (wp : worker_props) (old : worker_record) (w : Nat) :
    fresh_record { init_record k wp old with w := w } := by
  refine ⟨rfl, rfl, rfl, ?_⟩
  simp only [init_record]
  split_ifs <;> omega

theorem validate_body_fresh (k : jk_consts) (wp : worker_props) (old : worker_record)
    (i n : Nat) (st : validate_state) (hlen : st.lb_workers.length = n) (hi : i < n)
    (hj : st.j ≤ i)
    (hf : ∀ (m : Nat) (wr : worker_record), m < i → st.lb_workers[m]? = some wr →
      fresh_record wr) :
    (validate_body k wp old i st).1.lb_workers.length = n ∧
    ((validate_body k wp old i st).2 = false →
      (validate_body k wp old i st).1.j ≤ i + 1 ∧
      ∀ (m : Nat) (wr : worker_record), m < i + 1 →
        (validate_body k wp old i st).1.lb_workers[m]? = some wr → fresh_record wr) := by
  unfold validate_body
  cases hc : wp.created with
  | none => simp [hlen]
  | some w =>
    simp only
    have hiL : i < st.lb_workers.length := by omega
    have hset : ∀ (m : Nat) (wr : worker_record), m < i + 1 →
        (st.lb_workers.set i { init_record k wp old with w := w })[m]? = some wr →
        fresh_record wr := by
      intro m wr hm hw
      by_cases hmi : i = m
      · subst hmi
        rw [List.getElem?_set_self hiL] at hw
        cases hw
        exact init_record_fresh k wp old w
      · rw [List.getElem?_set_ne hmi] at hw
        exact hf m wr (by omega) hw
    obtain ⟨hs1, hs2⟩ := swap_records_spec
      (st.lb_workers.set i { init_record k wp old with w := w }) st.j i fresh_record (i + 1)
      hj hset (by omega)
    by_cases hloc : wp.is_local_worker = true
    · rw [if_pos hloc]
      by_cases hij : i ≠ st.j
      · simp only [if_pos hij]
        refine ⟨by rw [hs1, List.length_set]; exact hlen, fun _ => ⟨Nat.succ_le_succ hj, hs2⟩⟩
      · simp only [if_neg hij]
        refine ⟨by rw [List.length_set]; exact hlen, fun _ => ⟨Nat.succ_le_succ hj, hset⟩⟩
    · rw [if_neg hloc]
      refine ⟨by simp only [List.length_set]; exact hlen,
        fun _ => ⟨Nat.le_succ_of_le hj, hset⟩⟩

theorem validate_loop_fresh (k : jk_consts) (mem : Nat → worker_record) (n : Nat) :
    ∀ (wps : List worker_props) (i : Nat) (st : validate_state),
      st.lb_workers.length = n → i + wps.length ≤ n → st.j ≤ i →
      (∀ (m : Nat) (wr : worker_record), m < i → st.lb_workers[m]? = some wr →
        fresh_record wr) →
      (validate_loop k mem wps i st).1.lb_workers.length = n ∧
      ∀ (m : Nat) (wr : worker_record), m < (validate_loop k mem wps i st).2 →
        (validate_loop k mem wps i st).1.lb_workers[m]? = some wr → fresh_record wr := by
  intro wps
  induction wps with
  | nil => intro i st hlen _ _ hf; exact ⟨hlen, hf⟩
  | cons wp rest ih =>
    intro i st hlen hi hj hf
    simp only [List.length_cons] at hi
    rw [validate_loop]
    obtain ⟨h1, h2⟩ := validate_body_fresh k wp (st.lb_workers.getD i (mem i)) i n st hlen
      (by omega) hj hf
    rcases hb : validate_body k wp (st.lb_workers.getD i (mem i)) i st with ⟨st1, b⟩
    rw [hb] at h1 h2
    cases b with
    | true =>
      simp only
      refine ⟨h1, ?_⟩
      intro m wr hm hw
      -- the records below `i` are untouched by a pass that breaks
      have hc : wp.created = none := by
        unfold validate_body at hb
        cases hcr : wp.created with
        | none => rfl
        | some w =>
          rw [hcr] at hb
          simp only at hb
          split_ifs at hb <;> simp at hb
      unfold validate_body at hb
      rw [hc] at hb
      simp only [Prod.mk.injEq, and_true] at hb
      rw [← hb] at hw
      simp only at hw
      rw [List.getElem?_set_ne (by omega)] at hw
      exact hf m wr hm hw
    | false =>
      obtain ⟨h3, h4⟩ := h2 rfl
      exact ih (i + 1) st1 h1 (by omega) h3 h4

theorem set_local_domains_spec (ws : List worker_record) (nl : Nat) :
    (set_local_domains ws nl).length = ws.length ∧
    ∀ x ∈ set_local_domains ws nl, ∃ y ∈ ws, ∃ b, x = { y with is_local_domain := b } := by
  unfold set_local_domains
  constructor
  · simp
  · intro x hx
    obtain ⟨iw, hiw, rfl⟩ := List.mem_map.1 hx
    refine ⟨iw.2, List.snd_mem_of_mem_enum hiw, ?_⟩
    split_ifs
    · exact ⟨_, rfl⟩
    · exact ⟨_, rfl⟩

/-- What a successful `validate` leaves: `num_of_workers` is the number of records,
there is at least one, and every record is as initialised. -/
theorem validate_fresh (k : jk_consts) (p0 : lb_worker) (props : lb_props)
    (mem : Nat → worker_record) (h : (validate k true p0 props mem).rc = true) :
    (validate k true p0 props mem).p.num_of_workers =
      (validate k true p0 props mem).p.lb_workers.length ∧
    0 < (validate k true p0 props mem).p.lb_workers.length ∧
    (∀ wr ∈ (validate k true p0 props mem).p.lb_workers, fresh_record wr) ∧
    (validate k true p0 props mem).p.sticky_session = props.sticky_session := by
  unfold validate at h ⊢
  simp only [if_true] at h ⊢
  cases hwl : props.worker_list with
  | none => rw [hwl] at h; simp at h
  | some wps =>
    rw [hwl] at h
    simp only at h ⊢
    by_cases h0 : wps.length = 0
    · rw [if_pos h0] at h; simp at h
    · rw [if_neg h0] at h ⊢
      by_cases ha : props.alloc_ok = false
      · rw [if_pos ha] at h; simp at h
      · rw [if_neg ha] at h ⊢
        obtain ⟨hl, hf⟩ := validate_loop_fresh k mem wps.length wps 0
          ⟨(List.range wps.length).map mem, 0, false⟩ (by simp) (by omega) (le_refl _)
          (fun m wr hm _ => by omega)
        rcases hvl : validate_loop k mem wps 0 ⟨(List.range wps.length).map mem, 0, false⟩
          with ⟨st, i⟩
        rw [hvl] at h hl hf
        simp only at h hl hf ⊢
        by_cases hi : i ≠ wps.length
        · rw [if_pos hi] at h; simp at h
        · rw [if_neg hi]
          have hi' : i = wps.length := by simpa using hi
          obtain ⟨s1, s2⟩ := set_local_domains_spec st.lb_workers st.j
          simp only
          refine ⟨by rw [s1, hl], by rw [s1, hl]; omega, ?_, trivial⟩
          intro x hx
          obtain ⟨y, hy, b, rfl⟩ := s2 x hx
          obtain ⟨m, hm1, hm2⟩ := List.getElem_of_mem hy
          have := hf m y (by omega) (by rw [List.getElem?_eq_getElem hm1, hm2])
          exact this

/-! ## Freshly built records -/

theorem balanced_of_fresh (ws : List worker_record) (hne : 0 < ws.length)
    (h : ∀ wr ∈ ws, fresh_record wr) : balanced ws := by
  have hw : ∀ wr ∈ ws, 1 ≤ wr.lb_factor := fun wr hwr => (h wr hwr).2.2.2
  have hW := total_weight_pos ws hw
  have hpos : (0 : Int) < (ws.length : Int) := by exact_mod_cast hne
  refine ⟨fun wr hwr => (h wr hwr).1, hw, ?_, ?_⟩
  · unfold total_weight
    congr 1
    apply List.map_congr_left
    intro wr hwr
    exact (h wr hwr).2.2.1
  · intro wr hwr
    have := (h wr hwr).2.2.1
    have := hw wr hwr
    omega

/-! ## C10 -/

/-- One weighted `Any` selection over the full range of a registry without failures, in
terms of load counters and weights alone. -/
theorem any_step_vals (p : lb_worker) (ss : List Char) (clock : Nat → Int) (tick : Nat)
    (hN : p.num_of_workers = p.lb_workers.length) (hne : 0 < p.lb_workers.length)
    (hh : all_healthy p.lb_workers) :
    ∃ j, (get_suitable_worker p 5 ss 0 p.num_of_workers true clock tick).rc = some j ∧
      first_max (load_vals p.lb_workers) j ∧
      load_vals (get_suitable_worker p 5 ss 0 p.num_of_workers true clock tick).p.lb_workers =
        next_vals (load_vals p.lb_workers) j ∧
      all_healthy (get_suitable_worker p 5 ss 0 p.num_of_workers true clock tick).p.lb_workers ∧
      (get_suitable_worker p 5 ss 0 p.num_of_workers true clock tick).p.num_of_workers =
        (get_suitable_worker p 5 ss 0 p.num_of_workers true clock tick).p.lb_workers.length ∧
      (get_suitable_worker p 5 ss 0 p.num_of_workers true clock tick).p.lb_workers.length =
        p.lb_workers.length ∧
      (get_suitable_worker p 5 ss 0 p.num_of_workers true clock tick).p =
        { p with lb_workers :=
          (get_suitable_worker p 5 ss 0 p.num_of_workers true clock tick).p.lb_workers } ∧
      (get_suitable_worker p 5 ss 0 p.num_of_workers true clock tick).tick = tick := by
  obtain ⟨j, wj, hrc, hwj, hmax, hstrict, hp, htick⟩ := any_step p ss clock tick hN hne hh
  have hhealthy := (gsw_healthy_clock p 5 ss 0 p.num_of_workers true clock clock tick hh).2
  have hjL := getElem?_lt_of_some hwj
  have hget : ∀ k, k < p.lb_workers.length →
      ∃ wk, p.lb_workers[k]? = some wk ∧
        (load_vals p.lb_workers).getD k (0, 0) = (wk.lb_value, wk.lb_factor) := by
    intro k hk
    refine ⟨p.lb_workers[k], List.getElem?_eq_getElem hk, ?_⟩
    simp [load_vals, List.getD_eq_getElem?_getD, List.getElem?_map, List.getElem?_eq_getElem hk]
  obtain ⟨wj1, hwj1, hgj⟩ := hget j hjL
  rw [hwj] at hwj1; cases hwj1
  refine ⟨j, hrc, ⟨by simpa [load_vals] using hjL, ?_, ?_⟩, ?_, hhealthy, ?_, ?_, ?_, htick⟩
  · intro k hk
    have hk' : k < p.lb_workers.length := by simpa [load_vals] using hk
    obtain ⟨wk, hwk, hgk⟩ := hget k hk'
    rw [hgk, hgj]
    exact hmax wk (List.getElem?_mem hwk)
  · intro k hk
    obtain ⟨wk, hwk, hgk⟩ := hget k (by omega)
    rw [hgk, hgj]
    exact hstrict k wk hk hwk
  · rw [hp]
    simp only [load_vals, next_vals, List.map_set, List.map_map, List.getElem?_map, hwj,
      Option.map_some', Function.comp]
    rfl
  · rw [hp]
    simp only [List.length_set, List.length_map]
    exact hN
  · rw [hp]
    simp only [List.length_set, List.length_map]
  · rw [hp]

theorem gmsw_plain (k : jk_consts) (p : lb_worker) (s : jk_ws_service) (clock : Nat → Int)
    (tick : Nat) (hs : p.sticky_session = false) (hl : p.num_of_local_workers = 0) :
    get_most_suitable_worker k p s clock tick =
      { p := (get_suitable_worker p 5 "any".toList 0 p.num_of_workers true clock tick).p,
        rc := (get_suitable_worker p 5 "any".toList 0 p.num_of_workers true clock tick).rc,
        tick := (get_suitable_worker p 5 "any".toList 0 p.num_of_workers true clock tick).tick } := by
  unfold get_most_suitable_worker
  simp only [hs, Bool.false_eq_true, if_false]
  unfold route_no_session
  simp only [hl, ne_eq, not_true_eq_false, if_false]

/-- One call of `get_most_suitable_worker` on a plain registry without failures, in
terms of load counters and weights. -/
theorem route_step_vals (k : jk_consts) (p : lb_worker) (s : jk_ws_service)
    (clock : Nat → Int) (tick : Nat) (h : plain_healthy p) :
    ∃ j, (get_most_suitable_worker k p s clock tick).rc = some j ∧
      first_max (load_vals p.lb_workers) j ∧
      load_vals (get_most_suitable_worker k p s clock tick).p.lb_workers =
        next_vals (load_vals p.lb_workers) j ∧
      plain_healthy (get_most_suitable_worker k p s clock tick).p ∧
      (get_most_suitable_worker k p s clock tick).tick = tick := by
  rw [gmsw_plain k p s clock tick h.sticky_off h.no_local]
  obtain ⟨j, h1, h2, h3, h4, h5, h6, h7, h8⟩ :=
    any_step_vals p "any".toList clock tick h.count_eq h.nonempty h.healthy
  refine ⟨j, h1, h2, h3, ⟨?_, ?_, h5, ?_, h4⟩, h8⟩
  · simp only; rw [h7]; exact h.sticky_off
  · simp only; rw [h7]; exact h.no_local
  · simp only; rw [h6]; exact h.nonempty

/-- A step whose winner and next values are known from the values alone. -/
theorem route_step_known (k : jk_consts) (p : lb_worker) (s : jk_ws_service)
    (clock : Nat → Int) (tick : Nat) (L L1 : List (Int × Int)) (j0 : Nat)
    (hdec : ∀ j, j < L.length → first_max L j → j = j0) (hnext : next_vals L j0 = L1)
    (h : plain_healthy p) (hL : load_vals p.lb_workers = L) :
    (get_most_suitable_worker k p s clock tick).rc = some j0 ∧
    load_vals (get_most_suitable_worker k p s clock tick).p.lb_workers = L1 ∧
    plain_healthy (get_most_suitable_worker k p s clock tick).p ∧
    (get_most_suitable_worker k p s clock tick).tick = tick := by
  obtain ⟨j, h1, h2, h3, h4, h5⟩ := route_step_vals k p s clock tick h
  rw [hL] at h2 h3
  have hj := hdec j h2.1 h2
  subst hj
  exact ⟨h1, by rw [h3, hnext], h4, h5⟩

theorem route_run_succ (k : jk_consts) (s : jk_ws_service) (clock : Nat → Int) (M : Nat)
    (p : lb_worker) (tick : Nat) :
    route_run k s clock (M + 1) p tick =
      ((route_run k s clock M (get_most_suitable_worker k p s clock tick).p
          (get_most_suitable_worker k p s clock tick).tick).1,
        (route_run k s clock M (get_most_suitable_worker k p s clock tick).p
          (get_most_suitable_worker k p s clock tick).tick).2.1,
        (get_most_suitable_worker k p s clock tick).rc.toList ++
          (route_run k s clock M (get_most_suitable_worker k p s clock tick).p
            (get_most_suitable_worker k p s clock tick).tick).2.2) := rfl

theorem route_run_add (k : jk_consts) (s : jk_ws_service) (clock : Nat → Int) (b : Nat) :
    ∀ (a : Nat) (p : lb_worker) (tick : Nat),
      route_run k s clock (a + b) p tick =
        ((route_run k s clock b (route_run k s clock a p tick).1
            (route_run k s clock a p tick).2.1).1,
          (route_run k s clock b (route_run k s clock a p tick).1
            (route_run k s clock a p tick).2.1).2.1,
          (route_run k s clock a p tick).2.2 ++
            (route_run k s clock b (route_run k s clock a p tick).1
              (route_run k s clock a p tick).2.1).2.2) := by
  intro a
  induction a with
  | zero => intro p tick; simp [route_run]
  | succ a ih =>
    intro p tick
    have : a + 1 + b = (a + b) + 1 := by omega
    rw [this, route_run_succ, ih, route_run_succ]
    simp only [List.append_assoc]

/-- With load counters and weights `(1,1), (2,2), (1,1)`, four calls return the records
1, 0, 1, 2 and bring the counters back. -/
theorem abc_cycle (k : jk_consts) (s : jk_ws_service) (clock : Nat → Int) (p : lb_worker)
    (tick : Nat) (h : plain_healthy p)
    (hL : load_vals p.lb_workers = [(1, 1), (2, 2), (1, 1)]) :
    (route_run k s clock 4 p tick).2.2 = [1, 0, 1, 2] ∧
    plain_healthy (route_run k s clock 4 p tick).1 ∧
    load_vals (route_run k s clock 4 p tick).1.lb_workers = [(1, 1), (2, 2), (1, 1)] ∧
    (route_run k s clock 4 p tick).2.1 = tick := by
  obtain ⟨a1, a2, a3, a4⟩ := route_step_known k p s clock tick
    [(1, 1), (2, 2), (1, 1)] [(2, 1), (0, 2), (2, 1)] 1 (by decide) (by decide) h hL
  obtain ⟨b1, b2, b3, b4⟩ := route_step_known k _ s clock tick
    [(2, 1), (0, 2), (2, 1)] [(-1, 1), (2, 2), (3, 1)] 0 (by decide) (by decide) a3 a2
  obtain ⟨c1, c2, c3, c4⟩ := route_step_known k _ s clock tick
    [(-1, 1), (2, 2), (3, 1)] [(0, 1), (0, 2), (4, 1)] 1 (by decide) (by decide) b3 b2
  obtain ⟨d1, d2, d3, d4⟩ := route_step_known k _ s clock tick
    [(0, 1), (0, 2), (4, 1)] [(1, 1), (2, 2), (1, 1)] 2 (by decide) (by decide) c3 c2
  simp only [route_run_succ, route_run, a1, a4, b1, b4, c1, c4, d1, d4, Option.toList_some,
    List.singleton_append, List.append_nil]
  exact ⟨trivial, d3, d2, trivial⟩

/-- After `4 * n` calls each of the records 0 and 2 has been returned `n` times and
record 1 `2 * n` times. -/
theorem abc_cycles (k : jk_consts) (s : jk_ws_service) (clock : Nat → Int) :
    ∀ (n : Nat) (p : lb_worker) (tick : Nat), plain_healthy p →
      load_vals p.lb_workers = [(1, 1), (2, 2), (1, 1)] →
      (route_run k s clock (4 * n) p tick).2.2.length = 4 * n ∧
      (route_run k s clock (4 * n) p tick).2.2.count 0 = n ∧
      (route_run k s clock (4 * n) p tick).2.2.count 1 = 2 * n ∧
      (route_run k s clock (4 * n) p tick).2.2.count 2 = n := by
  intro n
  induction n with
  | zero => intro p tick _ _; simp [route_run]
  | succ n ih =>
    intro p tick h hL
    obtain ⟨c1, c2, c3, c4⟩ := abc_cycle k s clock p tick h hL
    have e : 4 * (n + 1) = 4 + 4 * n := by omega
    rw [e, route_run_add]
    simp only [c1, c4]
    obtain ⟨i1, i2, i3, i4⟩ := ih (route_run k s clock 4 p tick).1 tick c2 c3
    simp only [List.length_append, List.count_append, i1, i2, i3, i4]
    refine ⟨by simp, ?_, ?_, ?_⟩
    · simp only [List.count_cons, List.count_nil]
      simp
      omega
    · simp only [List.count_cons, List.count_nil]
      simp
      omega
    · simp only [List.count_cons, List.count_nil]
      simp
      omega

/-- The registry that `validate` builds from three backends that are not local and
whose member workers are created, with weights 1, 2 and 1. -/
theorem validate_abc (k : jk_consts) (p0 : lb_worker) (props : lb_props)
    (mem : Nat → worker_record) (a b c : worker_props) (wa wb wc : Nat)
    (hlist : props.worker_list = some [a, b, c]) (halloc : props.alloc_ok = true)
    (ha : a.lb_factor = 1 ∧ a.is_local_worker = false ∧ a.created = some wa)
    (hb : b.lb_factor = 2 ∧ b.is_local_worker = false ∧ b.created = some wb)
    (hc : c.lb_factor = 1 ∧ c.is_local_worker = false ∧ c.created = some wc) :
    (validate k true p0 props mem).rc = true ∧
    (validate k true p0 props mem).p.num_of_local_workers = 0 ∧
    (validate k true p0 props mem).p.lb_workers.map (fun wr => wr.name) =
      [a.name, b.name, c.name] ∧
    load_vals (validate k true p0 props mem).p.lb_workers = [(1, 1), (2, 2), (1, 1)] := by
  obtain ⟨ha1, ha2, ha3⟩ := ha
  obtain ⟨hb1, hb2, hb3⟩ := hb
  obtain ⟨hc1, hc2, hc3⟩ := hc
  simp [validate, hlist, halloc, validate_loop, validate_body, init_record, ha1, ha2, ha3,
    hb1, hb2, hb3, hc1, hc2, hc3, set_local_domains, load_vals, List.range, List.range.loop,
    List.enum, List.enumFrom]

/-- C10 (scenario 1:2:1).  For the registry that `validate` builds from three backends
`A` (weight 1), `B` (weight 2), `C` (weight 1) in this order, none local, with sticky
sessions off: `validate` succeeds, the records are `A`, `B`, `C` in this order, and 100
consecutive calls of `get_most_suitable_worker` each return a record, `A` 25 times, `B`
50 times and `C` 25 times. -/
theorem scenario_one_two_one (k : jk_consts) (s : jk_ws_service) (clock : Nat → Int)
    (tick : Nat) (p0 : lb_worker) (props : lb_props) (mem : Nat → worker_record)
    (a b c : worker_props) (wa wb wc : Nat)
    (hlist : props.worker_list = some [a, b, c]) (halloc : props.alloc_ok = true)
    (hsticky : props.sticky_session = false)
    (ha : a.lb_factor = 1 ∧ a.is_local_worker = false ∧ a.created = some wa)
    (hb : b.lb_factor = 2 ∧ b.is_local_worker = false ∧ b.created = some wb)
    (hc : c.lb_factor = 1 ∧ c.is_local_worker = false ∧ c.created = some wc) :
    (validate k true p0 props mem).rc = true ∧
    (validate k true p0 props mem).p.lb_workers.map (fun wr => wr.name) =
      [a.name, b.name, c.name] ∧
    (route_run k s clock 100 (validate k true p0 props mem).p tick).2.2.length = 100 ∧
    (route_run k s clock 100 (validate k true p0 props mem).p tick).2.2.count 0 = 25 ∧
    (route_run k s clock 100 (validate k true p0 props mem).p tick).2.2.count 1 = 50 ∧
    (route_run k s clock 100 (validate k true p0 props mem).p tick).2.2.count 2 = 25 := by
  obtain ⟨hrc, hnl, hnames, hvals⟩ := validate_abc k p0 props mem a b c wa wb wc hlist halloc
    ha hb hc
  obtain ⟨hN, hne, hfresh, hst⟩ := validate_fresh k p0 props mem hrc
  have hplain : plain_healthy (validate k true p0 props mem).p :=
    ⟨by rw [hst, hsticky], hnl, hN, hne, fun wr hwr => (hfresh wr hwr).1⟩
  obtain ⟨h1, h2, h3, h4⟩ := abc_cycles k s clock 25 _ tick hplain hvals
  exact ⟨hrc, hnames, h1, h2, h3, h4⟩

theorem scenario_one_two_one_witness :
    (validate example_consts true lb_worker_factory abc_props zero_mem).rc = true ∧
    (validate example_consts true lb_worker_factory abc_props zero_mem).p.lb_workers.map
      (fun wr => wr.name) = [['A'], ['B'], ['C']] ∧
    (route_run example_consts plain_request ticking_clock 100
      (validate example_consts true lb_worker_factory abc_props zero_mem).p 0).2.2.length
        = 100 ∧
    (route_run example_consts plain_request ticking_clock 100
      (validate example_consts true lb_worker_factory abc_props zero_mem).p 0).2.2.count 0
        = 25 ∧
    (route_run example_consts plain_request ticking_clock 100
      (validate example_consts true lb_worker_factory abc_props zero_mem).p 0).2.2.count 1
        = 50 ∧
    (route_run example_consts plain_request ticking_clock 100
      (validate example_consts true lb_worker_factory abc_props zero_mem).p 0).2.2.count 2
        = 25 :=
  scenario_one_two_one example_consts plain_request ticking_clock 0 lb_worker_factory
    abc_props zero_mem ⟨['A'], 1, none, false, some 0⟩ ⟨['B'], 2, none, false, some 1⟩
    ⟨['C'], 1, none, false, some 2⟩ 0 1 2 rfl rfl rfl ⟨rfl, rfl, rfl⟩ ⟨rfl, rfl, rfl⟩
    ⟨rfl, rfl, rfl⟩

/-! ## C11, C12, C13: routing without affinity token -/

/-- The first part of a session id ends at the first `;`. -/
theorem session_parts_head (a tail : List Char) (ha : ';' ∉ a)
    (ht : tail = [] ∨ tail.head? = some ';') :
    ∃ tl, session_parts (a ++ tail) = a :: tl := by
  induction a with
  | nil =>
    rcases ht with ht | ht
    · subst ht; exact ⟨[], rfl⟩
    · cases tail with
      | nil => cases ht
      | cons c t =>
        simp only [List.head?_cons, Option.some.injEq] at ht
        subst ht
        exact ⟨session_parts t, by simp [session_parts]⟩
  | cons x t ih =>
    have hx : x ≠ ';' := fun e => ha (by rw [e]; exact List.mem_cons_self _ _)
    obtain ⟨tl, htl⟩ := ih (fun e => ha (List.mem_cons_of_mem _ e))
    exact ⟨tl, by simp [session_parts, hx, htl]⟩

/-- The session loop at a part `id.route`, `id` without `.`: when a record named `route`
is eligible at clock value `now`, the name search returns the first eligible record of
that name and the loop returns it. -/
theorem route_session_by_name (k : jk_consts) (p : lb_worker) (now : Int) (tick : Nat)
    (id route : List Char) (rest : List (List Char)) (i : Nat) (wr : worker_record)
    (hid : '.' ∉ id) (hi : i < p.num_of_workers) (hw : p.lb_workers[i]? = some wr)
    (hname : wr.name = route) (hel : eligible p.recover_wait_time now wr = true) :
    ∃ j wj, (route_session k (fun _ => now) ((id ++ '.' :: route) :: rest) p tick).rc = some j ∧
      p.lb_workers[j]? = some wj ∧ wj.name = route ∧
      eligible p.recover_wait_time now wj = true ∧ j ≤ i := by
  have h2 := strchr_append id route '.' hid
  have hsel : selectable p.recover_wait_time now 1 route p.lb_workers i = true := by
    rw [selectable_of_get hw, hel]
    simp [is_worker_candidate, hname]
  cases hrc : (get_suitable_worker p 1 route 0 p.num_of_workers false (fun _ => now) tick).rc with
  | none =>
    exfalso
    have := (gsw_rc_none_iff p 1 route 0 p.num_of_workers false now tick).1 hrc i
      (Nat.zero_le _) hi
    rw [hsel] at this; cases this
  | some j =>
    obtain ⟨-, hj, hsj⟩ := gsw_rc_selectable p 1 route 0 p.num_of_workers false now tick j hrc
    have hfirst := gsw_unweighted_first p 1 route 0 p.num_of_workers now tick j hrc
    have hji : j ≤ i := by
      rcases Nat.lt_or_ge i j with hlt | hge
      · have := hfirst i (Nat.zero_le _) hlt
        rw [hsel] at this; cases this
      · exact hge
    cases hwj : p.lb_workers[j]? with
    | none => unfold selectable at hsj; rw [hwj] at hsj; cases hsj
    | some wj =>
      rw [selectable_of_get hwj] at hsj
      simp only [Bool.and_eq_true, is_worker_candidate, decide_eq_true_eq] at hsj
      refine ⟨j, wj, ?_, hwj, hsj.1.symm, hsj.2, hji⟩
      rw [route_session, h2]
      simp only [drop_route, hrc]
      simp

/-- C14, counterexample.  With sticky sessions on, the token `a.b.A` and healthy records
`B` and `A`, the name searched for is not `A`: routing returns `B`, the record of index
0, by weighted selection. -/
theorem last_dot_not_used :
    sticky_example.sticky_session = true ∧
    get_sessionid example_consts dotted_request = some "a.b.A".toList ∧
    (sticky_example.lb_workers[1]?).map
      (fun wr => (wr.name, wr.in_error_state)) = some (['A'], false) ∧
    (get_most_suitable_worker example_consts sticky_example dotted_request
      (fun _ => 1000) 0).rc = some 0 ∧
    (sticky_example.lb_workers[0]?).map (fun wr => wr.name) = some ['B'] := by
  refine ⟨rfl, rfl, rfl, rfl, rfl⟩

/-- C14 (backend name of a token part), amended.  The candidate backend name of an
affinity-token part is the text after the FIRST `.` of the part, further dots included.
With sticky sessions on and a session id whose first part is `id.route` (`id` without
`.`, the part ending at the first `;` or at the end of the session id), when a record
named `route` is eligible at clock value `now`, `get_most_suitable_worker` returns an
eligible record named `route`, the first one in registry order; and the session loop
does so at every part it reaches.  With the token `a.b.A` the name searched for is
`b.A`. -/
theorem route_after_first_dot (k : jk_consts) (p : lb_worker) (s : jk_ws_service)
    (now : Int) (tick : Nat) (id route tail : List Char) (i : Nat) (wr : worker_record)
    (hs : p.sticky_session = true)
    (htok : get_sessionid k s = some ((id ++ '.' :: route) ++ tail))
    (hid : '.' ∉ id) (hsemi : ';' ∉ id ++ '.' :: route)
    (htail : tail = [] ∨ tail.head? = some ';')
    (hi : i < p.num_of_workers) (hw : p.lb_workers[i]? = some wr) (hname : wr.name = route)
    (hel : eligible p.recover_wait_time now wr = true) :
    (∃ j wj, (get_most_suitable_worker k p s (fun _ => now) tick).rc = some j ∧
      p.lb_workers[j]? = some wj ∧ wj.name = route ∧
      eligible p.recover_wait_time now wj = true ∧ j ≤ i) ∧
    ∀ (rest : List (List Char)) (t : Nat),
      ∃ j wj, (route_session k (fun _ => now) ((id ++ '.' :: route) :: rest) p t).rc = some j ∧
        p.lb_workers[j]? = some wj ∧ wj.name = route ∧
        eligible p.recover_wait_time now wj = true ∧ j ≤ i := by
  refine ⟨?_, fun rest t => route_session_by_name k p now t id route rest i wr hid hi hw
    hname hel⟩
  obtain ⟨tl, htl⟩ := session_parts_head (id ++ '.' :: route) tail hsemi htail
  have hg : get_most_suitable_worker k p s (fun _ => now) tick =
      route_session k (fun _ => now) ((id ++ '.' :: route) :: tl) p tick := by
    unfold get_most_suitable_worker
    simp only [hs, if_true, htok, htl]
  rw [hg]
  exact route_session_by_name k p now tick id route tl i wr hid hi hw hname hel

theorem route_after_first_dot_witness :
    (∃ j wj, (get_most_suitable_worker example_consts dotted_example dotted_request
        (fun _ => 1000) 0).rc = some j ∧
      dotted_example.lb_workers[j]? = some wj ∧ wj.name = "b.A".toList ∧
      eligible dotted_example.recover_wait_time 1000 wj = true ∧ j ≤ 1) ∧
    ∀ (rest : List (List Char)) (t : Nat),
      ∃ j wj, (route_session example_consts (fun _ => 1000)
          (("a".toList ++ '.' :: "b.A".toList) :: rest) dotted_example t).rc = some j ∧
        dotted_example.lb_workers[j]? = some wj ∧ wj.name = "b.A".toList ∧
        eligible dotted_example.recover_wait_time 1000 wj = true ∧ j ≤ 1 :=
  route_after_first_dot example_consts dotted_example dotted_request 1000 0
    "a".toList "b.A".toList [] 1
    ⟨"b.A".toList, ['d'], 1, 1, false, false, false, false, 0, 1⟩
    rfl rfl (by decide) (by decide) (Or.inl rfl) (by decide) rfl rfl rfl

/-! ## C15: one recovery trial -/

/-- What `service` leaves in the registry after an attempt on the record that routing
returned is what `record_outcome` says. -/
theorem service_body_records (k : jk_consts) (s : jk_ws_service) (be : backend)
    (clock : Nat → Int) (st : service_state) (i : Nat) (wr : worker_record)
    (h : (get_most_suitable_worker k st.p s clock st.tick).rc = some i)
    (hw : (get_most_suitable_worker k st.p s clock st.tick).p.lb_workers[i]? = some wr) :
    (service_body k s be clock st).1.p =
      record_outcome (get_most_suitable_worker k st.p s clock st.tick).p i
        ((be st.attempt i).endpoint_ok && (be st.attempt i).src)
        (clock (get_most_suitable_worker k st.p s clock st.tick).tick) := by
  rw [service_body_some k s be clock st i wr h hw]
  unfold record_outcome
  rw [hw]
  by_cases hc : (be st.attempt i).endpoint_ok = true ∧ (be st.attempt i).src = true
  · rw [if_pos hc]
    simp [hc.1, hc.2]
  · rw [if_neg hc]
    have hb : ((be st.attempt i).endpoint_ok && (be st.attempt i).src) = false := by
      cases h1 : (be st.attempt i).endpoint_ok <;> cases h2 : (be st.attempt i).src <;>
        simp_all
    simp [hb]

/-- A record on its recovery trial is not returned by `get_suitable_worker`, and stays
on trial. -/
theorem on_trial_select (p : lb_worker) (sid : Nat) (ss : List Char) (start stop : Nat)
    (ulf : Bool) (clock : Nat → Int) (tick : Nat) (i : Nat) (h : on_trial p i) :
    (get_suitable_worker p sid ss start stop ulf clock tick).rc ≠ some i ∧
      on_trial (get_suitable_worker p sid ss start stop ulf clock tick).p i := by
  obtain ⟨wi, hwi, he, hr⟩ := h
  have hpost := gsw_sel_post p sid ss start stop ulf clock tick
  cases hrc : (get_suitable_worker p sid ss start stop ulf clock tick).rc with
  | none =>
    refine ⟨(fun h => by cases h), ?_⟩
    rw [hpost.2.1 hrc]
    exact ⟨wi, hwi, he, hr⟩
  | some j =>
    rw [hrc] at hpost
    obtain ⟨wr0, wr1, t, h0, htr, h1, _, hothers, _⟩ := sel_post_get hpost
    have hji : j ≠ i := by
      intro e
      subst e
      rw [hwi] at h0
      cases h0
      have := (htr he).1
      rw [hr] at this
      cases this
    refine ⟨fun h => hji (Option.some.inj h), ?_⟩
    have hm := hothers i (fun e => hji e.symm)
    rw [hwi] at hm
    cases hw1 : (get_suitable_worker p sid ss start stop ulf clock tick).p.lb_workers[i]? with
    | none => rw [hw1] at hm; cases hm
    | some w1 =>
      rw [hw1] at hm
      simp only [Option.map_some', Option.some.injEq] at hm
      obtain ⟨-, -, -, -, -, h6, h7, -, -⟩ := erase_lb_fields hm
      exact ⟨w1, hw1, by rw [h6]; exact he, by rw [h7]; exact hr⟩

/-- Recording an outcome on another record leaves a record on its recovery trial. -/
theorem on_trial_outcome (p : lb_worker) (i j : Nat) (ok : Bool) (now : Int) (hji : j ≠ i)
    (h : on_trial p i) : on_trial (record_outcome p j ok now) i := by
  obtain ⟨wi, hwi, he, hr⟩ := h
  unfold record_outcome
  cases hj : p.lb_workers[j]? with
  | none => exact ⟨wi, hwi, he, hr⟩
  | some wj =>
    refine ⟨wi, ?_, he, hr⟩
    dsimp only
    rw [List.getElem?_set_ne hji]
    exact hwi

/-- A record on its recovery trial is returned by no call of a run in which no outcome
is recorded on it. -/
theorem on_trial_run (clock : Nat → Int) (i : Nat) :
    ∀ (es : List lb_event) (p : lb_worker) (tick : Nat), on_trial p i →
      (∀ ok, lb_event.outcome i ok ∉ es) →
      some i ∉ (run_events clock es p tick).2.2 ∧ on_trial (run_events clock es p tick).1 i := by
  intro es
  induction es with
  | nil =>
    intro p tick h _
    exact ⟨(fun hm => by cases hm), h⟩
  | cons e es ih =>
    intro p tick h hno
    have hno' : ∀ ok, lb_event.outcome i ok ∉ es :=
      fun ok hm => hno ok (List.mem_cons_of_mem _ hm)
    cases e with
    | select sid ss start stop ulf =>
      obtain ⟨h1, h2⟩ := on_trial_select p sid ss start stop ulf clock tick i h
      obtain ⟨h3, h4⟩ := ih _ (get_suitable_worker p sid ss start stop ulf clock tick).tick h2 hno'
      refine ⟨?_, h4⟩
      intro hm
      simp only [run_events, List.mem_cons] at hm
      rcases hm with hm | hm
      · exact h1 hm.symm
      · exact h3 hm
    | outcome j ok =>
      have hji : j ≠ i := by
        intro e
        subst e
        exact hno ok (List.mem_cons_self _ _)
      exact ih _ _ (on_trial_outcome p i j ok (clock tick) hji h) hno'

/-- C15 (exactly one recovery trial).  Once `get_suitable_worker` has returned a record
that was in error state, that record is in error state and recovering, and it is
returned by no later call of `get_suitable_worker`, whatever the criterion, the match
value, the range, the weighting flag and the clock are, in any run of such calls and
of outcomes recorded by the dispatch loop on other records: until the dispatch loop
records an outcome on the record itself. -/
theorem one_recovery_trial (p : lb_worker) (search_id : Nat) (search_string : List Char)
    (start stop : Nat) (use_lb_factor : Bool) (clock : Nat → Int) (tick : Nat) (i : Nat)
    (wr : worker_record)
    (hrc : (get_suitable_worker p search_id search_string start stop use_lb_factor clock
      tick).rc = some i)
    (hw : p.lb_workers[i]? = some wr) (herr : wr.in_error_state = true) :
    on_trial (get_suitable_worker p search_id search_string start stop use_lb_factor clock
      tick).p i ∧
    ∀ (later : Nat → Int) (t : Nat) (es : List lb_event),
      (∀ ok, lb_event.outcome i ok ∉ es) →
      some i ∉ (run_events later es
        (get_suitable_worker p search_id search_string start stop use_lb_factor clock
          tick).p t).2.2 := by
  have hpost := gsw_sel_post p search_id search_string start stop use_lb_factor clock tick
  rw [hrc] at hpost
  obtain ⟨wr0, wr1, t0, h0, -, h1, he, -, -⟩ := sel_post_get hpost
  rw [hw] at h0
  cases h0
  have hmark : mark_trial (clock t0) wr =
      { wr with in_recovering := true, error_time := clock t0 } := by
    unfold mark_trial
    rw [if_pos herr]
  rw [hmark] at he
  obtain ⟨-, -, -, -, -, h6, h7, -, -⟩ := erase_lb_fields he
  have htrial : on_trial (get_suitable_worker p search_id search_string start stop
      use_lb_factor clock tick).p i := ⟨wr1, h1, by rw [h6]; exact herr, by rw [h7]⟩
  exact ⟨htrial, fun later t es hno => (on_trial_run later i es _ t htrial hno).1⟩

theorem one_recovery_trial_witness :
    on_trial (get_suitable_worker recovery_example 5 "any".toList 0 2 false (fun _ => 1000)
      0).p 0 ∧
    ∀ (later : Nat → Int) (t : Nat) (es : List lb_event),
      (∀ ok, lb_event.outcome 0 ok ∉ es) →
      some 0 ∉ (run_events later es
        (get_suitable_worker recovery_example 5 "any".toList 0 2 false (fun _ => 1000)
          0).p t).2.2 :=
  one_recovery_trial recovery_example 5 "any".toList 0 2 false (fun _ => 1000) 0 0
    ⟨['A'], ['d'], 1, 1, false, false, true, false, 100, 0⟩ rfl rfl rfl

/-! ## C strings: searching and cutting -/

theorem cstr_at_of_nul_free {m : List Char} (h : NUL ∉ m) (i : Nat) :
    cstr_at m i = m.drop i := by
  unfold cstr_at
  rw [List.takeWhile_eq_self_iff]
  intro x hx
  have hm : x ∈ m := List.mem_of_mem_drop hx
  have hne : x ≠ NUL := fun e => h (e ▸ hm)
  simpa using hne

theorem cstr_at_nul_free (m : List Char) (i : Nat) : NUL ∉ cstr_at m i := by
  unfold cstr_at
  intro h
  have := List.mem_takeWhile_imp h
  simp at this

theorem cstr_at_zero_nil : cstr_at [] 0 = [] := rfl

theorem cstr_at_zero_cons (x : Char) (t : List Char) :
    cstr_at (x :: t) 0 = if x = NUL then [] else x :: cstr_at t 0 := by
  unfold cstr_at
  by_cases hx : x = NUL
  · simp [hx]
  · simp [hx, List.takeWhile_cons]

/-- Cutting a buffer at the first `c` leaves the string before that `c`. -/
theorem cstr_cut_at (m : List Char) (c : Char) :
    cstr_at (cut_at m c) 0 = (cstr_at m 0).takeWhile (fun x => x != c) := by
  induction m with
  | nil => simp [cut_at, cstr_at_zero_nil, strchr]
  | cons x t ih =>
    by_cases hx : x = NUL
    · have h0 : cstr_at (x :: t) 0 = [] := by rw [cstr_at_zero_cons, if_pos hx]
      have hcut : cut_at (x :: t) c = x :: t := by
        unfold cut_at
        rw [h0]
        rfl
      rw [hcut, h0]
      rfl
    · have h0 : cstr_at (x :: t) 0 = x :: cstr_at t 0 := by rw [cstr_at_zero_cons, if_neg hx]
      by_cases hxc : x = c
      · have hcut : cut_at (x :: t) c = NUL :: t := by
          unfold cut_at
          rw [h0]
          simp [strchr, hxc]
        rw [hcut, h0, cstr_at_zero_cons, if_pos rfl]
        simp [List.takeWhile_cons, hxc]
      · have hrhs : (x :: cstr_at t 0).takeWhile (fun x => x != c) =
            x :: (cstr_at t 0).takeWhile (fun x => x != c) := by
          simp [List.takeWhile_cons, hxc]
        rw [h0, hrhs, ← ih]
        cases hs : strchr (cstr_at t 0) c with
        | none =>
          have hcut : cut_at (x :: t) c = x :: t := by
            unfold cut_at
            rw [h0]
            simp [strchr, hxc, hs]
          have hcut' : cut_at t c = t := by
            unfold cut_at
            rw [hs]
          rw [hcut, hcut', cstr_at_zero_cons, if_neg hx]
        | some k =>
          have hcut : cut_at (x :: t) c = x :: t.set k NUL := by
            unfold cut_at
            rw [h0]
            simp [strchr, hxc, hs]
          have hcut' : cut_at t c = t.set k NUL := by
            unfold cut_at
            rw [hs]
          rw [hcut, hcut', cstr_at_zero_cons, if_neg hx]

theorem cstr_at_cstr_at (m : List Char) (i : Nat) : cstr_at (cstr_at m i) 0 = cstr_at m i := by
  rw [cstr_at_of_nul_free (cstr_at_nul_free m i)]
  rfl

/-- What `strstr` finds is the first occurrence. -/
theorem strstr_some (n : List Char) :
    ∀ (s : List Char) (k : Nat), strstr s n = some k →
      k ≤ s.length ∧ n <+: s.drop k ∧ ∀ j, j < k → ¬ n <+: s.drop j := by
  intro s
  induction s with
  | nil =>
    intro k h
    unfold strstr at h
    by_cases hn : n = []
    · rw [if_pos hn] at h
      cases h
      subst hn
      exact ⟨Nat.le_refl _, List.nil_prefix, fun j hj => absurd hj (Nat.not_lt_zero j)⟩
    · rw [if_neg hn] at h
      cases h
  | cons x t ih =>
    intro k h
    unfold strstr at h
    by_cases hp : n.isPrefixOf (x :: t) = true
    · rw [if_pos hp] at h
      cases h
      exact ⟨Nat.zero_le _, List.isPrefixOf_iff_prefix.1 hp,
        fun j hj => absurd hj (Nat.not_lt_zero j)⟩
    · rw [if_neg hp] at h
      cases hk : strstr t n with
      | none => rw [hk] at h; cases h
      | some k' =>
        rw [hk] at h
        simp only [Option.map_some', Option.some.injEq] at h
        subst h
        obtain ⟨h1, h2, h3⟩ := ih k' hk
        refine ⟨Nat.succ_le_succ h1, h2, ?_⟩
        intro j hj
        cases j with
        | zero => exact fun hpre => hp (List.isPrefixOf_iff_prefix.2 hpre)
        | succ j' => exact h3 j' (Nat.lt_of_succ_lt_succ hj)

/-- When `strstr` finds nothing there is no occurrence. -/
theorem strstr_none (n : List Char) :
    ∀ (s : List Char), strstr s n = none → ∀ j, j ≤ s.length → ¬ n <+: s.drop j := by
  intro s
  induction s with
  | nil =>
    intro h j hj hpre
    unfold strstr at h
    by_cases hn : n = []
    · rw [if_pos hn] at h; cases h
    · have hj0 : j = 0 := Nat.le_zero.1 hj
      subst hj0
      exact hn (List.prefix_nil.1 hpre)
  | cons x t ih =>
    intro h j hj
    unfold strstr at h
    by_cases hp : n.isPrefixOf (x :: t) = true
    · rw [if_pos hp] at h; cases h
    · rw [if_neg hp] at h
      cases hk : strstr t n with
      | some k' => rw [hk] at h; cases h
      | none =>
        cases j with
        | zero => exact fun hpre => hp (List.isPrefixOf_iff_prefix.2 hpre)
        | succ j' => exact ih hk j' (Nat.le_of_succ_le_succ hj)

/-- In a buffer without terminator inside, `strstr(m + i, name)` finds the first
occurrence at or after offset `i`. -/
theorem strstr_at_some {m name : List Char} (hnul : NUL ∉ m) {i q : Nat}
    (h : strstr_at m i name = some q) :
    i ≤ q ∧ occurs_at m name q ∧ ∀ j, i ≤ j → j < q → ¬ occurs_at m name j := by
  unfold strstr_at at h
  by_cases hi : i ≤ m.length
  · rw [if_pos hi, cstr_at_of_nul_free hnul] at h
    cases hk : strstr (m.drop i) name with
    | none => rw [hk] at h; cases h
    | some k =>
      rw [hk] at h
      simp only [Option.map_some', Option.some.injEq] at h
      subst h
      obtain ⟨h1, h2, h3⟩ := strstr_some name _ k hk
      rw [List.length_drop] at h1
      rw [List.drop_drop] at h2
      refine ⟨Nat.le_add_left _ _, ⟨by omega, ?_⟩, ?_⟩
      · rw [Nat.add_comm]; exact h2
      · intro j hj1 hj2 hocc
        have := h3 (j - i) (by omega)
        rw [List.drop_drop] at this
        have e : i + (j - i) = j := by omega
        rw [e] at this
        exact this hocc.2
  · rw [if_neg hi] at h
    cases h

theorem strstr_at_none {m name : List Char} (hnul : NUL ∉ m) {i : Nat}
    (h : strstr_at m i name = none) : ∀ j, i ≤ j → ¬ occurs_at m name j := by
  intro j hj hocc
  unfold strstr_at at h
  by_cases hi : i ≤ m.length
  · rw [if_pos hi, cstr_at_of_nul_free hnul] at h
    cases hk : strstr (m.drop i) name with
    | some k => rw [hk] at h; cases h
    | none =>
      have := strstr_none name _ hk (j - i) (by rw [List.length_drop]; have := hocc.1; omega)
      rw [List.drop_drop] at this
      have e : i + (j - i) = j := by omega
      rw [e] at this
      exact this hocc.2
  · have := hocc.1
    omega

/-- The character that follows an occurrence. -/
theorem char_at_eq_iff (m : List Char) (i : Nat) (c : Char) (hc : c ≠ NUL) :
    char_at m i = c ↔ m[i]? = some c := by
  unfold char_at
  rw [List.getD_eq_getElem?_getD]
  cases h : m[i]? with
  | none =>
    simp only [Option.getD_none]
    constructor
    · intro e; exact absurd e.symm hc
    · intro e; cases e
  | some x => simp

/-- The value that `get_path_param` returns for the text that starts at offset `i`. -/
theorem path_value_eq {uri : List Char} (hnul : NUL ∉ uri) (i : Nat) :
    cstr_at (cut_at (cut_at (cstr_at uri i) '?') ';') 0 =
      (uri.drop i).takeWhile (fun c => c != '?' && c != ';') := by
  rw [cstr_cut_at, cstr_cut_at, cstr_at_cstr_at, cstr_at_of_nul_free hnul,
    List.takeWhile_takeWhile]
  congr 1
  funext c
  rw [Bool.eq_iff_iff]
  simp [and_comm]

/-! ## `get_path_param` inside the path -/

/-- The loop of `get_path_param`, started at an occurrence `q` of the key before which no
occurrence has a value, with more fuel than characters left: it returns the value of
the first occurrence that has one, and nothing when there is none. -/
theorem gpp_loop_spec (uri name : List Char) (hnul : NUL ∉ uri) :
    ∀ (fuel : Nat) (o : Option Nat) (b : Nat),
      (∀ j, j < b → ¬ param_at uri name j) →
      (∀ q, o = some q → b ≤ q ∧ occurs_at uri name q ∧
        (∀ j, b ≤ j → j < q → ¬ occurs_at uri name j) ∧ uri.length < q + fuel) →
      (o = none → ∀ j, b ≤ j → ¬ occurs_at uri name j) →
      (∃ i, param_at uri name i ∧ (∀ j, j < i → ¬ param_at uri name j) ∧
        get_path_param_loop uri name fuel o = some (param_value uri name i)) ∨
      ((∀ j, ¬ param_at uri name j) ∧ get_path_param_loop uri name fuel o = none) := by
  intro fuel
  induction fuel with
  | zero =>
    intro o b hb hs hn
    cases o with
    | none =>
      refine Or.inr ⟨?_, rfl⟩
      intro j hp
      by_cases hj : j < b
      · exact hb j hj hp
      · exact hn rfl j (by omega) hp.1
    | some q =>
      obtain ⟨_, hocc, _, hfuel⟩ := hs q rfl
      have := hocc.1
      omega
  | succ f ih =>
    intro o b hb hs hn
    cases o with
    | none =>
      refine Or.inr ⟨?_, rfl⟩
      intro j hp
      by_cases hj : j < b
      · exact hb j hj hp
      · exact hn rfl j (by omega) hp.1
    | some q =>
      obtain ⟨hbq, hocc, hfirst, hfuel⟩ := hs q rfl
      have hbefore : ∀ j, j < q → ¬ param_at uri name j := by
        intro j hj hp
        by_cases hjb : j < b
        · exact hb j hjb hp
        · exact hfirst j (by omega) hj hp.1
      rw [get_path_param_loop]
      by_cases heq : char_at uri (q + name.length) = '='
      · rw [if_pos heq]
        dsimp only
        by_cases hlen : (cstr_at uri (q + (1 + name.length))).length ≠ 0
        · rw [if_pos hlen]
          rw [cstr_at_of_nul_free hnul, List.length_drop] at hlen
          refine Or.inl ⟨q, ⟨hocc, (char_at_eq_iff _ _ _ (by decide)).1 heq, by omega⟩,
            hbefore, ?_⟩
          rw [path_value_eq hnul]
          unfold param_value
          have e : q + (1 + name.length) = q + name.length + 1 := by omega
          rw [e]
        · rw [if_neg hlen]
          rw [cstr_at_of_nul_free hnul, List.length_drop] at hlen
          have hend : uri.length ≤ q + (1 + name.length) := by omega
          refine ih _ (uri.length + 1) ?_ ?_ ?_
          · intro j hj hp
            by_cases hjq : j < q
            · exact hbefore j hjq hp
            · have := hp.2.2
              omega
          · intro q' hq'
            obtain ⟨h1, h2, _⟩ := strstr_at_some hnul hq'
            have := h2.1
            omega
          · intro _ j hj hocc'
            have := hocc'.1
            omega
      · rw [if_neg heq]
        refine ih _ (q + 1) ?_ ?_ ?_
        · intro j hj hp
          by_cases hjq : j < q
          · exact hbefore j hjq hp
          · have e : j = q := by omega
            subst e
            exact heq ((char_at_eq_iff _ _ _ (by decide)).2 hp.2.1)
        · intro q' hq'
          obtain ⟨h1, h2, h3⟩ := strstr_at_some hnul hq'
          exact ⟨h1, h2, h3, by omega⟩
        · intro hnone
          exact strstr_at_none hnul hnone

/-- The extraction from the path when the search from the place after the terminator
finds nothing (`strstr_at`).  For every request path (a C string: no terminator inside)
and every key, `get_path_param` then returns a value if and only if the path holds an
occurrence of the key that is immediately followed by `=` and at least one more
character; the value is the text after the `=` of the first such occurrence, cut before
the first `?` or `;`, whatever follows in the path; and the value contains neither `?`
nor `;`.  What the C function does on every path is in `path_param_outcomes`. -/
theorem path_param_extraction (s : jk_ws_service) (name : List Char)
    (hnul : NUL ∉ s.req_uri) :
    ((∃ v, get_path_param s name = some v) ↔ ∃ i, param_at s.req_uri name i) ∧
    (∀ i, param_at s.req_uri name i → (∀ j, j < i → ¬ param_at s.req_uri name j) →
      get_path_param s name = some (param_value s.req_uri name i)) ∧
    (∀ v, get_path_param s name = some v → '?' ∉ v ∧ ';' ∉ v) := by
  have hloop := gpp_loop_spec s.req_uri name hnul (s.req_uri.length + 2)
    (strstr_at s.req_uri 0 name) 0 (fun j hj => absurd hj (Nat.not_lt_zero j))
    (fun q hq => by
      obtain ⟨h1, h2, h3⟩ := strstr_at_some hnul hq
      exact ⟨h1, h2, h3, by omega⟩)
    (fun hnone => strstr_at_none hnul hnone)
  have hval : ∀ i, '?' ∉ param_value s.req_uri name i ∧ ';' ∉ param_value s.req_uri name i := by
    intro i
    unfold param_value
    constructor
    · intro hm
      have := List.mem_takeWhile_imp hm
      simp at this
    · intro hm
      have := List.mem_takeWhile_imp hm
      simp at this
  unfold get_path_param
  rcases hloop with ⟨i, hp, hfirst, hres⟩ | ⟨hno, hres⟩
  · refine ⟨⟨fun _ => ⟨i, hp⟩, fun _ => ⟨_, hres⟩⟩, ?_, ?_⟩
    · intro i' hp' hfirst'
      have e : i' = i := by
        rcases Nat.lt_trichotomy i' i with h | h | h
        · exact absurd hp' (hfirst i' h)
        · exact h
        · exact absurd hp (hfirst' i h)
      rw [e]
      exact hres
    · intro v hv
      rw [hres] at hv
      cases hv
      exact hval i
  · refine ⟨⟨?_, ?_⟩, ?_, ?_⟩
    · rintro ⟨v, hv⟩
      rw [hres] at hv
      cases hv
    · rintro ⟨i, hp⟩
      exact absurd hp (hno i)
    · intro i hp
      exact absurd hp (hno i)
    · intro v hv
      rw [hres] at hv
      cases hv

theorem path_param_extraction_witness :
    ((∃ v, get_path_param sticky_request ";jsessionid".toList = some v) ↔
      ∃ i, param_at sticky_request.req_uri ";jsessionid".toList i) ∧
    (∀ i, param_at sticky_request.req_uri ";jsessionid".toList i →
      (∀ j, j < i → ¬ param_at sticky_request.req_uri ";jsessionid".toList j) →
      get_path_param sticky_request ";jsessionid".toList =
        some (param_value sticky_request.req_uri ";jsessionid".toList i)) ∧
    (∀ v, get_path_param sticky_request ";jsessionid".toList = some v → '?' ∉ v ∧ ';' ∉ v) :=
  path_param_extraction sticky_request ";jsessionid".toList (by decide)

/-! ## C18: `get_cookie` -/

theorem char_at_lt {m : List Char} {i : Nat} (h : char_at m i ≠ NUL) : i < m.length := by
  by_contra hlt
  apply h
  unfold char_at
  rw [List.getD_eq_getElem?_getD, List.getElem?_eq_none (by omega)]
  rfl

theorem char_at_ge {m : List Char} {i : Nat} (h : m.length ≤ i) : char_at m i = NUL := by
  unfold char_at
  rw [List.getD_eq_getElem?_getD, List.getElem?_eq_none h]
  rfl

theorem char_at_drop (m : List Char) (i q : Nat) : char_at (m.drop i) q = char_at m (i + q) := by
  unfold char_at
  rw [List.getD_eq_getElem?_getD, List.getD_eq_getElem?_getD, List.getElem?_drop]

theorem char_at_set (m : List Char) (k q : Nat) (c : Char) (hk : k < m.length) :
    char_at (m.set k c) q = if q = k then c else char_at m q := by
  unfold char_at
  rw [List.getD_eq_getElem?_getD, List.getD_eq_getElem?_getD]
  by_cases h : q = k
  · subst h
    rw [if_pos rfl, List.getElem?_set_self hk]
    rfl
  · rw [if_neg h, List.getElem?_set_ne (fun e => h e.symm)]

theorem isspace_ne_nul {c : Char} (h : isspace c = true) : c ≠ NUL := by
  intro e
  subst e
  revert h
  decide

theorem is_separator_ne_nul {c : Char} (h : is_separator c = true) : c ≠ NUL := by
  intro e
  subst e
  revert h
  decide

theorem cut_sim_eq {x y : Char} (h : cut_sim x y) (hx : x ≠ NUL) : y = x := by
  rcases h with h | h
  · exact h.symm
  · exact absurd h.1 hx

theorem char_at_takeWhile (l : List Char) :
    ∀ q, q ≤ (l.takeWhile (fun c => c != NUL)).length →
      char_at (l.takeWhile (fun c => c != NUL)) q = char_at l q := by
  induction l with
  | nil => intro q _; rfl
  | cons x t ih =>
    intro q hq
    by_cases hx : x = NUL
    · have e : List.takeWhile (fun c => c != NUL) (x :: t) = [] := by
        simp [List.takeWhile_cons, hx]
      rw [e] at hq ⊢
      have hq0 : q = 0 := Nat.le_zero.1 hq
      subst hq0
      rw [hx]
      rfl
    · have e : List.takeWhile (fun c => c != NUL) (x :: t) =
          x :: List.takeWhile (fun c => c != NUL) t := by
        simp [List.takeWhile_cons, hx]
      rw [e] at hq ⊢
      cases q with
      | zero => rfl
      | succ q' =>
        have := ih q' (Nat.le_of_succ_le_succ hq)
        unfold char_at at this ⊢
        simpa using this

/-- The characters of the string at offset `i` of a buffer, its terminator included. -/
theorem char_at_cstr_at (m : List Char) (i : Nat) (q : Nat)
    (hq : q ≤ (cstr_at m i).length) : char_at (cstr_at m i) q = char_at m (i + q) := by
  unfold cstr_at at hq ⊢
  rw [char_at_takeWhile _ q hq, char_at_drop]

theorem cstr_at_length_le (m : List Char) (i : Nat) :
    i + (cstr_at m i).length ≤ max i m.length := by
  unfold cstr_at
  have h0 : (m.drop i).takeWhile (fun c => c != NUL) <+: m.drop i :=
    List.takeWhile_prefix _
  have h1 := h0.length_le
  rw [List.length_drop] at h1
  omega

/-- The first `c` that `strchr` finds. -/
theorem strchr_some (c : Char) :
    ∀ (s : List Char) (k : Nat), strchr s c = some k → k < s.length ∧ char_at s k = c := by
  intro s
  induction s with
  | nil => intro k h; cases h
  | cons x t ih =>
    intro k h
    unfold strchr at h
    by_cases hx : x = c
    · rw [if_pos hx] at h
      cases h
      exact ⟨Nat.zero_lt_succ _, hx⟩
    · rw [if_neg hx] at h
      cases hk : strchr t c with
      | none => rw [hk] at h; cases h
      | some k' =>
        rw [hk] at h
        simp only [Option.map_some', Option.some.injEq] at h
        subst h
        obtain ⟨h1, h2⟩ := ih k' hk
        refine ⟨Nat.succ_lt_succ h1, ?_⟩
        unfold char_at at h2 ⊢
        simpa using h2

theorem cut_at_length (m : List Char) (c : Char) : (cut_at m c).length = m.length := by
  unfold cut_at
  cases strchr (cstr_at m 0) c with
  | none => rfl
  | some k => simp

/-- Cutting a buffer changes at most one character, a `c`, into a terminator. -/
theorem char_at_cut_at (m : List Char) (c : Char) (q : Nat) :
    char_at (cut_at m c) q = char_at m q ∨ (char_at (cut_at m c) q = NUL ∧ char_at m q = c) := by
  unfold cut_at
  cases hk : strchr (cstr_at m 0) c with
  | none => exact Or.inl rfl
  | some k =>
    obtain ⟨h1, h2⟩ := strchr_some c _ k hk
    have hlen := cstr_at_length_le m 0
    have hkm : k < m.length := by
      have : max 0 m.length = m.length := Nat.max_eq_right (Nat.zero_le _)
      omega
    rw [char_at_cstr_at m 0 k (Nat.le_of_lt h1), Nat.zero_add] at h2
    dsimp only
    rw [char_at_set m k q NUL hkm]
    by_cases hq : q = k
    · rw [if_pos hq, hq]
      exact Or.inr ⟨rfl, h2⟩
    · rw [if_neg hq]
      exact Or.inl rfl

/-- The header value is a working copy of itself. -/
theorem window_self (hv : List Char) : window hv hv 0 :=
  ⟨by omega, fun q _ => Or.inl (by rw [Nat.zero_add])⟩

/-- Cutting a working copy at a `;` or a `,` gives a working copy. -/
theorem window_cut {hv m : List Char} {b : Nat} (c : Char) (hc : c = ';' ∨ c = ',')
    (h : window hv m b) : window hv (cut_at m c) b := by
  refine ⟨by rw [cut_at_length]; exact h.1, ?_⟩
  intro q hq
  rw [cut_at_length] at hq
  have hs := h.2 q hq
  rcases char_at_cut_at m c q with e | ⟨e1, e2⟩
  · rw [e]; exact hs
  · rw [e1]
    have hne : char_at m q ≠ NUL := by
      rw [e2]
      rcases hc with hc | hc <;> rw [hc] <;> decide
    have := cut_sim_eq hs hne
    rw [e2] at this
    exact Or.inr ⟨rfl, by rw [this]; exact hc⟩

/-- The string at an offset of a working copy is a working copy. -/
theorem window_cstr_at {hv m : List Char} {b : Nat} (i : Nat) (hi : i ≤ m.length)
    (h : window hv m b) : window hv (cstr_at m i) (b + i) := by
  have hlen := cstr_at_length_le m i
  have hmax : max i m.length = m.length := Nat.max_eq_right hi
  refine ⟨by have := h.1; omega, ?_⟩
  intro q hq
  rw [char_at_cstr_at m i q hq, Nat.add_assoc]
  exact h.2 (i + q) (by omega)

theorem char_at_of_lt {l : List Char} {t : Nat} (h : t < l.length) : char_at l t = l[t] := by
  unfold char_at
  rw [List.getD_eq_getElem?_getD, List.getElem?_eq_getElem h]
  rfl

theorem prefix_char_at {name l : List Char} (h : name <+: l) (t : Nat) (ht : t < name.length) :
    char_at l t = name.getD t NUL := by
  obtain ⟨r, rfl⟩ := h
  unfold char_at
  rw [List.getD_eq_getElem?_getD, List.getD_eq_getElem?_getD, List.getElem?_append_left ht]

/-- A string whose characters stand in `l` from offset `p` on occurs there. -/
theorem prefix_of_chars (l : List Char) :
    ∀ (name : List Char) (p : Nat),
      (∀ t, t < name.length → char_at l (p + t) = name.getD t NUL ∧ name.getD t NUL ≠ NUL) →
      name <+: l.drop p := by
  intro name
  induction name with
  | nil => intro p _; exact List.nil_prefix
  | cons c n ih =>
    intro p h
    obtain ⟨h0, h0'⟩ := h 0 (Nat.zero_lt_succ _)
    rw [Nat.add_zero] at h0
    have hc : char_at l p ≠ NUL := by rw [h0]; exact h0'
    have hp : p < l.length := char_at_lt hc
    have hrest := ih (p + 1) (fun t ht => by
      have := h (t + 1) (Nat.succ_lt_succ ht)
      rw [show p + (t + 1) = p + 1 + t by omega] at this
      simpa using this)
    rw [List.drop_eq_getElem_cons hp]
    have e : l[p] = c := by
      rw [← char_at_of_lt hp, h0]
      rfl
    rw [e]
    exact (List.prefix_cons_inj c).2 hrest

/-- What the search finds in a buffer stands before any terminator. -/
theorem strstr_at_found {m name : List Char} {i q : Nat} (h : strstr_at m i name = some q) :
    i ≤ q ∧ found m name q := by
  unfold strstr_at at h
  by_cases hi : i ≤ m.length
  · rw [if_pos hi] at h
    cases hk : strstr (cstr_at m i) name with
    | none => rw [hk] at h; cases h
    | some k =>
      rw [hk] at h
      simp only [Option.map_some', Option.some.injEq] at h
      subst h
      obtain ⟨h1, h2, _⟩ := strstr_some name _ k hk
      have hlen := cstr_at_length_le m i
      have hmax : max i m.length = m.length := Nat.max_eq_right hi
      have hnl : name.length ≤ (cstr_at m i).length - k := by
        have := h2.length_le
        rw [List.length_drop] at this
        exact this
      refine ⟨Nat.le_add_left _ _, by omega, ?_⟩
      intro t ht
      have hc := prefix_char_at h2 t ht
      rw [char_at_drop] at hc
      have hkt : k + t < (cstr_at m i).length := by omega
      have hm : char_at (cstr_at m i) (k + t) = char_at m (k + i + t) := by
        rw [char_at_cstr_at m i (k + t) (Nat.le_of_lt hkt)]
        congr 1
        omega
      refine ⟨by rw [← hm, hc], ?_⟩
      rw [← hc, char_at_of_lt hkt]
      intro e
      exact cstr_at_nul_free m i (e ▸ List.getElem_mem hkt)
  · rw [if_neg hi] at h
    cases h

/-- What the search finds in a working copy occurs in the header value. -/
theorem occurs_of_found {hv m name : List Char} {b q : Nat} (hw : window hv m b)
    (hf : found m name q) : occurs_at hv name (b + q) := by
  refine ⟨by have := hw.1; have := hf.1; omega, ?_⟩
  apply prefix_of_chars
  intro t ht
  obtain ⟨h1, h2⟩ := hf.2 t ht
  have hs := hw.2 (q + t) (by have := hf.1; omega)
  have := cut_sim_eq hs (by rw [h1]; exact h2)
  rw [Nat.add_assoc, this, h1]
  exact ⟨rfl, h2⟩

/-- The skip over white space stops at the first character that is not white space. -/
theorem skip_space_spec (m : List Char) :
    ∀ (fuel i : Nat), m.length ≤ i + fuel →
      i ≤ skip_space m fuel i ∧
      (∀ t, i ≤ t → t < skip_space m fuel i → isspace (char_at m t) = true) ∧
      isspace (char_at m (skip_space m fuel i)) = false := by
  intro fuel
  induction fuel with
  | zero =>
    intro i hi
    refine ⟨Nat.le_refl _, fun t h1 h2 => ?_, ?_⟩
    · unfold skip_space at h2; omega
    · unfold skip_space
      rw [char_at_ge (by omega)]
      decide
  | succ f ih =>
    intro i hi
    unfold skip_space
    by_cases hc : char_at m i ≠ NUL ∧ isspace (char_at m i) = true
    · rw [if_pos hc]
      obtain ⟨h1, h2, h3⟩ := ih (i + 1) (by omega)
      refine ⟨by omega, fun t ht1 ht2 => ?_, h3⟩
      by_cases e : t = i
      · rw [e]; exact hc.2
      · exact h2 t (by omega) ht2
    · rw [if_neg hc]
      refine ⟨Nat.le_refl _, fun t h1 h2 => by omega, ?_⟩
      cases hs : isspace (char_at m i) with
      | false => rfl
      | true => exact absurd ⟨isspace_ne_nul hs, hs⟩ hc

/-- The length of a run of white space in a list. -/
theorem takeWhile_space_length (l : List Char) :
    ∀ (n s : Nat), (∀ t, s ≤ t → t < s + n → isspace (char_at l t) = true) →
      isspace (char_at l (s + n)) = false →
      s + ((l.drop s).takeWhile isspace).length = s + n := by
  intro n
  induction n with
  | zero =>
    intro s _ hend
    rw [Nat.add_zero] at hend
    by_cases hs : s < l.length
    · rw [List.drop_eq_getElem_cons hs]
      rw [char_at_of_lt hs] at hend
      simp [List.takeWhile_cons, hend]
    · rw [List.drop_eq_nil_of_le (by omega)]
      rfl
  | succ n ih =>
    intro s hrun hend
    have h0 := hrun s (Nat.le_refl _) (by omega)
    have hs : s < l.length := char_at_lt (isspace_ne_nul h0)
    rw [List.drop_eq_getElem_cons hs]
    rw [char_at_of_lt hs] at h0
    have hrec := ih (s + 1) (fun t h1 h2 => hrun t (by omega) (by omega))
      (by rw [show s + 1 + n = s + (n + 1) by omega]; exact hend)
    simp only [List.takeWhile_cons, h0, if_true, List.length_cons]
    omega

/-- In a working copy the skip over white space ends where it ends in the header
value. -/
theorem after_name_eq {hv m name : List Char} {b q : Nat} (hw : window hv m b)
    (hf : found m name q) :
    skip_space m m.length (q + name.length) ≤ m.length ∧
    after_name hv name (b + q) = b + skip_space m m.length (q + name.length) := by
  obtain ⟨h1, h2, h3⟩ := skip_space_spec m m.length (q + name.length) (by omega)
  generalize skip_space m m.length (q + name.length) = e at h1 h2 h3
  have hle : e ≤ m.length := by
    by_contra hgt
    have := h2 m.length (by have := hf.1; omega) (by omega)
    rw [char_at_ge (Nat.le_refl _)] at this
    revert this
    decide
  refine ⟨hle, ?_⟩
  unfold after_name
  obtain ⟨n, hn⟩ : ∃ n, e = q + name.length + n := ⟨e - (q + name.length), by omega⟩
  have key := takeWhile_space_length hv n (b + q + name.length) (fun t ht1 ht2 => by
      have hm := h2 (t - b) (by omega) (by omega)
      have hs := hw.2 (t - b) (by omega)
      rw [show b + (t - b) = t by omega] at hs
      rw [cut_sim_eq hs (isspace_ne_nul hm)]
      exact hm)
    (by
      have hs := hw.2 e hle
      rw [show b + q + name.length + n = b + e by omega]
      rcases hs with hs | ⟨_, hs | hs⟩
      · rw [← hs]; exact h3
      · rw [hs]; decide
      · rw [hs]; decide)
  rw [key]
  omega

/-- Two lists that agree up to terminators written over `;` or `,` have the same text
before the first `;`, `,` or terminator. -/
theorem sim_takeWhile :
    ∀ (A B : List Char), NUL ∉ B →
      (∀ q, q ≤ A.length → cut_sim (char_at A q) (char_at B q)) →
      A.takeWhile (fun c => c != NUL && (c != ';' && c != ',')) =
        B.takeWhile (fun c => c != ';' && c != ',') := by
  intro A
  induction A with
  | nil =>
    intro B hB h
    have h0 := h 0 (Nat.le_refl _)
    cases B with
    | nil => rfl
    | cons y t =>
      have hy : y ≠ NUL := fun e => hB (e ▸ List.mem_cons_self _ _)
      rcases h0 with h0 | ⟨_, h0 | h0⟩
      · exact absurd h0.symm hy
      · have e : y = ';' := h0
        subst e
        rfl
      · have e : y = ',' := h0
        subst e
        rfl
  | cons x A ih =>
    intro B hB h
    have h0 := h 0 (Nat.zero_le _)
    cases B with
    | nil =>
      rcases h0 with h0 | ⟨h0, _⟩
      · have e : x = NUL := h0
        subst e
        rfl
      · have e : x = NUL := h0
        subst e
        rfl
    | cons y t =>
      have hy : y ≠ NUL := fun e => hB (e ▸ List.mem_cons_self _ _)
      have ht : NUL ∉ t := fun e => hB (List.mem_cons_of_mem _ e)
      have hrec := ih t ht (fun q hq => by
        have := h (q + 1) (Nat.succ_le_succ hq)
        unfold char_at at this ⊢
        simpa using this)
      rcases h0 with h0 | ⟨h0, h0'⟩
      · have e : x = y := h0
        subst e
        have hne : (x != NUL) = true := by simpa using hy
        cases hp : (x != ';' && x != ',') with
        | true =>
          rw [List.takeWhile_cons, List.takeWhile_cons]
          simp only [hp, hne, Bool.and_self, if_true, hrec]
        | false =>
          rw [List.takeWhile_cons, List.takeWhile_cons]
          simp only [hp, Bool.and_false, Bool.false_eq_true, if_false]
      · have e : x = NUL := h0
        subst e
        have e2 : (y != ';' && y != ',') = false := by
          rcases h0' with h0' | h0'
          · have e : y = ';' := h0'
            subst e
            rfl
          · have e : y = ',' := h0'
            subst e
            rfl
        rw [List.takeWhile_cons, List.takeWhile_cons, e2]
        rfl

/-- The value that `get_cookie` copies from offset `k` of a working copy. -/
theorem dup_value_eq {hv m : List Char} {b : Nat} (hnul : NUL ∉ hv) (hw : window hv m b)
    (k : Nat) (hk : k ≤ m.length) :
    cstr_at (cut_at (cut_at (cstr_at m k) ';') ',') 0 =
      (hv.drop (b + k)).takeWhile (fun c => c != ';' && c != ',') := by
  rw [cstr_cut_at, cstr_cut_at, cstr_at_cstr_at]
  unfold cstr_at
  rw [List.takeWhile_takeWhile, List.takeWhile_takeWhile]
  have hpred : (fun a => decide (decide ((a != ',') = true ∧ (a != ';') = true) = true ∧
      (a != NUL) = true)) =
      (fun c => c != NUL && (c != ';' && c != ',')) := by
    funext c
    rw [Bool.eq_iff_iff]
    simp
    tauto
  rw [hpred]
  apply sim_takeWhile
  · exact fun h => hnul (List.mem_of_mem_drop h)
  · intro q hq
    rw [List.length_drop] at hq
    rw [char_at_drop, char_at_drop, Nat.add_assoc]
    exact hw.2 (k + q) (by omega)

/-- One pass through the inner loop of `get_cookie`. -/
theorem get_cookie_loop_step (name : List Char) (fuel : Nat) (m : List Char) (orig : Bool)
    (q : Nat) (result : Option (List Char)) :
    get_cookie_loop name (fuel + 1) m orig (some q) result =
      if ((orig && q = 0) ||
          (q ≠ 0 &&
            (char_at m (q - 1) = ';' || char_at m (q - 1) = ',' ||
              isspace (char_at m (q - 1))))) = true then
        if char_at m (skip_space m m.length (q + name.length)) = '=' ∧
            char_at m (skip_space m m.length (q + name.length) + 1) ≠ NUL then
          get_cookie_loop name fuel
            (cut_at (cut_at (cstr_at m (skip_space m m.length (q + name.length) + 1)) ';') ',')
            false
            (strstr_at
              (cut_at (cut_at (cstr_at m (skip_space m m.length (q + name.length) + 1)) ';') ',')
              1 name)
            (append_value result
              (cstr_at
                (cut_at (cut_at (cstr_at m (skip_space m m.length (q + name.length) + 1)) ';')
                  ',') 0))
        else
          get_cookie_loop name fuel m orig
            (strstr_at m (skip_space m m.length (q + name.length) + 1) name) result
      else get_cookie_loop name fuel m orig (strstr_at m (q + 1) name) result := by
  rw [get_cookie_loop]
  cases result <;> rfl

/-- The test that `get_cookie` makes on what precedes an occurrence, in a working
copy. -/
theorem boundary_of_test {hv m : List Char} {b q : Nat} {orig : Bool} (hw : window hv m b)
    (horig : orig = true → b = 0) (hq : q ≤ m.length)
    (ht : ((orig && q = 0) ||
          (q ≠ 0 &&
            (char_at m (q - 1) = ';' || char_at m (q - 1) = ',' ||
              isspace (char_at m (q - 1))))) = true) :
    at_boundary hv (b + q) := by
  simp only [Bool.or_eq_true, Bool.and_eq_true, decide_eq_true_eq] at ht
  rcases ht with ⟨ho, hq0⟩ | ⟨hq0, hsep⟩
  · exact Or.inl (by rw [horig ho, hq0])
  · have hs : is_separator (char_at m (q - 1)) = true := by
      unfold is_separator
      simp only [Bool.or_eq_true, decide_eq_true_eq]
      exact hsep
    have hsim := hw.2 (q - 1) (by omega)
    have := cut_sim_eq hsim (is_separator_ne_nul hs)
    refine Or.inr ⟨by omega, ?_⟩
    rw [show b + q - 1 = b + (q - 1) by omega, this]
    exact hs

/-- In the header value itself the test is the boundary condition. -/
theorem boundary_test_iff (hv : List Char) (q : Nat) :
    ((true && q = 0) ||
          (q ≠ 0 &&
            (char_at hv (q - 1) = ';' || char_at hv (q - 1) = ',' ||
              isspace (char_at hv (q - 1))))) = true ↔ at_boundary hv q := by
  unfold at_boundary is_separator
  simp only [Bool.or_eq_true, Bool.and_eq_true, decide_eq_true_eq, Bool.true_and]
  constructor
  · rintro (h | ⟨h1, h2⟩)
    · exact Or.inl h
    · exact Or.inr ⟨Nat.pos_of_ne_zero h1, h2⟩
  · rintro (h | ⟨h1, h2⟩)
    · exact Or.inl h
    · exact Or.inr ⟨by omega, h2⟩

theorem append_values_snoc (r : Option (List Char)) (vs : List (List Char)) (v : List Char) :
    append_values r (vs ++ [v]) = append_value (append_values r vs) v := by
  unfold append_values
  rw [List.foldl_append]
  rfl

theorem append_values_some (vs : List (List Char)) :
    ∀ r : List Char, append_values (some r) vs =
      some (r ++ (vs.map (fun v => ';' :: v)).flatten) := by
  induction vs with
  | nil => intro r; simp [append_values]
  | cons v vs ih =>
    intro r
    have e : append_values (some r) (v :: vs) = append_values (some (r ++ [';'] ++ v)) vs := rfl
    rw [e, ih]
    simp

theorem join_values_cons (v : List Char) (vs : List (List Char)) :
    join_values (v :: vs) = v ++ (vs.map (fun w => ';' :: w)).flatten := by
  induction vs generalizing v with
  | nil => simp [join_values]
  | cons w rest ih =>
    rw [join_values, ih w]
    simp

/-- Values collected from an empty result are the values joined with `;`. -/
theorem append_values_none (v : List Char) (vs : List (List Char)) :
    append_values none (v :: vs) = some (join_values (v :: vs)) := by
  have e : append_values none (v :: vs) = append_values (some v) vs := rfl
  rw [e, append_values_some, join_values_cons]

/-- The inner loop of `get_cookie` on a working copy of the header value `hv`: whatever
it adds to the result is the value of a qualifying occurrence of `hv`, and the
occurrences come in increasing order. -/
theorem cookie_loop_sound (hv name : List Char) (hnul : NUL ∉ hv)
    (r0 : Option (List Char)) :
    ∀ (fuel : Nat) (m : List Char) (b : Nat) (orig : Bool) (o : Option Nat) (is : List Nat),
      window hv m b → (orig = true → b = 0) →
      (∀ q, o = some q → found m name q) →
      (∀ x ∈ is, x < b ∧ cookie_at hv name x) → is.Pairwise (fun x y => x < y) →
      ∃ is', is <+: is' ∧ is'.Pairwise (fun x y => x < y) ∧
        (∀ x ∈ is', cookie_at hv name x) ∧
        get_cookie_loop name fuel m orig o (append_values r0 (is.map (cookie_value hv name))) =
          append_values r0 (is'.map (cookie_value hv name)) := by
  intro fuel
  induction fuel with
  | zero =>
    intro m b orig o is _ _ _ his hp
    exact ⟨is, List.prefix_refl _, hp, fun x hx => (his x hx).2, by rw [get_cookie_loop]⟩
  | succ f ih =>
    intro m b orig o is hw horig hfound his hp
    cases o with
    | none =>
      exact ⟨is, List.prefix_refl _, hp, fun x hx => (his x hx).2, by rw [get_cookie_loop]⟩
    | some q =>
      have hf := hfound q rfl
      rw [get_cookie_loop_step]
      by_cases htest : ((orig && q = 0) ||
          (q ≠ 0 &&
            (char_at m (q - 1) = ';' || char_at m (q - 1) = ',' ||
              isspace (char_at m (q - 1))))) = true
      · rw [if_pos htest]
        obtain ⟨hle, hafter⟩ := after_name_eq hw hf
        have hskip := (skip_space_spec m m.length (q + name.length) (by omega)).1
        generalize skip_space m m.length (q + name.length) = e at hle hafter hskip
        by_cases hcol : char_at m e = '=' ∧ char_at m (e + 1) ≠ NUL
        · rw [if_pos hcol]
          have he : e < m.length := char_at_lt (by rw [hcol.1]; decide)
          have hocc := occurs_of_found hw hf
          have hb := boundary_of_test hw horig (by have := hf.1; omega) htest
          have heq : hv[b + e]? = some '=' := by
            have hs := hw.2 e hle
            have := cut_sim_eq hs (by rw [hcol.1]; decide)
            rw [hcol.1] at this
            exact (char_at_eq_iff _ _ _ (by decide)).1 this
          have hc : cookie_at hv name (b + q) := ⟨hocc, hb, by rw [hafter]; exact heq⟩
          have hval : cstr_at (cut_at (cut_at (cstr_at m (e + 1)) ';') ',') 0 =
              cookie_value hv name (b + q) := by
            unfold cookie_value
            rw [hafter, dup_value_eq hnul hw (e + 1) (by omega), Nat.add_assoc]
          have hwin : window hv (cut_at (cut_at (cstr_at m (e + 1)) ';') ',') (b + (e + 1)) :=
            window_cut ',' (Or.inr rfl)
              (window_cut ';' (Or.inl rfl) (window_cstr_at (e + 1) (by omega) hw))
          have hres : append_value (append_values r0 (is.map (cookie_value hv name)))
              (cstr_at (cut_at (cut_at (cstr_at m (e + 1)) ';') ',') 0) =
              append_values r0 ((is ++ [b + q]).map (cookie_value hv name)) := by
            rw [hval, List.map_append, List.map_singleton, append_values_snoc]
          rw [hres]
          obtain ⟨is', h1, h2, h3, h4⟩ := ih _ (b + (e + 1)) false
            (strstr_at (cut_at (cut_at (cstr_at m (e + 1)) ';') ',') 1 name) (is ++ [b + q]) hwin
            (fun h => by cases h) (fun q' hq' => (strstr_at_found hq').2)
            (fun x hx => by
              rcases List.mem_append.1 hx with hx | hx
              · exact ⟨by have := (his x hx).1; omega, (his x hx).2⟩
              · rw [List.mem_singleton.1 hx]
                exact ⟨by omega, hc⟩)
            (by
              rw [List.pairwise_append]
              refine ⟨hp, List.pairwise_singleton _ _, ?_⟩
              intro x hx y hy
              rw [List.mem_singleton.1 hy]
              have := (his x hx).1
              omega)
          exact ⟨is', (List.prefix_append is [b + q]).trans h1, h2, h3, h4⟩
        · rw [if_neg hcol]
          exact ih m b orig _ is hw horig (fun q' hq' => (strstr_at_found hq').2) his hp
      · rw [if_neg htest]
        exact ih m b orig _ is hw horig (fun q' hq' => (strstr_at_found hq').2) his hp

theorem found_of_occurs {hv name : List Char} {q : Nat} (hnul : NUL ∉ hv)
    (h : occurs_at hv name q) : found hv name q := by
  have hl := h.2.length_le
  rw [List.length_drop] at hl
  refine ⟨by have := h.1; omega, ?_⟩
  intro t ht
  have hc := prefix_char_at h.2 t ht
  rw [char_at_drop] at hc
  refine ⟨hc, ?_⟩
  rw [← hc, char_at_of_lt (show q + t < hv.length by omega)]
  intro e
  exact hnul (e ▸ List.getElem_mem _)

/-- The search from offset `s` finds an occurrence at or before any occurrence `i` that
lies at or after `s`. -/
theorem strstr_at_le {hv name : List Char} (hnul : NUL ∉ hv) {s i : Nat} (hs : s ≤ i)
    (hi : occurs_at hv name i) :
    ∃ q, strstr_at hv s name = some q ∧ s ≤ q ∧ q ≤ i ∧ occurs_at hv name q := by
  cases h : strstr_at hv s name with
  | none => exact absurd hi (strstr_at_none hnul h i hs)
  | some q =>
    obtain ⟨h1, h2, h3⟩ := strstr_at_some hnul h
    refine ⟨q, rfl, h1, ?_, h2⟩
    by_contra hlt
    exact h3 i hs (by omega) hi

/-- The inner loop of `get_cookie` on a header value, started at an occurrence at or
before the first occurrence `i` at a boundary, when `i` qualifies and has a character
after its `=`: the value of `i` is the first one added to the result. -/
theorem cookie_loop_first (hv name : List Char) (hnul : NUL ∉ hv) (i : Nat)
    (hc : cookie_at hv name i) (hnext : after_name hv name i + 1 < hv.length)
    (hbefore : ∀ j, j < i → occurs_at hv name j → ¬ at_boundary hv j)
    (r0 : Option (List Char)) :
    ∀ (fuel q : Nat), q ≤ i → occurs_at hv name q → i < q + fuel →
      ∃ rest, (i :: rest).Pairwise (fun x y => x < y) ∧
        (∀ x ∈ rest, cookie_at hv name x) ∧
        get_cookie_loop name fuel hv true (some q) r0 =
          append_values r0 ((i :: rest).map (cookie_value hv name)) := by
  intro fuel
  induction fuel with
  | zero => intro q hq _ hf; omega
  | succ f ih =>
    intro q hq hocc hfuel
    rw [get_cookie_loop_step]
    by_cases hqi : q = i
    · subst hqi
      have htest := (boundary_test_iff hv q).2 hc.2.1
      rw [if_pos htest]
      have hf := found_of_occurs hnul hocc
      obtain ⟨hle, hafter⟩ := after_name_eq (window_self hv) hf
      have hskip := (skip_space_spec hv hv.length (q + name.length) (by omega)).1
      rw [Nat.zero_add, Nat.zero_add] at hafter
      rw [← hafter]
      have heq := hc.2.2
      have hcol : char_at hv (after_name hv name q) = '=' ∧
          char_at hv (after_name hv name q + 1) ≠ NUL := by
        refine ⟨(char_at_eq_iff _ _ _ (by decide)).2 heq, ?_⟩
        rw [char_at_of_lt hnext]
        intro e
        exact hnul (e ▸ List.getElem_mem _)
      rw [if_pos hcol]
      have hval : cstr_at (cut_at (cut_at (cstr_at hv (after_name hv name q + 1)) ';') ',') 0 =
          cookie_value hv name q := by
        unfold cookie_value
        rw [dup_value_eq hnul (window_self hv) _ (by omega), Nat.zero_add]
      have hwin : window hv (cut_at (cut_at (cstr_at hv (after_name hv name q + 1)) ';') ',')
          (0 + (after_name hv name q + 1)) :=
        window_cut ',' (Or.inr rfl)
          (window_cut ';' (Or.inl rfl) (window_cstr_at _ (by omega) (window_self hv)))
      have hres : append_value r0
          (cstr_at (cut_at (cut_at (cstr_at hv (after_name hv name q + 1)) ';') ',') 0) =
          append_values r0 ([q].map (cookie_value hv name)) := by
        rw [hval]
        rfl
      rw [hres]
      obtain ⟨is', h1, h2, h3, h4⟩ := cookie_loop_sound hv name hnul r0 f _ _ false
        (strstr_at (cut_at (cut_at (cstr_at hv (after_name hv name q + 1)) ';') ',') 1 name)
        [q] hwin (fun h => by cases h) (fun q' hq' => (strstr_at_found hq').2)
        (fun x hx => by
          rw [List.mem_singleton.1 hx]
          exact ⟨by rw [← hafter] at hskip; omega, hc⟩)
        (List.pairwise_singleton _ _)
      obtain ⟨rest, hrest⟩ := h1
      have e : is' = q :: rest := by rw [← hrest]; rfl
      subst e
      exact ⟨rest, h2, fun x hx => h3 x (List.mem_cons_of_mem _ hx), h4⟩
    · have hlt : q < i := by omega
      have hnb := hbefore q hlt hocc
      have htest : ¬ ((true && q = 0) ||
          (q ≠ 0 &&
            (char_at hv (q - 1) = ';' || char_at hv (q - 1) = ',' ||
              isspace (char_at hv (q - 1))))) = true :=
        fun h => hnb ((boundary_test_iff hv q).1 h)
      rw [if_neg htest]
      obtain ⟨q', h1, h2, h3, h4⟩ := strstr_at_le hnul (show q + 1 ≤ i by omega) hc.1
      rw [h1]
      exact ih q' h3 h4 (by omega)

/-- The inner loop of `get_cookie` on a whole header value of which `i` is the first
occurrence at a boundary. -/
theorem cookie_header_first (hv name : List Char) (hnul : NUL ∉ hv) (i : Nat)
    (hc : cookie_at hv name i) (hnext : after_name hv name i + 1 < hv.length)
    (hbefore : ∀ j, j < i → occurs_at hv name j → ¬ at_boundary hv j)
    (r0 : Option (List Char)) :
    ∃ rest, (i :: rest).Pairwise (fun x y => x < y) ∧
      (∀ x ∈ rest, cookie_at hv name x) ∧
      get_cookie_loop name (hv.length + 2) hv true (strstr_at hv 0 name) r0 =
        append_values r0 ((i :: rest).map (cookie_value hv name)) := by
  obtain ⟨q, h1, _, h3, h4⟩ := strstr_at_le hnul (Nat.zero_le i) hc.1
  rw [h1]
  exact cookie_loop_first hv name hnul i hc hnext hbefore r0 _ q h3 h4
    (by have := hc.1.1; omega)

/-- The outer loop of `get_cookie` passes over the headers that are not named
`cookie`. -/
theorem get_cookie_headers_filter (name : List Char) :
    ∀ (headers : List (List Char × List Char)) (r0 : Option (List Char)),
      get_cookie_headers name headers r0 =
        get_cookie_headers name
          (headers.filter (fun hd => strcasecmp_eq hd.1 "cookie".toList)) r0 := by
  intro headers
  induction headers with
  | nil => intro r0; rfl
  | cons hd rest ih =>
    intro r0
    obtain ⟨hn, hv⟩ := hd
    by_cases hc : strcasecmp_eq hn "cookie".toList = true
    · rw [List.filter_cons_of_pos (by exact hc), get_cookie_headers, if_pos hc,
        get_cookie_headers, if_pos hc]
      exact ih _
    · rw [List.filter_cons_of_neg (by exact hc), get_cookie_headers, if_neg hc]
      exact ih r0

/-- The boundary rule when the search from the place after the terminator finds nothing
(`strstr_at`).  For a request with one header named `cookie` in any letter case, of
value `hv` (a C string), and any other headers: what `get_cookie` then
returns is made of the values of qualifying occurrences of the cookie name in `hv`, taken
in increasing order and joined with `;`, where an occurrence qualifies only if it stands
at the start of `hv` or after a `;`, a `,` or a white space character and is followed by
optional white space and then `=`, and its value is the text after that `=` cut before
the first `;` or `,`; so an occurrence preceded by any other character yields nothing,
as in `XJSESSIONID=a.A`.  The first occurrence at a boundary, when it qualifies and a
character follows its `=`, is collected first.  And a request without header named
`cookie` yields nothing. -/
theorem cookie_boundary_rule (s : jk_ws_service) (name hn hv : List Char)
    (hs : s.headers.filter (fun hd => strcasecmp_eq hd.1 "cookie".toList) = [(hn, hv)])
    (hnul : NUL ∉ hv) :
    (∀ r, get_cookie s name = some r →
      ∃ is : List Nat, is ≠ [] ∧ is.Pairwise (fun x y => x < y) ∧
        (∀ i ∈ is, cookie_at hv name i) ∧
        r = join_values (is.map (cookie_value hv name))) ∧
    (∀ i, cookie_at hv name i → after_name hv name i + 1 < hv.length →
      (∀ j, j < i → occurs_at hv name j → ¬ at_boundary hv j) →
      ∃ rest : List Nat, (∀ x ∈ rest, cookie_at hv name x) ∧
        get_cookie s name = some (join_values ((i :: rest).map (cookie_value hv name)))) ∧
    get_cookie prefixed_request "JSESSIONID".toList = none ∧
    (∀ s1 : jk_ws_service,
      (∀ hd ∈ s1.headers, strcasecmp_eq hd.1 "cookie".toList = false) →
      get_cookie s1 name = none) := by
  have hc : strcasecmp_eq hn "cookie".toList = true := by
    have hm : (hn, hv) ∈ s.headers.filter (fun hd => strcasecmp_eq hd.1 "cookie".toList) := by
      rw [hs]
      exact List.mem_singleton_self _
    exact (List.mem_filter.1 hm).2
  have hget : get_cookie s name =
      get_cookie_loop name (hv.length + 2) hv true (strstr_at hv 0 name) none := by
    unfold get_cookie
    rw [get_cookie_headers_filter, hs]
    simp only [get_cookie_headers, hc, if_true]
  refine ⟨?_, ?_, by decide, ?_⟩
  · intro r hr
    rw [hget] at hr
    obtain ⟨is', _, h2, h3, h4⟩ := cookie_loop_sound hv name hnul none (hv.length + 2) hv 0
      true (strstr_at hv 0 name) [] (window_self hv) (fun _ => rfl)
      (fun q hq => (strstr_at_found hq).2) (fun x hx => by cases hx) List.Pairwise.nil
    have h4' : get_cookie_loop name (hv.length + 2) hv true (strstr_at hv 0 name) none =
        append_values none (is'.map (cookie_value hv name)) := h4
    rw [h4'] at hr
    cases is' with
    | nil => cases hr
    | cons x t =>
      rw [List.map_cons, append_values_none] at hr
      cases hr
      exact ⟨x :: t, List.cons_ne_nil _ _, h2, h3, rfl⟩
  · intro i hci hnext hbefore
    obtain ⟨rest, _, h2, h3⟩ := cookie_header_first hv name hnul i hci hnext hbefore none
    refine ⟨rest, h2, ?_⟩
    rw [hget, h3, List.map_cons, append_values_none]
  · intro s1 h1
    unfold get_cookie
    rw [get_cookie_headers_filter]
    have : s1.headers.filter (fun hd => strcasecmp_eq hd.1 "cookie".toList) = [] := by
      rw [List.filter_eq_nil_iff]
      intro hd hm
      rw [h1 hd hm]
      exact Bool.false_ne_true
    rw [this]
    rfl

theorem cookie_boundary_rule_witness :
    (∀ r, get_cookie cookie_request "JSESSIONID".toList = some r →
      ∃ is : List Nat, is ≠ [] ∧ is.Pairwise (fun x y => x < y) ∧
        (∀ i ∈ is, cookie_at "x=1; JSESSIONID=a.A".toList "JSESSIONID".toList i) ∧
        r = join_values
          (is.map (cookie_value "x=1; JSESSIONID=a.A".toList "JSESSIONID".toList))) ∧
    (∀ i, cookie_at "x=1; JSESSIONID=a.A".toList "JSESSIONID".toList i →
      after_name "x=1; JSESSIONID=a.A".toList "JSESSIONID".toList i + 1 <
        "x=1; JSESSIONID=a.A".toList.length →
      (∀ j, j < i → occurs_at "x=1; JSESSIONID=a.A".toList "JSESSIONID".toList j →
        ¬ at_boundary "x=1; JSESSIONID=a.A".toList j) →
      ∃ rest : List Nat,
        (∀ x ∈ rest, cookie_at "x=1; JSESSIONID=a.A".toList "JSESSIONID".toList x) ∧
        get_cookie cookie_request "JSESSIONID".toList =
          some (join_values
            ((i :: rest).map
              (cookie_value "x=1; JSESSIONID=a.A".toList "JSESSIONID".toList)))) ∧
    get_cookie prefixed_request "JSESSIONID".toList = none ∧
    (∀ s1 : jk_ws_service,
      (∀ hd ∈ s1.headers, strcasecmp_eq hd.1 "cookie".toList = false) →
      get_cookie s1 "JSESSIONID".toList = none) :=
  cookie_boundary_rule cookie_request "JSESSIONID".toList "Cookie".toList
    "x=1; JSESSIONID=a.A".toList rfl (by decide)

/-- C19, the code at the failing input.  The header value `JSESSIONID=a.A; JSESSIONID=b.B`
holds two qualifying occurrences of the cookie name, with the values `a.A` and `b.B`;
`get_cookie` returns `a.A` alone: after the first value it goes on searching in its
copy of that value, not in the header value. -/
theorem cookie_second_occurrence_lost :
    cookie_at "JSESSIONID=a.A; JSESSIONID=b.B".toList "JSESSIONID".toList 0 ∧
    cookie_value "JSESSIONID=a.A; JSESSIONID=b.B".toList "JSESSIONID".toList 0 = "a.A".toList ∧
    cookie_at "JSESSIONID=a.A; JSESSIONID=b.B".toList "JSESSIONID".toList 16 ∧
    cookie_value "JSESSIONID=a.A; JSESSIONID=b.B".toList "JSESSIONID".toList 16 =
      "b.B".toList ∧
    get_cookie two_cookie_request "JSESSIONID".toList = some "a.A".toList ∧
    join_values ["a.A".toList, "b.B".toList] = "a.A;b.B".toList := by
  refine ⟨by decide, by decide, by decide, by decide, by decide, rfl⟩

/-- C20 (resolution order).  For every request, `get_sessionid` returns the value of
`get_path_param` whenever there is one, whatever the cookies hold; it returns the result
of `get_cookie` when `get_path_param` yields nothing; and it returns nothing when both
yield nothing. -/
theorem sessionid_resolution_order (k : jk_consts) (s : jk_ws_service) :
    (∀ v, get_path_param s k.JK_PATH_SESSION_IDENTIFIER = some v →
      get_sessionid k s = some v) ∧
    (get_path_param s k.JK_PATH_SESSION_IDENTIFIER = none →
      get_sessionid k s = get_cookie s k.JK_SESSION_IDENTIFIER) ∧
    (get_path_param s k.JK_PATH_SESSION_IDENTIFIER = none →
      get_cookie s k.JK_SESSION_IDENTIFIER = none → get_sessionid k s = none) := by
  refine ⟨?_, ?_, ?_⟩
  · intro v hv
    unfold get_sessionid
    rw [hv]
  · intro hv
    unfold get_sessionid
    rw [hv]
  · intro hv hc
    unfold get_sessionid
    rw [hv]
    exact hc

theorem sessionid_resolution_order_witness :
    get_sessionid example_consts both_request = some "p.A".toList ∧
    get_cookie both_request example_consts.JK_SESSION_IDENTIFIER = some "c.B".toList :=
  ⟨(sessionid_resolution_order example_consts both_request).1 "p.A".toList (by decide),
    by decide⟩

/-! ## Local mode after `validate` -/

/-- One pass of the first loop of `validate` that does not leave the loop: if
`in_local_worker_mode` is set afterwards, a local worker has been counted. -/
theorem validate_body_mode (k : jk_consts) (wp : worker_props) (old : worker_record)
    (i : Nat) (st : validate_state) (h : st.in_local_worker_mode = true → 0 < st.j)
    (hb : (validate_body k wp old i st).2 = false)
    (hm : (validate_body k wp old i st).1.in_local_worker_mode = true) :
    0 < (validate_body k wp old i st).1.j := by
  unfold validate_body at hb hm ⊢
  cases hc : wp.created with
  | none => simp [hc] at hb
  | some w =>
    by_cases hloc : wp.is_local_worker = true
    · simp [hc, hloc]
    · simp only [hc, hloc, if_false] at hm ⊢
      exact h (by simpa using hm)

/-- The first loop of `validate`, when it runs to the end of the worker list: if it sets
`in_local_worker_mode` it has counted a local worker. -/
theorem validate_loop_mode (k : jk_consts) (mem : Nat → worker_record) (n : Nat) :
    ∀ (wps : List worker_props) (i : Nat) (st : validate_state),
      i + wps.length = n → (st.in_local_worker_mode = true → 0 < st.j) →
      (validate_loop k mem wps i st).2 = n →
      (validate_loop k mem wps i st).1.in_local_worker_mode = true →
      0 < (validate_loop k mem wps i st).1.j := by
  intro wps
  induction wps with
  | nil => intro i st _ h _ hm; exact h hm
  | cons wp rest ih =>
    intro i st hi h hn hm
    simp only [List.length_cons] at hi
    have hbody := validate_body_mode k wp (st.lb_workers.getD i (mem i)) i st h
    rw [validate_loop] at hn hm ⊢
    rcases hb : validate_body k wp (st.lb_workers.getD i (mem i)) i st with ⟨st1, b⟩
    rw [hb] at hn hm hbody
    cases b with
    | true =>
      simp only at hn
      omega
    | false =>
      simp only at hn hm hbody ⊢
      exact ih (i + 1) st1 (by omega) (hbody trivial) hn hm

/-- A registry that `validate` has built with `local_worker_only` left set holds a local
worker. -/
theorem validate_local_only_pos (k : jk_consts) (p : lb_worker) (props : lb_props)
    (mem : Nat → worker_record) (valid_args : Bool)
    (hrc : (validate k valid_args p props mem).rc = true)
    (hlo : (validate k valid_args p props mem).p.local_worker_only = true) :
    0 < (validate k valid_args p props mem).p.num_of_local_workers := by
  unfold validate at hrc hlo ⊢
  cases valid_args with
  | false => simp at hrc
  | true =>
    simp only [if_true] at hrc hlo ⊢
    cases hwl : props.worker_list with
    | none => rw [hwl] at hrc; simp at hrc
    | some worker_names =>
      rw [hwl] at hrc hlo
      simp only at hrc hlo ⊢
      by_cases h0 : worker_names.length = 0
      · rw [if_pos h0] at hrc; simp at hrc
      · rw [if_neg h0] at hrc hlo ⊢
        by_cases ha : props.alloc_ok = false
        · rw [if_pos ha] at hrc; simp at hrc
        · rw [if_neg ha] at hrc hlo ⊢
          have key := validate_loop_mode k mem worker_names.length worker_names 0
            { lb_workers := (List.range worker_names.length).map mem, j := 0,
              in_local_worker_mode := false } (by omega) (fun h => by cases h)
          rcases hv : validate_loop k mem worker_names 0
            { lb_workers := (List.range worker_names.length).map mem, j := 0,
              in_local_worker_mode := false } with ⟨st, i⟩
          rw [hv] at hrc hlo key
          simp only at hrc hlo key ⊢
          by_cases hi : i ≠ worker_names.length
          · rw [if_pos hi] at hrc; simp at hrc
          · rw [if_neg hi] at hlo ⊢
            simp only at hlo ⊢
            have him : i = worker_names.length := by omega
            apply key him
            by_contra hm
            rw [if_neg hm] at hlo
            cases hlo

/-! ## The order in which `validate` leaves the records -/

theorem set_append_length {α : Type} (A T : List α) (a b : α) :
    (A ++ a :: T).set A.length b = A ++ b :: T := by
  induction A with
  | nil => rfl
  | cons x A ih => simp [ih]

theorem getElem?_append_length {α : Type} (A T : List α) (a : α) :
    (A ++ a :: T)[A.length]? = some a := by
  induction A with
  | nil => simp
  | cons x A ih => simpa using ih

theorem getD_append_length (A T : List worker_record) (a d : worker_record) :
    (A ++ a :: T).getD A.length d = a := by
  rw [List.getD_eq_getElem?_getD, getElem?_append_length]
  rfl

/-- The exchange of a local record at the end of the records visited with the first
record that is not local. -/
theorem swap_records_rotate (L Nt T : List worker_record) (a x : worker_record) :
    swap_records (L ++ a :: (Nt ++ x :: T)) L.length (L.length + (Nt.length + 1)) =
      L ++ x :: (Nt ++ a :: T) := by
  have h1 : (L ++ a :: (Nt ++ x :: T))[L.length]? = some a :=
    getElem?_append_length L _ a
  have e0 : L ++ a :: (Nt ++ x :: T) = (L ++ a :: Nt) ++ x :: T := by simp
  have hl : (L ++ a :: Nt).length = L.length + (Nt.length + 1) := by simp
  have h2 : (L ++ a :: (Nt ++ x :: T))[L.length + (Nt.length + 1)]? = some x := by
    rw [e0, ← hl]
    exact getElem?_append_length _ T x
  unfold swap_records
  rw [h1, h2]
  dsimp only
  rw [set_append_length]
  have e1 : L ++ x :: (Nt ++ x :: T) = (L ++ x :: Nt) ++ x :: T := by simp
  have hl1 : (L ++ x :: Nt).length = L.length + (Nt.length + 1) := by simp
  rw [e1, ← hl1, set_append_length]
  simp

theorem built_record_local (k : jk_consts) (wp : worker_props) (o : worker_record) :
    (built_record k wp o).is_local_worker = wp.is_local_worker := rfl

/-- One pass of the first loop of `validate` when the member worker cannot be created:
the loop is left, with the records visited before in their places. -/
theorem validate_body_fail (k : jk_consts) (wp : worker_props) (o : worker_record)
    (A T : List worker_record) (st : validate_state) (i : Nat)
    (hws : st.lb_workers = A ++ o :: T) (hi : i = A.length) (hc : wp.created = none) :
    (validate_body k wp o i st).2 = true ∧
    (validate_body k wp o i st).1.lb_workers = A ++ init_record k wp o :: T ∧
    (validate_body k wp o i st).1.j = st.j := by
  unfold validate_body
  simp only [hc]
  rw [hws, hi, set_append_length]
  simp

/-- One pass of the first loop of `validate` when the member worker is created: a local
record goes to the end of the local records, in exchange with the first record that is
not local, and another record stays at the end of the records visited. -/
theorem validate_body_shape (k : jk_consts) (wp : worker_props) (o : worker_record)
    (L N T : List worker_record) (st : validate_state) (i : Nat) (w : Nat)
    (hws : st.lb_workers = L ++ (N ++ o :: T)) (hj : st.j = L.length)
    (hi : i = L.length + N.length) (hc : wp.created = some w) :
    ∃ L1 N1 : List worker_record,
      (validate_body k wp o i st).2 = false ∧
      (validate_body k wp o i st).1.lb_workers = L1 ++ (N1 ++ T) ∧
      (validate_body k wp o i st).1.j = L1.length ∧
      L1.length + N1.length = i + 1 ∧
      L1 = L ++ (if wp.is_local_worker = true then [built_record k wp o] else []) ∧
      N1.Perm (N ++ (if wp.is_local_worker = true then [] else [built_record k wp o])) := by
  have hx : ({ init_record k wp o with w := w } : worker_record) = built_record k wp o := by
    unfold built_record
    rw [hc]
    rfl
  have hset : st.lb_workers.set i { init_record k wp o with w := w } =
      L ++ (N ++ built_record k wp o :: T) := by
    rw [hws, hx, hi, ← List.append_assoc, ← List.length_append, set_append_length,
      List.append_assoc]
  unfold validate_body
  simp only [hc]
  rw [hset]
  by_cases hloc : wp.is_local_worker = true
  · simp only [hloc, if_true]
    by_cases hij : i ≠ st.j
    · rw [if_pos hij]
      cases N with
      | nil => simp at hi; omega
      | cons a Nt =>
        refine ⟨L ++ [built_record k wp o], Nt ++ [a], trivial, ?_, ?_, ?_, rfl, ?_⟩
        · have hi' : i = L.length + (Nt.length + 1) := by simpa using hi
          rw [hj, hi']
          have := swap_records_rotate L Nt T a (built_record k wp o)
          simp only [List.cons_append] at this ⊢
          rw [this]
          simp
        · simp [hj]
        · simp at hi ⊢; omega
        · simp
    · rw [if_neg hij]
      have hN : N = [] := by
        have : N.length = 0 := by
          have := not_not.1 hij
          omega
        exact List.length_eq_zero.1 this
      subst hN
      refine ⟨L ++ [built_record k wp o], [], trivial, by simp, by simp [hj], by simp at hi ⊢; omega,
        rfl, by simp⟩
  · have hf : wp.is_local_worker = false := by simpa using hloc
    simp only [hf, Bool.false_eq_true, if_false]
    refine ⟨L, N ++ [built_record k wp o], trivial, by simp, hj, by simp; omega, by simp, ?_⟩
    exact List.Perm.refl _

theorem built_cons (k : jk_consts) (wp : worker_props) (wps : List worker_props)
    (o : worker_record) (T : List worker_record) :
    built k (wp :: wps) (o :: T) = built_record k wp o :: built k wps T := rfl

/-- The first loop of `validate`, entered with local records `L`, other records `N` and
memory `R` still to fill: it visits the entries up to the first one whose member worker
cannot be created, `t` of them; the local records made of them follow `L` in the order
of the list, the others follow `N`, in some order. -/
theorem validate_loop_shape (k : jk_consts) (mem : Nat → worker_record) :
    ∀ (wps : List worker_props) (i : Nat) (st : validate_state) (L N R : List worker_record),
      st.lb_workers = L ++ (N ++ R) → st.j = L.length → i = L.length + N.length →
      wps.length ≤ R.length →
      ∃ (t : Nat) (L1 N1 R1 : List worker_record),
        t ≤ wps.length ∧ R1.length + t = R.length ∧
        (validate_loop k mem wps i st).2 = i + t ∧
        (validate_loop k mem wps i st).1.lb_workers = L1 ++ (N1 ++ R1) ∧
        (validate_loop k mem wps i st).1.j = L1.length ∧
        L1.length + N1.length = i + t ∧
        L1 = L ++ (built k (wps.take t) R).filter (fun wr => wr.is_local_worker) ∧
        N1.Perm (N ++ (built k (wps.take t) R).filter (fun wr => !wr.is_local_worker)) ∧
        (∀ wp ∈ wps.take t, wp.created ≠ none) ∧
        (t < wps.length → ∃ wp, wps[t]? = some wp ∧ wp.created = none) := by
  intro wps
  induction wps with
  | nil =>
    intro i st L N R hws hj hi _
    refine ⟨0, L, N, R, Nat.le_refl _, rfl, rfl, hws, hj, hi.symm, by simp [built], ?_, ?_, ?_⟩
    · simp [built]
    · intro wp hwp; cases hwp
    · intro h; simp at h
  | cons wp rest ih =>
    intro i st L N R hws hj hi hlen
    cases R with
    | nil => simp at hlen
    | cons o T =>
      have hold : st.lb_workers.getD i (mem i) = o := by
        rw [hws, ← List.append_assoc, hi, ← List.length_append]
        exact getD_append_length _ T o _
      rw [validate_loop, hold]
      cases hc : wp.created with
      | none =>
        have hws' : st.lb_workers = (L ++ N) ++ o :: T := by rw [hws, List.append_assoc]
        obtain ⟨h1, h2, h3⟩ := validate_body_fail k wp o (L ++ N) T st i hws'
          (by rw [hi, List.length_append]) hc
        rcases hb : validate_body k wp o i st with ⟨st1, b⟩
        rw [hb] at h1 h2 h3
        simp only at h1 h2 h3
        subst h1
        refine ⟨0, L, N, init_record k wp o :: T, Nat.zero_le _, rfl, rfl, ?_, ?_, hi.symm,
          by simp [built], by simp [built], ?_, ?_⟩
        · simp only
          rw [h2, List.append_assoc]
        · simp only
          rw [h3, hj]
        · intro wp' hwp'; simp at hwp'
        · intro _
          exact ⟨wp, by simp, hc⟩
      | some w =>
        obtain ⟨L1, N1, h1, h2, h3, h4, h5, h6⟩ :=
          validate_body_shape k wp o L N T st i w hws hj hi hc
        rcases hb : validate_body k wp o i st with ⟨st1, b⟩
        rw [hb] at h1 h2 h3
        simp only at h1 h2 h3
        subst h1
        simp only
        obtain ⟨t, L2, N2, R2, g1, g2, g3, g4, g5, g6, g7, g8, g9, g10⟩ :=
          ih (i + 1) st1 L1 N1 T h2 h3 h4.symm (by simpa using hlen)
        refine ⟨t + 1, L2, N2, R2, by simp; omega, by simp; omega, by rw [g3]; omega, g4, g5,
          by omega, ?_, ?_, ?_, ?_⟩
        · rw [g7, h5, List.take_succ_cons, built_cons, List.filter_cons, built_record_local]
          by_cases hloc : wp.is_local_worker = true
          · simp [hloc]
          · simp [hloc]
        · refine g8.trans ?_
          rw [List.take_succ_cons, built_cons, List.filter_cons, built_record_local]
          by_cases hloc : wp.is_local_worker = true
          · simp only [hloc, if_true] at h6
            simp only [hloc, Bool.not_true, Bool.false_eq_true, if_false]
            exact List.Perm.append_right _ (by simpa using h6)
          · have hf : wp.is_local_worker = false := by simpa using hloc
            simp only [hf, Bool.false_eq_true, if_false] at h6
            simp only [hf, Bool.not_false, if_true]
            refine (List.Perm.append_right _ h6).trans ?_
            simp
        · intro wp' hwp'
          rw [List.take_succ_cons] at hwp'
          rcases List.mem_cons.1 hwp' with e | e
          · rw [e, hc]; exact fun h => by cases h
          · exact g9 wp' e
        · intro hlt
          obtain ⟨wp', e1, e2⟩ := g10 (by simpa using hlt)
          exact ⟨wp', by simpa using e1, e2⟩

/-- The run of `validate` on a worker list that is not empty, once memory is
allocated, in terms of its first loop. -/
theorem validate_run (k : jk_consts) (p : lb_worker) (props : lb_props)
    (mem : Nat → worker_record) (wps : List worker_props)
    (hwl : props.worker_list = some wps) (hne : wps.length ≠ 0) (ha : props.alloc_ok = true) :
    validate k true p props mem =
      if (validate_loop k mem wps 0 ⟨(List.range wps.length).map mem, 0, false⟩).2 ≠
          wps.length then
        { rc := false,
          p :=
            { lb_workers :=
                (validate_loop k mem wps 0 ⟨(List.range wps.length).map mem, 0, false⟩).1.lb_workers,
              num_of_workers := p.num_of_workers, num_of_local_workers := 0,
              in_local_worker_mode :=
                (validate_loop k mem wps 0
                  ⟨(List.range wps.length).map mem, 0, false⟩).1.in_local_worker_mode,
              local_worker_only :=
                if (validate_loop k mem wps 0
                    ⟨(List.range wps.length).map mem, 0, false⟩).1.in_local_worker_mode = true
                then props.local_worker_only else false,
              sticky_session := props.sticky_session,
              recover_wait_time := p.recover_wait_time },
          destroyed :=
            ((validate_loop k mem wps 0
                ⟨(List.range wps.length).map mem, 0, false⟩).1.lb_workers.take
              (validate_loop k mem wps 0 ⟨(List.range wps.length).map mem, 0, false⟩).2).map
              (fun wr => wr.w) }
      else
        { rc := true,
          p :=
            { lb_workers :=
                set_local_domains
                  (validate_loop k mem wps 0
                    ⟨(List.range wps.length).map mem, 0, false⟩).1.lb_workers
                  (validate_loop k mem wps 0 ⟨(List.range wps.length).map mem, 0, false⟩).1.j,
              num_of_workers := wps.length,
              num_of_local_workers :=
                (validate_loop k mem wps 0 ⟨(List.range wps.length).map mem, 0, false⟩).1.j,
              in_local_worker_mode :=
                (validate_loop k mem wps 0
                  ⟨(List.range wps.length).map mem, 0, false⟩).1.in_local_worker_mode,
              local_worker_only :=
                if (validate_loop k mem wps 0
                    ⟨(List.range wps.length).map mem, 0, false⟩).1.in_local_worker_mode = true
                then props.local_worker_only else false,
              sticky_session := props.sticky_session,
              recover_wait_time := p.recover_wait_time },
          destroyed := [] } := by
  unfold validate
  simp only [if_true, hwl, if_neg hne, ha, Bool.true_eq_false, if_false]

/-- A successful `validate` has run on a worker list that is not empty, with memory, and
its first loop has reached the end of the list. -/
theorem validate_success (k : jk_consts) (p : lb_worker) (props : lb_props)
    (mem : Nat → worker_record) (wps : List worker_props)
    (hwl : props.worker_list = some wps) (h : (validate k true p props mem).rc = true) :
    wps.length ≠ 0 ∧ props.alloc_ok = true ∧
    (validate_loop k mem wps 0 ⟨(List.range wps.length).map mem, 0, false⟩).2 = wps.length := by
  have hne : wps.length ≠ 0 := by
    intro h0
    unfold validate at h
    simp [hwl, h0] at h
  have ha : props.alloc_ok = true := by
    cases hb : props.alloc_ok with
    | true => rfl
    | false =>
      unfold validate at h
      simp [hwl, hne, hb] at h
  refine ⟨hne, ha, ?_⟩
  rw [validate_run k p props mem wps hwl hne ha] at h
  by_contra hi
  rw [if_pos hi] at h
  cases h

/-- The record that the last loops of `validate` leave at index `i`. -/
theorem set_local_domains_get (ws : List worker_record) (nl i : Nat) :
    (set_local_domains ws nl)[i]? =
      (ws[i]?).map (fun wr =>
        if i < nl then { wr with is_local_domain := true }
        else
          { wr with
            is_local_domain := (ws.take nl).any (fun l => decide (wr.domain = l.domain)) }) := by
  unfold set_local_domains
  rw [List.getElem?_map, List.getElem?_enum]
  cases ws[i]? with
  | none => rfl
  | some wr => rfl

theorem set_local_domains_erase (ws : List worker_record) (nl : Nat) :
    (set_local_domains ws nl).map erase_local_domain = ws.map erase_local_domain := by
  apply List.ext_getElem?
  intro i
  rw [List.getElem?_map, List.getElem?_map, set_local_domains_get]
  cases ws[i]? with
  | none => rfl
  | some wr =>
    simp only [Option.map_some']
    split <;> rfl

theorem set_local_domains_length (ws : List worker_record) (nl : Nat) :
    (set_local_domains ws nl).length = ws.length := (set_local_domains_spec ws nl).1

/-- A field of the records made of a worker list that depends on the list only. -/
theorem built_map {β : Type} (k : jk_consts) (g : worker_record → β) (f : worker_props → β)
    (hgf : ∀ wp o, g (built_record k wp o) = f wp) :
    ∀ (wps : List worker_props) (R : List worker_record), wps.length ≤ R.length →
      (built k wps R).map g = wps.map f := by
  intro wps
  induction wps with
  | nil => intro R _; simp [built]
  | cons wp rest ih =>
    intro R hlen
    cases R with
    | nil => simp at hlen
    | cons o T =>
      rw [built_cons, List.map_cons, List.map_cons, hgf, ih T (by simpa using hlen)]

/-- The same for the records picked by a test that depends on the list only. -/
theorem built_filter_map {β : Type} (k : jk_consts) (g : worker_record → β)
    (f : worker_props → β) (c : worker_record → Bool) (d : worker_props → Bool)
    (hgf : ∀ wp o, g (built_record k wp o) = f wp)
    (hcd : ∀ wp o, c (built_record k wp o) = d wp) :
    ∀ (wps : List worker_props) (R : List worker_record), wps.length ≤ R.length →
      ((built k wps R).filter c).map g = (wps.filter d).map f := by
  intro wps
  induction wps with
  | nil => intro R _; simp [built]
  | cons wp rest ih =>
    intro R hlen
    cases R with
    | nil => simp at hlen
    | cons o T =>
      rw [built_cons, List.filter_cons, List.filter_cons, hcd]
      have := ih T (by simpa using hlen)
      cases d wp with
      | true => simp only [if_true, List.map_cons, hgf, this]
      | false => simpa using this

/-- The registry that a successful `validate` leaves: the local records made of the
worker list, in the order of the list, then the other records, in some order, with
`is_local_domain` set by the last loops. -/
theorem validate_success_shape (k : jk_consts) (p : lb_worker) (props : lb_props)
    (mem : Nat → worker_record) (wps : List worker_props)
    (hwl : props.worker_list = some wps) (h : (validate k true p props mem).rc = true) :
    ∃ L N : List worker_record,
      (validate k true p props mem).p.lb_workers = set_local_domains (L ++ N) L.length ∧
      (validate k true p props mem).p.num_of_workers = wps.length ∧
      (validate k true p props mem).p.num_of_local_workers = L.length ∧
      L.length + N.length = wps.length ∧
      L = (built k wps ((List.range wps.length).map mem)).filter
        (fun wr => wr.is_local_worker) ∧
      N.Perm ((built k wps ((List.range wps.length).map mem)).filter
        (fun wr => !wr.is_local_worker)) ∧
      (∀ wp ∈ wps, wp.created ≠ none) ∧
      (validate k true p props mem).p.recover_wait_time = p.recover_wait_time := by
  obtain ⟨hne, ha, hend⟩ := validate_success k p props mem wps hwl h
  obtain ⟨t, L1, N1, R1, g1, g2, g3, g4, g5, g6, g7, g8, g9, _⟩ :=
    validate_loop_shape k mem wps 0 ⟨(List.range wps.length).map mem, 0, false⟩ [] []
      ((List.range wps.length).map mem) rfl rfl rfl (by simp)
  rw [validate_run k p props mem wps hwl hne ha, if_neg (by rw [hend]; exact fun h => h rfl)]
  rw [hend] at g3
  have g2' : R1.length + t = wps.length := by simpa using g2
  have ht : t = wps.length := by omega
  have hR1 : R1 = [] := by
    apply List.length_eq_zero.1
    omega
  subst hR1
  rw [ht] at g6 g7 g8 g9
  simp only [List.take_length, List.nil_append, List.append_nil] at g4 g7 g8 g9
  refine ⟨L1, N1, ?_, rfl, g5, by omega, g7, g8, g9, rfl⟩
  simp only
  rw [g4, g5]

/-- An entry of the registry after the last loops of `validate`, against the entry
before them. -/
theorem set_local_domains_entry {ws : List worker_record} {nl i : Nat} {d : worker_record}
    (h : (set_local_domains ws nl)[i]? = some d) :
    ∃ b, ws[i]? = some b ∧ erase_local_domain d = erase_local_domain b ∧
      d.domain = b.domain ∧ d.is_local_worker = b.is_local_worker ∧
      (i < nl → d.is_local_domain = true) ∧
      (¬ i < nl → d.is_local_domain =
        (ws.take nl).any (fun l => decide (b.domain = l.domain))) := by
  rw [set_local_domains_get] at h
  cases hb : ws[i]? with
  | none => rw [hb] at h; cases h
  | some b =>
    rw [hb] at h
    simp only [Option.map_some', Option.some.injEq] at h
    refine ⟨b, rfl, ?_⟩
    by_cases hi : i < nl
    · rw [if_pos hi] at h
      subst h
      exact ⟨rfl, rfl, rfl, fun _ => rfl, fun hn => absurd hi hn⟩
    · rw [if_neg hi] at h
      subst h
      exact ⟨rfl, rfl, rfl, fun hn => absurd hn hi, fun _ => rfl⟩

/-- The entries of `L ++ N` below the length of `L` are those of `L`. -/
theorem append_get_cases {L N : List worker_record} {i : Nat} {b : worker_record}
    (h : (L ++ N)[i]? = some b) : (i < L.length ∧ b ∈ L) ∨ (¬ i < L.length ∧ b ∈ N) := by
  by_cases hi : i < L.length
  · rw [List.getElem?_append_left hi] at h
    exact Or.inl ⟨hi, List.getElem?_mem h⟩
  · rw [List.getElem?_append_right (by omega)] at h
    exact Or.inr ⟨hi, List.getElem?_mem h⟩

/-- The records that a successful `validate` leaves are, up to the flag
`is_local_domain`, a permutation of the records made of the worker list. -/
theorem validate_perm_built (k : jk_consts) (p : lb_worker) (props : lb_props)
    (mem : Nat → worker_record) (wps : List worker_props)
    (hwl : props.worker_list = some wps) (h : (validate k true p props mem).rc = true) :
    ((validate k true p props mem).p.lb_workers.map erase_local_domain).Perm
      ((built k wps ((List.range wps.length).map mem)).map erase_local_domain) := by
  obtain ⟨L, N, h1, _, _, _, h5, h6, _, _⟩ := validate_success_shape k p props mem wps hwl h
  rw [h1, set_local_domains_erase]
  apply List.Perm.map
  refine (List.Perm.append_left L h6).trans ?_
  rw [h5]
  exact List.filter_append_perm _ _

/-- C21 (the build partitions the registry).  When `validate` succeeds on the worker
list `wps`: the records it leaves are, up to the flag `is_local_domain`, a permutation
of the records made of the entries of the list (and their names a permutation of the
configured names); `num_of_workers` is the length of the list and of the registry;
`num_of_local_workers` is the number of entries configured local; and a record is local
exactly when its index is below `num_of_local_workers`. -/
theorem validate_partitions (k : jk_consts) (p : lb_worker) (props : lb_props)
    (mem : Nat → worker_record) (wps : List worker_props)
    (hwl : props.worker_list = some wps) (h : (validate k true p props mem).rc = true) :
    ((validate k true p props mem).p.lb_workers.map erase_local_domain).Perm
      ((built k wps ((List.range wps.length).map mem)).map erase_local_domain) ∧
    ((validate k true p props mem).p.lb_workers.map (fun wr => wr.name)).Perm
      (wps.map (fun wp => wp.name)) ∧
    (validate k true p props mem).p.num_of_workers = wps.length ∧
    (validate k true p props mem).p.lb_workers.length = wps.length ∧
    (validate k true p props mem).p.num_of_local_workers =
      wps.countP (fun wp => wp.is_local_worker) ∧
    (∀ (i : Nat) (wr : worker_record),
      (validate k true p props mem).p.lb_workers[i]? = some wr →
      (wr.is_local_worker = true ↔ i < (validate k true p props mem).p.num_of_local_workers)) := by
  obtain ⟨L, N, h1, h2, h3, h4, h5, h6, _, _⟩ := validate_success_shape k p props mem wps hwl h
  have hperm := validate_perm_built k p props mem wps hwl h
  have hlenR : wps.length ≤ ((List.range wps.length).map mem).length := by simp
  refine ⟨hperm, ?_, h2, ?_, ?_, ?_⟩
  · have := hperm.map (fun wr => wr.name)
    rw [List.map_map, List.map_map] at this
    have e : (fun wr : worker_record => wr.name) ∘ erase_local_domain = fun wr => wr.name := rfl
    rw [e, built_map k (fun wr => wr.name) (fun wp => wp.name) (fun _ _ => rfl) wps _ hlenR]
      at this
    exact this
  · rw [h1, set_local_domains_length, List.length_append, h4]
  · rw [h3, h5]
    have := built_filter_map k (fun _ => ()) (fun _ => ()) (fun wr => wr.is_local_worker)
      (fun wp => wp.is_local_worker) (fun _ _ => rfl) (fun _ _ => rfl) wps _ hlenR
    have hl := congrArg List.length this
    rw [List.length_map, List.length_map] at hl
    rw [hl, List.countP_eq_length_filter]
  · intro i wr hi
    rw [h1] at hi
    obtain ⟨b, hb, _, _, hloc, _, _⟩ := set_local_domains_entry hi
    rw [h3, hloc]
    rcases append_get_cases hb with ⟨hlt, hm⟩ | ⟨hge, hm⟩
    · rw [h5] at hm
      have := (List.mem_filter.1 hm).2
      exact ⟨fun _ => hlt, fun _ => this⟩
    · have := (List.mem_filter.1 ((h6.mem_iff).1 hm)).2
      simp only [Bool.not_eq_true'] at this
      constructor
      · intro ht; rw [this] at ht; cases ht
      · intro hlt; exact absurd hlt hge

theorem validate_partitions_witness :
    ((validate example_consts true lb_worker_factory abcde_props zero_mem).p.lb_workers.map
        erase_local_domain).Perm
      ((built example_consts
          [⟨['A'], 1, none, false, some 0⟩, ⟨['B'], 1, none, true, some 1⟩,
           ⟨['C'], 1, none, false, some 2⟩, ⟨['D'], 1, none, true, some 3⟩,
           ⟨['E'], 1, none, false, some 4⟩]
          ((List.range 5).map zero_mem)).map erase_local_domain) ∧
    ((validate example_consts true lb_worker_factory abcde_props zero_mem).p.lb_workers.map
        (fun wr => wr.name)).Perm [['A'], ['B'], ['C'], ['D'], ['E']] ∧
    (validate example_consts true lb_worker_factory abcde_props zero_mem).p.num_of_workers = 5 ∧
    (validate example_consts true lb_worker_factory abcde_props zero_mem).p.lb_workers.length
      = 5 ∧
    (validate example_consts true lb_worker_factory abcde_props zero_mem).p.num_of_local_workers
      = 2 ∧
    (∀ (i : Nat) (wr : worker_record),
      (validate example_consts true lb_worker_factory abcde_props zero_mem).p.lb_workers[i]?
        = some wr →
      (wr.is_local_worker = true ↔
        i < (validate example_consts true lb_worker_factory abcde_props
          zero_mem).p.num_of_local_workers)) :=
  validate_partitions example_consts lb_worker_factory abcde_props zero_mem
    [⟨['A'], 1, none, false, some 0⟩, ⟨['B'], 1, none, true, some 1⟩,
     ⟨['C'], 1, none, false, some 2⟩, ⟨['D'], 1, none, true, some 3⟩,
     ⟨['E'], 1, none, false, some 4⟩] rfl rfl

/-- C22, counterexample.  For the worker list `A`, `B`, `C`, `D`, `E` with `B` and `D`
local, `validate` succeeds and leaves the records in the order `B`, `D`, `C`, `A`, `E`:
the records that are not local stand in the order `C`, `A`, `E`, not in the order `A`,
`C`, `E` of the list. -/
theorem validate_not_stable :
    (validate example_consts true lb_worker_factory abcde_props zero_mem).rc = true ∧
    (validate example_consts true lb_worker_factory abcde_props zero_mem).p.lb_workers.map
      (fun wr => wr.name) = [['B'], ['D'], ['C'], ['A'], ['E']] ∧
    (validate example_consts true lb_worker_factory abcde_props
      zero_mem).p.num_of_local_workers = 2 ∧
    ((validate example_consts true lb_worker_factory abcde_props zero_mem).p.lb_workers.drop
      2).map (fun wr => wr.name) = [['C'], ['A'], ['E']] ∧
    (abcde_props.worker_list.getD []).filterMap
      (fun wp => if wp.is_local_worker then none else some wp.name) =
      [['A'], ['C'], ['E']] := by
  refine ⟨rfl, rfl, rfl, rfl, rfl⟩

/-- C22 (order of the build partition), amended.  When `validate` succeeds on the worker
list `wps`, the local records stand at the indices below `num_of_local_workers` in the
order of the list (as whole records, up to the flag `is_local_domain`, and so by name);
the records that are not local stand at the indices from `num_of_local_workers` on, in
an order that need not be the order of the list. -/
theorem validate_keeps_local_order (k : jk_consts) (p : lb_worker) (props : lb_props)
    (mem : Nat → worker_record) (wps : List worker_props)
    (hwl : props.worker_list = some wps) (h : (validate k true p props mem).rc = true) :
    ((validate k true p props mem).p.lb_workers.take
        (validate k true p props mem).p.num_of_local_workers).map erase_local_domain =
      ((built k wps ((List.range wps.length).map mem)).filter
        (fun wr => wr.is_local_worker)).map erase_local_domain ∧
    ((validate k true p props mem).p.lb_workers.take
        (validate k true p props mem).p.num_of_local_workers).map (fun wr => wr.name) =
      (wps.filter (fun wp => wp.is_local_worker)).map (fun wp => wp.name) ∧
    (((validate k true p props mem).p.lb_workers.drop
        (validate k true p props mem).p.num_of_local_workers).map erase_local_domain).Perm
      (((built k wps ((List.range wps.length).map mem)).filter
        (fun wr => !wr.is_local_worker)).map erase_local_domain) ∧
    (((validate k true p props mem).p.lb_workers.drop
        (validate k true p props mem).p.num_of_local_workers).map (fun wr => wr.name)).Perm
      ((wps.filter (fun wp => !wp.is_local_worker)).map (fun wp => wp.name)) := by
  obtain ⟨L, N, h1, h2, h3, h4, h5, h6, _, _⟩ := validate_success_shape k p props mem wps hwl h
  have hlenR : wps.length ≤ ((List.range wps.length).map mem).length := by simp
  have htake : ((validate k true p props mem).p.lb_workers.take
      (validate k true p props mem).p.num_of_local_workers).map erase_local_domain =
      L.map erase_local_domain := by
    rw [h3, List.map_take, h1, set_local_domains_erase, List.map_append,
      List.take_left' (by simp)]
  have hdrop : ((validate k true p props mem).p.lb_workers.drop
      (validate k true p props mem).p.num_of_local_workers).map erase_local_domain =
      N.map erase_local_domain := by
    rw [h3, List.map_drop, h1, set_local_domains_erase, List.map_append,
      List.drop_left' (by simp)]
  have e : (fun wr : worker_record => wr.name) ∘ erase_local_domain = fun wr => wr.name := rfl
  refine ⟨by rw [htake, h5], ?_, by rw [hdrop]; exact h6.map _, ?_⟩
  · have := congrArg (List.map (fun wr : worker_record => wr.name)) htake
    rw [List.map_map, List.map_map, e] at this
    rw [this, h5]
    exact built_filter_map k (fun wr => wr.name) (fun wp => wp.name)
      (fun wr => wr.is_local_worker) (fun wp => wp.is_local_worker) (fun _ _ => rfl)
      (fun _ _ => rfl) wps _ hlenR
  · have := congrArg (List.map (fun wr : worker_record => wr.name)) hdrop
    rw [List.map_map, List.map_map, e] at this
    rw [this]
    refine (h6.map _).trans ?_
    rw [built_filter_map k (fun wr => wr.name) (fun wp => wp.name)
      (fun wr => !wr.is_local_worker) (fun wp => !wp.is_local_worker) (fun _ _ => rfl)
      (fun _ _ => rfl) wps _ hlenR]

theorem validate_keeps_local_order_witness :
    ((validate example_consts true lb_worker_factory abcde_props zero_mem).p.lb_workers.take
      (validate example_consts true lb_worker_factory abcde_props
        zero_mem).p.num_of_local_workers).map (fun wr => wr.name) = [['B'], ['D']] :=
  (validate_keeps_local_order example_consts lb_worker_factory abcde_props zero_mem
    [⟨['A'], 1, none, false, some 0⟩, ⟨['B'], 1, none, true, some 1⟩,
     ⟨['C'], 1, none, false, some 2⟩, ⟨['D'], 1, none, true, some 3⟩,
     ⟨['E'], 1, none, false, some 4⟩] rfl rfl).2.1

/-- C23 (the flag `is_local_domain` is derived).  When `validate` succeeds, for every
record `d` of the registry, `d.is_local_domain` is set if and only if `d` is local or the
domain of `d` is the domain of some local record of the registry. -/
theorem local_domain_derived (k : jk_consts) (p : lb_worker) (props : lb_props)
    (mem : Nat → worker_record) (wps : List worker_props)
    (hwl : props.worker_list = some wps) (h : (validate k true p props mem).rc = true) :
    ∀ d ∈ (validate k true p props mem).p.lb_workers,
      (d.is_local_domain = true ↔
        (d.is_local_worker = true ∨
          ∃ l ∈ (validate k true p props mem).p.lb_workers,
            l.is_local_worker = true ∧ d.domain = l.domain)) := by
  obtain ⟨L, N, h1, _, _, _, h5, h6, _, _⟩ := validate_success_shape k p props mem wps hwl h
  have hL : ∀ b ∈ L, b.is_local_worker = true := by
    intro b hb
    rw [h5] at hb
    exact (List.mem_filter.1 hb).2
  have hN : ∀ b ∈ N, b.is_local_worker = false := by
    intro b hb
    have := (List.mem_filter.1 ((h6.mem_iff).1 hb)).2
    simpa using this
  intro d hd
  rw [h1] at hd ⊢
  obtain ⟨i, hi⟩ := List.getElem?_of_mem hd
  obtain ⟨b, hb, _, hdom, hloc, ht, hf⟩ := set_local_domains_entry hi
  rcases append_get_cases hb with ⟨hlt, hm⟩ | ⟨hge, hm⟩
  · have hdl : d.is_local_worker = true := by rw [hloc]; exact hL b hm
    exact ⟨fun _ => Or.inl hdl, fun _ => ht hlt⟩
  · have hdl : d.is_local_worker = false := by rw [hloc]; exact hN b hm
    rw [hf hge, List.take_left' rfl, List.any_eq_true]
    constructor
    · rintro ⟨l, hl, hdl'⟩
      obtain ⟨m, hm'⟩ := List.getElem?_of_mem hl
      have hmL : m < L.length := getElem?_lt_of_some hm'
      have hget : (L ++ N)[m]? = some l := by rw [List.getElem?_append_left hmL]; exact hm'
      have hfin := set_local_domains_get (L ++ N) L.length m
      rw [hget, Option.map_some', if_pos hmL] at hfin
      refine Or.inr ⟨_, List.getElem?_mem hfin, hL l hl, ?_⟩
      rw [hdom]
      simpa using hdl'
    · rintro (hc | ⟨l, hl, hll, hdl'⟩)
      · rw [hdl] at hc; cases hc
      · obtain ⟨m, hm'⟩ := List.getElem?_of_mem hl
        obtain ⟨bm, hbm, _, hdomm, hlocm, _, _⟩ := set_local_domains_entry hm'
        rcases append_get_cases hbm with ⟨_, hmem⟩ | ⟨_, hmem⟩
        · refine ⟨bm, hmem, ?_⟩
          rw [← hdom, hdl', hdomm]
          simp
        · have := hN bm hmem
          rw [← hlocm, hll] at this
          cases this

theorem local_domain_derived_witness :
    (validate example_consts true lb_worker_factory abcde_props zero_mem).rc = true ∧
    (validate example_consts true lb_worker_factory abcde_props zero_mem).p.lb_workers.map
      (fun wr => (wr.is_local_worker, wr.is_local_domain)) =
      [(true, true), (true, true), (false, true), (false, true), (false, true)] ∧
    ∀ d ∈ (validate example_consts true lb_worker_factory abcde_props zero_mem).p.lb_workers,
      (d.is_local_domain = true ↔
        (d.is_local_worker = true ∨
          ∃ l ∈ (validate example_consts true lb_worker_factory abcde_props
              zero_mem).p.lb_workers,
            l.is_local_worker = true ∧ d.domain = l.domain)) :=
  ⟨rfl, rfl, local_domain_derived example_consts lb_worker_factory abcde_props zero_mem
    [⟨['A'], 1, none, false, some 0⟩, ⟨['B'], 1, none, true, some 1⟩,
     ⟨['C'], 1, none, false, some 2⟩, ⟨['D'], 1, none, true, some 3⟩,
     ⟨['E'], 1, none, false, some 4⟩] rfl rfl⟩

/-! ## C24: a failed build -/

theorem filterMap_created (wps : List worker_props) (h : ∀ wp ∈ wps, wp.created ≠ none) :
    wps.filterMap (fun wp => wp.created) = wps.map (fun wp => wp.created.getD 0) := by
  induction wps with
  | nil => rfl
  | cons wp rest ih =>
    have h1 := h wp (List.mem_cons_self _ _)
    have h2 := ih (fun x hx => h x (List.mem_cons_of_mem _ hx))
    cases hc : wp.created with
    | none => exact absurd hc h1
    | some w => simp [List.filterMap_cons, hc, h2]

/-- C24 (the build is all-or-nothing).  When the member worker of an entry of the
worker list cannot be created, all those of the entries before it having been created:
`validate` returns failure; it destroys the member workers created before, each one
once, by `close_workers` over the records visited, and nothing else; and
`num_of_workers`, which is 0 on entry, stays 0, so that a later `destroy` of the registry
destroys no member worker. -/
theorem validate_all_or_nothing (k : jk_consts) (p : lb_worker) (props : lb_props)
    (mem : Nat → worker_record) (pre post : List worker_props) (bad : worker_props)
    (hwl : props.worker_list = some (pre ++ bad :: post)) (ha : props.alloc_ok = true)
    (hpre : ∀ wp ∈ pre, wp.created ≠ none) (hbad : bad.created = none)
    (hp : p.num_of_workers = 0) :
    (validate k true p props mem).rc = false ∧
    (validate k true p props mem).destroyed.Perm (pre.filterMap (fun wp => wp.created)) ∧
    (validate k true p props mem).destroyed =
      close_workers (validate k true p props mem).p pre.length ∧
    (validate k true p props mem).p.num_of_workers = 0 ∧
    destroy true (validate k true p props mem).p = (true, []) := by
  have hlen : (pre ++ bad :: post).length = pre.length + (post.length + 1) := by simp
  have hne : (pre ++ bad :: post).length ≠ 0 := by omega
  obtain ⟨t, L1, N1, R1, g1, g2, g3, g4, g5, g6, g7, g8, g9, g10⟩ :=
    validate_loop_shape k mem (pre ++ bad :: post) 0
      ⟨(List.range (pre ++ bad :: post).length).map mem, 0, false⟩ [] []
      ((List.range (pre ++ bad :: post).length).map mem) rfl rfl rfl (by simp)
  have hbadget : (pre ++ bad :: post)[pre.length]? = some bad :=
    getElem?_append_length pre post bad
  have ht : t = pre.length := by
    rcases Nat.lt_trichotomy t pre.length with hlt | heq | hgt
    · exfalso
      obtain ⟨wp, hwp, hc⟩ := g10 (by omega)
      rw [List.getElem?_append_left hlt] at hwp
      exact hpre wp (List.getElem?_mem hwp) hc
    · exact heq
    · exfalso
      have hm : bad ∈ (pre ++ bad :: post).take t := by
        apply List.getElem?_mem
        rw [List.getElem?_take_of_lt hgt]
        exact hbadget
      exact g9 bad hm hbad
  rw [Nat.zero_add] at g3 g6
  have htake : (pre ++ bad :: post).take t = pre := by rw [ht]; exact List.take_left' rfl
  rw [htake] at g7 g8
  simp only [List.nil_append] at g7 g8
  rw [validate_run k p props mem _ hwl hne ha, if_pos (by rw [g3]; omega)]
  simp only
  have hdest : ((validate_loop k mem (pre ++ bad :: post) 0
        ⟨(List.range (pre ++ bad :: post).length).map mem, 0, false⟩).1.lb_workers.take
      (validate_loop k mem (pre ++ bad :: post) 0
        ⟨(List.range (pre ++ bad :: post).length).map mem, 0, false⟩).2).map (fun wr => wr.w) =
      (L1 ++ N1).map (fun wr => wr.w) := by
    rw [g3, g4, ← List.append_assoc, List.take_left' (by rw [List.length_append]; exact g6)]
  refine ⟨trivial, ?_, ?_, hp, ?_⟩
  · rw [hdest, filterMap_created pre hpre]
    have hperm : (L1 ++ N1).Perm
        (built k pre ((List.range (pre ++ bad :: post).length).map mem)) := by
      refine (List.Perm.append_left L1 g8).trans ?_
      rw [g7]
      exact List.filter_append_perm _ _
    have := hperm.map (fun wr => wr.w)
    rw [built_map k (fun wr => wr.w) (fun wp => wp.created.getD 0) (fun _ _ => rfl) pre _
      (by simp)] at this
    exact this
  · unfold close_workers
    simp only
    rw [g3, ht]
  · unfold destroy close_workers
    simp only [if_true, hp, List.take_zero, List.map_nil]

theorem validate_all_or_nothing_witness :
    (validate example_consts true lb_worker_factory failing_props zero_mem).rc = false ∧
    (validate example_consts true lb_worker_factory failing_props zero_mem).destroyed.Perm
      ([⟨['A'], 1, none, true, some 7⟩].filterMap (fun wp : worker_props => wp.created)) ∧
    (validate example_consts true lb_worker_factory failing_props zero_mem).destroyed =
      close_workers (validate example_consts true lb_worker_factory failing_props zero_mem).p
        [(⟨['A'], 1, none, true, some 7⟩ : worker_props)].length ∧
    (validate example_consts true lb_worker_factory failing_props zero_mem).p.num_of_workers
      = 0 ∧
    destroy true (validate example_consts true lb_worker_factory failing_props zero_mem).p =
      (true, []) :=
  validate_all_or_nothing example_consts lb_worker_factory failing_props zero_mem
    [⟨['A'], 1, none, true, some 7⟩] [⟨['C'], 1, none, false, some 9⟩]
    ⟨['B'], 1, none, false, none⟩ rfl rfl (by decide) rfl rfl

/-! ## C25, C26, C27: what stays true of the registry -/

theorem factor_of_erase {ws ws0 : List worker_record}
    (h : ws.map erase_lb = ws0.map erase_lb) :
    ws.map (fun wr => wr.lb_factor) = ws0.map (fun wr => wr.lb_factor) := by
  have := congrArg (List.map (fun wr : worker_record => wr.lb_factor)) h
  rw [List.map_map, List.map_map] at this
  exact this

/-- A selection changes neither the weights nor the recovery wait. -/
theorem sel_post_factor {clock : Nat → Int} {p p1 : lb_worker} {rc : Option Nat}
    (h : sel_post clock p p1 rc) :
    p1.lb_workers.map (fun wr => wr.lb_factor) = p.lb_workers.map (fun wr => wr.lb_factor) ∧
    p1.recover_wait_time = p.recover_wait_time := by
  obtain ⟨h1, h2, h3⟩ := h
  refine ⟨?_, by rw [h1]⟩
  cases rc with
  | none => rw [h2 rfl]
  | some j =>
    obtain ⟨wr0, hw0, _, t, ht⟩ := h3 j rfl
    rw [factor_of_erase ht, List.map_set]
    apply set_same
    rw [List.getElem?_map, hw0]
    unfold mark_trial
    split <;> rfl

/-- Recording an outcome changes neither the weights nor the recovery wait. -/
theorem record_outcome_factor (p : lb_worker) (j : Nat) (ok : Bool) (now : Int) :
    (record_outcome p j ok now).lb_workers.map (fun wr => wr.lb_factor) =
      p.lb_workers.map (fun wr => wr.lb_factor) ∧
    (record_outcome p j ok now).recover_wait_time = p.recover_wait_time := by
  unfold record_outcome
  cases hj : p.lb_workers[j]? with
  | none => exact ⟨rfl, rfl⟩
  | some wr =>
    refine ⟨?_, rfl⟩
    dsimp only
    rw [List.map_set]
    apply set_same
    rw [List.getElem?_map, hj]
    cases ok <;> rfl

/-- A run of selections and outcomes changes neither the weights nor the recovery
wait. -/
theorem run_events_factor (clock : Nat → Int) :
    ∀ (es : List lb_event) (p : lb_worker) (tick : Nat),
      (run_events clock es p tick).1.lb_workers.map (fun wr => wr.lb_factor) =
        p.lb_workers.map (fun wr => wr.lb_factor) ∧
      (run_events clock es p tick).1.recover_wait_time = p.recover_wait_time := by
  intro es
  induction es with
  | nil => intro p tick; exact ⟨rfl, rfl⟩
  | cons e es ih =>
    intro p tick
    cases e with
    | select sid ss start stop ulf =>
      obtain ⟨h1, h2⟩ := sel_post_factor (gsw_sel_post p sid ss start stop ulf clock tick)
      obtain ⟨h3, h4⟩ := ih (get_suitable_worker p sid ss start stop ulf clock tick).p
        (get_suitable_worker p sid ss start stop ulf clock tick).tick
      exact ⟨by rw [← h1, ← h3]; rfl, by rw [← h2, ← h4]; rfl⟩
    | outcome j ok =>
      obtain ⟨h1, h2⟩ := record_outcome_factor p j ok (clock tick)
      obtain ⟨h3, h4⟩ := ih (record_outcome p j ok (clock tick)) (if ok then tick else tick + 1)
      exact ⟨by rw [← h1, ← h3]; rfl, by rw [← h2, ← h4]; rfl⟩

/-- One pass of the loop of `service` changes neither the weights nor the recovery
wait. -/
theorem service_body_factor (k : jk_consts) (s : jk_ws_service) (be : backend)
    (clock : Nat → Int) (st : service_state) :
    (service_body k s be clock st).1.p.lb_workers.map (fun wr => wr.lb_factor) =
      st.p.lb_workers.map (fun wr => wr.lb_factor) ∧
    (service_body k s be clock st).1.p.recover_wait_time = st.p.recover_wait_time := by
  obtain ⟨h1, h2⟩ := sel_post_factor (gmsw_sel_post k st.p s clock st.tick)
  cases hrc : (get_most_suitable_worker k st.p s clock st.tick).rc with
  | none =>
    rw [service_body_none k s be clock st hrc]
    exact ⟨rfl, rfl⟩
  | some i =>
    obtain ⟨wr, hw⟩ := gmsw_some_get k st.p s clock st.tick i hrc
    rw [service_body_records k s be clock st i wr hrc hw]
    obtain ⟨h3, h4⟩ := record_outcome_factor (get_most_suitable_worker k st.p s clock st.tick).p
      i ((be st.attempt i).endpoint_ok && (be st.attempt i).src)
      (clock (get_most_suitable_worker k st.p s clock st.tick).tick)
    exact ⟨by rw [h3, h1], by rw [h4, h2]⟩

/-- The loop of `service` changes neither the weights nor the recovery wait. -/
theorem service_loop_factor (k : jk_consts) (s : jk_ws_service) (be : backend)
    (clock : Nat → Int) :
    ∀ (fuel : Nat) (st : service_state) (r : service_state × Bool),
      service_loop k s be clock fuel st = some r →
      r.1.p.lb_workers.map (fun wr => wr.lb_factor) =
        st.p.lb_workers.map (fun wr => wr.lb_factor) ∧
      r.1.p.recover_wait_time = st.p.recover_wait_time := by
  intro fuel
  induction fuel with
  | zero => intro st r h; simp [service_loop] at h
  | succ fuel ih =>
    intro st r h
    rw [service_loop] at h
    obtain ⟨h1, h2⟩ := service_body_factor k s be clock st
    rcases hb : service_body k s be clock st with ⟨st1, o⟩
    rw [hb] at h h1 h2
    simp only at h1 h2
    cases o with
    | none =>
      obtain ⟨h3, h4⟩ := ih st1 r h
      exact ⟨by rw [h3, h1], by rw [h4, h2]⟩
    | some b =>
      simp only [Option.some.injEq] at h
      rw [← h]
      exact ⟨h1, h2⟩

theorem built_record_factor (k : jk_consts) (wp : worker_props) (o : worker_record) :
    (built_record k wp o).lb_factor = max wp.lb_factor 1 := by
  unfold built_record init_record
  simp only
  split
  · rw [max_eq_right (by omega)]
  · rw [max_eq_left (by omega)]

/-- C25 (weights are clamped).  When `validate` succeeds on the worker list `wps`, the
names and weights of the records are those of the list with each weight replaced by
`max weight 1`, so every `lb_factor` is at least 1; and no later operation changes a
weight: not a run of calls of `get_suitable_worker` and of outcomes recorded by the
dispatch loop, not a call of `get_most_suitable_worker`, not a run of `service`. -/
theorem weights_clamped (k : jk_consts) (p : lb_worker) (props : lb_props)
    (mem : Nat → worker_record) (wps : List worker_props)
    (hwl : props.worker_list = some wps) (h : (validate k true p props mem).rc = true) :
    ((validate k true p props mem).p.lb_workers.map (fun wr => (wr.name, wr.lb_factor))).Perm
      (wps.map (fun wp => (wp.name, max wp.lb_factor 1))) ∧
    (∀ wr ∈ (validate k true p props mem).p.lb_workers, 1 ≤ wr.lb_factor) ∧
    (∀ (clock : Nat → Int) (es : List lb_event) (tick : Nat),
      (run_events clock es (validate k true p props mem).p tick).1.lb_workers.map
          (fun wr => wr.lb_factor) =
        (validate k true p props mem).p.lb_workers.map (fun wr => wr.lb_factor)) ∧
    (∀ (s : jk_ws_service) (clock : Nat → Int) (tick : Nat),
      (get_most_suitable_worker k (validate k true p props mem).p s clock tick).p.lb_workers.map
          (fun wr => wr.lb_factor) =
        (validate k true p props mem).p.lb_workers.map (fun wr => wr.lb_factor)) ∧
    (∀ (s : jk_ws_service) (be : backend) (clock : Nat → Int) (tick : Nat) (flag : Bool)
        (fuel : Nat) (res : service_result),
      service k true (validate k true p props mem).p s be clock tick flag fuel = some res →
      res.st.p.lb_workers.map (fun wr => wr.lb_factor) =
        (validate k true p props mem).p.lb_workers.map (fun wr => wr.lb_factor)) := by
  have hperm := (validate_perm_built k p props mem wps hwl h).map
    (fun wr => (wr.name, wr.lb_factor))
  rw [List.map_map, List.map_map] at hperm
  have e : (fun wr : worker_record => (wr.name, wr.lb_factor)) ∘ erase_local_domain =
      fun wr => (wr.name, wr.lb_factor) := rfl
  rw [e, built_map k (fun wr => (wr.name, wr.lb_factor))
    (fun wp => (wp.name, max wp.lb_factor 1))
    (fun wp o => by dsimp only; rw [built_record_factor]; rfl) wps _ (by simp)] at hperm
  refine ⟨hperm, ?_, fun clock es tick => (run_events_factor clock es _ tick).1,
    fun s clock tick => (sel_post_factor (gmsw_sel_post k _ s clock tick)).1, ?_⟩
  · intro wr hwr
    have hm : (wr.name, wr.lb_factor) ∈
        (validate k true p props mem).p.lb_workers.map (fun wr => (wr.name, wr.lb_factor)) :=
      List.mem_map.2 ⟨wr, hwr, rfl⟩
    obtain ⟨wp, _, hwp⟩ := List.mem_map.1 ((hperm.mem_iff).1 hm)
    have : wr.lb_factor = max wp.lb_factor 1 := (congrArg Prod.snd hwp).symm
    rw [this]
    exact le_max_right _ _
  · intro s be clock tick flag fuel res hres
    rw [service_valid] at hres
    cases hl : service_loop k s be clock fuel (service_init (validate k true p props mem).p tick)
      with
    | none => rw [hl] at hres; cases hres
    | some r =>
      rw [hl] at hres
      simp only [Option.map_some', Option.some.injEq] at hres
      rw [← hres]
      exact (service_loop_factor k s be clock fuel _ r hl).1

theorem weights_clamped_witness :
    ((validate example_consts true lb_worker_factory abc_props zero_mem).p.lb_workers.map
        (fun wr => (wr.name, wr.lb_factor))).Perm
      [(['A'], 1), (['B'], 2), (['C'], 1)] ∧
    (∀ wr ∈ (validate example_consts true lb_worker_factory abc_props zero_mem).p.lb_workers,
      1 ≤ wr.lb_factor) :=
  ⟨(weights_clamped example_consts lb_worker_factory abc_props zero_mem
      [⟨['A'], 1, none, false, some 0⟩, ⟨['B'], 2, none, false, some 1⟩,
       ⟨['C'], 1, none, false, some 2⟩] rfl rfl).1,
    (weights_clamped example_consts lb_worker_factory abc_props zero_mem
      [⟨['A'], 1, none, false, some 0⟩, ⟨['B'], 2, none, false, some 1⟩,
       ⟨['C'], 1, none, false, some 2⟩] rfl rfl).2.1⟩

/-- The function `validate` leaves the recovery wait as it is. -/
theorem validate_recover_wait (k : jk_consts) (valid_args : Bool) (p : lb_worker)
    (props : lb_props) (mem : Nat → worker_record) :
    (validate k valid_args p props mem).p.recover_wait_time = p.recover_wait_time := by
  unfold validate
  cases valid_args with
  | false => rfl
  | true =>
    simp only [if_true]
    cases props.worker_list with
    | none => rfl
    | some wps =>
      simp only
      split
      · rfl
      · split
        · rfl
        · rcases validate_loop k mem wps 0 ⟨(List.range wps.length).map mem, 0, false⟩
            with ⟨st, i⟩
          simp only
          split <;> rfl

/-- C26 (the recovery wait has a floor of 60).  After `lb_worker_factory` followed by
`init`, also with `validate` in between, `recover_wait_time` is `max recover_time 60`
when the property `recover_time` is configured and 60 when it is not; so it is at least
60 after `init` on any registry, and no run of selections and recorded outcomes changes
it. -/
theorem recover_wait_floor (recover_time : Option Int) (cs_ok : Bool) :
    (init lb_worker_factory recover_time cs_ok).1.recover_wait_time =
      (match recover_time with
        | some i => max i 60
        | none => 60) ∧
    (∀ (k : jk_consts) (valid_args : Bool) (props : lb_props) (mem : Nat → worker_record),
      (init (validate k valid_args lb_worker_factory props mem).p recover_time
          cs_ok).1.recover_wait_time =
        (match recover_time with
          | some i => max i 60
          | none => 60)) ∧
    (∀ p : lb_worker, 60 ≤ (init p recover_time cs_ok).1.recover_wait_time) ∧
    (∀ (p : lb_worker) (clock : Nat → Int) (es : List lb_event) (tick : Nat),
      60 ≤ (run_events clock es (init p recover_time cs_ok).1 tick).1.recover_wait_time) := by
  have hgen : ∀ p : lb_worker, p.recover_wait_time = 60 →
      (init p recover_time cs_ok).1.recover_wait_time =
        (match recover_time with
          | some i => max i 60
          | none => 60) := by
    intro p hp
    cases recover_time with
    | none =>
      have e : init p none cs_ok = (p, cs_ok) := by
        unfold init WAIT_BEFORE_RECOVER
        simp [hp]
      rw [e]
      exact hp
    | some i =>
      by_cases hi : i < 60
      · have e : (init p (some i) cs_ok).1.recover_wait_time = 60 := by
          unfold init WAIT_BEFORE_RECOVER
          simp [hi]
        rw [e]
        exact (max_eq_right (by omega)).symm
      · have e : (init p (some i) cs_ok).1.recover_wait_time = i := by
          unfold init WAIT_BEFORE_RECOVER
          simp [hi]
        rw [e]
        exact (max_eq_left (by omega)).symm
  have hfloor : ∀ p : lb_worker, 60 ≤ (init p recover_time cs_ok).1.recover_wait_time := by
    intro p
    unfold init WAIT_BEFORE_RECOVER
    simp only
    split
    · norm_num
    · omega
  refine ⟨hgen _ rfl, fun k va props mem => hgen _ ?_, hfloor, ?_⟩
  · rw [validate_recover_wait]
    rfl
  · intro p clock es tick
    rw [(run_events_factor clock es _ tick).2]
    exact hfloor p

theorem recover_wait_floor_witness :
    (init lb_worker_factory (some 30) true).1.recover_wait_time = 60 ∧
    (init lb_worker_factory (some 300) true).1.recover_wait_time = 300 ∧
    (init lb_worker_factory none true).1.recover_wait_time = 60 :=
  ⟨(recover_wait_floor (some 30) true).1, (recover_wait_floor (some 300) true).1,
    (recover_wait_floor none true).1⟩

theorem recovering_of_erase {ws ws0 : List worker_record}
    (h : ws.map erase_lb = ws0.map erase_lb) (h0 : recovering_in_error ws0) :
    recovering_in_error ws := by
  intro wr hwr hr
  have hm : erase_lb wr ∈ ws0.map erase_lb := by
    rw [← h]
    exact List.mem_map.2 ⟨wr, hwr, rfl⟩
  obtain ⟨wr0, hwr0, he⟩ := List.mem_map.1 hm
  obtain ⟨-, -, -, -, -, h6, h7, -⟩ := erase_lb_fields he
  rw [← h6]
  apply h0 wr0 hwr0
  rw [h7]
  exact hr

theorem recovering_set {ws : List worker_record} (j : Nat) (wr : worker_record)
    (h0 : recovering_in_error ws)
    (hwr : wr.in_recovering = true → wr.in_error_state = true) :
    recovering_in_error (ws.set j wr) := by
  intro x hx
  rcases List.mem_or_eq_of_mem_set hx with h | h
  · exact h0 x h
  · rw [h]
    exact hwr

/-- A selection keeps the invariant: the trial is marked only on a record in error
state. -/
theorem sel_post_recovering {clock : Nat → Int} {p p1 : lb_worker} {rc : Option Nat}
    (h : sel_post clock p p1 rc) (h0 : recovering_in_error p.lb_workers) :
    recovering_in_error p1.lb_workers := by
  obtain ⟨-, h2, h3⟩ := h
  cases rc with
  | none => rw [h2 rfl]; exact h0
  | some j =>
    obtain ⟨wr0, hw0, -, t, ht⟩ := h3 j rfl
    refine recovering_of_erase ht (recovering_set j _ h0 ?_)
    have hmem : wr0 ∈ p.lb_workers := List.getElem?_mem hw0
    unfold mark_trial
    by_cases he : wr0.in_error_state = true
    · rw [if_pos he]
      intro _
      exact he
    · rw [if_neg he]
      exact h0 wr0 hmem

/-- Recording an outcome keeps the invariant: it clears `in_recovering`. -/
theorem record_outcome_recovering (p : lb_worker) (j : Nat) (ok : Bool) (now : Int)
    (h0 : recovering_in_error p.lb_workers) :
    recovering_in_error (record_outcome p j ok now).lb_workers := by
  unfold record_outcome
  cases hj : p.lb_workers[j]? with
  | none => exact h0
  | some wr =>
    dsimp only
    apply recovering_set j _ h0
    cases ok
    · intro hr
      rfl
    · intro hr
      simp at hr

/-- A run of selections and outcomes keeps the invariant. -/
theorem run_events_recovering (clock : Nat → Int) :
    ∀ (es : List lb_event) (p : lb_worker) (tick : Nat),
      recovering_in_error p.lb_workers →
      recovering_in_error (run_events clock es p tick).1.lb_workers := by
  intro es
  induction es with
  | nil => intro p tick h0; exact h0
  | cons e es ih =>
    intro p tick h0
    cases e with
    | select sid ss start stop ulf =>
      exact ih _ _ (sel_post_recovering (gsw_sel_post p sid ss start stop ulf clock tick) h0)
    | outcome j ok =>
      exact ih _ _ (record_outcome_recovering p j ok (clock tick) h0)

/-- One pass of the loop of `service` keeps the invariant. -/
theorem service_body_recovering (k : jk_consts) (s : jk_ws_service) (be : backend)
    (clock : Nat → Int) (st : service_state)
    (h0 : recovering_in_error st.p.lb_workers) :
    recovering_in_error (service_body k s be clock st).1.p.lb_workers := by
  have h1 := sel_post_recovering (gmsw_sel_post k st.p s clock st.tick) h0
  cases hrc : (get_most_suitable_worker k st.p s clock st.tick).rc with
  | none =>
    rw [service_body_none k s be clock st hrc]
    exact h0
  | some i =>
    obtain ⟨wr, hw⟩ := gmsw_some_get k st.p s clock st.tick i hrc
    rw [service_body_records k s be clock st i wr hrc hw]
    exact record_outcome_recovering _ _ _ _ h1

/-- The loop of `service` keeps the invariant. -/
theorem service_loop_recovering (k : jk_consts) (s : jk_ws_service) (be : backend)
    (clock : Nat → Int) :
    ∀ (fuel : Nat) (st : service_state) (r : service_state × Bool),
      service_loop k s be clock fuel st = some r →
      recovering_in_error st.p.lb_workers → recovering_in_error r.1.p.lb_workers := by
  intro fuel
  induction fuel with
  | zero => intro st r h; simp [service_loop] at h
  | succ fuel ih =>
    intro st r h h0
    rw [service_loop] at h
    have h1 := service_body_recovering k s be clock st h0
    rcases hb : service_body k s be clock st with ⟨st1, o⟩
    rw [hb] at h h1
    simp only at h1
    cases o with
    | none => exact ih st1 r h h1
    | some b =>
      simp only [Option.some.injEq] at h
      rw [← h]
      exact h1

/-- C27 (recovering implies error state).  In every registry state reached from a
successful `validate` by any sequence of calls of `get_suitable_worker` (any criterion,
range, weighting flag and clock) and of outcomes recorded by the dispatch loop (success
or failure of an attempt on any record), every record with `in_recovering = true` has
`in_error_state = true`; and a run of `service` from such a state leaves a state in
which this holds too. -/
theorem recovering_implies_error (k : jk_consts) (p : lb_worker) (props : lb_props)
    (mem : Nat → worker_record) (h : (validate k true p props mem).rc = true)
    (clock : Nat → Int) (es : List lb_event) (tick : Nat) :
    (∀ wr ∈ (run_events clock es (validate k true p props mem).p tick).1.lb_workers,
      wr.in_recovering = true → wr.in_error_state = true) ∧
    (∀ (s : jk_ws_service) (be : backend) (clock1 : Nat → Int) (tick1 : Nat) (flag : Bool)
        (fuel : Nat) (res : service_result),
      service k true (run_events clock es (validate k true p props mem).p tick).1 s be clock1
          tick1 flag fuel = some res →
      ∀ wr ∈ res.st.p.lb_workers, wr.in_recovering = true → wr.in_error_state = true) := by
  have h0 : recovering_in_error (validate k true p props mem).p.lb_workers := by
    intro wr hwr hr
    obtain ⟨-, hrec, -⟩ := (validate_fresh k p props mem h).2.2.1 wr hwr
    rw [hrec] at hr
    cases hr
  have h1 := run_events_recovering clock es _ tick h0
  refine ⟨h1, ?_⟩
  intro s be clock1 tick1 flag fuel res hres
  rw [service_valid] at hres
  cases hl : service_loop k s be clock1 fuel
      (service_init (run_events clock es (validate k true p props mem).p tick).1 tick1) with
  | none => rw [hl] at hres; cases hres
  | some r =>
    rw [hl] at hres
    simp only [Option.map_some', Option.some.injEq] at hres
    rw [← hres]
    exact service_loop_recovering k s be clock1 fuel _ r hl h1

theorem recovering_implies_error_witness :
    (validate example_consts true lb_worker_factory abc_props zero_mem).rc = true ∧
    ∀ wr ∈ (run_events (fun _ => 100)
        [lb_event.select 5 [] 0 3 true, lb_event.outcome 1 false,
         lb_event.select 5 [] 0 3 true, lb_event.outcome 0 true]
        (validate example_consts true lb_worker_factory abc_props zero_mem).p 0).1.lb_workers,
      wr.in_recovering = true → wr.in_error_state = true :=
  ⟨rfl, (recovering_implies_error example_consts lb_worker_factory abc_props zero_mem rfl
    (fun _ => 100)
    [lb_event.select 5 [] 0 3 true, lb_event.outcome 1 false,
     lb_event.select 5 [] 0 3 true, lb_event.outcome 0 true] 0).1⟩

/-! ## C30: the winner of a scan and the load counters -/

/-- The records after a weighted scan at clock value `now` that returns index `j`. -/
theorem gsw_weighted_records (p : lb_worker) (sid : Nat) (ss : List Char) (start stop : Nat)
    (now : Int) (tick : Nat) (j : Nat)
    (h : (get_suitable_worker p sid ss start stop true (fun _ => now) tick).rc = some j) :
    ∀ k : Nat,
      (get_suitable_worker p sid ss start stop true (fun _ => now) tick).p.lb_workers[k]? =
        (p.lb_workers[k]?).map (fun wr =>
          if k = j then
            { mark_trial now wr with
              lb_value := wr.lb_value + wr.lb_factor -
                weight_sum p.recover_wait_time now sid ss p.lb_workers start (stop - start) }
          else if start ≤ k ∧ k < stop ∧
              selectable p.recover_wait_time now sid ss p.lb_workers k = true then bump wr
          else wr) := by
  obtain ⟨hj1, hj2, hj3⟩ := gsw_rc_selectable p sid ss start stop true now tick j h
  have hstop : start + (stop - start) = stop := by omega
  have hw := scan_weighted p.recover_wait_time now sid ss p.lb_workers start (stop - start) tick
  rw [hstop] at hw
  rw [gsw_rc] at h
  rw [gsw_unfold]
  generalize scan_loop p.recover_wait_time sid ss true (fun _ => now) (stop - start) start
    ⟨p.lb_workers, none, 0, 0, -1, tick⟩ = st at hw h
  have hlt := selectable_lt hj3
  have hwj : p.lb_workers[j]? = some p.lb_workers[j] := List.getElem?_eq_getElem hlt
  have hstj : st.lb_workers[j]? = some (bump p.lb_workers[j]) := by
    rw [hw.vals j, hwj]
    have : start ≤ j ∧ j < stop ∧
        selectable p.recover_wait_time now sid ss p.lb_workers j = true := ⟨hj1, hj2, hj3⟩
    simp only [Option.map_some', this, and_self, if_true]
  have hlen : j < st.lb_workers.length := getElem?_lt_of_some hstj
  intro k
  have hfin : (scan_finish (fun _ => now) st).lb_workers =
      st.lb_workers.set j
        { mark_trial now p.lb_workers[j] with
          lb_value := p.lb_workers[j].lb_value + p.lb_workers[j].lb_factor -
            st.total_factor } := by
    unfold scan_finish
    rw [h]
    simp only [hstj]
    unfold mark_trial bump
    by_cases he : p.lb_workers[j].in_error_state = true
    · simp only [he, if_true]
    · have he1 : p.lb_workers[j].in_error_state = false := by simpa using he
      simp only [he1, Bool.false_eq_true, if_false]
  simp only
  rw [hfin, hw.total]
  by_cases hkj : k = j
  · subst hkj
    rw [List.getElem?_set_self hlen, hwj]
    simp only [Option.map_some', if_true]
  · rw [List.getElem?_set_ne (Ne.symm hkj), hw.vals k]
    cases p.lb_workers[k]? with
    | none => rfl
    | some wr => simp only [Option.map_some', hkj, if_false]

/-- The record a scan returns, after the call: its error fields are those on entry
with the trial marked at the last clock reading the call takes. -/
theorem gsw_winner_fields (p : lb_worker) (sid : Nat) (ss : List Char) (start stop : Nat)
    (ulf : Bool) (clock : Nat → Int) (tick : Nat) (j : Nat) (wr0 : worker_record)
    (h : (get_suitable_worker p sid ss start stop ulf clock tick).rc = some j)
    (hw0 : p.lb_workers[j]? = some wr0) :
    ∃ wr1, (get_suitable_worker p sid ss start stop ulf clock tick).p.lb_workers[j]? =
        some wr1 ∧
      wr1.in_error_state = wr0.in_error_state ∧
      (wr0.in_error_state = true → wr1.in_recovering = true ∧
        ∃ t, (get_suitable_worker p sid ss start stop ulf clock tick).tick = t + 1 ∧
          wr1.error_time = clock t) ∧
      (wr0.in_error_state = false → wr1.in_recovering = wr0.in_recovering ∧
        wr1.error_time = wr0.error_time) := by
  have hinv := scan_loop_inv p.recover_wait_time sid ss ulf clock p.lb_workers start
    (stop - start) tick
  rw [gsw_rc] at h
  rw [gsw_unfold]
  generalize scan_loop p.recover_wait_time sid ss ulf clock (stop - start) start
    ⟨p.lb_workers, none, 0, 0, -1, tick⟩ = st at hinv h
  obtain ⟨wr, hw, he⟩ : ∃ wr, st.lb_workers[j]? = some wr ∧ erase_lb wr = erase_lb wr0 := by
    have h3 : (st.lb_workers.map erase_lb)[j]? = some (erase_lb wr0) := by
      rw [hinv.static]
      simp [List.getElem?_map, hw0]
    simp only [List.getElem?_map] at h3
    cases hw : st.lb_workers[j]? with
    | none => rw [hw] at h3; cases h3
    | some wr =>
      rw [hw] at h3
      simp only [Option.map_some', Option.some.injEq] at h3
      exact ⟨wr, rfl, h3⟩
  obtain ⟨-, -, -, -, -, f6, f7, f8, -⟩ := erase_lb_fields he
  have hlen : j < st.lb_workers.length := getElem?_lt_of_some hw
  unfold scan_finish
  rw [h]
  simp only [hw]
  by_cases hes : wr.in_error_state = true
  · simp only [hes, if_true]
    rw [List.getElem?_set_self hlen]
    refine ⟨_, rfl, ?_, ?_, ?_⟩
    · simp only
      rw [← f6, hes]
    · intro _
      exact ⟨rfl, st.tick, rfl, rfl⟩
    · intro hf
      rw [← f6, hes] at hf
      cases hf
  · have hes1 : wr.in_error_state = false := by simpa using hes
    simp only [hes1, Bool.false_eq_true, if_false]
    rw [List.getElem?_set_self hlen]
    refine ⟨_, rfl, ?_, ?_, ?_⟩
    · simp only
      rw [← f6, hes1]
    · intro ht
      rw [← f6, hes1] at ht
      cases ht
    · intro _
      exact ⟨f7, f8⟩

/-- C32 (trial marking).  When a call of `get_suitable_worker`, weighted or not and
under any clock, returns the record of index `j`: if that record was in error state it
ends in error state, with `in_recovering` set and `error_time` the clock reading taken
for it, the last one of the call (the value `now` when the clock stands at `now`); if
it was not in error state its three error fields are unchanged; and the error fields
of every record at another index are unchanged. -/
theorem trial_marking (p : lb_worker) (search_id : Nat) (search_string : List Char)
    (start stop : Nat) (use_lb_factor : Bool) (clock : Nat → Int) (tick : Nat) (j : Nat)
    (h : (get_suitable_worker p search_id search_string start stop use_lb_factor
      clock tick).rc = some j) :
    (∃ wr0 wr1, p.lb_workers[j]? = some wr0 ∧
      (get_suitable_worker p search_id search_string start stop use_lb_factor
        clock tick).p.lb_workers[j]? = some wr1 ∧
      wr1.in_error_state = wr0.in_error_state ∧
      (wr0.in_error_state = true → wr1.in_recovering = true ∧
        ∃ t, (get_suitable_worker p search_id search_string start stop use_lb_factor
            clock tick).tick = t + 1 ∧ wr1.error_time = clock t) ∧
      (wr0.in_error_state = false → wr1.in_recovering = wr0.in_recovering ∧
        wr1.error_time = wr0.error_time)) ∧
    (∀ (m : Nat) (wm : worker_record), m ≠ j → p.lb_workers[m]? = some wm →
      ∃ wm1, (get_suitable_worker p search_id search_string start stop use_lb_factor
          clock tick).p.lb_workers[m]? = some wm1 ∧
        wm1.in_error_state = wm.in_error_state ∧ wm1.in_recovering = wm.in_recovering ∧
        wm1.error_time = wm.error_time) := by
  have hsp := gsw_sel_post p search_id search_string start stop use_lb_factor clock tick
  rw [h] at hsp
  obtain ⟨wr0, -, -, hw0, -, -, -, hother, -⟩ := sel_post_get hsp
  obtain ⟨wr1, g1, g2, g3, g4⟩ := gsw_winner_fields p search_id search_string start stop
    use_lb_factor clock tick j wr0 h hw0
  refine ⟨⟨wr0, wr1, hw0, g1, g2, g3, g4⟩, ?_⟩
  intro m wm hm hwm
  have := hother m hm
  rw [hwm] at this
  cases hw1 : (get_suitable_worker p search_id search_string start stop use_lb_factor
      clock tick).p.lb_workers[m]? with
  | none => rw [hw1] at this; cases this
  | some wm1 =>
    rw [hw1] at this
    simp only [Option.map_some', Option.some.injEq] at this
    obtain ⟨-, -, -, -, -, f6, f7, f8, -⟩ := erase_lb_fields this
    exact ⟨wm1, rfl, f6, f7, f8⟩

theorem trial_marking_witness :
    (get_suitable_worker recovery_example 5 [] 0 2 true (fun _ => 161) 0).rc = some 0 ∧
    (get_suitable_worker recovery_example 5 [] 0 2 true (fun _ => 161) 0).p.lb_workers.map
      (fun wr => (wr.in_error_state, wr.in_recovering, wr.error_time)) =
      [(true, true, 161), (false, false, 0)] ∧
    ∀ (m : Nat) (wm : worker_record), m ≠ 0 → recovery_example.lb_workers[m]? = some wm →
      ∃ wm1, (get_suitable_worker recovery_example 5 [] 0 2 true
          (fun _ => 161) 0).p.lb_workers[m]? = some wm1 ∧
        wm1.in_error_state = wm.in_error_state ∧ wm1.in_recovering = wm.in_recovering ∧
        wm1.error_time = wm.error_time :=
  ⟨by decide, by decide,
    (trial_marking recovery_example 5 [] 0 2 true (fun _ => 161) 0 0 (by decide)).2⟩

/-- A candidate met by the scan is a candidate among the records on entry. -/
theorem scan_candidate_entry {rwt : Int} {sid : Nat} {ss : List Char} {ulf : Bool}
    {clock : Nat → Int} {ws0 : List worker_record} {start i : Nat} {st : scan_state}
    (h : scan_inv rwt sid ss ulf clock ws0 start i st) {m : Nat} {wr : worker_record}
    (hw : st.lb_workers[m]? = some wr) (hc : is_worker_candidate wr sid ss = true) :
    ∃ wr0, ws0[m]? = some wr0 ∧ is_worker_candidate wr0 sid ss = true := by
  obtain ⟨wr0, hw0, he⟩ := static_get h.static hw
  exact ⟨wr0, hw0, by rw [is_worker_candidate_congr he sid ss]; exact hc⟩

/-- The out parameter `domain_id` after a name search that meets the named record. -/
theorem gsw_domain_id_found (p : lb_worker) (ss : List Char) (start stop : Nat)
    (ulf : Bool) (clock : Nat → Int) (tick : Nat) (a : Nat) (wa : worker_record)
    (hu : names_unique p.lb_workers) (hwa : p.lb_workers[a]? = some wa)
    (hname : wa.name = ss) (h1 : start ≤ a) (h2 : a < stop) :
    (get_suitable_worker p 1 ss start stop ulf clock tick).domain_id = (a : Int) := by
  rw [gsw_unfold]
  simp only
  have hcand : ∀ i wr, p.lb_workers[i]? = some wr → is_worker_candidate wr 1 ss = true →
      i = a := by
    intro i wr hw hc
    simp only [is_worker_candidate, decide_eq_true_eq] at hc
    exact hu i a wr wa hw hwa (by rw [← hc, hname])
  have hinit := scan_loop_inv p.recover_wait_time 1 ss ulf clock p.lb_workers start 0 tick
  simp only [scan_loop, Nat.add_zero] at hinit
  refine @scan_loop_rule p.recover_wait_time 1 ss ulf clock
    (fun i st => start ≤ i ∧
      scan_inv p.recover_wait_time 1 ss ulf clock p.lb_workers start i st ∧
      (a < i → st.domain_id = (a : Int)))
    (fun st => st.domain_id = (a : Int)) (start + (stop - start))
    ?_ ?_ ?_ (stop - start) start _ rfl ⟨le_refl _, hinit, fun h => by omega⟩
  · intro i st _ ⟨hi, hinv, hd⟩ _
    refine ⟨by omega, scan_body_inv i st hi hinv, ?_⟩
    rcases scan_body_cases p.recover_wait_time 1 ss ulf clock i st with
      ⟨e, hn⟩ | ⟨wr, hw, hc, he, hr, e⟩ | ⟨wr, hw, hc, he, hr, hq, e⟩ |
      ⟨wr, hw, hc, hel, hu1, e⟩ | ⟨wr, hw, hc, hel, hu1, e⟩
    · rw [e]
      intro hlt
      rcases Nat.lt_or_ge a i with h3 | h3
      · exact hd h3
      · exfalso
        have hia : a = i := by omega
        subst hia
        have hwa' : (p.lb_workers.map erase_lb)[a]? = some (erase_lb wa) := by
          simp [List.getElem?_map, hwa]
        rw [← hinv.static, List.getElem?_map] at hwa'
        cases hws : st.lb_workers[a]? with
        | none => rw [hws] at hwa'; cases hwa'
        | some wr =>
          rw [hws] at hwa'
          simp only [Option.map_some', Option.some.injEq] at hwa'
          have := hn wr hws
          rw [is_worker_candidate_congr hwa' 1 ss] at this
          simp [is_worker_candidate, hname] at this
    all_goals
      rw [e]
      obtain ⟨wr0, hw0, hc0⟩ := scan_candidate_entry hinv hw hc
      have := hcand i wr0 hw0 hc0
      subst this
      intro _
      simp [dom_after]
  · intro i st _ ⟨hi, hinv, hd⟩ hb
    rcases scan_body_cases p.recover_wait_time 1 ss ulf clock i st with
      ⟨e, hn⟩ | ⟨wr, hw, hc, he, hr, e⟩ | ⟨wr, hw, hc, he, hr, hq, e⟩ |
      ⟨wr, hw, hc, hel, hu1, e⟩ | ⟨wr, hw, hc, hel, hu1, e⟩
    · rw [e] at hb; cases hb
    · rw [e] at hb; cases hb
    · rw [e] at hb; cases hb
    · rw [e] at hb; cases hb
    · rw [e]
      obtain ⟨wr0, hw0, hc0⟩ := scan_candidate_entry hinv hw hc
      have := hcand i wr0 hw0 hc0
      subst this
      simp [dom_after]
  · intro st ⟨_, _, hd⟩
    exact hd (by omega)

/-- The out parameter `domain_id` stays -1 when the criterion is not the name, and when
no record of the range carries the name. -/
theorem gsw_domain_id_none (p : lb_worker) (sid : Nat) (ss : List Char) (start stop : Nat)
    (ulf : Bool) (clock : Nat → Int) (tick : Nat)
    (hno : sid = 1 → ∀ (i : Nat) (wr : worker_record), start ≤ i → i < stop →
      p.lb_workers[i]? = some wr → wr.name ≠ ss) :
    (get_suitable_worker p sid ss start stop ulf clock tick).domain_id = -1 := by
  rw [gsw_unfold]
  simp only
  have hinit := scan_loop_inv p.recover_wait_time sid ss ulf clock p.lb_workers start 0 tick
  simp only [scan_loop, Nat.add_zero] at hinit
  have hdom : ∀ (i : Nat) (st : scan_state) (wr : worker_record), start ≤ i →
      i < start + (stop - start) →
      scan_inv p.recover_wait_time sid ss ulf clock p.lb_workers start i st →
      st.lb_workers[i]? = some wr → is_worker_candidate wr sid ss = true →
      st.domain_id = -1 → dom_after sid i st.domain_id = -1 := by
    intro i st wr hi hlt hinv hw hc hd
    unfold dom_after
    by_cases hs : sid = 1
    · exfalso
      obtain ⟨wr0, hw0, hc0⟩ := scan_candidate_entry hinv hw hc
      subst hs
      simp only [is_worker_candidate, decide_eq_true_eq] at hc0
      exact hno rfl i wr0 hi (by omega) hw0 hc0.symm
    · rw [if_neg hs]
      exact hd
  refine @scan_loop_rule p.recover_wait_time sid ss ulf clock
    (fun i st => start ≤ i ∧
      scan_inv p.recover_wait_time sid ss ulf clock p.lb_workers start i st ∧
      st.domain_id = -1)
    (fun st => st.domain_id = -1) (start + (stop - start))
    ?_ ?_ ?_ (stop - start) start _ rfl ⟨le_refl _, hinit, rfl⟩
  · intro i st hlt ⟨hi, hinv, hd⟩ _
    refine ⟨by omega, scan_body_inv i st hi hinv, ?_⟩
    rcases scan_body_cases p.recover_wait_time sid ss ulf clock i st with
      ⟨e, hn⟩ | ⟨wr, hw, hc, he, hr, e⟩ | ⟨wr, hw, hc, he, hr, hq, e⟩ |
      ⟨wr, hw, hc, hel, hu1, e⟩ | ⟨wr, hw, hc, hel, hu1, e⟩
    · rw [e]; exact hd
    all_goals
      rw [e]
      exact hdom i st wr hi hlt hinv hw hc hd
  · intro i st hlt ⟨hi, hinv, hd⟩ hb
    rcases scan_body_cases p.recover_wait_time sid ss ulf clock i st with
      ⟨e, hn⟩ | ⟨wr, hw, hc, he, hr, e⟩ | ⟨wr, hw, hc, he, hr, hq, e⟩ |
      ⟨wr, hw, hc, hel, hu1, e⟩ | ⟨wr, hw, hc, hel, hu1, e⟩
    · rw [e] at hb; cases hb
    · rw [e] at hb; cases hb
    · rw [e] at hb; cases hb
    · rw [e] at hb; cases hb
    · rw [e]
      exact hdom i st wr hi hlt hinv hw hc hd
  · intro st ⟨_, _, hd⟩
    exact hd

/-- C33 (matched index of a name search).  For a registry with unique names, a call of
`get_suitable_worker` with the criterion 1 (by name) over the full range
`[0, num_of_workers)`, with either weighting flag and under any clock, leaves in
`domain_id` the index of the record that carries the name whenever there is one,
whatever its error fields are and whether or not a record is returned, and -1 when no
record of the range carries the name; a call with any other criterion, over any range,
leaves -1. -/
theorem matched_index (p : lb_worker) (search_string : List Char) (use_lb_factor : Bool)
    (clock : Nat → Int) (tick : Nat) (hu : names_unique p.lb_workers) :
    (∀ (a : Nat) (wa : worker_record), a < p.num_of_workers → p.lb_workers[a]? = some wa →
      wa.name = search_string →
      (get_suitable_worker p 1 search_string 0 p.num_of_workers use_lb_factor
        clock tick).domain_id = (a : Int)) ∧
    ((∀ (i : Nat) (wr : worker_record), i < p.num_of_workers → p.lb_workers[i]? = some wr →
        wr.name ≠ search_string) →
      (get_suitable_worker p 1 search_string 0 p.num_of_workers use_lb_factor
        clock tick).domain_id = -1) ∧
    (∀ (search_id start stop : Nat), search_id ≠ 1 →
      (get_suitable_worker p search_id search_string start stop use_lb_factor
        clock tick).domain_id = -1) := by
  refine ⟨?_, ?_, ?_⟩
  · intro a wa ha hwa hname
    exact gsw_domain_id_found p search_string 0 p.num_of_workers use_lb_factor clock tick a wa
      hu hwa hname (Nat.zero_le _) ha
  · intro hno
    exact gsw_domain_id_none p 1 search_string 0 p.num_of_workers use_lb_factor clock tick
      (fun _ i wr _ hi hw => hno i wr hi hw)
  · intro sid start stop hs
    exact gsw_domain_id_none p sid search_string start stop use_lb_factor clock tick
      (fun h => absurd h hs)

theorem matched_index_witness :
    (get_suitable_worker recovery_example 1 ['A'] 0 2 false (fun _ => 120) 0).rc = none ∧
    (get_suitable_worker recovery_example 1 ['A'] 0 recovery_example.num_of_workers false
      (fun _ => 120) 0).domain_id = ((0 : Nat) : Int) ∧
    (get_suitable_worker recovery_example 1 ['Z'] 0 2 false (fun _ => 120) 0).domain_id = -1 :=
  ⟨by decide,
    (matched_index recovery_example ['A'] false (fun _ => 120) 0
      (names_unique_of_nodup _ (by decide))).1 0 _ (by decide) rfl rfl,
    by decide⟩

/-! ## C35: a session part that names no record -/

/-- A scan whose range holds no record matching the criterion returns nothing, reads
no clock and leaves everything as it was. -/
theorem gsw_no_candidate (p : lb_worker) (sid : Nat) (ss : List Char) (start stop : Nat)
    (ulf : Bool) (clock : Nat → Int) (tick : Nat)
    (hno : ∀ (i : Nat) (wr : worker_record), start ≤ i → i < stop →
      p.lb_workers[i]? = some wr → is_worker_candidate wr sid ss = false) :
    get_suitable_worker p sid ss start stop ulf clock tick =
      { p := p, rc := none, domain_id := -1, tick := tick } := by
  have hloop : scan_loop p.recover_wait_time sid ss ulf clock (stop - start) start
      ⟨p.lb_workers, none, 0, 0, -1, tick⟩ = ⟨p.lb_workers, none, 0, 0, -1, tick⟩ := by
    have hcontra : ∀ (i : Nat) (wr : worker_record), start ≤ i → i < start + (stop - start) →
        p.lb_workers[i]? = some wr → is_worker_candidate wr sid ss = true → False := by
      intro i wr h1 h2 hw hc
      rw [hno i wr h1 (by omega) hw] at hc
      cases hc
    refine @scan_loop_rule p.recover_wait_time sid ss ulf clock
      (fun i st => start ≤ i ∧ st = ⟨p.lb_workers, none, 0, 0, -1, tick⟩)
      (fun st => st = ⟨p.lb_workers, none, 0, 0, -1, tick⟩) (start + (stop - start))
      ?_ ?_ ?_ (stop - start) start _ rfl ⟨le_refl _, rfl⟩
    · intro i st hlt ⟨hi, hst⟩ _
      refine ⟨by omega, ?_⟩
      rcases scan_body_cases p.recover_wait_time sid ss ulf clock i st with
        ⟨e, hn⟩ | ⟨wr, hw, hc, he, hr, e⟩ | ⟨wr, hw, hc, he, hr, hq, e⟩ |
        ⟨wr, hw, hc, hel, hu1, e⟩ | ⟨wr, hw, hc, hel, hu1, e⟩
      · rw [e]; exact hst
      all_goals
        exfalso
        rw [hst] at hw
        exact hcontra i wr hi hlt hw hc
    · intro i st hlt ⟨hi, hst⟩ _
      rcases scan_body_cases p.recover_wait_time sid ss ulf clock i st with
        ⟨e, hn⟩ | ⟨wr, hw, hc, he, hr, e⟩ | ⟨wr, hw, hc, he, hr, hq, e⟩ |
        ⟨wr, hw, hc, hel, hu1, e⟩ | ⟨wr, hw, hc, hel, hu1, e⟩
      · rw [e]; exact hst
      all_goals
        exfalso
        rw [hst] at hw
        exact hcontra i wr hi hlt hw hc
    · intro st h; exact h.2
  rw [gsw_unfold, hloop]
  simp only [scan_finish]

/-- The session loop at a part whose route names no record of the range: the name
search changes nothing and the default domain is searched. -/
theorem route_session_unknown (k : jk_consts) (clock : Nat → Int) (part : List Char)
    (rest : List (List Char)) (p : lb_worker) (tick : Nat) (dot : Nat)
    (hdot : strchr part '.' = some dot)
    (hno : ∀ (i : Nat) (wr : worker_record), i < p.num_of_workers →
      p.lb_workers[i]? = some wr → wr.name ≠ part.drop (dot + 1)) :
    route_session k clock (part :: rest) p tick =
      if (get_suitable_worker p 2 k.JK_LB_DEF_DOMAIN_NAME 0 p.num_of_workers true clock
          tick).rc ≠ none then
        { p := (get_suitable_worker p 2 k.JK_LB_DEF_DOMAIN_NAME 0 p.num_of_workers true
            clock tick).p,
          rc := (get_suitable_worker p 2 k.JK_LB_DEF_DOMAIN_NAME 0 p.num_of_workers true
            clock tick).rc,
          tick := (get_suitable_worker p 2 k.JK_LB_DEF_DOMAIN_NAME 0 p.num_of_workers true
            clock tick).tick }
      else
        route_session k clock rest
          (get_suitable_worker p 2 k.JK_LB_DEF_DOMAIN_NAME 0 p.num_of_workers true clock
            tick).p
          (get_suitable_worker p 2 k.JK_LB_DEF_DOMAIN_NAME 0 p.num_of_workers true clock
            tick).tick := by
  have h1 : get_suitable_worker p 1 (part.drop (dot + 1)) 0 p.num_of_workers false clock tick =
      { p := p, rc := none, domain_id := -1, tick := tick } := by
    apply gsw_no_candidate
    intro i wr _ hi hw
    have := hno i wr hi hw
    simp only [is_worker_candidate, decide_eq_false_iff_not]
    exact fun e => this e.symm
  rw [route_session]
  simp only [hdot, h1, ne_eq, not_true_eq_false, if_false]
  have hneg : ¬ ((0 : Int) ≤ -1 ∧ (-1 : Int) < (p.num_of_workers : Int)) := by omega
  simp only [hneg, if_false]

/-- C35 (an unknown sticky name falls back to the default domain).  With sticky
sessions enabled and an affinity token whose first part is `id.name` (`id` without
`.`), where no record of the registry is named `name`: the name search changes nothing,
and `get_most_suitable_worker` makes a weighted search by domain over the full range
with the constant `JK_LB_DEF_DOMAIN_NAME`.  When that search returns a record, a record
of that domain, it is what `get_most_suitable_worker` returns, and the registry is as
that one search leaves it: the local records are not looked at.  Only when it returns
nothing does routing go on, with the registry unchanged, to the next part, or, when
there is none, to the selection made without token.  The session loop does the same at
every part it reaches. -/
theorem unknown_name_default_domain (k : jk_consts) (p : lb_worker) (s : jk_ws_service)
    (clock : Nat → Int) (tick : Nat) (id name tail : List Char)
    (hs : p.sticky_session = true)
    (htok : get_sessionid k s = some ((id ++ '.' :: name) ++ tail))
    (hid : '.' ∉ id) (hsemi : ';' ∉ id ++ '.' :: name)
    (htail : tail = [] ∨ tail.head? = some ';')
    (hno : ∀ (i : Nat) (wr : worker_record), i < p.num_of_workers →
      p.lb_workers[i]? = some wr → wr.name ≠ name) :
    (∀ j, (get_suitable_worker p 2 k.JK_LB_DEF_DOMAIN_NAME 0 p.num_of_workers true clock
        tick).rc = some j →
      get_most_suitable_worker k p s clock tick =
        { p := (get_suitable_worker p 2 k.JK_LB_DEF_DOMAIN_NAME 0 p.num_of_workers true
            clock tick).p,
          rc := some j,
          tick := (get_suitable_worker p 2 k.JK_LB_DEF_DOMAIN_NAME 0 p.num_of_workers true
            clock tick).tick } ∧
      ∃ wj, p.lb_workers[j]? = some wj ∧ wj.domain = k.JK_LB_DEF_DOMAIN_NAME) ∧
    ((get_suitable_worker p 2 k.JK_LB_DEF_DOMAIN_NAME 0 p.num_of_workers true clock
        tick).rc = none →
      (∃ rest, session_parts ((id ++ '.' :: name) ++ tail) = (id ++ '.' :: name) :: rest ∧
        get_most_suitable_worker k p s clock tick =
          route_session k clock rest p
            (get_suitable_worker p 2 k.JK_LB_DEF_DOMAIN_NAME 0 p.num_of_workers true clock
              tick).tick) ∧
      (tail = [] →
        get_most_suitable_worker k p s clock tick =
          route_no_session p clock
            (get_suitable_worker p 2 k.JK_LB_DEF_DOMAIN_NAME 0 p.num_of_workers true clock
              tick).tick)) ∧
    (∀ (rest : List (List Char)) (t : Nat),
      route_session k clock ((id ++ '.' :: name) :: rest) p t =
        if (get_suitable_worker p 2 k.JK_LB_DEF_DOMAIN_NAME 0 p.num_of_workers true clock
            t).rc ≠ none then
          { p := (get_suitable_worker p 2 k.JK_LB_DEF_DOMAIN_NAME 0 p.num_of_workers true
              clock t).p,
            rc := (get_suitable_worker p 2 k.JK_LB_DEF_DOMAIN_NAME 0 p.num_of_workers true
              clock t).rc,
            tick := (get_suitable_worker p 2 k.JK_LB_DEF_DOMAIN_NAME 0 p.num_of_workers true
              clock t).tick }
        else
          route_session k clock rest
            (get_suitable_worker p 2 k.JK_LB_DEF_DOMAIN_NAME 0 p.num_of_workers true clock
              t).p
            (get_suitable_worker p 2 k.JK_LB_DEF_DOMAIN_NAME 0 p.num_of_workers true clock
              t).tick) := by
  have hdot := strchr_append id name '.' hid
  have hdrop : (id ++ '.' :: name).drop (id.length + 1) = name := drop_route id name '.'
  have hloop : ∀ (rest : List (List Char)) (t : Nat),
      route_session k clock ((id ++ '.' :: name) :: rest) p t =
        if (get_suitable_worker p 2 k.JK_LB_DEF_DOMAIN_NAME 0 p.num_of_workers true clock
            t).rc ≠ none then
          { p := (get_suitable_worker p 2 k.JK_LB_DEF_DOMAIN_NAME 0 p.num_of_workers true
              clock t).p,
            rc := (get_suitable_worker p 2 k.JK_LB_DEF_DOMAIN_NAME 0 p.num_of_workers true
              clock t).rc,
            tick := (get_suitable_worker p 2 k.JK_LB_DEF_DOMAIN_NAME 0 p.num_of_workers true
              clock t).tick }
        else
          route_session k clock rest
            (get_suitable_worker p 2 k.JK_LB_DEF_DOMAIN_NAME 0 p.num_of_workers true clock
              t).p
            (get_suitable_worker p 2 k.JK_LB_DEF_DOMAIN_NAME 0 p.num_of_workers true clock
              t).tick := by
    intro rest t
    exact route_session_unknown k clock (id ++ '.' :: name) rest p t id.length hdot
      (fun i wr hi hw => by rw [hdrop]; exact hno i wr hi hw)
  obtain ⟨tl, htl⟩ := session_parts_head (id ++ '.' :: name) tail hsemi htail
  have hg : get_most_suitable_worker k p s clock tick =
      route_session k clock ((id ++ '.' :: name) :: tl) p tick := by
    unfold get_most_suitable_worker
    simp only [hs, if_true, htok, htl]
  refine ⟨?_, ?_, hloop⟩
  · intro j hj
    constructor
    · rw [hg, hloop tl tick, if_pos (by rw [hj]; simp), hj]
    · obtain ⟨-, -, wr0, hw0, hc, -⟩ :=
        (gsw_frame p 2 k.JK_LB_DEF_DOMAIN_NAME 0 p.num_of_workers true clock tick).2.2 j hj
      refine ⟨wr0, hw0, ?_⟩
      simp only [is_worker_candidate, decide_eq_true_eq] at hc
      exact hc.symm
  · intro hn
    have hp := (gsw_frame p 2 k.JK_LB_DEF_DOMAIN_NAME 0 p.num_of_workers true clock tick).2.1 hn
    have hgo : get_most_suitable_worker k p s clock tick =
        route_session k clock tl p
          (get_suitable_worker p 2 k.JK_LB_DEF_DOMAIN_NAME 0 p.num_of_workers true clock
            tick).tick := by
      rw [hg, hloop tl tick, if_neg (by rw [hn]; simp), hp]
    refine ⟨⟨tl, htl, hgo⟩, ?_⟩
    intro ht
    subst ht
    rw [List.append_nil, session_parts_single _ hsemi] at htl
    have : tl = [] := by
      simp only [List.cons.injEq, true_and] at htl
      exact htl.symm
    rw [hgo, this]
    rfl

theorem unknown_name_default_domain_witness :
    (get_most_suitable_worker example_consts default_domain_example unknown_route_request
      (fun _ => 1000) 0).rc = some 2 ∧
    ∀ j, (get_suitable_worker default_domain_example 2 example_consts.JK_LB_DEF_DOMAIN_NAME 0
        default_domain_example.num_of_workers true (fun _ => 1000) 0).rc = some j →
      get_most_suitable_worker example_consts default_domain_example unknown_route_request
          (fun _ => 1000) 0 =
        { p := (get_suitable_worker default_domain_example 2
            example_consts.JK_LB_DEF_DOMAIN_NAME 0 default_domain_example.num_of_workers true
            (fun _ => 1000) 0).p,
          rc := some j,
          tick := (get_suitable_worker default_domain_example 2
            example_consts.JK_LB_DEF_DOMAIN_NAME 0 default_domain_example.num_of_workers true
            (fun _ => 1000) 0).tick } ∧
      ∃ wj, default_domain_example.lb_workers[j]? = some wj ∧
        wj.domain = example_consts.JK_LB_DEF_DOMAIN_NAME :=
  ⟨by decide,
    (unknown_name_default_domain example_consts default_domain_example unknown_route_request
      (fun _ => 1000) 0 "xyz123".toList ['Z'] [] rfl (by decide) (by decide) (by decide)
      (Or.inl rfl)
      (fun _ wr _ hw =>
        (by decide : ∀ wr ∈ default_domain_example.lb_workers, wr.name ≠ ['Z']) wr
          (List.getElem?_mem hw))).1⟩

/-! ## Lists of actions -/

theorem lock_after_append : ∀ (a b : List lb_action) (h : Bool),
    lock_after h (a ++ b) = lock_after (lock_after h a) b := by
  intro a
  induction a with
  | nil => intro b h; rfl
  | cons x t ih =>
    intro b h
    cases x <;> rw [List.cons_append] <;> simp only [lock_after] <;> exact ih _ _

theorem writes_locked_append : ∀ (a b : List lb_action) (h : Bool),
    writes_locked h (a ++ b) = (writes_locked h a && writes_locked (lock_after h a) b) := by
  intro a
  induction a with
  | nil => intro b h; simp [writes_locked, lock_after]
  | cons x t ih =>
    intro b h
    cases x <;> rw [List.cons_append] <;> simp only [writes_locked, lock_after] <;>
      rw [ih]
    rw [Bool.and_assoc]

/-- The actions `as` start and end with the lock not held and make every assignment to
an error field while it is held. -/
theorem disciplined_append {a b : List lb_action}
    (ha : writes_locked false a = true ∧ lock_after false a = false)
    (hb : writes_locked false b = true ∧ lock_after false b = false) :
    writes_locked false (a ++ b) = true ∧ lock_after false (a ++ b) = false := by
  rw [writes_locked_append, lock_after_append, ha.1, ha.2, hb.1, hb.2]
  exact ⟨rfl, rfl⟩

theorem disciplined_cascade (c1 c2 : Prop) [Decidable c1] [Decidable c2]
    (a1 a2 a3 : List lb_action)
    (h1 : writes_locked false a1 = true ∧ lock_after false a1 = false)
    (h2 : writes_locked false a2 = true ∧ lock_after false a2 = false)
    (h3 : writes_locked false a3 = true ∧ lock_after false a3 = false) :
    writes_locked false (if c1 then a1 else if c2 then a1 ++ a2 else a1 ++ a2 ++ a3) = true ∧
    lock_after false (if c1 then a1 else if c2 then a1 ++ a2 else a1 ++ a2 ++ a3) = false := by
  split
  · exact h1
  · split
    · exact disciplined_append h1 h2
    · exact disciplined_append (disciplined_append h1 h2) h3

/-- A call of `get_suitable_worker` assigns to error fields only between `JK_ENTER_CS`
and `JK_LEAVE_CS`. -/
theorem gsw_disciplined (p : lb_worker) (sid : Nat) (ss : List Char) (start stop : Nat)
    (ulf : Bool) (clock : Nat → Int) (tick : Nat) :
    writes_locked false (gsw_actions p sid ss start stop ulf clock tick) = true ∧
    lock_after false (gsw_actions p sid ss start stop ulf clock tick) = false := by
  unfold gsw_actions
  simp only [JK_ENTER_CS, Bool.true_eq_false, if_false]
  generalize scan_loop p.recover_wait_time sid ss ulf clock (stop - start) start
    ⟨p.lb_workers, none, 0, 0, -1, tick⟩ = st
  cases st.rc with
  | none => exact ⟨rfl, rfl⟩
  | some j =>
    simp only
    cases st.lb_workers[j]? with
    | none => exact ⟨rfl, rfl⟩
    | some wr =>
      simp only
      cases wr.in_error_state
      · exact ⟨rfl, rfl⟩
      · exact ⟨rfl, rfl⟩

theorem route_no_session_disciplined (p : lb_worker) (clock : Nat → Int) (tick : Nat) :
    writes_locked false (route_no_session_actions p clock tick) = true ∧
    lock_after false (route_no_session_actions p clock tick) = false := by
  unfold route_no_session_actions
  simp only
  split
  · split
    · exact gsw_disciplined _ _ _ _ _ _ _ _
    · split
      · exact gsw_disciplined _ _ _ _ _ _ _ _
      · split
        · exact disciplined_append (gsw_disciplined _ _ _ _ _ _ _ _)
            (gsw_disciplined _ _ _ _ _ _ _ _)
        · exact disciplined_append (disciplined_append (gsw_disciplined _ _ _ _ _ _ _ _)
            (gsw_disciplined _ _ _ _ _ _ _ _)) (gsw_disciplined _ _ _ _ _ _ _ _)
  · exact gsw_disciplined _ _ _ _ _ _ _ _

theorem route_session_disciplined (k : jk_consts) (clock : Nat → Int) :
    ∀ (parts : List (List Char)) (p : lb_worker) (tick : Nat),
      writes_locked false (route_session_actions k clock parts p tick) = true ∧
      lock_after false (route_session_actions k clock parts p tick) = false := by
  intro parts
  induction parts with
  | nil => intro p tick; exact route_no_session_disciplined p clock tick
  | cons part rest ih =>
    intro p tick
    rw [route_session_actions]
    cases strchr part '.' with
    | none => exact ih p tick
    | some dot =>
      simp only
      exact disciplined_cascade _ _ _ _ _ (gsw_disciplined _ _ _ _ _ _ _ _)
        (gsw_disciplined _ _ _ _ _ _ _ _) (ih _ _)

theorem gmsw_disciplined (k : jk_consts) (p : lb_worker) (s : jk_ws_service)
    (clock : Nat → Int) (tick : Nat) :
    writes_locked false (gmsw_actions k p s clock tick) = true ∧
    lock_after false (gmsw_actions k p s clock tick) = false := by
  unfold gmsw_actions
  simp only
  split
  · exact route_no_session_disciplined p clock tick
  · exact route_session_disciplined k clock _ p tick

/-! ## C37: the sum of the load counters -/

/-- During the scan the load counters add up to their sum on entry plus
`total_factor`. -/
theorem scan_loop_sum (rwt : Int) (sid : Nat) (ss : List Char) (ulf : Bool)
    (clock : Nat → Int) (ws0 : List worker_record) (start n tick : Nat) :
    ((scan_loop rwt sid ss ulf clock n start ⟨ws0, none, 0, 0, -1, tick⟩).lb_workers.map
        (fun wr => wr.lb_value)).sum =
      (ws0.map (fun wr => wr.lb_value)).sum +
        (scan_loop rwt sid ss ulf clock n start ⟨ws0, none, 0, 0, -1, tick⟩).total_factor := by
  refine @scan_loop_rule rwt sid ss ulf clock
    (fun _ st => (st.lb_workers.map (fun wr => wr.lb_value)).sum =
      (ws0.map (fun wr => wr.lb_value)).sum + st.total_factor)
    (fun st => (st.lb_workers.map (fun wr => wr.lb_value)).sum =
      (ws0.map (fun wr => wr.lb_value)).sum + st.total_factor) (start + n)
    ?_ ?_ ?_ n start _ rfl (by simp)
  · intro i st _ h _
    rcases scan_body_cases rwt sid ss ulf clock i st with
      ⟨e, hn⟩ | ⟨wr, hw, hc, he, hr, e⟩ | ⟨wr, hw, hc, he, hr, hq, e⟩ |
      ⟨wr, hw, hc, hel, hu1, e⟩ | ⟨wr, hw, hc, hel, hu1, e⟩
    · rw [e]; exact h
    · rw [e]; exact h
    · rw [e]; exact h
    · rw [e]
      simp only
      rw [sum_map_set (fun wr => wr.lb_value) _ i wr _ hw, h]
      simp only
      omega
    · rw [e]; exact h
  · intro i st _ h _
    rcases scan_body_cases rwt sid ss ulf clock i st with
      ⟨e, hn⟩ | ⟨wr, hw, hc, he, hr, e⟩ | ⟨wr, hw, hc, he, hr, hq, e⟩ |
      ⟨wr, hw, hc, hel, hu1, e⟩ | ⟨wr, hw, hc, hel, hu1, e⟩
    · rw [e]; exact h
    · rw [e]; exact h
    · rw [e]; exact h
    · rw [e]
      simp only
      rw [sum_map_set (fun wr => wr.lb_value) _ i wr _ hw, h]
      simp only
      omega
    · rw [e]; exact h
  · intro st h; exact h

/-- A call of `get_suitable_worker` leaves the sum of the load counters as it was. -/
theorem gsw_sum_conserved (p : lb_worker) (sid : Nat) (ss : List Char) (start stop : Nat)
    (ulf : Bool) (clock : Nat → Int) (tick : Nat) :
    ((get_suitable_worker p sid ss start stop ulf clock tick).p.lb_workers.map
        (fun wr => wr.lb_value)).sum =
      (p.lb_workers.map (fun wr => wr.lb_value)).sum := by
  cases hrc : (get_suitable_worker p sid ss start stop ulf clock tick).rc with
  | none => rw [(gsw_frame p sid ss start stop ulf clock tick).2.1 hrc]
  | some j =>
    have hsum := scan_loop_sum p.recover_wait_time sid ss ulf clock p.lb_workers start
      (stop - start) tick
    have hinv := scan_loop_inv p.recover_wait_time sid ss ulf clock p.lb_workers start
      (stop - start) tick
    rw [gsw_rc] at hrc
    rw [gsw_unfold]
    generalize scan_loop p.recover_wait_time sid ss ulf clock (stop - start) start
      ⟨p.lb_workers, none, 0, 0, -1, tick⟩ = st at hsum hinv hrc
    obtain ⟨-, -, wr0, hw0, -, -⟩ := hinv.rc_ok j hrc
    obtain ⟨wr, hw⟩ : ∃ wr, st.lb_workers[j]? = some wr := by
      have h3 : (st.lb_workers.map erase_lb)[j]? = some (erase_lb wr0) := by
        rw [hinv.static]
        simp [List.getElem?_map, hw0]
      simp only [List.getElem?_map] at h3
      cases hw : st.lb_workers[j]? with
      | none => rw [hw] at h3; cases h3
      | some wr => exact ⟨wr, rfl⟩
    unfold scan_finish
    rw [hrc]
    simp only [hw]
    split
    · simp only
      rw [sum_map_set (fun wr => wr.lb_value) _ j wr _ hw, hsum]
      simp only
      omega
    · simp only
      rw [sum_map_set (fun wr => wr.lb_value) _ j wr _ hw, hsum]
      simp only
      omega

/-- Recording an outcome leaves every load counter as it was. -/
theorem record_outcome_values (p : lb_worker) (j : Nat) (ok : Bool) (now : Int) :
    (record_outcome p j ok now).lb_workers.map (fun wr => wr.lb_value) =
      p.lb_workers.map (fun wr => wr.lb_value) := by
  unfold record_outcome
  cases hj : p.lb_workers[j]? with
  | none => rfl
  | some wr =>
    dsimp only
    rw [List.map_set]
    apply set_same
    rw [List.getElem?_map, hj]
    cases ok <;> rfl

/-- A run of selections and outcomes leaves the sum of the load counters as it was. -/
theorem run_events_sum (clock : Nat → Int) :
    ∀ (es : List lb_event) (p : lb_worker) (tick : Nat),
      ((run_events clock es p tick).1.lb_workers.map (fun wr => wr.lb_value)).sum =
        (p.lb_workers.map (fun wr => wr.lb_value)).sum := by
  intro es
  induction es with
  | nil => intro p tick; rfl
  | cons e es ih =>
    intro p tick
    cases e with
    | select sid ss start stop ulf =>
      have h1 := gsw_sum_conserved p sid ss start stop ulf clock tick
      have h2 := ih (get_suitable_worker p sid ss start stop ulf clock tick).p
        (get_suitable_worker p sid ss start stop ulf clock tick).tick
      rw [← h1, ← h2]
      rfl
    | outcome j ok =>
      have h1 := record_outcome_values p j ok (clock tick)
      have h2 := ih (record_outcome p j ok (clock tick)) (if ok then tick else tick + 1)
      rw [← h1, ← h2]
      rfl

/-- C37 (the sum of the load counters is conserved).  After a successful `validate`
the load counters `lb_value` add up to the sum of the weights `lb_factor`; a call of
`get_suitable_worker` on any registry, with any criterion, range, weighting flag and
clock, with or without a record returned, leaves the sum of the load counters as it
was, and so does every outcome the dispatch loop records; hence in every state reached
from the built registry by selections and outcomes the load counters add up to the sum
of the weights (integers without overflow). -/
theorem counter_sum_conserved (k : jk_consts) (p0 : lb_worker) (props : lb_props)
    (mem : Nat → worker_record) (hv : (validate k true p0 props mem).rc = true) :
    ((validate k true p0 props mem).p.lb_workers.map (fun wr => wr.lb_value)).sum =
      ((validate k true p0 props mem).p.lb_workers.map (fun wr => wr.lb_factor)).sum ∧
    (∀ (p : lb_worker) (search_id : Nat) (search_string : List Char) (start stop : Nat)
        (use_lb_factor : Bool) (clock : Nat → Int) (tick : Nat),
      ((get_suitable_worker p search_id search_string start stop use_lb_factor clock
          tick).p.lb_workers.map (fun wr => wr.lb_value)).sum =
        (p.lb_workers.map (fun wr => wr.lb_value)).sum) ∧
    (∀ (p : lb_worker) (j : Nat) (ok : Bool) (now : Int),
      ((record_outcome p j ok now).lb_workers.map (fun wr => wr.lb_value)).sum =
        (p.lb_workers.map (fun wr => wr.lb_value)).sum) ∧
    (∀ (clock : Nat → Int) (es : List lb_event) (tick : Nat),
      ((run_events clock es (validate k true p0 props mem).p tick).1.lb_workers.map
          (fun wr => wr.lb_value)).sum =
        ((validate k true p0 props mem).p.lb_workers.map (fun wr => wr.lb_factor)).sum) := by
  have h1 : ((validate k true p0 props mem).p.lb_workers.map (fun wr => wr.lb_value)).sum =
      ((validate k true p0 props mem).p.lb_workers.map (fun wr => wr.lb_factor)).sum := by
    congr 1
    apply List.map_congr_left
    intro wr hwr
    exact ((validate_fresh k p0 props mem hv).2.2.1 wr hwr).2.2.1
  refine ⟨h1, gsw_sum_conserved, ?_, ?_⟩
  · intro p j ok now
    rw [record_outcome_values]
  · intro clock es tick
    rw [run_events_sum, h1]

theorem counter_sum_conserved_witness :
    (validate example_consts true lb_worker_factory abc_props zero_mem).rc = true ∧
    ((run_events (fun _ => 100)
        [lb_event.select 5 [] 0 3 true, lb_event.outcome 1 false,
         lb_event.select 2 "unknown".toList 0 3 true, lb_event.outcome 0 true,
         lb_event.select 5 [] 1 3 false]
        (validate example_consts true lb_worker_factory abc_props zero_mem).p
        0).1.lb_workers.map (fun wr => wr.lb_value)).sum = 4 :=
  ⟨rfl, (counter_sum_conserved example_consts lb_worker_factory abc_props zero_mem rfl).2.2.2
    (fun _ => 100)
    [lb_event.select 5 [] 0 3 true, lb_event.outcome 1 false,
     lb_event.select 2 "unknown".toList 0 3 true, lb_event.outcome 0 true,
     lb_event.select 5 [] 1 3 false] 0⟩

/-! ## C38: no endpoint -/

/-- A pass in which `get_endpoint` gives no endpoint returns failure and leaves the
record marked, without a call of `end->service`. -/
theorem no_endpoint_step (k : jk_consts) (s : jk_ws_service) (be : backend)
    (clock : Nat → Int) (st : service_state) (i : Nat)
    (hsel : (get_most_suitable_worker k st.p s clock st.tick).rc = some i)
    (hok : (be st.attempt i).endpoint_ok = false) :
    ∃ wr, (get_most_suitable_worker k st.p s clock st.tick).p.lb_workers[i]? = some wr ∧
      service_body k s be clock st =
        (⟨{ (get_most_suitable_worker k st.p s clock st.tick).p with
            lb_workers := (get_most_suitable_worker k st.p s clock st.tick).p.lb_workers.set i
              { wr with in_error_state := true, in_recovering := false,
                        error_time := clock (get_most_suitable_worker k st.p s clock st.tick).tick } },
          st.attempt + 1, (get_most_suitable_worker k st.p s clock st.tick).tick + 1,
          some wr.name, st.tried ++ [i], st.forwarded⟩, some false) := by
  obtain ⟨wr, hw⟩ := gmsw_some_get k st.p s clock st.tick i hsel
  refine ⟨wr, hw, ?_⟩
  rw [service_body_some k s be clock st i wr hsel hw]
  have hc : ¬ ((be st.attempt i).endpoint_ok = true ∧ (be st.attempt i).src = true) := by
    rw [hok]; simp
  rw [if_neg hc]
  simp only [hok, Bool.false_and, Bool.false_eq_true, if_false, if_true]

/-- C38 (failure to acquire a connection is fatal).  In every run of `service`, when
`get_endpoint` of the record that the selection of some pass returns gives no endpoint
(it fails, or yields none), `service` returns failure in that pass: the request is not
forwarded, no further selection is made (`attempt` is one more than at the start of the
pass), and the record is left with `in_error_state = true`, `in_recovering = false` and
`error_time` the clock reading taken at the failure.  The pass returns the same value
and leaves the same registry, counter and clock position as a pass in which the record
is forwarded to and fails with `is_recoverable` false. -/
theorem no_endpoint_fatal (k : jk_consts) (s : jk_ws_service) (be : backend)
    (clock : Nat → Int) (p : lb_worker) (tick : Nat) (flag : Bool) (fuel : Nat)
    (n : Nat) (st : service_state) (i : Nat)
    (hreach : service_pass k s be clock n (service_init p tick) = some st)
    (hsel : (get_most_suitable_worker k st.p s clock st.tick).rc = some i)
    (hok : (be st.attempt i).endpoint_ok = false) :
    (∃ res wr, service k true p s be clock tick flag (n + (fuel + 1)) = some res ∧
      res.rc = false ∧
      res.st.attempt = st.attempt + 1 ∧ res.st.tried = st.tried ++ [i] ∧
      res.st.forwarded = st.forwarded ∧
      res.st.p.lb_workers[i]? = some wr ∧ wr.in_error_state = true ∧
      wr.in_recovering = false ∧
      wr.error_time = clock (get_most_suitable_worker k st.p s clock st.tick).tick ∧
      res.st.tick = (get_most_suitable_worker k st.p s clock st.tick).tick + 1) ∧
    (∀ be2 : backend, (be2 st.attempt i).endpoint_ok = true →
      (be2 st.attempt i).src = false → (be2 st.attempt i).is_recoverable = false →
      (service_body k s be clock st).2 = some false ∧
      (service_body k s be2 clock st).2 = some false ∧
      (service_body k s be clock st).1.p = (service_body k s be2 clock st).1.p ∧
      (service_body k s be clock st).1.attempt = (service_body k s be2 clock st).1.attempt ∧
      (service_body k s be clock st).1.tick = (service_body k s be2 clock st).1.tick ∧
      (service_body k s be clock st).1.forwarded = st.forwarded ∧
      (service_body k s be2 clock st).1.forwarded = st.forwarded ++ [i]) := by
  obtain ⟨wr, hw, hbody⟩ := no_endpoint_step k s be clock st i hsel hok
  have hlt := getElem?_lt_of_some hw
  constructor
  · obtain ⟨st1, wr1, hb1, e1, e2, e3, e4, e5, e6, e7, e8⟩ :
        ∃ st1 wr1, service_body k s be clock st = (st1, some false) ∧
          st1.attempt = st.attempt + 1 ∧ st1.tried = st.tried ++ [i] ∧
          st1.forwarded = st.forwarded ∧
          st1.p.lb_workers[i]? = some wr1 ∧ wr1.in_error_state = true ∧
          wr1.in_recovering = false ∧
          wr1.error_time = clock (get_most_suitable_worker k st.p s clock st.tick).tick ∧
          st1.tick = (get_most_suitable_worker k st.p s clock st.tick).tick + 1 :=
      ⟨_, { wr with in_error_state := true, in_recovering := false,
                    error_time := clock (get_most_suitable_worker k st.p s clock st.tick).tick },
        hbody, rfl, rfl, rfl, List.getElem?_set_self hlt, rfl, rfl, rfl, rfl⟩
    refine ⟨⟨false, false, st1⟩, wr1, ?_, rfl, e1, e2, e3, e4, e5, e6, e7, e8⟩
    rw [service_valid, service_loop_pass k s be clock (fuel + 1) n _ st hreach, service_loop,
      hb1]
    rfl
  · intro be2 h1 h2 h3
    have hbody2 := service_body_some k s be2 clock st i wr hsel hw
    have hc : ¬ ((be2 st.attempt i).endpoint_ok = true ∧ (be2 st.attempt i).src = true) := by
      rw [h2]; simp
    rw [if_neg hc] at hbody2
    simp only [h1, h3, Bool.and_false, if_true] at hbody2
    rw [hbody, hbody2]
    exact ⟨rfl, rfl, rfl, rfl, rfl, rfl, rfl⟩

theorem no_endpoint_fatal_witness :
    ∃ res wr, service example_consts true three_example plain_request no_endpoint_backend
        ticking_clock 0 true (0 + (0 + 1)) = some res ∧
      res.rc = false ∧
      res.st.attempt = 0 + 1 ∧ res.st.tried = [] ++ [1] ∧ res.st.forwarded = [] ∧
      res.st.p.lb_workers[1]? = some wr ∧ wr.in_error_state = true ∧
      wr.in_recovering = false ∧ wr.error_time = ticking_clock 0 ∧ res.st.tick = 0 + 1 :=
  (no_endpoint_fatal example_consts plain_request no_endpoint_backend ticking_clock
    three_example 0 true 0 0 (service_init three_example 0) 1 rfl (by decide) rfl).1

/-! ## C39: session parts without a dot -/

theorem strchr_not_mem (c : Char) : ∀ l : List Char, c ∉ l → strchr l c = none := by
  intro l
  induction l with
  | nil => intro _; rfl
  | cons x t ih =>
    intro h
    have hx : x ≠ c := fun e => h (by rw [e]; exact List.mem_cons_self _ _)
    have ht : c ∉ t := fun e => h (List.mem_cons_of_mem _ e)
    simp [strchr, hx, ih ht]

/-- Over parts without `.` the session loop makes no call and goes on to the rest of
the function. -/
theorem route_session_dotless (k : jk_consts) (clock : Nat → Int) (p : lb_worker)
    (tick : Nat) :
    ∀ parts : List (List Char), (∀ part ∈ parts, '.' ∉ part) →
      route_session k clock parts p tick = route_no_session p clock tick ∧
      route_session_actions k clock parts p tick = route_no_session_actions p clock tick := by
  intro parts
  induction parts with
  | nil => intro _; exact ⟨rfl, rfl⟩
  | cons part rest ih =>
    intro h
    have hd := strchr_not_mem '.' part (h part (List.mem_cons_self _ _))
    have hr := ih (fun q hq => h q (List.mem_cons_of_mem _ hq))
    rw [route_session, route_session_actions]
    simp only [hd]
    exact hr

/-- The actions of a call of `get_suitable_worker` hold one call, with the criterion of
the call. -/
theorem gsw_actions_call (p : lb_worker) (sid : Nat) (ss : List Char) (start stop : Nat)
    (ulf : Bool) (clock : Nat → Int) (tick : Nat) (m : Nat)
    (h : lb_action.call m ∈ gsw_actions p sid ss start stop ulf clock tick) : m = sid := by
  unfold gsw_actions at h
  simp only [JK_ENTER_CS, Bool.true_eq_false, if_false] at h
  generalize scan_loop p.recover_wait_time sid ss ulf clock (stop - start) start
    ⟨p.lb_workers, none, 0, 0, -1, tick⟩ = st at h
  cases hrc : st.rc with
  | none =>
    rw [hrc] at h
    simpa using h
  | some j =>
    rw [hrc] at h
    simp only at h
    cases hw : st.lb_workers[j]? with
    | none =>
      rw [hw] at h
      simpa using h
    | some wr =>
      rw [hw] at h
      simp only at h
      cases he : wr.in_error_state <;> rw [he] at h <;> simpa using h

/-- The part of `get_most_suitable_worker` after the session loop calls
`get_suitable_worker` with the criteria 3, 4 and 5 only. -/
theorem route_no_session_calls (p : lb_worker) (clock : Nat → Int) (tick : Nat) (m : Nat)
    (h : lb_action.call m ∈ route_no_session_actions p clock tick) :
    m = 3 ∨ m = 4 ∨ m = 5 := by
  unfold route_no_session_actions at h
  simp only at h
  split at h
  · split at h
    · exact Or.inl (gsw_actions_call _ _ _ _ _ _ _ _ _ h)
    · split at h
      · exact Or.inl (gsw_actions_call _ _ _ _ _ _ _ _ _ h)
      · split at h
        · rcases List.mem_append.1 h with h1 | h1
          · exact Or.inl (gsw_actions_call _ _ _ _ _ _ _ _ _ h1)
          · exact Or.inr (Or.inl (gsw_actions_call _ _ _ _ _ _ _ _ _ h1))
        · rcases List.mem_append.1 h with h1 | h1
          · rcases List.mem_append.1 h1 with h2 | h2
            · exact Or.inl (gsw_actions_call _ _ _ _ _ _ _ _ _ h2)
            · exact Or.inr (Or.inl (gsw_actions_call _ _ _ _ _ _ _ _ _ h2))
          · exact Or.inr (Or.inr (gsw_actions_call _ _ _ _ _ _ _ _ _ h1))
  · exact Or.inr (Or.inr (gsw_actions_call _ _ _ _ _ _ _ _ _ h))

/-- The flag `sticky_session` has no part in a call of `get_suitable_worker`. -/
theorem gsw_sticky (p : lb_worker) (b : Bool) (sid : Nat) (ss : List Char)
    (start stop : Nat) (ulf : Bool) (clock : Nat → Int) (tick : Nat) :
    get_suitable_worker { p with sticky_session := b } sid ss start stop ulf clock tick =
      { p := { (get_suitable_worker p sid ss start stop ulf clock tick).p with
          sticky_session := b },
        rc := (get_suitable_worker p sid ss start stop ulf clock tick).rc,
        domain_id := (get_suitable_worker p sid ss start stop ulf clock tick).domain_id,
        tick := (get_suitable_worker p sid ss start stop ulf clock tick).tick } := by
  rw [gsw_unfold, gsw_unfold]

theorem gsw_actions_sticky (p : lb_worker) (b : Bool) (sid : Nat) (ss : List Char)
    (start stop : Nat) (ulf : Bool) (clock : Nat → Int) (tick : Nat) :
    gsw_actions { p with sticky_session := b } sid ss start stop ulf clock tick =
      gsw_actions p sid ss start stop ulf clock tick := rfl

/-- The flag `sticky_session` has no part in the selection made without token. -/
theorem route_no_session_sticky (p : lb_worker) (b : Bool) (clock : Nat → Int)
    (tick : Nat) :
    route_no_session { p with sticky_session := b } clock tick =
      { p := { (route_no_session p clock tick).p with sticky_session := b },
        rc := (route_no_session p clock tick).rc,
        tick := (route_no_session p clock tick).tick } ∧
    route_no_session_actions { p with sticky_session := b } clock tick =
      route_no_session_actions p clock tick := by
  unfold route_no_session route_no_session_actions
  simp only [gsw_sticky, gsw_actions_sticky]
  split
  · split
    · constructor <;> first | rfl | trivial
    · split
      · constructor <;> first | rfl | trivial
      · split
        · constructor <;> first | rfl | trivial
        · constructor <;> first | rfl | trivial
  · constructor <;> first | rfl | trivial

/-- C39 (a token part without `.` selects nothing).  With sticky sessions enabled and
an affinity token none of whose `;`-separated parts holds a `.`,
`get_most_suitable_worker` calls `get_suitable_worker` neither with criterion 1 (by
name) nor with criterion 2 (by domain): it does what the part after the session loop
does, and what it returns, the records and the clock readings it leaves, and the calls
it makes are those of the same call with `sticky_session` not set. -/
theorem dotless_token_selects_nothing (k : jk_consts) (p : lb_worker) (s : jk_ws_service)
    (clock : Nat → Int) (tick : Nat) (sid : List Char)
    (hs : p.sticky_session = true) (htok : get_sessionid k s = some sid)
    (hparts : ∀ part ∈ session_parts sid, '.' ∉ part) :
    get_most_suitable_worker k p s clock tick = route_no_session p clock tick ∧
    gmsw_actions k p s clock tick = route_no_session_actions p clock tick ∧
    lb_action.call 1 ∉ gmsw_actions k p s clock tick ∧
    lb_action.call 2 ∉ gmsw_actions k p s clock tick ∧
    (get_most_suitable_worker k p s clock tick).rc =
      (get_most_suitable_worker k { p with sticky_session := false } s clock tick).rc ∧
    (get_most_suitable_worker k p s clock tick).p.lb_workers =
      (get_most_suitable_worker k { p with sticky_session := false } s clock
        tick).p.lb_workers ∧
    (get_most_suitable_worker k p s clock tick).tick =
      (get_most_suitable_worker k { p with sticky_session := false } s clock tick).tick ∧
    (get_most_suitable_worker k p s clock tick).p =
      { (get_most_suitable_worker k { p with sticky_session := false } s clock tick).p with
        sticky_session := true } ∧
    gmsw_actions k p s clock tick =
      gmsw_actions k { p with sticky_session := false } s clock tick := by
  obtain ⟨h1, h2⟩ := route_session_dotless k clock p tick (session_parts sid) hparts
  have g1 : get_most_suitable_worker k p s clock tick = route_no_session p clock tick := by
    unfold get_most_suitable_worker
    simp only [hs, if_true, htok, h1]
  have g2 : gmsw_actions k p s clock tick = route_no_session_actions p clock tick := by
    unfold gmsw_actions
    simp only [hs, if_true, htok, h2]
  obtain ⟨e1, e2⟩ := route_no_session_sticky p false clock tick
  have g3 : get_most_suitable_worker k { p with sticky_session := false } s clock tick =
      route_no_session { p with sticky_session := false } clock tick := by
    unfold get_most_suitable_worker
    simp only [Bool.false_eq_true, if_false]
  have g4 : gmsw_actions k { p with sticky_session := false } s clock tick =
      route_no_session_actions { p with sticky_session := false } clock tick := by
    unfold gmsw_actions
    simp only [Bool.false_eq_true, if_false]
  have hsticky : (route_no_session p clock tick).p.sticky_session = true := by
    have := (gmsw_sel_post k p s clock tick).1
    rw [g1] at this
    rw [this]
    exact hs
  refine ⟨g1, g2, ?_, ?_, ?_, ?_, ?_, ?_, ?_⟩
  · intro hc
    rw [g2] at hc
    rcases route_no_session_calls p clock tick 1 hc with h | h | h <;> cases h
  · intro hc
    rw [g2] at hc
    rcases route_no_session_calls p clock tick 2 hc with h | h | h <;> cases h
  · rw [g1, g3, e1]
  · rw [g1, g3, e1]
  · rw [g1, g3, e1]
  · rw [g1, g3, e1]
    simp only
    rw [← hsticky]
  · rw [g2, g4, e2]

theorem dotless_token_selects_nothing_witness :
    get_sessionid example_consts dotless_request = some "abc;def".toList ∧
    (get_most_suitable_worker example_consts default_domain_example dotless_request
      (fun _ => 1000) 0).rc = some 0 ∧
    gmsw_actions example_consts default_domain_example dotless_request (fun _ => 1000) 0 =
      [lb_action.call 3, lb_action.enter_cs, lb_action.leave_cs] ∧
    get_most_suitable_worker example_consts default_domain_example dotless_request
        (fun _ => 1000) 0 =
      route_no_session default_domain_example (fun _ => 1000) 0 :=
  ⟨by decide, by decide, by decide,
    (dotless_token_selects_nothing example_consts default_domain_example dotless_request
      (fun _ => 1000) 0 "abc;def".toList rfl (by decide) (by decide)).1⟩

/-! ## The arithmetic of `int` and exact integers -/

theorem to_int_of_ok {x : Int} (h : int_ok x = true) : to_int x = x := by
  unfold int_ok at h
  unfold to_int
  simp only [decide_eq_true_eq] at h
  omega

/-- A pass of the loop body in which no `int` leaves its range is the pass computed
with exact integers. -/
theorem machine_scan_body_eq (rwt : Int) (sid : Nat) (ss : List Char) (ulf : Bool)
    (clock : Nat → Int) (i : Nat) (st : scan_state)
    (hok : scan_body_ok rwt sid ss ulf clock i st = true) :
    Machine.scan_body rwt sid ss ulf clock i st = scan_body rwt sid ss ulf clock i st := by
  unfold scan_body_ok at hok
  unfold Machine.scan_body scan_body
  cases hw : st.lb_workers[i]? with
  | none => rfl
  | some wr =>
    rw [hw] at hok
    simp only at hok ⊢
    by_cases hc : is_worker_candidate wr sid ss = true
    swap
    · simp only [hc, Bool.false_eq_true, if_false]
    by_cases hr : (!wr.in_error_state || !wr.in_recovering) = true
    swap
    · simp only [hc, hr, if_true, Bool.false_eq_true, if_false]
    simp only [hc, hr, and_self, if_true, Bool.and_eq_true, Bool.or_eq_true,
      Bool.not_eq_true', decide_eq_true_eq] at hok ⊢
    obtain ⟨h1, h2⟩ := hok
    have hA : wr.in_error_state = true →
        to_int (clock st.tick - wr.error_time) = clock st.tick - wr.error_time := by
      intro he
      rcases h1 with h1 | h1
      · rw [he] at h1; cases h1
      · exact to_int_of_ok h1
    have hB : ulf = true → ¬ (wr.in_error_state = true ∧ clock st.tick - wr.error_time ≤ rwt) →
        to_int (wr.lb_value + wr.lb_factor) = wr.lb_value + wr.lb_factor ∧
        to_int (st.total_factor + wr.lb_factor) = st.total_factor + wr.lb_factor := by
      intro hu hn
      rcases h2 with (h2 | h2) | h2
      · exact absurd h2 hn
      · rw [hu] at h2; cases h2
      · exact ⟨to_int_of_ok h2.1, to_int_of_ok h2.2⟩
    by_cases hs : sid = 1
    · simp only [if_pos hs]
      by_cases he : wr.in_error_state = true
      · rw [hA he]
        by_cases hq : clock st.tick - wr.error_time ≤ rwt
        · simp only [hs, he, hq, and_self, if_true]
        · cases ulf with
          | false => simp only [hs, he, hq, and_false, if_false, if_true, Bool.false_eq_true]
          | true =>
            obtain ⟨b1, b2⟩ := hB rfl (fun h => hq h.2)
            simp only [hs, he, hq, and_false, if_false, if_true, b1, b2]
      · have he' : wr.in_error_state = false := by simpa using he
        cases ulf with
        | false => simp only [hs, he', Bool.false_eq_true, false_and, if_false, if_true]
        | true =>
          obtain ⟨b1, b2⟩ := hB rfl (fun h => he h.1)
          simp only [hs, he', Bool.false_eq_true, false_and, if_false, if_true, b1, b2]
    · simp only [if_neg hs]
      by_cases he : wr.in_error_state = true
      · rw [hA he]
        by_cases hq : clock st.tick - wr.error_time ≤ rwt
        · simp only [hs, he, hq, and_self, if_true, if_false]
        · cases ulf with
          | false => simp only [hs, he, hq, and_false, if_false, if_true, Bool.false_eq_true]
          | true =>
            obtain ⟨b1, b2⟩ := hB rfl (fun h => hq h.2)
            simp only [hs, he, hq, and_false, if_false, if_true, b1, b2]
      · have he' : wr.in_error_state = false := by simpa using he
        cases ulf with
        | false => simp only [hs, he', Bool.false_eq_true, false_and, if_false, if_true]
        | true =>
          obtain ⟨b1, b2⟩ := hB rfl (fun h => he h.1)
          simp only [hs, he', Bool.false_eq_true, false_and, if_false, if_true, b1, b2]

theorem machine_scan_loop_eq (rwt : Int) (sid : Nat) (ss : List Char) (ulf : Bool)
    (clock : Nat → Int) :
    ∀ (n i : Nat) (st : scan_state), scan_loop_ok rwt sid ss ulf clock n i st = true →
      Machine.scan_loop rwt sid ss ulf clock n i st = scan_loop rwt sid ss ulf clock n i st := by
  intro n
  induction n with
  | zero => intro i st _; rfl
  | succ n ih =>
    intro i st hok
    rw [scan_loop_ok, Bool.and_eq_true] at hok
    obtain ⟨h1, h2⟩ := hok
    rw [Machine.scan_loop, scan_loop, machine_scan_body_eq rwt sid ss ulf clock i st h1]
    rcases hb : scan_body rwt sid ss ulf clock i st with ⟨st1, b⟩
    rw [hb] at h2
    cases b with
    | true => rfl
    | false => exact ih (i + 1) st1 h2

theorem machine_scan_finish_eq (clock : Nat → Int) (st : scan_state)
    (hok : scan_finish_ok st = true) :
    Machine.scan_finish clock st = scan_finish clock st := by
  unfold scan_finish_ok at hok
  unfold Machine.scan_finish scan_finish
  cases hr : st.rc with
  | none => rfl
  | some j =>
    rw [hr] at hok
    simp only at hok ⊢
    cases hw : st.lb_workers[j]? with
    | none => rfl
    | some wr =>
      rw [hw] at hok
      simp only at hok ⊢
      rw [to_int_of_ok hok]

/-- A call of `get_suitable_worker` in which no `int` leaves its range gives, with the
arithmetic of `int`, what it gives with exact integers. -/
theorem machine_gsw_eq (p : lb_worker) (sid : Nat) (ss : List Char) (start stop : Nat)
    (ulf : Bool) (clock : Nat → Int) (tick : Nat)
    (hok : gsw_ok p sid ss start stop ulf clock tick = true) :
    Machine.get_suitable_worker p sid ss start stop ulf clock tick =
      get_suitable_worker p sid ss start stop ulf clock tick := by
  unfold gsw_ok at hok
  rw [Bool.and_eq_true] at hok
  unfold Machine.get_suitable_worker get_suitable_worker
  rw [machine_scan_loop_eq _ _ _ _ _ _ _ _ hok.1, machine_scan_finish_eq _ _ hok.2]

/-- C28 (weighted winner).  In a call of `get_suitable_worker` with `use_lb_factor` set,
at clock value `now`, with the arithmetic of `int` and no value leaving the range of
`int` (`gsw_ok`): when some index of `[start, stop)` holds a record that matches the
criterion and is eligible, the call returns such an index `j` of the range, and for
every such index `k` of the range the load counter after the increment by the weight is
at most that of `j`, and smaller when `k < j`: the winner has the largest incremented
counter and is the first index with it. -/
theorem weighted_winner (p : lb_worker) (search_id : Nat) (search_string : List Char)
    (start stop : Nat) (now : Int) (tick : Nat) (k0 : Nat)
    (hok : gsw_ok p search_id search_string start stop true (fun _ => now) tick = true)
    (hk0 : start ≤ k0 ∧ k0 < stop)
    (hs : selectable p.recover_wait_time now search_id search_string p.lb_workers k0 = true) :
    ∃ j wj,
      (Machine.get_suitable_worker p search_id search_string start stop true
        (fun _ => now) tick).rc = some j ∧
      start ≤ j ∧ j < stop ∧ p.lb_workers[j]? = some wj ∧
      selectable p.recover_wait_time now search_id search_string p.lb_workers j = true ∧
      ∀ (k : Nat) (wk : worker_record), start ≤ k → k < stop → p.lb_workers[k]? = some wk →
        selectable p.recover_wait_time now search_id search_string p.lb_workers k = true →
        wk.lb_value + wk.lb_factor ≤ wj.lb_value + wj.lb_factor ∧
        (k < j → wk.lb_value + wk.lb_factor < wj.lb_value + wj.lb_factor) := by
  rw [machine_gsw_eq p search_id search_string start stop true (fun _ => now) tick hok]
  cases hrc : (get_suitable_worker p search_id search_string start stop true
      (fun _ => now) tick).rc with
  | none =>
    exfalso
    have := (gsw_rc_none_iff p search_id search_string start stop true now tick).1 hrc k0
      hk0.1 hk0.2
    rw [hs] at this
    cases this
  | some j =>
    obtain ⟨h1, h2, h3⟩ := gsw_rc_selectable p search_id search_string start stop true now
      tick j hrc
    have hlt := selectable_lt h3
    refine ⟨j, p.lb_workers[j], rfl, h1, h2, List.getElem?_eq_getElem hlt, h3, ?_⟩
    exact gsw_weighted_max p search_id search_string start stop now tick j _ hrc
      (List.getElem?_eq_getElem hlt)

theorem weighted_winner_witness :
    gsw_ok weighted_example 5 [] 0 4 true (fun _ => 100) 0 = true ∧
    (Machine.get_suitable_worker weighted_example 5 [] 0 4 true (fun _ => 100) 0).rc =
      some 2 ∧
    ∃ j wj,
      (Machine.get_suitable_worker weighted_example 5 [] 0 4 true (fun _ => 100) 0).rc =
        some j ∧
      0 ≤ j ∧ j < 4 ∧ weighted_example.lb_workers[j]? = some wj ∧
      selectable weighted_example.recover_wait_time 100 5 [] weighted_example.lb_workers j =
        true ∧
      ∀ (k : Nat) (wk : worker_record), 0 ≤ k → k < 4 →
        weighted_example.lb_workers[k]? = some wk →
        selectable weighted_example.recover_wait_time 100 5 [] weighted_example.lb_workers k =
          true →
        wk.lb_value + wk.lb_factor ≤ wj.lb_value + wj.lb_factor ∧
        (k < j → wk.lb_value + wk.lb_factor < wj.lb_value + wj.lb_factor) :=
  ⟨by decide, by decide,
    weighted_winner weighted_example 5 [] 0 4 100 0 0 (by decide) (by decide) (by decide)⟩

/-! ## Weights for which the counters stay in the range of `int` -/

theorem scan_loop_ok_rule {rwt : Int} {sid : Nat} {ss : List Char} {ulf : Bool}
    {clock : Nat → Int} (Inv : Nat → scan_state → Prop) (stop : Nat)
    (hstep : ∀ i st, i < stop → Inv i st → (scan_body rwt sid ss ulf clock i st).2 = false →
      Inv (i + 1) (scan_body rwt sid ss ulf clock i st).1)
    (hok : ∀ i st, i < stop → Inv i st → scan_body_ok rwt sid ss ulf clock i st = true) :
    ∀ n i st, i + n = stop → Inv i st → scan_loop_ok rwt sid ss ulf clock n i st = true := by
  intro n
  induction n with
  | zero => intro i st _ _; rfl
  | succ n ih =>
    intro i st hn h
    rw [scan_loop_ok, Bool.and_eq_true]
    refine ⟨hok i st (by omega) h, ?_⟩
    have h1 := hstep i st (by omega) h
    rcases hb : scan_body rwt sid ss ulf clock i st with ⟨st1, b⟩
    rw [hb] at h1
    cases b with
    | true => rfl
    | false => exact ih (i + 1) st1 (by omega) (h1 rfl)

theorem sum_take_bounds (ws : List worker_record) (hw : ∀ wr ∈ ws, 1 ≤ wr.lb_factor) :
    ∀ n, 0 ≤ ((ws.take n).map (fun wr => wr.lb_factor)).sum ∧
      ((ws.take n).map (fun wr => wr.lb_factor)).sum ≤ total_weight ws := by
  intro n
  have h1 : ∀ l : List worker_record, (∀ wr ∈ l, 1 ≤ wr.lb_factor) →
      0 ≤ (l.map (fun wr => wr.lb_factor)).sum := by
    intro l hl
    have := length_mul_le_sum (fun wr => wr.lb_factor) 1 l hl
    have : (0 : Int) ≤ (l.length : Int) := Int.natCast_nonneg _
    omega
  constructor
  · exact h1 _ (fun wr hwr => hw wr (List.mem_of_mem_take hwr))
  · have e : total_weight ws = ((ws.take n).map (fun wr => wr.lb_factor)).sum +
        ((ws.drop n).map (fun wr => wr.lb_factor)).sum := by
      unfold total_weight
      rw [← List.sum_append, ← List.map_append, List.take_append_drop]
    have := h1 (ws.drop n) (fun wr hwr => hw wr (List.mem_of_mem_drop hwr))
    omega

theorem sum_take_succ (ws : List worker_record) (i : Nat) (hi : i < ws.length) :
    ((ws.take (i + 1)).map (fun wr => wr.lb_factor)).sum =
      ((ws.take i).map (fun wr => wr.lb_factor)).sum + ws[i].lb_factor := by
  rw [List.take_succ, List.getElem?_eq_getElem hi]
  simp only [Option.toList_some, List.map_append, List.map_cons, List.map_nil, List.sum_append,
    List.sum_cons, List.sum_nil, add_zero]

/-- The bounds that the invariant `balanced` gives for a record. -/
theorem balanced_bounds (ws : List worker_record) (hb : balanced ws) (wr : worker_record)
    (hwr : wr ∈ ws) :
    1 ≤ wr.lb_factor ∧ wr.lb_factor ≤ total_weight ws ∧ - total_weight ws < wr.lb_value ∧
    wr.lb_value ≤ (ws.length : Int) * total_weight ws ∧ (1 : Int) ≤ (ws.length : Int) := by
  obtain ⟨i, hi, hget⟩ := List.getElem_of_mem hwr
  have hget' : ws[i]? = some wr := by rw [List.getElem?_eq_getElem hi, hget]
  have hlen : (1 : Int) ≤ (ws.length : Int) := by
    have : 0 < ws.length := by omega
    exact_mod_cast this
  have hf := le_sum_add (fun wr => wr.lb_factor) 1 ws i wr hget' hb.weights
  simp only at hf
  have hfW : wr.lb_factor ≤ total_weight ws := by
    have : (ws.map (fun wr => wr.lb_factor)).sum = total_weight ws := rfl
    rw [this] at hf
    omega
  have hup := le_sum_add (fun wr => wr.lb_value) (- total_weight ws) ws i wr hget'
    (fun x hx => le_of_lt (hb.lower x hx))
  rw [hb.sum_eq] at hup
  simp only at hup
  have e : ((ws.length : Int) - 1) * (- total_weight ws) =
      total_weight ws - (ws.length : Int) * total_weight ws := by ring
  rw [e] at hup
  exact ⟨hb.weights wr hwr, hfW, hb.lower wr hwr, by linarith, hlen⟩

theorem int_ok_of_bounds {x : Int} (h1 : -2147483648 ≤ x) (h2 : x ≤ 2147483647) :
    int_ok x = true := by
  unfold int_ok
  simp only [decide_eq_true_eq]
  exact ⟨h1, h2⟩

/-- On a registry that satisfies the invariant `balanced`, with `N` records and sum of
weights `W` such that `(N + 1) * W` is at most `INT_MAX`, no value of a weighted `Any`
selection over the full range leaves the range of `int`. -/
theorem gsw_ok_of_balanced (p : lb_worker) (ss : List Char) (clock : Nat → Int) (tick : Nat)
    (hN : p.num_of_workers = p.lb_workers.length) (hb : balanced p.lb_workers)
    (hr : ((p.lb_workers.length : Int) + 1) * total_weight p.lb_workers ≤ 2147483647) :
    gsw_ok p 5 ss 0 p.num_of_workers true clock tick = true := by
  have hsel : ∀ k, k < p.lb_workers.length →
      selectable p.recover_wait_time 0 5 ss p.lb_workers k = true := by
    intro k hk
    rw [selectable_of_get (List.getElem?_eq_getElem hk)]
    have := hb.healthy _ (List.getElem_mem hk)
    simp [is_worker_candidate, eligible, this]
  have hinv0 : weighted_inv p.recover_wait_time 0 5 ss p.lb_workers 0 0
      ⟨p.lb_workers, none, 0, 0, -1, tick⟩ := by
    have := scan_weighted p.recover_wait_time 0 5 ss p.lb_workers 0 0 tick
    simpa [scan_loop] using this
  have hhealthy_of : ∀ (i : Nat) (st : scan_state),
      weighted_inv p.recover_wait_time 0 5 ss p.lb_workers 0 i st →
      all_healthy st.lb_workers := by
    intro i st h wr hwr
    obtain ⟨k, hk, hget⟩ := List.getElem_of_mem hwr
    have hk' : st.lb_workers[k]? = some wr := by rw [List.getElem?_eq_getElem hk, hget]
    rw [h.vals k] at hk'
    cases hw0 : p.lb_workers[k]? with
    | none => rw [hw0] at hk'; cases hk'
    | some w0 =>
      rw [hw0] at hk'
      simp only [Option.map_some', Option.some.injEq] at hk'
      have h0 := hb.healthy w0 (List.getElem?_mem hw0)
      rw [← hk']
      split
      · exact h0
      · exact h0
  have hW : ∀ wr ∈ p.lb_workers, _ := balanced_bounds p.lb_workers hb
  have hWpos : ∀ wr ∈ p.lb_workers, (1 : Int) ≤ total_weight p.lb_workers :=
    fun wr hwr => by
      obtain ⟨a, b, -⟩ := hW wr hwr
      omega
  unfold gsw_ok
  rw [Bool.and_eq_true]
  constructor
  · refine scan_loop_ok_rule
      (fun i st => weighted_inv p.recover_wait_time 0 5 ss p.lb_workers 0 i st)
      (0 + (p.num_of_workers - 0)) ?_ ?_ (p.num_of_workers - 0) 0 _ rfl hinv0
    · intro i st _ h _
      rw [(scan_body_healthy p.recover_wait_time 5 ss true clock (fun _ => 0) i st
        (hhealthy_of i st h)).1]
      exact weighted_inv_step i st h
    · intro i st hi h
      have hcur : st.lb_workers[i]? = p.lb_workers[i]? := by
        rw [h.vals i]
        cases p.lb_workers[i]? with
        | none => rfl
        | some wr =>
          have : ¬ (0 ≤ i ∧ i < i ∧
              selectable p.recover_wait_time 0 5 ss p.lb_workers i = true) := by
            rintro ⟨-, b, -⟩; omega
          simp only [Option.map_some', this, if_false]
      have hil : i < p.lb_workers.length := by omega
      have hwi : p.lb_workers[i]? = some p.lb_workers[i] := List.getElem?_eq_getElem hil
      unfold scan_body_ok
      rw [hcur, hwi]
      simp only
      have hmem := List.getElem_mem hil
      have hhe : p.lb_workers[i].in_error_state = false := hb.healthy _ hmem
      obtain ⟨b1, b2, b3, b4, b5⟩ := hW _ hmem
      have htot : st.total_factor + p.lb_workers[i].lb_factor =
          ((p.lb_workers.take (i + 1)).map (fun wr => wr.lb_factor)).sum := by
        rw [h.total, Nat.sub_zero,
          weight_sum_all _ _ _ _ _ i (by omega) (fun k hk => hsel k (by omega)),
          sum_take_succ _ i hil]
      have hsum := sum_take_bounds p.lb_workers hb.weights (i + 1)
      have o1 : int_ok (p.lb_workers[i].lb_value + p.lb_workers[i].lb_factor) = true := by
        apply int_ok_of_bounds
        · nlinarith
        · nlinarith
      have o2 : int_ok (st.total_factor + p.lb_workers[i].lb_factor) = true := by
        rw [htot]
        apply int_ok_of_bounds
        · omega
        · nlinarith
      simp [is_worker_candidate, hhe, o1, o2]
  · have hw := scan_weighted p.recover_wait_time 0 5 ss p.lb_workers 0 (p.num_of_workers - 0) tick
    have hl := (scan_loop_healthy p.recover_wait_time 5 ss true clock (fun _ => (0 : Int))
      (p.num_of_workers - 0) 0 ⟨p.lb_workers, none, 0, 0, -1, tick⟩ hb.healthy).1
    rw [hl]
    simp only [Nat.sub_zero, Nat.zero_add] at hw ⊢
    generalize scan_loop p.recover_wait_time 5 ss true (fun _ => (0 : Int)) p.num_of_workers 0
      ⟨p.lb_workers, none, 0, 0, -1, tick⟩ = st at hw
    unfold scan_finish_ok
    cases hrc : st.rc with
    | none => rfl
    | some j =>
      simp only
      obtain ⟨-, hj, wj, hwj, hsj, -, -⟩ := hw.rc_max j hrc
      have hstj : st.lb_workers[j]? = some (bump wj) := by
        rw [hw.vals j, hwj]
        have : 0 ≤ j ∧ j < p.num_of_workers ∧
            selectable p.recover_wait_time 0 5 ss p.lb_workers j = true :=
          ⟨Nat.zero_le _, hj, hsj⟩
        simp only [Option.map_some', this, and_self, if_true]
      rw [hstj]
      simp only
      have htotal : st.total_factor = total_weight p.lb_workers := by
        rw [hw.total, Nat.sub_zero,
          weight_sum_all _ _ _ _ _ _ (by omega) (fun k hk => hsel k (by omega)), hN,
          List.take_length]
        rfl
      obtain ⟨b1, b2, b3, b4, b5⟩ := hW wj (List.getElem?_mem hwj)
      rw [htotal]
      apply int_ok_of_bounds
      · simp only [bump]
        nlinarith
      · simp only [bump]
        nlinarith

/-- Runs of weighted `Any` selections on a registry that satisfies the invariant
`balanced`, with `(N + 1) * W` at most `INT_MAX`: the arithmetic of `int` gives what
exact integers give. -/
theorem machine_any_run_eq (clock : Nat → Int) :
    ∀ (M : Nat) (p : lb_worker) (tick : Nat),
      p.num_of_workers = p.lb_workers.length → 0 < p.lb_workers.length →
      balanced p.lb_workers →
      ((p.lb_workers.length : Int) + 1) * total_weight p.lb_workers ≤ 2147483647 →
      Machine.any_run clock M p tick = any_run clock M p tick := by
  intro M
  induction M with
  | zero => intro p tick _ _ _ _; rfl
  | succ M ih =>
    intro p tick hN hne hb hr
    have hok := gsw_ok_of_balanced p "any".toList clock tick hN hb hr
    have heq := machine_gsw_eq p 5 "any".toList 0 p.num_of_workers true clock tick hok
    obtain ⟨hb1, hlen1, hW1, -, -⟩ := any_run_balance clock 1 p tick hN hne hb
    have hp1 := (gsw_frame p 5 "any".toList 0 p.num_of_workers true clock tick).1
    have e1 : (any_run clock 1 p tick).1 =
        (get_suitable_worker p 5 "any".toList 0 p.num_of_workers true clock tick).p := rfl
    rw [e1] at hb1 hlen1 hW1
    have hN1 : (get_suitable_worker p 5 "any".toList 0 p.num_of_workers true clock
        tick).p.num_of_workers =
        (get_suitable_worker p 5 "any".toList 0 p.num_of_workers true clock
          tick).p.lb_workers.length := by
      rw [hlen1, hp1]
      exact hN
    rw [Machine.any_run, any_run, heq]
    rw [ih _ _ hN1 (by rw [hlen1]; exact hne) hb1 (by rw [hlen1, hW1]; exact hr)]

/-! ## C9 -/

/-- C9 (weighted fairness).  For the registry that a successful `validate` builds, with
`N` records, weights `lb_factor` and sum of weights `W` such that `(N + 1) * W` is at
most `INT_MAX`, and for any `M`, any clock and no failures, with the arithmetic of
`int`: each of `M` consecutive weighted `Any` selections over the full range returns a
record, and the number `c` of times the record at index `i` is returned satisfies
`|c * W - M * lb_factor_i| <= N * W`; the distance of `c` from `M * lb_factor_i / W` is
at most `N`, whatever `M` is. -/
theorem weighted_fairness (k : jk_consts) (p0 : lb_worker) (props : lb_props)
    (mem : Nat → worker_record) (clock : Nat → Int) (tick M : Nat)
    (hv : (validate k true p0 props mem).rc = true)
    (hr : (((validate k true p0 props mem).p.lb_workers.length : Int) + 1) *
      total_weight (validate k true p0 props mem).p.lb_workers ≤ 2147483647)
    (i : Nat) (wi : worker_record)
    (hi : (validate k true p0 props mem).p.lb_workers[i]? = some wi) :
    (Machine.any_run clock M (validate k true p0 props mem).p tick).2.2.length = M ∧
    |(((Machine.any_run clock M (validate k true p0 props mem).p tick).2.2.count i : Nat) :
          Int) *
        total_weight (validate k true p0 props mem).p.lb_workers -
        (M : Int) * wi.lb_factor| ≤
      ((validate k true p0 props mem).p.lb_workers.length : Int) *
        total_weight (validate k true p0 props mem).p.lb_workers := by
  obtain ⟨hN, hne, hfresh, -⟩ := validate_fresh k p0 props mem hv
  generalize (validate k true p0 props mem).p = p at hN hne hfresh hi hr ⊢
  have hb := balanced_of_fresh p.lb_workers hne hfresh
  rw [machine_any_run_eq clock M p tick hN hne hb hr]
  obtain ⟨hb1, hlen, hW, hM, hrel⟩ := any_run_balance clock M p tick hN hne hb
  obtain ⟨w1, hw1, hf1, hv1⟩ := hrel i wi hi
  refine ⟨hM, ?_⟩
  have hvi : wi.lb_value = wi.lb_factor := (hfresh wi (List.getElem?_mem hi)).2.2.1
  have key := fairness_of_balanced _ hb1 i w1 hw1 wi.lb_factor hf1
    ((any_run clock M p tick).2.2.count i : Int) (M : Int) (by rw [hv1, hvi, hW])
  rw [hW, hlen] at key
  exact key

theorem weighted_fairness_witness :
    (Machine.any_run ticking_clock 7 (validate example_consts true lb_worker_factory abc_props
        zero_mem).p 0).2.2.length = 7 ∧
    |(((Machine.any_run ticking_clock 7 (validate example_consts true lb_worker_factory
        abc_props zero_mem).p 0).2.2.count 1 : Nat) : Int) *
        total_weight (validate example_consts true lb_worker_factory abc_props
          zero_mem).p.lb_workers -
        ((7 : Nat) : Int) * (2 : Int)| ≤
      ((validate example_consts true lb_worker_factory abc_props
          zero_mem).p.lb_workers.length : Int) *
        total_weight (validate example_consts true lb_worker_factory abc_props
          zero_mem).p.lb_workers :=
  weighted_fairness example_consts lb_worker_factory abc_props zero_mem ticking_clock 0 7
    (by decide) (by decide) 1
    ⟨['B'], "unknown".toList, 2, 2, false, false, false, false, 0, 1⟩ (by decide)

/-! ## C34 -/

/-- C34 (the payback keeps counters bounded).  For the registry that a successful
`validate` builds, with `N` records and sum of weights `W` such that `(N + 1) * W` is at
most `INT_MAX`, and for any number `M` of consecutive weighted `Any` selections over
the full range, under any clock and without failures, with the arithmetic of `int`: the
sum `W` of the weights is what it was, and every load counter `v` satisfies `-W < v`
and `v <= N * W`. -/
theorem counters_bounded (k : jk_consts) (p0 : lb_worker) (props : lb_props)
    (mem : Nat → worker_record) (clock : Nat → Int) (tick M : Nat)
    (hv : (validate k true p0 props mem).rc = true)
    (hr : (((validate k true p0 props mem).p.lb_workers.length : Int) + 1) *
      total_weight (validate k true p0 props mem).p.lb_workers ≤ 2147483647) :
    total_weight (Machine.any_run clock M (validate k true p0 props mem).p tick).1.lb_workers =
      total_weight (validate k true p0 props mem).p.lb_workers ∧
    (Machine.any_run clock M (validate k true p0 props mem).p tick).1.lb_workers.length =
      (validate k true p0 props mem).p.lb_workers.length ∧
    ∀ wr ∈ (Machine.any_run clock M (validate k true p0 props mem).p tick).1.lb_workers,
      - total_weight (validate k true p0 props mem).p.lb_workers < wr.lb_value ∧
      wr.lb_value ≤ ((validate k true p0 props mem).p.lb_workers.length : Int) *
        total_weight (validate k true p0 props mem).p.lb_workers := by
  obtain ⟨hN, hne, hfresh, -⟩ := validate_fresh k p0 props mem hv
  generalize (validate k true p0 props mem).p = p at hN hne hfresh hr ⊢
  have hb := balanced_of_fresh p.lb_workers hne hfresh
  rw [machine_any_run_eq clock M p tick hN hne hb hr]
  obtain ⟨hb1, hlen, hW, -, -⟩ := any_run_balance clock M p tick hN hne hb
  refine ⟨hW, hlen, ?_⟩
  intro wr hwr
  obtain ⟨-, -, b3, b4, -⟩ := balanced_bounds _ hb1 wr hwr
  rw [hW] at b3
  rw [hW, hlen] at b4
  exact ⟨b3, b4⟩

theorem counters_bounded_witness :
    ∃ W : Int, W = 4 ∧
      total_weight (validate example_consts true lb_worker_factory abc_props
        zero_mem).p.lb_workers = W ∧
      ∀ wr ∈ (Machine.any_run ticking_clock 9 (validate example_consts true lb_worker_factory
          abc_props zero_mem).p 0).1.lb_workers,
        - W < wr.lb_value ∧ wr.lb_value ≤ ((3 : Nat) : Int) * W :=
  ⟨4, rfl, by decide,
    (counters_bounded example_consts lb_worker_factory abc_props zero_mem ticking_clock 0 9
      (by decide) (by decide)).2.2⟩

/-! ## C29 -/

/-- C29 (weighted counter update and payback).  After a call of `get_suitable_worker`
with `use_lb_factor` set that returns index `j` at clock value `now`, with the
arithmetic of `int` and no value leaving the range of `int` (`gsw_ok`), the registry
has as many records as before, and the load counter of the record at an index `k` is:
for `k = j` the old counter plus the weight of `j` minus the sum of the weights of all
matching eligible records of `[start, stop)`; for another index of the range whose
record matches and is eligible, the old counter plus its weight; for every other index
the old counter. -/
theorem weighted_update_payback (p : lb_worker) (search_id : Nat)
    (search_string : List Char) (start stop : Nat) (now : Int) (tick : Nat) (j : Nat)
    (hok : gsw_ok p search_id search_string start stop true (fun _ => now) tick = true)
    (h : (Machine.get_suitable_worker p search_id search_string start stop true
      (fun _ => now) tick).rc = some j) :
    (Machine.get_suitable_worker p search_id search_string start stop true
        (fun _ => now) tick).p.lb_workers.length = p.lb_workers.length ∧
    ∀ (k : Nat) (wr : worker_record), p.lb_workers[k]? = some wr →
      ∃ wr1,
        (Machine.get_suitable_worker p search_id search_string start stop true
          (fun _ => now) tick).p.lb_workers[k]? = some wr1 ∧
        wr1.lb_value =
          (if k = j then
            wr.lb_value + (wr.lb_factor -
              weight_sum p.recover_wait_time now search_id search_string p.lb_workers start
                (stop - start))
          else if start ≤ k ∧ k < stop ∧
              selectable p.recover_wait_time now search_id search_string p.lb_workers k = true
            then wr.lb_value + wr.lb_factor
          else wr.lb_value) := by
  rw [machine_gsw_eq p search_id search_string start stop true (fun _ => now) tick hok] at h ⊢
  have hrec := gsw_weighted_records p search_id search_string start stop now tick j h
  constructor
  · have hsp := gsw_sel_post p search_id search_string start stop true (fun _ => now) tick
    rw [h] at hsp
    obtain ⟨-, -, -, -, -, -, -, -, hlen⟩ := sel_post_get hsp
    exact hlen
  · intro k wr hk
    rw [hrec k, hk]
    refine ⟨_, rfl, ?_⟩
    by_cases hkj : k = j
    · simp only [hkj, if_true]
      omega
    · simp only [hkj, if_false]
      split <;> rfl

theorem weighted_update_payback_witness :
    gsw_ok weighted_example 5 [] 0 4 true (fun _ => 100) 0 = true ∧
    (Machine.get_suitable_worker weighted_example 5 [] 0 4 true (fun _ => 100) 0).rc =
      some 2 ∧
    weight_sum weighted_example.recover_wait_time 100 5 [] weighted_example.lb_workers 0
      (4 - 0) = 4 ∧
    (Machine.get_suitable_worker weighted_example 5 [] 0 4 true
      (fun _ => 100) 0).p.lb_workers.map (fun wr => wr.lb_value) = [2, 5, 0, 4, 9] ∧
    (Machine.get_suitable_worker weighted_example 5 [] 0 4 true
        (fun _ => 100) 0).p.lb_workers.length = weighted_example.lb_workers.length :=
  ⟨by decide, by decide, by decide, by decide,
    (weighted_update_payback weighted_example 5 [] 0 4 100 0 2 (by decide) (by decide)).1⟩

/-! ## C1 -/

theorem machine_scan_finish_rc (clock : Nat → Int) (st : scan_state) :
    (Machine.scan_finish clock st).rc = st.rc := by
  unfold Machine.scan_finish
  cases hr : st.rc with
  | none => simp only [hr]
  | some j =>
    simp only
    cases hw : st.lb_workers[j]? with
    | none => simp only [hr]
    | some wr =>
      simp only
      split_ifs <;> simp only [hr]

/-- With the arithmetic of `int`, the scan of the single index `j` that holds a record
in error state, not recovering, whose elapsed time exceeds the recovery wait as an
`int`, returns `j`, whatever the counters are. -/
theorem machine_single_scan (p : lb_worker) (ss : List Char) (ulf : Bool) (clock : Nat → Int)
    (tick : Nat) (j : Nat) (wr : worker_record) (hw : p.lb_workers[j]? = some wr)
    (he : wr.in_error_state = true) (hr : wr.in_recovering = false)
    (hq : p.recover_wait_time < to_int (clock tick - wr.error_time)) :
    (Machine.get_suitable_worker p 5 ss j (j + 1) ulf clock tick).rc = some j := by
  unfold Machine.get_suitable_worker
  simp only [JK_ENTER_CS, Bool.true_eq_false, if_false, machine_scan_finish_rc]
  have e : j + 1 - j = 1 := by omega
  rw [e, Machine.scan_loop]
  have hb : (Machine.scan_body p.recover_wait_time 5 ss ulf clock j
      ⟨p.lb_workers, none, 0, 0, -1, tick⟩).1.rc = some j := by
    unfold Machine.scan_body
    have hn : ¬ (to_int (clock tick - wr.error_time) ≤ p.recover_wait_time) := by omega
    cases ulf <;>
      simp [hw, is_worker_candidate, he, hr, hn]
  rcases hbody : Machine.scan_body p.recover_wait_time 5 ss ulf clock j
      ⟨p.lb_workers, none, 0, 0, -1, tick⟩ with ⟨st1, b⟩
  rw [hbody] at hb
  cases b with
  | true => exact hb
  | false =>
    simp only [Machine.scan_loop]
    exact hb

/-- C1 (quarantine respected).  For every registry state, criterion, match value, range,
weighting flag and clock value `now`, with the arithmetic of `int`: a call of
`get_suitable_worker` in which no value leaves the range of `int` (`gsw_ok`) never
returns a record that is in error state with `now - error_time <= recover_wait_time`;
so a record marked failed at time `T` is not returned at any `now` with
`T <= now <= T + recover_wait_time`, the boundary included.  And such a record, when it
is not recovering, is returned at `now = T + recover_wait_time + 1` by a scan of its own
index, provided `recover_wait_time + 1` is in the range of `int`. -/
theorem quarantine_respected (p : lb_worker) (search_id : Nat) (search_string : List Char)
    (start stop : Nat) (use_lb_factor : Bool) (now : Int) (tick : Nat)
    (hok : gsw_ok p search_id search_string start stop use_lb_factor (fun _ => now) tick =
      true) :
    (∀ j wr,
      (Machine.get_suitable_worker p search_id search_string start stop use_lb_factor
        (fun _ => now) tick).rc = some j →
      p.lb_workers[j]? = some wr →
      ¬ (wr.in_error_state = true ∧ now - wr.error_time ≤ p.recover_wait_time)) ∧
    (∀ j wr, p.lb_workers[j]? = some wr → wr.in_error_state = true →
      wr.error_time ≤ now → now ≤ wr.error_time + p.recover_wait_time →
      (Machine.get_suitable_worker p search_id search_string start stop use_lb_factor
        (fun _ => now) tick).rc ≠ some j) ∧
    (∀ j wr, p.lb_workers[j]? = some wr → wr.in_error_state = true →
      wr.in_recovering = false → int_ok (p.recover_wait_time + 1) = true →
      (Machine.get_suitable_worker p 5 search_string j (j + 1) use_lb_factor
        (fun _ => wr.error_time + p.recover_wait_time + 1) tick).rc = some j) := by
  have key : ∀ j wr,
      (Machine.get_suitable_worker p search_id search_string start stop use_lb_factor
        (fun _ => now) tick).rc = some j →
      p.lb_workers[j]? = some wr →
      ¬ (wr.in_error_state = true ∧ now - wr.error_time ≤ p.recover_wait_time) := by
    intro j wr hrc hw ⟨he, hq⟩
    rw [machine_gsw_eq p search_id search_string start stop use_lb_factor (fun _ => now) tick
      hok] at hrc
    obtain ⟨-, -, hs⟩ := gsw_rc_selectable p search_id search_string start stop use_lb_factor
      now tick j hrc
    rw [selectable_of_get hw] at hs
    simp only [Bool.and_eq_true] at hs
    have := ((eligible_iff _ _ _).1 hs.2 he).2
    omega
  refine ⟨key, ?_, ?_⟩
  · intro j wr hw he h1 h2 hrc
    exact key j wr hrc hw ⟨he, by omega⟩
  · intro j wr hw he hr hin
    apply machine_single_scan p search_string use_lb_factor _ tick j wr hw he hr
    have e : wr.error_time + p.recover_wait_time + 1 - wr.error_time =
        p.recover_wait_time + 1 := by omega
    rw [e, to_int_of_ok hin]
    omega

theorem quarantine_respected_witness :
    gsw_ok quarantine_example 5 [] 0 1 true (fun _ => 160) 0 = true ∧
    (Machine.get_suitable_worker quarantine_example 5 [] 0 1 true (fun _ => 160) 0).rc ≠
      some 0 ∧
    (Machine.get_suitable_worker quarantine_example 5 [] 0 (0 + 1) true
      (fun _ => (100 : Int) + 60 + 1) 0).rc = some 0 :=
  ⟨by decide,
    (quarantine_respected quarantine_example 5 [] 0 1 true 160 0 (by decide)).2.1 0
      ⟨['A'], ['d'], 1, 1, false, false, true, false, 100, 0⟩ rfl rfl (by decide) (by decide),
    (quarantine_respected quarantine_example 5 [] 0 1 true 160 0 (by decide)).2.2 0
      ⟨['A'], ['d'], 1, 1, false, false, true, false, 100, 0⟩ rfl rfl rfl (by decide)⟩

/-! ## Outside the range of `int` -/

/-- With the weights `2147483647` and `1` the first weighted selection leaves the range
of `int`: with the arithmetic of `int` it returns `B` and leaves the counters `-2` and
`-2147483646`, where exact integers give `A`. -/
theorem weights_out_of_range :
    gsw_ok overflow_example 5 [] 0 2 true (fun _ => 0) 0 = false ∧
    (Machine.get_suitable_worker overflow_example 5 [] 0 2 true (fun _ => 0) 0).rc = some 1 ∧
    (Machine.get_suitable_worker overflow_example 5 [] 0 2 true
      (fun _ => 0) 0).p.lb_workers.map (fun wr => wr.lb_value) = [-2, -2147483646] ∧
    (get_suitable_worker overflow_example 5 [] 0 2 true (fun _ => 0) 0).rc = some 0 := by
  refine ⟨by decide, by decide, by decide, by decide⟩

/-- With the recovery wait `2147483647` the value `recover_wait_time + 1` is not an
`int`: one second after the wait has passed, `elapsed` is negative and the record is
still passed over. -/
theorem wait_out_of_range :
    int_ok (long_wait_example.recover_wait_time + 1) = false ∧
    to_int ((100 : Int) + 2147483647 + 1 - 100) = -2147483648 ∧
    (Machine.get_suitable_worker long_wait_example 5 [] 0 1 true
      (fun _ => (100 : Int) + 2147483647 + 1) 0).rc = none := by
  refine ⟨by decide, by decide, by decide⟩

/-! ## Reads past the terminator in `get_path_param` -/

theorem machine_strstr_at_ok {m : List Char} {i : Nat} (needle : List Char)
    (h : i ≤ m.length) :
    Machine.strstr_at m i needle = c_result.ok (strstr_at m i needle) := by
  unfold Machine.strstr_at
  rw [if_pos h]

theorem machine_strstr_at_undefined {m : List Char} {i : Nat} (needle : List Char)
    (h : m.length < i) :
    Machine.strstr_at m i needle = c_result.undefined := by
  unfold Machine.strstr_at
  rw [if_neg (by omega)]

/-- Where the loop of `get_path_param` stays inside the string, it gives what the loop
with the search past the end finding nothing gives. -/
theorem machine_gpp_loop_ok (uri name : List Char) :
    ∀ (fuel : Nat) (o : Option Nat) (r : Option (List Char)),
      Machine.get_path_param_loop uri name fuel o = c_result.ok r →
      get_path_param_loop uri name fuel o = r := by
  intro fuel
  induction fuel with
  | zero =>
    intro o r h
    cases o <;>
    · rw [Machine.get_path_param_loop] at h
      rw [get_path_param_loop]
      exact c_result.ok.inj h
  | succ f ih =>
    intro o r h
    cases o with
    | none =>
      rw [Machine.get_path_param_loop] at h
      rw [get_path_param_loop]
      exact c_result.ok.inj h
    | some q =>
      rw [Machine.get_path_param_loop] at h
      rw [get_path_param_loop]
      by_cases heq : char_at uri (q + name.length) = '='
      · rw [if_pos heq] at h ⊢
        dsimp only at h ⊢
        by_cases hlen : (cstr_at uri (q + (1 + name.length))).length ≠ 0
        · rw [if_pos hlen] at h ⊢
          exact c_result.ok.inj h
        · rw [if_neg hlen] at h ⊢
          by_cases hin : q + (1 + name.length) + 1 ≤ uri.length
          · rw [machine_strstr_at_ok name hin] at h
            exact ih _ _ h
          · rw [machine_strstr_at_undefined name (by omega)] at h
            cases h
      · rw [if_neg heq] at h ⊢
        by_cases hin : q + 1 ≤ uri.length
        · rw [machine_strstr_at_ok name hin] at h
          exact ih _ _ h
        · rw [machine_strstr_at_undefined name (by omega)] at h
          cases h

/-- An occurrence of a key that is not empty starts inside the string. -/
theorem occurs_at_lt {s name : List Char} (hname : name ≠ []) {i : Nat}
    (h : occurs_at s name i) : i < s.length := by
  rcases Nat.lt_or_ge i s.length with hlt | hge
  · exact hlt
  · have hd : s.drop i = [] := List.drop_eq_nil_of_le hge
    have hp := h.2
    rw [hd] at hp
    exact absurd (List.prefix_nil.1 hp) hname

/-- The loop of `get_path_param`, reads past the terminator made explicit, started at an
occurrence `q` of the key before which no occurrence is followed by `=`: it gives the
value of the first occurrence that has one; it gives nothing when no occurrence is
followed by `=`; and its behaviour is undefined when the first occurrence followed by
`=` is the one at the end of the path. -/
theorem machine_gpp_loop_spec (uri name : List Char) (hnul : NUL ∉ uri) (hname : name ≠ []) :
    ∀ (fuel : Nat) (o : Option Nat) (b : Nat),
      (∀ j, j < b → ¬ param_at uri name j ∧ ¬ bare_key_at uri name j) →
      (∀ q, o = some q → b ≤ q ∧ occurs_at uri name q ∧
        (∀ j, b ≤ j → j < q → ¬ occurs_at uri name j) ∧ uri.length < q + fuel) →
      (o = none → ∀ j, b ≤ j → ¬ occurs_at uri name j) →
      (∃ i, param_at uri name i ∧ (∀ j, j < i → ¬ param_at uri name j) ∧
        Machine.get_path_param_loop uri name fuel o =
          c_result.ok (some (param_value uri name i))) ∨
      ((∀ j, ¬ param_at uri name j) ∧ (∀ j, ¬ bare_key_at uri name j) ∧
        Machine.get_path_param_loop uri name fuel o = c_result.ok none) ∨
      ((∀ j, ¬ param_at uri name j) ∧ (∃ i, bare_key_at uri name i) ∧
        Machine.get_path_param_loop uri name fuel o = c_result.undefined) := by
  intro fuel
  induction fuel with
  | zero =>
    intro o b hb hs hn
    cases o with
    | none =>
      refine Or.inr (Or.inl ⟨?_, ?_, rfl⟩)
      · intro j hp
        by_cases hj : j < b
        · exact (hb j hj).1 hp
        · exact hn rfl j (by omega) hp.1
      · intro j hp
        by_cases hj : j < b
        · exact (hb j hj).2 hp
        · exact hn rfl j (by omega) hp.1
    | some q =>
      obtain ⟨_, hocc, _, hfuel⟩ := hs q rfl
      have := hocc.1
      omega
  | succ f ih =>
    intro o b hb hs hn
    cases o with
    | none =>
      refine Or.inr (Or.inl ⟨?_, ?_, rfl⟩)
      · intro j hp
        by_cases hj : j < b
        · exact (hb j hj).1 hp
        · exact hn rfl j (by omega) hp.1
      · intro j hp
        by_cases hj : j < b
        · exact (hb j hj).2 hp
        · exact hn rfl j (by omega) hp.1
    | some q =>
      obtain ⟨hbq, hocc, hfirst, hfuel⟩ := hs q rfl
      have hbefore : ∀ j, j < q → ¬ param_at uri name j ∧ ¬ bare_key_at uri name j := by
        intro j hj
        by_cases hjb : j < b
        · exact hb j hjb
        · exact ⟨fun hp => hfirst j (by omega) hj hp.1, fun hp => hfirst j (by omega) hj hp.1⟩
      rw [Machine.get_path_param_loop]
      by_cases heq : char_at uri (q + name.length) = '='
      · rw [if_pos heq]
        dsimp only
        have heq1 : uri[q + name.length]? = some '=' := (char_at_eq_iff _ _ _ (by decide)).1 heq
        have hlt : q + name.length < uri.length := by
          rcases Nat.lt_or_ge (q + name.length) uri.length with h | h
          · exact h
          · rw [List.getElem?_eq_none h] at heq1
            cases heq1
        by_cases hlen : (cstr_at uri (q + (1 + name.length))).length ≠ 0
        · rw [if_pos hlen]
          rw [cstr_at_of_nul_free hnul, List.length_drop] at hlen
          refine Or.inl ⟨q, ⟨hocc, heq1, by omega⟩, fun j hj => (hbefore j hj).1, ?_⟩
          rw [path_value_eq hnul]
          unfold param_value
          have e : q + (1 + name.length) = q + name.length + 1 := by omega
          rw [e]
        · rw [if_neg hlen]
          rw [cstr_at_of_nul_free hnul, List.length_drop] at hlen
          rw [machine_strstr_at_undefined name (by omega)]
          refine Or.inr (Or.inr ⟨?_, ⟨q, hocc, heq1, by omega⟩, rfl⟩)
          intro j hp
          by_cases hjq : j < q
          · exact (hbefore j hjq).1 hp
          · have := hp.2.2
            omega
      · rw [if_neg heq]
        have hq : q < uri.length := occurs_at_lt hname hocc
        rw [machine_strstr_at_ok name (by omega)]
        refine ih _ (q + 1) ?_ ?_ ?_
        · intro j hj
          by_cases hjq : j < q
          · exact hbefore j hjq
          · have e : j = q := by omega
            subst e
            exact ⟨fun hp => heq ((char_at_eq_iff _ _ _ (by decide)).2 hp.2.1),
              fun hp => heq ((char_at_eq_iff _ _ _ (by decide)).2 hp.2.1)⟩
        · intro q' hq'
          obtain ⟨h1, h2, h3⟩ := strstr_at_some hnul hq'
          exact ⟨h1, h2, h3, by omega⟩
        · intro hnone
          exact strstr_at_none hnul hnone

/-- The three outcomes of `get_path_param` on a path and a key that is not empty: the
value of the first occurrence of the key that is followed by `=` and one more character;
nothing, when no occurrence is followed by `=`; undefined behaviour, when the only
occurrence followed by `=` ends the path. -/
theorem path_param_outcomes (s : jk_ws_service) (name : List Char)
    (hnul : NUL ∉ s.req_uri) (hname : name ≠ []) :
    (∃ i, param_at s.req_uri name i ∧ (∀ j, j < i → ¬ param_at s.req_uri name j) ∧
      Machine.get_path_param s name = c_result.ok (some (param_value s.req_uri name i))) ∨
    ((∀ j, ¬ param_at s.req_uri name j) ∧ (∀ j, ¬ bare_key_at s.req_uri name j) ∧
      Machine.get_path_param s name = c_result.ok none) ∨
    ((∀ j, ¬ param_at s.req_uri name j) ∧ (∃ i, bare_key_at s.req_uri name i) ∧
      Machine.get_path_param s name = c_result.undefined) :=
  machine_gpp_loop_spec s.req_uri name hnul hname (s.req_uri.length + 2)
    (strstr_at s.req_uri 0 name) 0 (fun j hj => absurd hj (Nat.not_lt_zero j))
    (fun q hq => by
      obtain ⟨h1, h2, h3⟩ := strstr_at_some hnul hq
      exact ⟨h1, h2, h3, by omega⟩)
    (fun hnone => strstr_at_none hnul hnone)

/-- Where `get_path_param` stays inside the path, it gives what the function with the
search past the end finding nothing gives. -/
theorem machine_get_path_param_ok (s : jk_ws_service) (name : List Char)
    (r : Option (List Char)) (h : Machine.get_path_param s name = c_result.ok r) :
    get_path_param s name = r :=
  machine_gpp_loop_ok s.req_uri name _ _ r h

/-- C16 (path-parameter extraction).  On the path `/app;jsessionid=` with the key
`;jsessionid` the key is followed by `=` and the end of the path, so no occurrence has a
value; `get_path_param` then searches from the place after the terminator, and its
behaviour is undefined instead of the return without a value. -/
theorem path_param_reads_past_end :
    NUL ∉ empty_param_request.req_uri ∧
    (∀ i, ¬ param_at empty_param_request.req_uri ";jsessionid".toList i) ∧
    bare_key_at empty_param_request.req_uri ";jsessionid".toList 4 ∧
    Machine.get_path_param empty_param_request ";jsessionid".toList = c_result.undefined := by
  have h4 : Machine.get_path_param empty_param_request ";jsessionid".toList =
      c_result.undefined := by decide
  refine ⟨by decide, ?_, by decide, h4⟩
  rcases path_param_outcomes empty_param_request ";jsessionid".toList (by decide) (by decide)
    with ⟨i, _, _, h⟩ | ⟨_, _, h⟩ | ⟨h, _, _⟩
  · rw [h4] at h; cases h
  · rw [h4] at h; cases h
  · exact h

/-! ## Reads past the terminator in `get_cookie` -/

/-- Where the inner loop of `get_cookie` stays inside its buffer, it gives what the loop
with the search past the end finding nothing gives. -/
theorem machine_get_cookie_loop_ok (name : List Char) :
    ∀ (fuel : Nat) (m : List Char) (orig : Bool) (o : Option Nat)
      (result r : Option (List Char)),
      Machine.get_cookie_loop name fuel m orig o result = c_result.ok r →
      get_cookie_loop name fuel m orig o result = r := by
  intro fuel
  induction fuel with
  | zero =>
    intro m orig o result r h
    rw [Machine.get_cookie_loop] at h
    rw [get_cookie_loop]
    exact c_result.ok.inj h
  | succ f ih =>
    intro m orig o result r h
    cases o with
    | none =>
      rw [Machine.get_cookie_loop] at h
      rw [get_cookie_loop]
      exact c_result.ok.inj h
    | some q =>
      rw [Machine.get_cookie_loop] at h
      rw [get_cookie_loop]
      split
      · rename_i hb
        rw [if_pos hb] at h
        dsimp only at h ⊢
        split
        · rename_i he
          rw [if_pos he] at h
          by_cases hin : 1 ≤ (cut_at (cut_at (cstr_at m
              (skip_space m m.length (q + name.length) + 1)) ';') ',').length
          · rw [machine_strstr_at_ok name hin] at h
            exact ih _ _ _ _ _ h
          · rw [machine_strstr_at_undefined name (by omega)] at h
            cases h
        · rename_i he
          rw [if_neg he] at h
          by_cases hin : skip_space m m.length (q + name.length) + 1 ≤ m.length
          · rw [machine_strstr_at_ok name hin] at h
            exact ih _ _ _ _ _ h
          · rw [machine_strstr_at_undefined name (by omega)] at h
            cases h
      · rename_i hb
        rw [if_neg hb] at h
        by_cases hin : q + 1 ≤ m.length
        · rw [machine_strstr_at_ok name hin] at h
          exact ih _ _ _ _ _ h
        · rw [machine_strstr_at_undefined name (by omega)] at h
          cases h

theorem machine_get_cookie_headers_ok (name : List Char) :
    ∀ (hs : List (List Char × List Char)) (result r : Option (List Char)),
      Machine.get_cookie_headers name hs result = c_result.ok r →
      get_cookie_headers name hs result = r := by
  intro hs
  induction hs with
  | nil =>
    intro result r h
    rw [Machine.get_cookie_headers] at h
    rw [get_cookie_headers]
    exact c_result.ok.inj h
  | cons x rest ih =>
    intro result r h
    obtain ⟨hn, hv⟩ := x
    rw [Machine.get_cookie_headers] at h
    rw [get_cookie_headers]
    by_cases hc : strcasecmp_eq hn "cookie".toList = true
    · rw [if_pos hc] at h ⊢
      cases hl : Machine.get_cookie_loop name (hv.length + 2) hv true
          (strstr_at hv 0 name) result with
      | undefined => rw [hl] at h; cases h
      | ok r1 =>
        rw [hl] at h
        rw [machine_get_cookie_loop_ok name _ _ _ _ _ _ hl]
        exact ih _ _ h
    · rw [if_neg hc] at h ⊢
      exact ih _ _ h

/-- Where `get_cookie` stays inside the header values, it gives what the function with
the search past the end finding nothing gives. -/
theorem machine_get_cookie_ok (s : jk_ws_service) (name : List Char)
    (r : Option (List Char)) (h : Machine.get_cookie s name = c_result.ok r) :
    get_cookie s name = r :=
  machine_get_cookie_headers_ok name s.headers none r h

/-- C17 (cookie boundary rule).  On the single header `Cookie: JSESSIONID` the cookie
name stands at the start of the value and is followed by the end of the value, not by
`=`, so no occurrence qualifies and nothing is to be collected; `get_cookie` then
searches from the place after the terminator, and its behaviour is undefined instead of
the return without a value. -/
theorem cookie_reads_past_end :
    bare_cookie_request.headers = [("Cookie".toList, "JSESSIONID".toList)] ∧
    occurs_at "JSESSIONID".toList "JSESSIONID".toList 0 ∧
    at_boundary "JSESSIONID".toList 0 ∧
    (∀ i, i ≤ "JSESSIONID".toList.length →
      ¬ cookie_at "JSESSIONID".toList "JSESSIONID".toList i) ∧
    Machine.get_cookie bare_cookie_request "JSESSIONID".toList = c_result.undefined := by
  refine ⟨rfl, by decide, by decide, by decide, by decide⟩

/-! ## The functions with their actions are the functions -/

theorem getElem?_set_same {ws : List worker_record} {j : Nat} {wr : worker_record}
    (h : ws[j]? = some wr) (x : worker_record) : (ws.set j x)[j]? = some x := by
  have hj : j < ws.length := by
    rcases Nat.lt_or_ge j ws.length with h1 | h1
    · exact h1
    · rw [List.getElem?_eq_none h1] at h
      cases h
  exact List.getElem?_set_self hj

theorem traced_scan_finish_fst (clock : Nat → Int) (st : scan_state) :
    (Traced.scan_finish clock st).1 = scan_finish clock st := by
  unfold Traced.scan_finish scan_finish
  cases hrc : st.rc with
  | none => rfl
  | some j =>
    dsimp only
    cases hw : st.lb_workers[j]? with
    | none => rfl
    | some wr =>
      dsimp only
      by_cases he : wr.in_error_state = true
      · rw [if_pos he, if_pos he]
        dsimp only
        unfold Traced.sub_lb_value Traced.set_error_time Traced.set_in_recovering
        simp only [hw, getElem?_set_same hw, List.set_set]
      · rw [if_neg he, if_neg he]
        unfold Traced.sub_lb_value
        simp only [hw]

/-- The actions of the part after the loop: the two assignments when the returned record
is in error state, and none otherwise. -/
theorem traced_scan_finish_snd (clock : Nat → Int) (st : scan_state) :
    (Traced.scan_finish clock st).2 =
      (match st.rc with
        | none => []
        | some j =>
          match st.lb_workers[j]? with
          | none => []
          | some wr =>
            if wr.in_error_state then
              [lb_action.write j error_field.in_recovering,
               lb_action.write j error_field.error_time]
            else []) := by
  unfold Traced.scan_finish
  cases hrc : st.rc with
  | none => rfl
  | some j =>
    dsimp only
    cases hw : st.lb_workers[j]? with
    | none => rfl
    | some wr =>
      dsimp only
      by_cases he : wr.in_error_state = true
      · rw [if_pos he, if_pos he]
        rfl
      · rw [if_neg he, if_neg he]

/-- The function with its actions gives what `get_suitable_worker` gives. -/
theorem traced_gsw_fst (p : lb_worker) (sid : Nat) (ss : List Char) (start stop : Nat)
    (ulf : Bool) (clock : Nat → Int) (tick : Nat) :
    (Traced.get_suitable_worker p sid ss start stop ulf clock tick).1 =
      get_suitable_worker p sid ss start stop ulf clock tick := by
  unfold Traced.get_suitable_worker get_suitable_worker
  by_cases hcs : JK_ENTER_CS = false
  · rw [if_pos hcs, if_pos hcs]
  · rw [if_neg hcs, if_neg hcs]
    dsimp only
    rw [traced_scan_finish_fst]

/-- The actions listed by `gsw_actions` are those of the function with its actions. -/
theorem traced_gsw_snd (p : lb_worker) (sid : Nat) (ss : List Char) (start stop : Nat)
    (ulf : Bool) (clock : Nat → Int) (tick : Nat) :
    (Traced.get_suitable_worker p sid ss start stop ulf clock tick).2 =
      gsw_actions p sid ss start stop ulf clock tick := by
  unfold Traced.get_suitable_worker gsw_actions
  by_cases hcs : JK_ENTER_CS = false
  · rw [if_pos hcs, if_pos hcs]
  · rw [if_neg hcs, if_neg hcs]
    dsimp only
    rw [traced_scan_finish_snd]
    try rfl

theorem ite_pair {α β : Type} (c : Prop) [Decidable c] (a a1 : α) (b b1 : β) :
    (if c then (a, b) else (a1, b1)) = (if c then a else a1, if c then b else b1) := by
  split <;> rfl

theorem traced_route_no_session_eq (p : lb_worker) (clock : Nat → Int) (tick : Nat) :
    Traced.route_no_session p clock tick =
      (route_no_session p clock tick, route_no_session_actions p clock tick) := by
  unfold Traced.route_no_session route_no_session route_no_session_actions
  simp only [traced_gsw_fst, traced_gsw_snd, ite_pair]

theorem traced_route_session_eq (k : jk_consts) (clock : Nat → Int) :
    ∀ (parts : List (List Char)) (p : lb_worker) (tick : Nat),
      Traced.route_session k clock parts p tick =
        (route_session k clock parts p tick, route_session_actions k clock parts p tick) := by
  intro parts
  induction parts with
  | nil =>
    intro p tick
    rw [Traced.route_session, route_session, route_session_actions]
    exact traced_route_no_session_eq p clock tick
  | cons part rest ih =>
    intro p tick
    rw [Traced.route_session, route_session, route_session_actions]
    cases hd : strchr part '.' with
    | none =>
      dsimp only
      exact ih p tick
    | some dot =>
      simp only [traced_gsw_fst, traced_gsw_snd, ih, ite_pair]
      try rfl

/-- The function with its actions gives what `get_most_suitable_worker` gives, and the
actions listed by `gmsw_actions`. -/
theorem traced_gmsw_eq (k : jk_consts) (p : lb_worker) (s : jk_ws_service)
    (clock : Nat → Int) (tick : Nat) :
    Traced.get_most_suitable_worker k p s clock tick =
      (get_most_suitable_worker k p s clock tick, gmsw_actions k p s clock tick) := by
  unfold Traced.get_most_suitable_worker get_most_suitable_worker gmsw_actions
  dsimp only
  cases (if p.sticky_session = true then get_sessionid k s else none) with
  | none => exact traced_route_no_session_eq p clock tick
  | some sid => exact traced_route_session_eq k clock _ p tick

/-- The three assignments of `service` after an attempt, made one after the other: the
record with the three fields set, and the three entries of `outcome_writes`. -/
theorem traced_outcome (ws : List worker_record) (i : Nat) (wr : worker_record)
    (hw : ws[i]? = some wr) (b1 b2 : Bool) (t : Int) (log : List lb_action) :
    Traced.set_error_time i t
        (Traced.set_in_recovering i b2 (Traced.set_in_error_state i b1 ws log).1
          (Traced.set_in_error_state i b1 ws log).2).1
        (Traced.set_in_recovering i b2 (Traced.set_in_error_state i b1 ws log).1
          (Traced.set_in_error_state i b1 ws log).2).2 =
      (ws.set i { wr with in_error_state := b1, in_recovering := b2, error_time := t },
       log ++ outcome_writes i) := by
  unfold Traced.set_error_time Traced.set_in_recovering Traced.set_in_error_state
    outcome_writes
  simp only [hw, getElem?_set_same hw, List.set_set, List.append_assoc, List.singleton_append]
  rfl

/-- The body of the loop of `service` with its actions gives what `service_body` gives,
and the actions listed by `service_body_actions`. -/
theorem traced_service_body_eq (k : jk_consts) (s : jk_ws_service) (be : backend)
    (clock : Nat → Int) (st : service_state) :
    Traced.service_body k s be clock st =
      (service_body k s be clock st, service_body_actions k s clock st) := by
  unfold Traced.service_body service_body service_body_actions
  simp only [traced_gmsw_eq]
  cases hrc : (get_most_suitable_worker k st.p s clock st.tick).rc with
  | none =>
    simp only [List.append_nil]
  | some i =>
    dsimp only
    cases hw : (get_most_suitable_worker k st.p s clock st.tick).p.lb_workers[i]? with
    | none =>
      simp only [List.append_nil]
    | some wr =>
      dsimp only
      rw [traced_outcome _ i wr hw, traced_outcome _ i wr hw]
      by_cases hs : ((be st.attempt i).endpoint_ok = true ∧ (be st.attempt i).src = true)
      · rw [if_pos hs, if_pos hs]
      · rw [if_neg hs, if_neg hs]
        split <;> rfl

/-- The loop of `service` with its actions gives what `service_loop` gives, and the
actions listed by `service_loop_actions`. -/
theorem traced_service_loop_eq (k : jk_consts) (s : jk_ws_service) (be : backend)
    (clock : Nat → Int) :
    ∀ (fuel : Nat) (st : service_state),
      Traced.service_loop k s be clock fuel st =
        (service_loop k s be clock fuel st, service_loop_actions k s be clock fuel st) := by
  intro fuel
  induction fuel with
  | zero =>
    intro st
    rfl
  | succ f ih =>
    intro st
    rw [Traced.service_loop, service_loop, service_loop_actions, traced_service_body_eq]
    rcases hb : service_body k s be clock st with ⟨st1, _ | rc⟩
    · dsimp only
      rw [ih]
    · rfl

/-- The function with its actions gives what `service` gives, and the actions listed by
`service_actions`. -/
theorem traced_service_eq (k : jk_consts) (valid_args : Bool) (p : lb_worker)
    (s : jk_ws_service) (be : backend) (clock : Nat → Int) (tick : Nat)
    (is_recoverable_error : Bool) (fuel : Nat) :
    Traced.service k valid_args p s be clock tick is_recoverable_error fuel =
      (service k valid_args p s be clock tick is_recoverable_error fuel,
       service_actions k valid_args p s be clock tick fuel) := by
  unfold Traced.service service service_actions
  cases valid_args with
  | false => rfl
  | true =>
    simp only [if_true, traced_service_loop_eq]
    cases service_loop k s be clock fuel
        { p := p, attempt := 0, tick := tick, jvm_route := none, tried := [], forwarded := [] } with
    | none => rfl
    | some x => rfl

/-! ## An error field changes only through a listed assignment -/

theorem field_kept_refl (f : error_field) (m : Nat) (ws : List worker_record) :
    field_kept f m ws ws := rfl

theorem field_kept_trans {f : error_field} {m : Nat} {ws ws1 ws2 : List worker_record}
    (h1 : field_kept f m ws ws1) (h2 : field_kept f m ws1 ws2) : field_kept f m ws ws2 := by
  unfold field_kept at *
  rw [h2, h1]

theorem read_field_erase_lb (f : error_field) (wr : worker_record) :
    read_field f (erase_lb wr) = read_field f wr := by
  cases f <;> rfl

/-- The scan loop, which changes load counters only, keeps every error field. -/
theorem field_kept_of_static {ws ws1 : List worker_record}
    (h : ws1.map erase_lb = ws.map erase_lb) (f : error_field) (m : Nat) :
    field_kept f m ws ws1 := by
  unfold field_kept
  have h1 : (ws1.map erase_lb)[m]? = (ws.map erase_lb)[m]? := by rw [h]
  simp only [List.getElem?_map] at h1
  cases hw1 : ws1[m]? with
  | none =>
    rw [hw1] at h1
    cases hw : ws[m]? with
    | none => rfl
    | some wr => rw [hw] at h1; cases h1
  | some wr1 =>
    rw [hw1] at h1
    cases hw : ws[m]? with
    | none => rw [hw] at h1; cases h1
    | some wr =>
      rw [hw] at h1
      simp only [Option.map_some', Option.some.injEq] at h1 ⊢
      rw [← read_field_erase_lb f wr1, h1, read_field_erase_lb]

/-- An assignment to the record of index `j` keeps the fields of the other records, and
the fields of record `j` that the new record shares with the old one. -/
theorem field_kept_set {ws : List worker_record} {j : Nat} {wr : worker_record}
    (hw : ws[j]? = some wr) (x : worker_record) (f : error_field) (m : Nat)
    (hx : m = j → read_field f x = read_field f wr) :
    field_kept f m ws (ws.set j x) := by
  unfold field_kept
  by_cases hm : m = j
  · subst hm
    rw [getElem?_set_same hw, hw]
    simp only [Option.map_some', Option.some.injEq]
    exact hx rfl
  · rw [List.getElem?_set_ne (Ne.symm hm)]

theorem set_in_error_state_kept (j : Nat) (b : Bool) (ws : List worker_record)
    (log : List lb_action) (f : error_field) (m : Nat)
    (h : lb_action.write m f ∉ (Traced.set_in_error_state j b ws log).2) :
    field_kept f m ws (Traced.set_in_error_state j b ws log).1 := by
  unfold Traced.set_in_error_state at h ⊢
  simp only [List.mem_append, List.mem_singleton, lb_action.write.injEq, not_or, not_and] at h
  cases hw : ws[j]? with
  | none => exact field_kept_refl f m ws
  | some wr =>
    refine field_kept_set hw _ f m ?_
    intro hm
    cases f with
    | in_error_state => exact absurd rfl (h.2 hm)
    | in_recovering => rfl
    | error_time => rfl

theorem set_in_recovering_kept (j : Nat) (b : Bool) (ws : List worker_record)
    (log : List lb_action) (f : error_field) (m : Nat)
    (h : lb_action.write m f ∉ (Traced.set_in_recovering j b ws log).2) :
    field_kept f m ws (Traced.set_in_recovering j b ws log).1 := by
  unfold Traced.set_in_recovering at h ⊢
  simp only [List.mem_append, List.mem_singleton, lb_action.write.injEq, not_or, not_and] at h
  cases hw : ws[j]? with
  | none => exact field_kept_refl f m ws
  | some wr =>
    refine field_kept_set hw _ f m ?_
    intro hm
    cases f with
    | in_error_state => rfl
    | in_recovering => exact absurd rfl (h.2 hm)
    | error_time => rfl

theorem set_error_time_kept (j : Nat) (t : Int) (ws : List worker_record)
    (log : List lb_action) (f : error_field) (m : Nat)
    (h : lb_action.write m f ∉ (Traced.set_error_time j t ws log).2) :
    field_kept f m ws (Traced.set_error_time j t ws log).1 := by
  unfold Traced.set_error_time at h ⊢
  simp only [List.mem_append, List.mem_singleton, lb_action.write.injEq, not_or, not_and] at h
  cases hw : ws[j]? with
  | none => exact field_kept_refl f m ws
  | some wr =>
    refine field_kept_set hw _ f m ?_
    intro hm
    cases f with
    | in_error_state => rfl
    | in_recovering => rfl
    | error_time => exact absurd rfl (h.2 hm)

/-- A setter lists its assignment after the actions it is given. -/
theorem setter_logs (j : Nat) (b : Bool) (t : Int) (ws : List worker_record)
    (log : List lb_action) :
    (Traced.set_in_error_state j b ws log).2 =
      log ++ [lb_action.write j error_field.in_error_state] ∧
    (Traced.set_in_recovering j b ws log).2 =
      log ++ [lb_action.write j error_field.in_recovering] ∧
    (Traced.set_error_time j t ws log).2 =
      log ++ [lb_action.write j error_field.error_time] :=
  ⟨rfl, rfl, rfl⟩

theorem sub_lb_value_kept (j : Nat) (d : Int) (ws : List worker_record) (f : error_field)
    (m : Nat) : field_kept f m ws (Traced.sub_lb_value j d ws) := by
  unfold Traced.sub_lb_value
  cases hw : ws[j]? with
  | none => exact field_kept_refl f m ws
  | some wr =>
    refine field_kept_set hw _ f m ?_
    intro _
    cases f <;> rfl

theorem traced_scan_finish_kept (clock : Nat → Int) (st : scan_state) (f : error_field)
    (m : Nat) (h : lb_action.write m f ∉ (Traced.scan_finish clock st).2) :
    field_kept f m st.lb_workers (Traced.scan_finish clock st).1.lb_workers := by
  unfold Traced.scan_finish at h ⊢
  cases hrc : st.rc with
  | none => exact field_kept_refl f m _
  | some j =>
    rw [hrc] at h
    dsimp only at h ⊢
    cases hw : st.lb_workers[j]? with
    | none => exact field_kept_refl f m _
    | some wr =>
      rw [hw] at h
      dsimp only at h ⊢
      by_cases he : wr.in_error_state = true
      · rw [if_pos he] at h ⊢
        dsimp only at h ⊢
        have h2 := h
        rw [(setter_logs j true (clock st.tick) _ _).2.2] at h2
        have h1 : lb_action.write m f ∉ (Traced.set_in_recovering j true st.lb_workers []).2 :=
          fun hm => h2 (List.mem_append_left _ hm)
        exact field_kept_trans
          (field_kept_trans (set_in_recovering_kept j true _ _ f m h1)
            (set_error_time_kept j _ _ _ f m h))
          (sub_lb_value_kept j _ _ f m)
      · rw [if_neg he]
        exact sub_lb_value_kept j _ _ f m

/-- A call of `get_suitable_worker` changes an error field of a record only through an
assignment that is among its actions. -/
theorem traced_gsw_kept (p : lb_worker) (sid : Nat) (ss : List Char) (start stop : Nat)
    (ulf : Bool) (clock : Nat → Int) (tick : Nat) (f : error_field) (m : Nat)
    (h : lb_action.write m f ∉
      (Traced.get_suitable_worker p sid ss start stop ulf clock tick).2) :
    field_kept f m p.lb_workers
      (Traced.get_suitable_worker p sid ss start stop ulf clock tick).1.p.lb_workers := by
  unfold Traced.get_suitable_worker at h ⊢
  by_cases hcs : JK_ENTER_CS = false
  · rw [if_pos hcs]
    exact field_kept_refl f m _
  · rw [if_neg hcs] at h ⊢
    dsimp only at h ⊢
    have hinv := scan_loop_inv p.recover_wait_time sid ss ulf clock p.lb_workers start
      (stop - start) tick
    refine field_kept_trans (field_kept_of_static hinv.static f m)
      (traced_scan_finish_kept clock _ f m ?_)
    intro hm
    exact h (List.mem_append_left _ (List.mem_append_right _ hm))

theorem traced_route_no_session_kept (p : lb_worker) (clock : Nat → Int) (tick : Nat)
    (f : error_field) (m : Nat)
    (h : lb_action.write m f ∉ (Traced.route_no_session p clock tick).2) :
    field_kept f m p.lb_workers (Traced.route_no_session p clock tick).1.p.lb_workers := by
  have g := fun (q : lb_worker) (sid : Nat) (a b t : Nat) =>
    traced_gsw_kept q sid "any".toList a b true clock t f m
  revert h
  unfold Traced.route_no_session
  dsimp only
  split
  · split
    · exact fun h => g _ _ _ _ _ h
    · split
      · exact fun h => g _ _ _ _ _ h
      · split
        · intro h
          simp only [List.mem_append, not_or] at h
          exact field_kept_trans (g _ _ _ _ _ h.1) (g _ _ _ _ _ h.2)
        · intro h
          simp only [List.mem_append, not_or] at h
          exact field_kept_trans (field_kept_trans (g _ _ _ _ _ h.1.1) (g _ _ _ _ _ h.1.2))
            (g _ _ _ _ _ h.2)
  · exact fun h => g _ _ _ _ _ h

theorem ite_rule {α : Type} (P : α → Prop) (c : Prop) [Decidable c] (x y : α)
    (hx : P x) (hy : P y) : P (if c then x else y) := by
  split
  · exact hx
  · exact hy

theorem traced_route_session_kept (k : jk_consts) (clock : Nat → Int) (f : error_field)
    (m : Nat) :
    ∀ (parts : List (List Char)) (p : lb_worker) (tick : Nat),
      lb_action.write m f ∉ (Traced.route_session k clock parts p tick).2 →
      field_kept f m p.lb_workers (Traced.route_session k clock parts p tick).1.p.lb_workers := by
  intro parts
  induction parts with
  | nil =>
    intro p tick h
    rw [Traced.route_session] at h ⊢
    exact traced_route_no_session_kept p clock tick f m h
  | cons part rest ih =>
    intro p tick
    rw [Traced.route_session]
    cases hd : strchr part '.' with
    | none => exact ih p tick
    | some dot =>
      dsimp only
      have g1 := traced_gsw_kept p 1 (part.drop (dot + 1)) 0 p.num_of_workers false clock
        tick f m
      by_cases c1 : (Traced.get_suitable_worker p 1 (part.drop (dot + 1)) 0 p.num_of_workers
          false clock tick).1.rc ≠ none
      · rw [if_pos c1]
        exact g1
      · rw [if_neg c1]
        refine ite_rule (fun z : route_result × List lb_action =>
          lb_action.write m f ∉ z.2 → field_kept f m p.lb_workers z.1.p.lb_workers)
          _ _ _ ?_ ?_
        · intro h
          simp only [List.mem_append, not_or] at h
          exact field_kept_trans (g1 h.1) (traced_gsw_kept _ _ _ _ _ _ _ _ f m h.2)
        · intro h
          simp only [List.mem_append, not_or] at h
          exact field_kept_trans
            (field_kept_trans (g1 h.1.1) (traced_gsw_kept _ _ _ _ _ _ _ _ f m h.1.2))
            (ih _ _ h.2)

/-- A call of `get_most_suitable_worker` changes an error field of a record only through
an assignment that is among its actions. -/
theorem traced_gmsw_kept (k : jk_consts) (p : lb_worker) (s : jk_ws_service)
    (clock : Nat → Int) (tick : Nat) (f : error_field) (m : Nat)
    (h : lb_action.write m f ∉ (Traced.get_most_suitable_worker k p s clock tick).2) :
    field_kept f m p.lb_workers
      (Traced.get_most_suitable_worker k p s clock tick).1.p.lb_workers := by
  revert h
  unfold Traced.get_most_suitable_worker
  dsimp only
  cases (if p.sticky_session = true then get_sessionid k s else none) with
  | none => exact traced_route_no_session_kept p clock tick f m
  | some sid => exact traced_route_session_kept k clock f m _ p tick

/-- The three assignments of `service` after an attempt keep every field that is not
among the actions. -/
theorem outcome_kept (ws : List worker_record) (i : Nat) (b1 b2 : Bool) (t : Int)
    (log : List lb_action) (f : error_field) (m : Nat)
    (h : lb_action.write m f ∉
      (Traced.set_error_time i t
        (Traced.set_in_recovering i b2 (Traced.set_in_error_state i b1 ws log).1
          (Traced.set_in_error_state i b1 ws log).2).1
        (Traced.set_in_recovering i b2 (Traced.set_in_error_state i b1 ws log).1
          (Traced.set_in_error_state i b1 ws log).2).2).2) :
    lb_action.write m f ∉ log ∧
    field_kept f m ws
      (Traced.set_error_time i t
        (Traced.set_in_recovering i b2 (Traced.set_in_error_state i b1 ws log).1
          (Traced.set_in_error_state i b1 ws log).2).1
        (Traced.set_in_recovering i b2 (Traced.set_in_error_state i b1 ws log).1
          (Traced.set_in_error_state i b1 ws log).2).2).1 := by
  have h3 := h
  rw [(setter_logs i b2 t _ _).2.2] at h3
  have h2 : lb_action.write m f ∉
      (Traced.set_in_recovering i b2 (Traced.set_in_error_state i b1 ws log).1
        (Traced.set_in_error_state i b1 ws log).2).2 :=
    fun hm => h3 (List.mem_append_left _ hm)
  have h2a := h2
  rw [(setter_logs i b2 t _ _).2.1] at h2a
  have h1 : lb_action.write m f ∉ (Traced.set_in_error_state i b1 ws log).2 :=
    fun hm => h2a (List.mem_append_left _ hm)
  have h1a := h1
  rw [(setter_logs i b1 t _ _).1] at h1a
  exact ⟨fun hm => h1a (List.mem_append_left _ hm),
    field_kept_trans
      (field_kept_trans (set_in_error_state_kept i b1 ws log f m h1)
        (set_in_recovering_kept i b2 _ _ f m h2))
      (set_error_time_kept i t _ _ f m h)⟩

theorem traced_service_body_kept (k : jk_consts) (s : jk_ws_service) (be : backend)
    (clock : Nat → Int) (st : service_state) (f : error_field) (m : Nat)
    (h : lb_action.write m f ∉ (Traced.service_body k s be clock st).2) :
    field_kept f m st.p.lb_workers (Traced.service_body k s be clock st).1.1.p.lb_workers := by
  have g := traced_gmsw_kept k st.p s clock st.tick f m
  revert h
  unfold Traced.service_body
  dsimp only
  cases hrc : (Traced.get_most_suitable_worker k st.p s clock st.tick).1.rc with
  | none => exact g
  | some i =>
    dsimp only
    cases hw : (Traced.get_most_suitable_worker k st.p s clock st.tick).1.p.lb_workers[i]? with
    | none => exact g
    | some wr =>
      dsimp only
      split
      · intro h
        obtain ⟨h1, h2⟩ := outcome_kept _ _ _ _ _ _ f m h
        exact field_kept_trans (g h1) h2
      · split
        · intro h
          obtain ⟨h1, h2⟩ := outcome_kept _ _ _ _ _ _ f m h
          exact field_kept_trans (g h1) h2
        · intro h
          obtain ⟨h1, h2⟩ := outcome_kept _ _ _ _ _ _ f m h
          exact field_kept_trans (g h1) h2

theorem traced_service_loop_kept (k : jk_consts) (s : jk_ws_service) (be : backend)
    (clock : Nat → Int) (f : error_field) (m : Nat) :
    ∀ (fuel : Nat) (st st1 : service_state) (rc : Bool),
      (Traced.service_loop k s be clock fuel st).1 = some (st1, rc) →
      lb_action.write m f ∉ (Traced.service_loop k s be clock fuel st).2 →
      field_kept f m st.p.lb_workers st1.p.lb_workers := by
  intro fuel
  induction fuel with
  | zero =>
    intro st st1 rc h
    cases h
  | succ n ih =>
    intro st st1 rc
    have g := traced_service_body_kept k s be clock st f m
    rw [Traced.service_loop]
    rcases hb : Traced.service_body k s be clock st with ⟨⟨st2, _ | r⟩, log⟩
    · rw [hb] at g
      dsimp only at g ⊢
      intro h1 h2
      simp only [List.mem_append, not_or] at h2
      exact field_kept_trans (g h2.1) (ih st2 st1 rc h1 h2.2)
    · rw [hb] at g
      dsimp only at g ⊢
      intro h1 h2
      simp only [Option.some.injEq, Prod.mk.injEq] at h1
      rw [← h1.1]
      exact g h2

/-- A call of `service` that returns changes an error field of a record only through an
assignment that is among its actions: a field of which no assignment is listed holds at
the end what it held on entry. -/
theorem service_field_kept (k : jk_consts) (valid_args : Bool) (p : lb_worker)
    (s : jk_ws_service) (be : backend) (clock : Nat → Int) (tick : Nat)
    (is_recoverable_error : Bool) (fuel : Nat) (res : service_result) (f : error_field)
    (m : Nat)
    (hres : service k valid_args p s be clock tick is_recoverable_error fuel = some res)
    (h : lb_action.write m f ∉ service_actions k valid_args p s be clock tick fuel) :
    field_kept f m p.lb_workers res.st.p.lb_workers := by
  have e := traced_service_eq k valid_args p s be clock tick is_recoverable_error fuel
  have e1 : (Traced.service k valid_args p s be clock tick is_recoverable_error fuel).1 =
      some res := by rw [e]; exact hres
  have e2 : lb_action.write m f ∉
      (Traced.service k valid_args p s be clock tick is_recoverable_error fuel).2 := by
    rw [e]; exact h
  revert e1 e2
  unfold Traced.service
  dsimp only
  cases valid_args with
  | false =>
    intro e1 _
    simp only [Bool.false_eq_true, if_false, Option.some.injEq] at e1
    rw [← e1]
    exact field_kept_refl f m _
  | true =>
    simp only [if_true]
    have g := traced_service_loop_kept k s be clock f m fuel
      { p := p, attempt := 0, tick := tick, jvm_route := none, tried := [], forwarded := [] }
    rcases hl : Traced.service_loop k s be clock fuel
        { p := p, attempt := 0, tick := tick, jvm_route := none, tried := [], forwarded := [] }
      with ⟨_ | ⟨st1, rc⟩, log⟩
    · intro e1 _
      cases e1
    · rw [hl] at g
      intro e1 e2
      simp only [Option.some.injEq] at e1
      rw [← e1]
      exact g st1 rc rfl e2

/-! ## C36: the lock and the error fields -/

/-- The lock and the error fields in the program order of one run.  Every assignment
that `get_suitable_worker` makes to an error field (`in_recovering` and `error_time` of
the record it returns) is made between `JK_ENTER_CS` and `JK_LEAVE_CS` on the lock of
the balancer, and the lock is released when the call returns; the same holds of a call
of `get_most_suitable_worker`.  In every pass of the loop of `service` in which a record
is returned, the three assignments to its error fields follow the call of
`get_most_suitable_worker` and are made while the lock is not held. -/
theorem selection_writes_locked (k : jk_consts) (s : jk_ws_service) (be : backend)
    (clock : Nat → Int) :
    (∀ (p : lb_worker) (search_id : Nat) (search_string : List Char) (start stop : Nat)
        (use_lb_factor : Bool) (tick : Nat),
      writes_locked false (Traced.get_suitable_worker p search_id search_string start stop
        use_lb_factor clock tick).2 = true ∧
      lock_after false (Traced.get_suitable_worker p search_id search_string start stop
        use_lb_factor clock tick).2 = false) ∧
    (∀ (p : lb_worker) (tick : Nat),
      writes_locked false (Traced.get_most_suitable_worker k p s clock tick).2 = true ∧
      lock_after false (Traced.get_most_suitable_worker k p s clock tick).2 = false) ∧
    (∀ (st : service_state) (i : Nat),
      (Traced.get_most_suitable_worker k st.p s clock st.tick).1.rc = some i →
      (Traced.service_body k s be clock st).2 =
        (Traced.get_most_suitable_worker k st.p s clock st.tick).2 ++ outcome_writes i ∧
      writes_unlocked
        (lock_after false (Traced.get_most_suitable_worker k st.p s clock st.tick).2)
        (outcome_writes i) = true ∧
      writes_locked false (Traced.service_body k s be clock st).2 = false) := by
  refine ⟨fun p sid ss start stop ulf tick => ?_, fun p tick => ?_, ?_⟩
  · rw [traced_gsw_snd]
    exact gsw_disciplined p sid ss start stop ulf clock tick
  · rw [traced_gmsw_eq]
    exact gmsw_disciplined k p s clock tick
  · intro st i hrc
    rw [traced_gmsw_eq] at hrc
    rw [traced_service_body_eq, traced_gmsw_eq]
    dsimp only at hrc ⊢
    obtain ⟨wr, hw⟩ := gmsw_some_get k st.p s clock st.tick i hrc
    have e : service_body_actions k s clock st =
        gmsw_actions k st.p s clock st.tick ++ outcome_writes i := by
      unfold service_body_actions
      simp only [hrc, hw]
    refine ⟨e, ?_, ?_⟩
    · rw [(gmsw_disciplined k st.p s clock st.tick).2]
      rfl
    · rw [e, writes_locked_append, (gmsw_disciplined k st.p s clock st.tick).2]
      simp only [outcome_writes, writes_locked, Bool.false_and, Bool.and_false]

theorem selection_writes_locked_witness :
    (Traced.get_suitable_worker recovery_example 5 [] 0 2 true (fun _ => 161) 0).2 =
      [lb_action.call 5, lb_action.enter_cs,
       lb_action.write 0 error_field.in_recovering, lb_action.write 0 error_field.error_time,
       lb_action.leave_cs] ∧
    writes_locked false
      (Traced.get_suitable_worker recovery_example 5 [] 0 2 true (fun _ => 161) 0).2 = true ∧
    lock_after false
      (Traced.get_suitable_worker recovery_example 5 [] 0 2 true (fun _ => 161) 0).2 = false :=
  ⟨by decide,
    (selection_writes_locked example_consts plain_request good_backend (fun _ => 161)).1
      recovery_example 5 [] 0 2 true 0⟩

/-- C36 (error fields are changed only under the lock).  A call of `service` on a
balancer with the single healthy record `A` whose member worker fails: the selection
takes the lock and releases it, and the assignments of lines 504-506 to
`in_error_state`, `in_recovering` and `error_time` of `A` follow the release, so they
are made while the lock is not held; `in_error_state` and `error_time` of `A` hold new
values when `service` returns.  After a successful attempt the three assignments of
lines 489-491 follow the release in the same way. -/
theorem dispatch_writes_unlocked :
    (Traced.service example_consts true single_example plain_request fatal_backend
      ticking_clock 0 true 1).2 =
      [lb_action.call 5, lb_action.enter_cs, lb_action.leave_cs,
       lb_action.write 0 error_field.in_error_state,
       lb_action.write 0 error_field.in_recovering,
       lb_action.write 0 error_field.error_time] ∧
    writes_locked false (Traced.service example_consts true single_example plain_request
      fatal_backend ticking_clock 0 true 1).2 = false ∧
    (Traced.service example_consts true single_example plain_request fatal_backend
      ticking_clock 0 true 1).1 =
        service example_consts true single_example plain_request fatal_backend
          ticking_clock 0 true 1 ∧
    (service example_consts true single_example plain_request fatal_backend ticking_clock 0
      true 1).map (fun res => res.rc) = some false ∧
    single_example.lb_workers.map
      (fun wr => (wr.in_error_state, wr.in_recovering, wr.error_time)) =
        [(false, false, 0)] ∧
    (service example_consts true single_example plain_request fatal_backend ticking_clock 0
      true 1).map (fun res => res.st.p.lb_workers.map
        (fun wr => (wr.in_error_state, wr.in_recovering, wr.error_time))) =
        some [(true, false, 1000)] ∧
    (service example_consts true single_example plain_request good_backend ticking_clock 0
      true 1).map (fun res => res.rc) = some true ∧
    (Traced.service example_consts true single_example plain_request good_backend
      ticking_clock 0 true 1).2 =
      [lb_action.call 5, lb_action.enter_cs, lb_action.leave_cs,
       lb_action.write 0 error_field.in_error_state,
       lb_action.write 0 error_field.in_recovering,
       lb_action.write 0 error_field.error_time] ∧
    writes_locked false (Traced.service example_consts true single_example plain_request
      good_backend ticking_clock 0 true 1).2 = false := by
  refine ⟨by decide, by decide, by decide, by decide, by decide, by decide, by decide,
    by decide, by decide⟩

end JkLb
